import Mathlib

/-!
# ted: a gap-buffer terminal editor

Shallow embedding of `src/src/ted.c` and theorems about it.

Conventions of the embedding
* a `struct tedchar *` into `ed.buffer` is its offset `p - ed.buffer`
  (a natural number, `BUFSIZE` for the one-past-the-end pointer) and a
  pointer that may be `NULL` is an `Option Nat`;
* `size_t` counters that the code decrements are natural numbers taken
  modulo `2 ^ 64`;
* `exit`, a failed `assert`, a `NULL` dereference and an access outside an
  array end the run with a `Fault`; loops take a fuel argument and running
  out of it is the separate fault `Fault.fuel`.
-/

namespace Ted


/-- `#define BUFSIZE (1024 * 1024)` -/
def BUFSIZE : Nat := 1024 * 1024

/-- Ways in which a run of the program stops without returning. -/
inductive Fault where
  | exit
  | assertion
  | null_deref
  | out_of_bounds
  | fuel
  deriving DecidableEq, Repr

instance instDecidableEqExcept {ε α : Type} [DecidableEq ε] [DecidableEq α] :
    DecidableEq (Except ε α)
  | .ok a, .ok b =>
    if h : a = b then isTrue (by rw [h]) else isFalse (by intro h2; cases h2; exact h rfl)
  | .error a, .error b =>
    if h : a = b then isTrue (by rw [h]) else isFalse (by intro h2; cases h2; exact h rfl)
  | .ok _, .error _ => isFalse (by intro h; cases h)
  | .error _, .ok _ => isFalse (by intro h; cases h)

/-- `enum { NEWLINE = 0, UTF8 = 1 }` -/
def NEWLINE : Nat := 0

/-- `enum { NEWLINE = 0, UTF8 = 1 }` -/
def UTF8 : Nat := 1

/-- `struct utf8 { uint8_t c[4]; }` -/
structure utf8 where
  c0 : Nat
  c1 : Nat
  c2 : Nat
  c3 : Nat
  deriving DecidableEq, Repr

/-- Read of `u.c[x]`. -/
def utf8.get (u : utf8) (x : Nat) : Nat :=
  if x = 0 then u.c0 else if x = 1 then u.c1 else if x = 2 then u.c2 else u.c3

/-- Write `u.c[x] = v`. -/
def utf8.set (u : utf8) (x v : Nat) : utf8 :=
  if x = 0 then { u with c0 := v }
  else if x = 1 then { u with c1 := v }
  else if x = 2 then { u with c2 := v }
  else { u with c3 := v }

/-- `struct tedchar { int kind; struct utf8 u; }` -/
structure tedchar where
  kind : Nat
  u : utf8
  deriving DecidableEq, Repr

/-- The all-zero `struct utf8`. -/
def utf8_zero : utf8 := ⟨0, 0, 0, 0⟩

/-- `struct tedchar tedchar_newline()` -/
def tedchar_newline : tedchar := { kind := NEWLINE, u := utf8_zero }

/-- `struct tedchar tedchar_utf8(struct utf8 u)` -/
def tedchar_utf8 (u : utf8) : tedchar := { kind := UTF8, u := u }

/-- `bool is_newline(struct tedchar t)` -/
def is_newline (t : tedchar) : Bool := t.kind == NEWLINE

/-- `bool is_tab(struct tedchar t)` -/
def is_tab (t : tedchar) : Bool := t.kind == UTF8 && t.u.c0 == 9

/-- `bool is_space(struct tedchar t)` -/
def is_space (t : tedchar) : Bool := t.kind == UTF8 && t.u.c0 == 32

/-- `bool is_whitespace(struct tedchar t)` -/
def is_whitespace (t : tedchar) : Bool := is_newline t || is_tab t || is_space t

/-- `struct utf8 utf8_ascii(char c)` -/
def utf8_ascii (c : Nat) : utf8 := ⟨c, 0, 0, 0⟩

/-- `size_t utf8_count(const uint8_t buf[])`; only `buf[0]` is read. -/
def utf8_count (b0 : Nat) : Nat :=
  if b0 &&& 0xf0 = 0xf0 then 4
  else if b0 &&& 0xf0 = 0xe0 then 3
  else if b0 &&& 0xf0 = 0xc0 then 2
  else if b0 &&& 0xf0 = 0xd0 then 2
  else 1

/-- `bool utf8_eq(struct utf8 u1, struct utf8 u2)` -/
def utf8_eq (u1 u2 : utf8) : Bool :=
  let n1 := utf8_count u1.c0
  let n2 := utf8_count u2.c0
  if n1 ≠ n2 then false
  else (List.range n1).all (fun i => u1.get i == u2.get i)

/-- `enum { UNIX, DOS } filetype` -/
inductive Filetype where
  | UNIX
  | DOS
  deriving DecidableEq, Repr

/-- The bytes `src[j .. j+k)` stored into `u.c[0 .. k)`: the loop
`for (x = 0; x < k; ++x) dest[i].u.c[x] = src[j++]`. -/
def utf8_fill (src : List Nat) (j k : Nat) (u : utf8) : utf8 :=
  (List.range k).foldl (fun v x => v.set x (src.getD (j + x) 0)) u

/-- One turn of the `while (j < m)` loop of `tedchar_from_bytes`: the new
`dest`, `i` and `j`. Only the UTF-8 branch has `assert(i < n)`; the two
newline branches store `dest[i++] = tedchar_newline()` whatever `i` is, so
`dest` stands for the memory from `dest[0]` on, the array and what follows it. -/
def tedchar_from_bytes_body (ft : Filetype) (n : Nat) (src : List Nat)
    (dest : Nat → tedchar) (i j : Nat) : Except Fault ((Nat → tedchar) × Nat × Nat) :=
  if ft = .DOS ∧ src.getD j 0 = 13 then
    if j + 1 < src.length ∧ src.getD (j + 1) 0 = 10 then
      .ok (Function.update dest i tedchar_newline, i + 1, j + 2)
    else .error .exit
  else if ft = .UNIX ∧ src.getD j 0 = 10 then
    .ok (Function.update dest i tedchar_newline, i + 1, j + 1)
  else if src.length ≤ j + utf8_count (src.getD j 0) - 1 then .error .exit
  else if utf8_count (src.getD j 0) = 1 ∧ src.getD j 0 ≠ 9 ∧
      (src.getD j 0 < 0x20 ∨ src.getD j 0 > 0x7e) then
    .error .exit
  else if i < n then
    .ok (Function.update dest i
        { kind := UTF8, u := utf8_fill src j (utf8_count (src.getD j 0)) (dest i).u },
      i + 1, j + utf8_count (src.getD j 0))
  else .error .assertion

/-- The `while (j < m)` loop of `tedchar_from_bytes`, with `m = src.length`. -/
def tedchar_from_bytes_loop (ft : Filetype) (n : Nat) (src : List Nat) :
    Nat → (Nat → tedchar) → Nat → Nat → Except Fault ((Nat → tedchar) × Nat)
  | 0, dest, i, j => if j < src.length then .error .fuel else .ok (dest, i)
  | fuel + 1, dest, i, j =>
    if j < src.length then
      match tedchar_from_bytes_body ft n src dest i j with
      | .ok (dest1, i1, j1) => tedchar_from_bytes_loop ft n src fuel dest1 i1 j1
      | .error e => .error e
    else .ok (dest, i)

/-- `size_t tedchar_from_bytes(struct tedchar dest[], size_t n, const uint8_t src[], size_t m)`:
the new contents of `dest` and the returned count, which exceeds `n` when
newlines were stored after the array was full. Every turn of the loop
consumes a byte, so `m` turns suffice. -/
def tedchar_from_bytes (ft : Filetype) (dest : Nat → tedchar) (n : Nat) (src : List Nat) :
    Except Fault ((Nat → tedchar) × Nat) :=
  tedchar_from_bytes_loop ft n src src.length dest 0 0

/-- Zero-initialised static storage of `ed.buffer`. -/
def buffer_zero : Nat → tedchar := fun _ => { kind := 0, u := utf8_zero }

/-- The characters `dest[0 .. i)` of a decoding result. -/
def decoded (r : (Nat → tedchar) × Nat) : List tedchar := (List.range r.2).map r.1

/-- The characters that `loadf` obtains from the bytes of a file: it calls
`tedchar_from_bytes(ed.buffer, BUFSIZE, buf, st.st_size)` on the zeroed buffer. -/
def load_chars (ft : Filetype) (src : List Nat) : Except Fault (List tedchar) :=
  (tedchar_from_bytes ft buffer_zero BUFSIZE src).map decoded

/-! ## Keys -/

/-- `struct key { int n, m; struct utf8 u; int shift, ctrl, meta, super; int special; }` -/
structure key where
  n : Int
  m : Int
  u : utf8
  shift : Int
  ctrl : Int
  meta : Int
  super : Int
  special : Int
  deriving DecidableEq, Repr

/-- The zero-initialised `struct key k = {0}`. -/
def key_zero : key := ⟨0, 0, utf8_zero, 0, 0, 0, 0, 0⟩

/-- Value of `HT` in the anonymous `enum { BEL = 1, BS, HT, LF, FF, CR, ... }`. -/
def HT : Int := 3

/-- Value of `CR` in the anonymous `enum { BEL = 1, BS, HT, LF, FF, CR, ... }`. -/
def CR : Int := 6

/-- `bool key_eq(struct key k1, struct key k2)` -/
def key_eq (k1 k2 : key) : Bool :=
  if k1.shift ≠ k2.shift then false
  else if k1.ctrl ≠ k2.ctrl then false
  else if k1.meta ≠ k2.meta then false
  else if k1.super ≠ k2.super then false
  else if k1.n ≠ k2.n then false
  else if k1.m ≠ k2.m then false
  else k1.special == k2.special && utf8_eq k1.u k2.u

/-- The key `kbd("<cr>")`: `process_modifiers` finds no modifier and
`process_special` sets only `special = CR`. -/
def kbd_cr : key := { key_zero with special := CR }

/-- The key `kbd("<tab>")`: `process_special` sets only `special = HT`. -/
def kbd_tab : key := { key_zero with special := HT }

/-- `bool is_textchar(struct key k)` -/
def is_textchar (k : key) : Bool :=
  if key_eq k kbd_cr || key_eq k kbd_tab then true
  else if k.special ≠ 0 then false
  else if k.ctrl ≠ 0 || k.meta ≠ 0 || k.super ≠ 0 || k.shift ≠ 0 then false
  else if utf8_count k.u.c0 = 1 then decide (0x20 ≤ k.u.c0) && decide (k.u.c0 ≤ 0x7e)
  else true

/-! ## Editor state -/

/-- `#define MARK_RING_SIZE (16)` -/
def MARK_RING_SIZE : Nat := 16

/-- `#define SEARCH_SIZE (100)` -/
def SEARCH_SIZE : Nat := 100

/-- Width of `size_t`. -/
def SIZE_MOD : Nat := 2 ^ 64

/-- The value that an `int` holds when the result `x` of an addition or a
multiplication is outside its range, on the two's-complement targets of the
program: `x` modulo `2 ^ 32`, taken in `[-2 ^ 31, 2 ^ 31)`. -/
def int_wrap (x : Int) : Int := (x + 2147483648) % 4294967296 - 2147483648

/-- Conversion of an `int` to `size_t`: the value modulo `2 ^ 64`. -/
def size_of_int (x : Int) : Nat := (x % 18446744073709551616).toNat

/-- The global `ed`, without the terminal positions, the file names and times and
the echo latch. Pointers into `ed.buffer` are offsets. -/
structure Ed where
  nlines : Nat
  ncols : Nat
  is_prefix : Bool
  prefix_arg : Int
  tabstop : Nat
  filetype : Filetype
  ensure_trailing_newline : Bool
  buffer : Nat → tedchar
  gap_start : Nat
  gap_end : Nat
  tl : Option Nat
  cursor_row : Nat
  cursor_col : Nat
  goal_col : Nat
  force_goal_col : Bool
  marks_m : Nat → Nat
  marks_len : Nat
  marks_first : Nat
  marks_last : Nat
  marks_current : Nat
  marks_is_active : Bool
  search_results : Nat → Nat
  search_last : Nat
  search_current : Nat
  is_read_only : Bool
  is_dirty : Bool
  last_key : key
  kill_buffer : Nat → tedchar
  kill_size : Nat

/-- Read through a pointer: `*p`. -/
def deref (s : Ed) (p : Option Nat) : Except Fault tedchar :=
  match p with
  | none => .error .null_deref
  | some q => if q < BUFSIZE then .ok (s.buffer q) else .error .out_of_bounds

/-- `struct tedchar *advance(struct tedchar *p)` -/
def advance (s : Ed) (p : Nat) : Option Nat :=
  if s.gap_end ≤ p then
    if p + 1 < BUFSIZE then some (p + 1) else none
  else if p + 1 < s.gap_start then some (p + 1)
  else if s.gap_end < BUFSIZE then some s.gap_end
  else none

/-- `struct tedchar *retreat(struct tedchar *p)` -/
def retreat (s : Ed) (p : Nat) : Option Nat :=
  if p = 0 then none
  else if p = s.gap_end then
    if s.gap_start = 0 then none else some (s.gap_start - 1)
  else some (p - 1)

/-- `size_t next_col(struct tedchar t, size_t col)` -/
def next_col (s : Ed) (t : tedchar) (col : Nat) : Except Fault Nat :=
  if ¬ col < s.ncols then .error .assertion
  else if is_newline t then .ok 0
  else if is_tab t then
    if s.ncols ≤ col + s.tabstop - col % s.tabstop then .ok 0
    else .ok (col + s.tabstop - col % s.tabstop)
  else
    if s.ncols ≤ col + 1 then .ok 0 else .ok (col + 1)

/-- `bool is_point_at_beginning_of_buffer()` -/
def is_point_at_beginning_of_buffer (s : Ed) : Bool := s.gap_start == 0

/-- `bool is_point_at_end_of_buffer()` -/
def is_point_at_end_of_buffer (s : Ed) : Bool := s.gap_end == BUFSIZE

/-- `bool is_buffer_empty()` -/
def is_buffer_empty (s : Ed) : Bool := s.gap_end - s.gap_start == BUFSIZE

/-- `size_t buffer_size()` -/
def buffer_size (s : Ed) : Nat := s.gap_start + (BUFSIZE - s.gap_end)

/-- `struct tedchar *first_char()` -/
def first_char (s : Ed) : Option Nat :=
  if is_buffer_empty s then none
  else if 0 < s.gap_start then some 0
  else some s.gap_end

/-- `struct tedchar *char_at_point()` -/
def char_at_point (s : Ed) : Option Nat :=
  if is_buffer_empty s || is_point_at_end_of_buffer s then none else some s.gap_end

/-- `struct tedchar *char_at_index(size_t i)` -/
def char_at_index (s : Ed) (i : Nat) : Option Nat :=
  if buffer_size s ≤ i then none
  else if i < s.gap_start then some i
  else some (s.gap_end + (i - s.gap_start))

/-- `size_t index_of(struct tedchar *t)` -/
def index_of (s : Ed) (t : Nat) : Nat :=
  if t < s.gap_start then t else s.gap_start + (t - s.gap_end)

/-- `size_t where()` -/
def where_ (s : Ed) : Nat :=
  if is_point_at_end_of_buffer s then buffer_size s else index_of s s.gap_end

/-- The character `*char_at_index(i)` of a logical index `i < buffer_size()`. -/
def cell (s : Ed) (i : Nat) : tedchar :=
  if i < s.gap_start then s.buffer i else s.buffer (s.gap_end + (i - s.gap_start))

/-- The logical character sequence: `*char_at_index(i)` for `i < buffer_size()`. -/
def content (s : Ed) : List tedchar := (List.range (buffer_size s)).map (cell s)

/-- The gap lies inside the array: `gap_start ≤ gap_end ≤ BUFSIZE`. -/
def GapInv (s : Ed) : Prop := s.gap_start ≤ s.gap_end ∧ s.gap_end ≤ BUFSIZE

/-- First loop of `col_of` and `first_of_visual_line`:
`while (qq && !is_newline(*qq)) { q = qq; qq = retreat(qq); }`, giving `q`. -/
def line_start_loop (s : Ed) : Nat → Nat → Option Nat → Except Fault Nat
  | _, q, none => .ok q
  | 0, _, some _ => .error .fuel
  | f + 1, q, some p =>
    match deref s (some p) with
    | .error e => .error e
    | .ok t => if is_newline t then .ok q else line_start_loop s f p (retreat s p)

/-- Second loop of `col_of`:
`while (q != p) { col = next_col(*q, col); q = advance(q); }`, giving `col`. -/
def col_loop (s : Ed) (p : Nat) : Nat → Option Nat → Nat → Except Fault Nat
  | 0, q, col => if q = some p then .ok col else .error .fuel
  | f + 1, q, col =>
    if q = some p then .ok col
    else
      match deref s q with
      | .error e => .error e
      | .ok t =>
        match next_col s t col with
        | .error e => .error e
        | .ok c => col_loop s p f (q.bind (advance s)) c

/-- `size_t col_of(struct tedchar *p)`. Each loop visits a buffer slot at most
once, so `BUFSIZE` turns suffice. -/
def col_of (s : Ed) (p : Nat) : Except Fault Nat :=
  match retreat s p with
  | none => .ok 0
  | some q =>
    match line_start_loop s BUFSIZE q (some q) with
    | .error e => .error e
    | .ok q1 => col_loop s p BUFSIZE (some q1) 0

/-- Second loop of `first_of_visual_line`:
`while (q != p) { col = next_col(*q, col); q = advance(q); if (col == 0) r = q; }`,
giving `r`. -/
def visual_loop (s : Ed) (p : Nat) : Nat → Option Nat → Nat → Option Nat →
    Except Fault (Option Nat)
  | 0, q, _, r => if q = some p then .ok r else .error .fuel
  | f + 1, q, col, r =>
    if q = some p then .ok r
    else
      match deref s q with
      | .error e => .error e
      | .ok t =>
        match next_col s t col with
        | .error e => .error e
        | .ok c =>
          visual_loop s p f (q.bind (advance s)) c
            (if c = 0 then q.bind (advance s) else r)

/-- `struct tedchar *first_of_visual_line(struct tedchar *p)` -/
def first_of_visual_line (s : Ed) (p : Nat) : Except Fault (Option Nat) :=
  match retreat s p with
  | none => .ok (some p)
  | some q =>
    match line_start_loop s BUFSIZE q (some q) with
    | .error e => .error e
    | .ok q1 => visual_loop s p BUFSIZE (some q1) 0 (some q1)

/-- The `while (1)` loop of `scroll_up`:
`n = next_col(*p, n); p = advance(p); if (!p) return; if (n == 0) break;`.
The result is `none` when the function returns from inside the loop. -/
def next_visual_line (s : Ed) : Nat → Nat → Nat → Except Fault (Option Nat)
  | 0, _, _ => .error .fuel
  | f + 1, p, n =>
    match deref s (some p) with
    | .error e => .error e
    | .ok t =>
      match next_col s t n with
      | .error e => .error e
      | .ok n1 =>
        match advance s p with
        | none => .ok none
        | some p1 => if n1 = 0 then .ok (some p1) else next_visual_line s f p1 n1

/-! ## Commands

A command is run from a program point `Proc`: the entry of a function of the
source, or the head of one of its loops together with the loop's local
variables. `call p s` runs from `p` until the enclosing source function
returns. -/

/-- Program points of the commands. -/
inductive Proc where
  | scroll_down
  | scroll_down_loop (r : Nat)
  | scroll_up
  | scroll_up_loop (r : Nat)
  | forward_char
  | forward_char_loop (r : Nat)
  | backward_char
  | backward_char_loop (r : Nat)
  | forward_word
  | forward_word_loop (r : Nat)
  | forward_word_ws (r : Nat)
  | forward_word_text (r : Nat)
  | backward_word
  | backward_word_loop (r : Nat)
  | backward_word_ws (r : Nat)
  | backward_word_text (r : Nat)
  | forward_paragraph
  | forward_paragraph_loop (r : Nat)
  | forward_paragraph_ws (r : Nat)
  | forward_paragraph_run (r run : Nat)
  | backward_paragraph
  | backward_paragraph_loop (r : Nat)
  | backward_paragraph_ws (r : Nat)
  | backward_paragraph_run (r run : Nat)
  | backward_paragraph_fwd (r : Nat)
  | next_row
  | next_row_loop (r : Nat)
  | next_row_goal (r save_goal : Nat)
  | previous_row
  | previous_row_loop (r : Nat)
  | previous_row_goal (r save_goal : Nat)
  | beginning_of_row
  | end_of_row
  | beginning_of_line
  | beginning_of_line_loop
  | end_of_line
  | end_of_line_loop
  | goto_line
  | goto_line_loop (line_no : Nat)
  | move_to (n : Nat)
  | move_to_loop (n : Nat)
  | goto_percent
  | beginning_of_buffer
  | end_of_buffer
  | page_down
  | page_down_loop (r : Nat)
  | page_down_for (r i : Nat)
  | page_up
  | page_up_loop (r : Nat)
  | page_up_for (r i : Nat)
  | set_goal_column
  | do_insert_char (t : tedchar)
  | insert_char
  | insert_char_loop (t : tedchar) (r : Nat)
  | open_line
  | open_line_loop (r : Nat)
  | open_next_line
  | open_next_line_loop (r : Nat)
  | open_previous_line
  | open_previous_line_loop (r : Nat)
  | delete_char
  | delete_char_loop (r : Nat)
  | delete_region
  | delete_region_loop (nchars : Nat)
  | delete_backward_char
  | delete_backward_char_loop (r : Nat)
  | delete_forward_char
  | maybe_insert_trailing_newline
  | save_buffer (io_ok : Bool)
  | exchange_point_and_mark
  | set_mark
  | set_mark_forward_word
  | set_mark_backward_word
  | set_mark_forward_paragraph
  | set_mark_backward_paragraph
  | set_mark_next_row
  | set_mark_previous_row
  | set_mark_forward_char
  | set_mark_backward_char
  | kill_region_save
  | kill_region
  | kill_region_loop (nchars : Nat)
  | yank
  | yank_loop (r : Nat)
  | yank_for (r i : Nat)
  | search_previous
  | search_next
  | search_buffer (helper_ok : Bool) (results : List Nat)
  | search_quit
  | quit (io_ok : Bool)
  | cancel
  | toggle_read_only_mode
  | unbound_text_key (k : key)

/-- The recursive knot: how a program point is run. -/
abbrev Call := Proc → Ed → Except Fault Ed

/-- `size_t repeat = ed.is_prefix ? ed.prefix_arg : 1;` with `ed.prefix_arg` an
`int` that the initialisation converts to `size_t`. -/
def repeat_count (s : Ed) : Nat := if Ed.is_prefix s then size_of_int s.prefix_arg else 1

/-- `ed.is_prefix = false;` -/
def prefix_clear (s : Ed) : Ed := { s with is_prefix := false }

/-- `++x` on a `size_t`. -/
def size_inc (x : Nat) : Nat := (x + 1) % SIZE_MOD

/-- `--x` on a `size_t`. -/
def size_dec (x : Nat) : Nat := (x + SIZE_MOD - 1) % SIZE_MOD

/-- Guard `pred(*char_at_point())`. -/
def point_is (pred : tedchar → Bool) (s : Ed) : Except Fault Bool :=
  match deref s (char_at_point s) with
  | .error e => .error e
  | .ok t => .ok (pred t)

/-- Write through a pointer: `*p = t`. -/
def store (s : Ed) (p : Nat) (t : tedchar) : Except Fault Ed :=
  if p < BUFSIZE then .ok { s with buffer := Function.update s.buffer p t }
  else .error .out_of_bounds

/-- `if (!ed.force_goal_col) ed.goal_col = ed.cursor_col;` -/
def update_goal (s : Ed) : Ed :=
  { s with goal_col := if s.force_goal_col then s.goal_col else s.cursor_col }

/-- `void scroll_down()` -/
def scroll_down (call : Call) (s : Ed) : Except Fault Ed :=
  if is_buffer_empty s then .ok s
  else call (.scroll_down_loop (repeat_count s)) (prefix_clear s)

/-- One turn of `while (repeat--)` in `scroll_down`. -/
def scroll_down_loop (call : Call) (r : Nat) (s : Ed) : Except Fault Ed :=
  if r = 0 then .ok s
  else do
    let s1 ← if s.cursor_row = s.nlines - 1 then call .previous_row s else .ok s
    match s1.tl with
    | none => .ok s1
    | some p =>
      match retreat s1 p with
      | none => .ok s1
      | some q =>
        let v ← first_of_visual_line s1 q
        call (.scroll_down_loop (r - 1))
          { s1 with tl := v, cursor_row := size_inc s1.cursor_row }

/-- `void scroll_up()` -/
def scroll_up (call : Call) (s : Ed) : Except Fault Ed :=
  if is_buffer_empty s then .ok s
  else call (.scroll_up_loop (repeat_count s)) (prefix_clear s)

/-- One turn of `while (repeat--)` in `scroll_up`. -/
def scroll_up_loop (call : Call) (r : Nat) (s : Ed) : Except Fault Ed :=
  if r = 0 then .ok s
  else do
    let s1 ← if s.cursor_row = 0 then call .next_row s else .ok s
    match s1.tl with
    | none => .ok s1
    | some p =>
      let v ← next_visual_line s1 BUFSIZE p 0
      match v with
      | none => .ok s1
      | some p1 =>
        call (.scroll_up_loop (r - 1))
          { s1 with tl := some p1, cursor_row := size_dec s1.cursor_row }

/-- `void forward_char()` -/
def forward_char (call : Call) (s : Ed) : Except Fault Ed :=
  if is_buffer_empty s then .ok s
  else call (.forward_char_loop (repeat_count s)) (prefix_clear s)

/-- The statement `if (ed.cursor_row == ed.nlines - 1 && next_col(*char_at_point(),
ed.cursor_col) == 0) scroll_up();` of `forward_char` and `delete_char`: the state
after it, and whether `scroll_up` was called. -/
def scroll_at_last_row (call : Call) (s : Ed) : Except Fault (Ed × Bool) :=
  if s.cursor_row = s.nlines - 1 then
    match deref s (char_at_point s) with
    | .error e => .error e
    | .ok t =>
      match next_col s t s.cursor_col with
      | .error e => .error e
      | .ok n =>
        if n = 0 then
          match call .scroll_up s with
          | .error e => .error e
          | .ok s1 => .ok (s1, true)
        else .ok (s, false)
  else .ok (s, false)

/-- The turn of `forward_char` from `if (ed.cursor_row == 0 && ed.cursor_col == 0)
ed.tl = ed.gap_start;` to the update of the goal column, for the character pointer
`c`. -/
def forward_char_move (s1 : Ed) (c : Option Nat) : Except Fault Ed := do
  let s2 : Ed :=
    { s1 with tl := if s1.cursor_row = 0 ∧ s1.cursor_col = 0 then some s1.gap_start else s1.tl }
  let t ← deref s2 c
  let w ← store s2 s2.gap_start t
  let s3 : Ed := { w with gap_start := w.gap_start + 1, gap_end := w.gap_end + 1 }
  let t1 ← deref s3 c
  let n1 ← next_col s3 t1 s3.cursor_col
  let s4 : Ed :=
    { s3 with cursor_row := if n1 = 0 then size_inc s3.cursor_row else s3.cursor_row }
  let t2 ← deref s4 c
  let n2 ← next_col s4 t2 s4.cursor_col
  pure (update_goal { s4 with cursor_col := n2 })

/-- One turn of `while (repeat--)` in `forward_char`; `c` is read again after a
call of `scroll_up`. -/
def forward_char_loop (call : Call) (r : Nat) (s : Ed) : Except Fault Ed :=
  if r = 0 then .ok s
  else if is_point_at_end_of_buffer s then .ok s
  else
    match scroll_at_last_row call s with
    | .error e => .error e
    | .ok (s1, scrolled) =>
      match forward_char_move s1 (if scrolled then char_at_point s1 else char_at_point s) with
      | .error e => .error e
      | .ok s2 => call (.forward_char_loop (r - 1)) s2

/-- `void backward_char()` -/
def backward_char (call : Call) (s : Ed) : Except Fault Ed :=
  if is_buffer_empty s then .ok s
  else call (.backward_char_loop (repeat_count s)) (prefix_clear s)

/-- The block `if (ed.gap_start > ed.buffer) { ... }` of `backward_char`. -/
def backward_char_move (s1 : Ed) : Except Fault Ed :=
  if 0 < s1.gap_start then do
    let d : Ed := { s1 with gap_end := s1.gap_end - 1, gap_start := s1.gap_start - 1 }
    let g ← deref d (some d.gap_start)
    let a ← store d d.gap_end g
    let t ← deref a (some a.gap_end)
    let b : Ed :=
      { a with cursor_row :=
          if is_newline t || a.cursor_col == 0 then size_dec a.cursor_row else a.cursor_row }
    let c ← col_of b b.gap_end
    pure { b with cursor_col := c }
  else .ok s1

/-- One turn of `while (repeat--)` in `backward_char`. -/
def backward_char_loop (call : Call) (r : Nat) (s : Ed) : Except Fault Ed :=
  if r = 0 then .ok s
  else if is_point_at_beginning_of_buffer s then .ok s
  else do
    let s1 ← if s.cursor_row = 0 ∧ s.cursor_col = 0 then call .scroll_down s else .ok s
    let s2 ← backward_char_move s1
    let s3 : Ed :=
      { s2 with tl := if s2.cursor_row = 0 ∧ s2.cursor_col = 0 then char_at_point s2 else s2.tl }
    call (.backward_char_loop (r - 1)) (update_goal s3)

/-- `void forward_word()` -/
def forward_word (call : Call) (s : Ed) : Except Fault Ed :=
  if is_buffer_empty s then .ok s
  else call (.forward_word_loop (repeat_count s)) (prefix_clear s)

/-- One turn of `while (repeat--)` in `forward_word`. -/
def forward_word_loop (call : Call) (r : Nat) (s : Ed) : Except Fault Ed :=
  if r = 0 then .ok s
  else if is_point_at_end_of_buffer s then .ok s
  else call (.forward_word_ws r) s

/-- `while (!is_point_at_end_of_buffer() && is_whitespace(*char_at_point())) forward_char();`
in `forward_word`, then the rest of the turn. -/
def forward_word_ws (call : Call) (r : Nat) (s : Ed) : Except Fault Ed := do
  let go ← if is_point_at_end_of_buffer s then pure false else point_is is_whitespace s
  if go then
    let s1 ← call .forward_char s
    call (.forward_word_ws r) s1
  else call (.forward_word_text r) s

/-- `while (!is_point_at_end_of_buffer() && !is_whitespace(*char_at_point())) forward_char();`
in `forward_word`, then the next turn. -/
def forward_word_text (call : Call) (r : Nat) (s : Ed) : Except Fault Ed := do
  let go ← if is_point_at_end_of_buffer s then pure false
    else point_is (fun t => !is_whitespace t) s
  if go then
    let s1 ← call .forward_char s
    call (.forward_word_text r) s1
  else call (.forward_word_loop (r - 1)) s

/-- `bool is_point_at_beginning_of_word()` -/
def is_point_at_beginning_of_word (s : Ed) : Except Fault Bool :=
  if is_buffer_empty s then .ok false
  else if is_point_at_end_of_buffer s then .ok false
  else do
    let p := char_at_point s
    let tp ← deref s p
    if is_point_at_beginning_of_buffer s then pure (!is_whitespace tp)
    else
      let tq ← deref s (p.bind (retreat s))
      pure (!is_whitespace tp && is_whitespace tq)

/-- `void backward_word()` -/
def backward_word (call : Call) (s : Ed) : Except Fault Ed :=
  if is_buffer_empty s then .ok s
  else call (.backward_word_loop (repeat_count s)) (prefix_clear s)

/-- One turn of `while (repeat--)` in `backward_word`. -/
def backward_word_loop (call : Call) (r : Nat) (s : Ed) : Except Fault Ed :=
  if r = 0 then .ok s
  else do
    let w ← is_point_at_beginning_of_word s
    let s1 ← if w || is_point_at_end_of_buffer s then call .backward_char s else .ok s
    call (.backward_word_ws r) s1

/-- The loop `while (is_whitespace(*char_at_point())) { backward_char(); if
(is_point_at_beginning_of_buffer()) return; }` of `backward_word`, then the rest of
the turn. -/
def backward_word_ws (call : Call) (r : Nat) (s : Ed) : Except Fault Ed := do
  let go ← point_is is_whitespace s
  if go then
    let s1 ← call .backward_char s
    if is_point_at_beginning_of_buffer s1 then pure s1 else call (.backward_word_ws r) s1
  else call (.backward_word_text r) s

/-- The loop `while (!is_whitespace(*char_at_point())) { backward_char(); if
(is_point_at_beginning_of_buffer()) return; }` of `backward_word`, then
`forward_char()` and the next turn. -/
def backward_word_text (call : Call) (r : Nat) (s : Ed) : Except Fault Ed := do
  let go ← point_is (fun t => !is_whitespace t) s
  if go then
    let s1 ← call .backward_char s
    if is_point_at_beginning_of_buffer s1 then pure s1 else call (.backward_word_text r) s1
  else
    let s1 ← call .forward_char s
    call (.backward_word_loop (r - 1)) s1

/-- `void forward_paragraph()` -/
def forward_paragraph (call : Call) (s : Ed) : Except Fault Ed :=
  if is_buffer_empty s then .ok s
  else call (.forward_paragraph_loop (repeat_count s)) (prefix_clear s)

/-- One turn of `while (repeat--)` in `forward_paragraph`. -/
def forward_paragraph_loop (call : Call) (r : Nat) (s : Ed) : Except Fault Ed :=
  if r = 0 then .ok s
  else if is_point_at_end_of_buffer s then .ok s
  else call (.forward_paragraph_ws r) s

/-- The whitespace loop of `forward_paragraph`, then the rest of the turn with
`newline_run = 0`. -/
def forward_paragraph_ws (call : Call) (r : Nat) (s : Ed) : Except Fault Ed := do
  let go ← if is_point_at_end_of_buffer s then pure false else point_is is_whitespace s
  if go then
    let s1 ← call .forward_char s
    call (.forward_paragraph_ws r) s1
  else call (.forward_paragraph_run r 0) s

/-- The loop `while (!is_point_at_end_of_buffer()) { ... }` of `forward_paragraph`
with its local `newline_run`, then the next turn. -/
def forward_paragraph_run (call : Call) (r run : Nat) (s : Ed) : Except Fault Ed :=
  if is_point_at_end_of_buffer s then call (.forward_paragraph_loop (r - 1)) s
  else do
    let nl ← point_is is_newline s
    if nl ∧ size_inc run = 2 then call (.forward_paragraph_loop (r - 1)) s
    else
      let s1 ← call .forward_char s
      call (.forward_paragraph_run r (if nl then size_inc run else 0)) s1

/-- `void backward_paragraph()` -/
def backward_paragraph (call : Call) (s : Ed) : Except Fault Ed :=
  if is_buffer_empty s then .ok s
  else call (.backward_paragraph_loop (repeat_count s)) (prefix_clear s)

/-- One turn of `while (repeat--)` in `backward_paragraph`. -/
def backward_paragraph_loop (call : Call) (r : Nat) (s : Ed) : Except Fault Ed :=
  if r = 0 then .ok s
  else if is_point_at_beginning_of_buffer s then .ok s
  else do
    let s1 ← call .backward_char s
    call (.backward_paragraph_ws r) s1

/-- The loop `while (!is_point_at_beginning_of_buffer() &&
is_whitespace(*char_at_point())) backward_char();`, then the rest of the turn. -/
def backward_paragraph_ws (call : Call) (r : Nat) (s : Ed) : Except Fault Ed := do
  let go ← if is_point_at_beginning_of_buffer s then pure false else point_is is_whitespace s
  if go then
    let s1 ← call .backward_char s
    call (.backward_paragraph_ws r) s1
  else call (.backward_paragraph_run r 0) s

/-- The loop `while (!is_point_at_beginning_of_buffer()) { ... }` of
`backward_paragraph` with its local `newline_run`, then the next turn. -/
def backward_paragraph_run (call : Call) (r run : Nat) (s : Ed) : Except Fault Ed :=
  if is_point_at_beginning_of_buffer s then call (.backward_paragraph_loop (r - 1)) s
  else do
    let nl ← point_is is_newline s
    if nl ∧ size_inc run = 2 then call (.backward_paragraph_fwd r) s
    else
      let s1 ← call .backward_char s
      call (.backward_paragraph_run r (if nl then size_inc run else 0)) s1

/-- The inner loop `while (!is_point_at_end_of_buffer() &&
is_whitespace(*char_at_point())) forward_char();` of `backward_paragraph`, then
`break` and the next turn. -/
def backward_paragraph_fwd (call : Call) (r : Nat) (s : Ed) : Except Fault Ed := do
  let go ← if is_point_at_end_of_buffer s then pure false else point_is is_whitespace s
  if go then
    let s1 ← call .forward_char s
    call (.backward_paragraph_fwd r) s1
  else call (.backward_paragraph_loop (r - 1)) s

/-- `void next_row()` -/
def next_row (call : Call) (s : Ed) : Except Fault Ed :=
  call (.next_row_loop (repeat_count s)) (prefix_clear s)

/-- One turn of `while (repeat--)` in `next_row`, up to the `while (1)` loop. -/
def next_row_loop (call : Call) (r : Nat) (s : Ed) : Except Fault Ed :=
  if r = 0 then .ok s
  else do
    let s1 ← if s.cursor_row = s.nlines - 1 then call .scroll_up s else .ok s
    let save_goal := s1.goal_col
    let s2 ← call .end_of_row s1
    let s3 ← call .forward_char s2
    let s4 ← call .beginning_of_row s3
    call (.next_row_goal r save_goal) s4

/-- The `while (1)` loop of `next_row`, then the next turn. -/
def next_row_goal (call : Call) (r save_goal : Nat) (s : Ed) : Except Fault Ed := do
  let stop ←
    if save_goal ≤ s.cursor_col then pure true
    else
      match char_at_point s with
      | none => pure true
      | some p => do
        let t ← deref s (some p)
        pure (is_newline t)
  if stop then call (.next_row_loop (r - 1)) { s with goal_col := save_goal }
  else
    let s1 ← call .forward_char s
    call (.next_row_goal r save_goal) s1

/-- `void previous_row()` -/
def previous_row (call : Call) (s : Ed) : Except Fault Ed :=
  call (.previous_row_loop (repeat_count s)) (prefix_clear s)

/-- One turn of `while (repeat--)` in `previous_row`, up to the `while (1)` loop. -/
def previous_row_loop (call : Call) (r : Nat) (s : Ed) : Except Fault Ed :=
  if r = 0 then .ok s
  else do
    let s1 ← if s.cursor_row = 0 then call .scroll_down s else .ok s
    let save_goal := s1.goal_col
    let s2 ← call .beginning_of_row s1
    let s3 ← call .backward_char s2
    let s4 ← call .beginning_of_row s3
    call (.previous_row_goal r save_goal) s4

/-- The `while (1)` loop of `previous_row`, then the next turn. -/
def previous_row_goal (call : Call) (r save_goal : Nat) (s : Ed) : Except Fault Ed := do
  let stop ←
    if save_goal ≤ s.cursor_col then pure true
    else
      match char_at_point s with
      | none => pure true
      | some p => do
        let t ← deref s (some p)
        pure (is_newline t)
  if stop then call (.previous_row_loop (r - 1)) { s with goal_col := save_goal }
  else
    let s1 ← call .forward_char s
    call (.previous_row_goal r save_goal) s1

/-- `void beginning_of_row()` -/
def beginning_of_row (call : Call) (s : Ed) : Except Fault Ed :=
  if 0 < s.cursor_col then do
    let s1 ← call .backward_char s
    call .beginning_of_row s1
  else .ok { s with goal_col := if s.force_goal_col then s.goal_col else 0 }

/-- `void end_of_row()` -/
def end_of_row (call : Call) (s : Ed) : Except Fault Ed :=
  match char_at_point s with
  | none => .ok s
  | some p => do
    let t ← deref s (some p)
    let n ← next_col s t s.cursor_col
    if n = 0 then pure s
    else
      let s1 ← call .forward_char s
      call .end_of_row s1

/-- Guard `char_at_point() && is_newline(*char_at_point())`. -/
def point_at_newline (s : Ed) : Except Fault Bool :=
  match char_at_point s with
  | none => .ok false
  | some p =>
    match deref s (some p) with
    | .error e => .error e
    | .ok t => .ok (is_newline t)

/-- `void beginning_of_line()` -/
def beginning_of_line (call : Call) (s : Ed) : Except Fault Ed :=
  if is_buffer_empty s then .ok s
  else do
    let nl ← point_at_newline s
    let s1 ← if nl then call .backward_char s else .ok s
    call .beginning_of_line_loop s1

/-- The `while (1)` loop of `beginning_of_line`. -/
def beginning_of_line_loop (call : Call) (s : Ed) : Except Fault Ed :=
  if is_point_at_beginning_of_buffer s then .ok s
  else do
    let nl ← point_at_newline s
    if nl then call .forward_char s
    else
      let s1 ← call .backward_char s
      call .beginning_of_line_loop s1

/-- `void end_of_line()` -/
def end_of_line (call : Call) (s : Ed) : Except Fault Ed :=
  if is_buffer_empty s then .ok s else call .end_of_line_loop s

/-- The loop `while (!is_point_at_end_of_buffer() && !is_newline(*char_at_point()))
forward_char();` of `end_of_line`. -/
def end_of_line_loop (call : Call) (s : Ed) : Except Fault Ed := do
  let go ← if is_point_at_end_of_buffer s then pure false
    else point_is (fun t => !is_newline t) s
  if go then
    let s1 ← call .forward_char s
    call .end_of_line_loop s1
  else pure s

/-- `void goto_line()` -/
def goto_line (call : Call) (s : Ed) : Except Fault Ed := do
  let line_no :=
    if !Ed.is_prefix s || decide (s.prefix_arg < 1) then 1 else size_of_int s.prefix_arg
  let s1 ← call .beginning_of_buffer (prefix_clear s)
  call (.goto_line_loop line_no) s1

/-- The loop `while (--line_no) { end_of_line(); forward_char(); }` of `goto_line`. -/
def goto_line_loop (call : Call) (line_no : Nat) (s : Ed) : Except Fault Ed :=
  if size_dec line_no = 0 then .ok s
  else do
    let s1 ← call .end_of_line s
    let s2 ← call .forward_char s1
    call (.goto_line_loop (size_dec line_no)) s2

/-- `void move_to(size_t n)` -/
def move_to (call : Call) (n : Nat) (s : Ed) : Except Fault Ed := do
  let s1 ← call .beginning_of_buffer s
  call (.move_to_loop n) s1

/-- The loop `while (n--) forward_char();` of `move_to`. -/
def move_to_loop (call : Call) (n : Nat) (s : Ed) : Except Fault Ed :=
  if n = 0 then .ok s
  else do
    let s1 ← call .forward_char s
    call (.move_to_loop (n - 1)) s1

/-- `void goto_percent()` -/
def goto_percent (call : Call) (s : Ed) : Except Fault Ed :=
  let percent :=
    if !Ed.is_prefix s || decide (s.prefix_arg < 0) then 0
    else if 100 < s.prefix_arg then 100 else size_of_int s.prefix_arg
  call (.move_to (buffer_size s * percent / 100)) s

/-- `void beginning_of_buffer()` -/
def beginning_of_buffer (call : Call) (s : Ed) : Except Fault Ed :=
  if 0 < s.gap_start then do
    let s1 ← call .backward_char s
    call .beginning_of_buffer s1
  else .ok s

/-- `void end_of_buffer()` -/
def end_of_buffer (call : Call) (s : Ed) : Except Fault Ed :=
  match char_at_point s with
  | none => .ok s
  | some _ => do
    let s1 ← call .forward_char s
    call .end_of_buffer s1

/-- `void page_down()` -/
def page_down (call : Call) (s : Ed) : Except Fault Ed :=
  call (.page_down_loop (repeat_count s)) (prefix_clear s)

/-- One turn of `while (repeat--)` in `page_down`. -/
def page_down_loop (call : Call) (r : Nat) (s : Ed) : Except Fault Ed :=
  if r = 0 then .ok s else call (.page_down_for r 0) s

/-- The loop `for (i = 0; i < (ed.nlines + 2) / 2; ++i) { scroll_up(); next_row(); }`. -/
def page_down_for (call : Call) (r i : Nat) (s : Ed) : Except Fault Ed :=
  if i < (s.nlines + 2) / 2 then do
    let s1 ← call .scroll_up s
    let s2 ← call .next_row s1
    call (.page_down_for r (i + 1)) s2
  else call (.page_down_loop (r - 1)) s

/-- `void page_up()` -/
def page_up (call : Call) (s : Ed) : Except Fault Ed :=
  call (.page_up_loop (repeat_count s)) (prefix_clear s)

/-- One turn of `while (repeat--)` in `page_up`. -/
def page_up_loop (call : Call) (r : Nat) (s : Ed) : Except Fault Ed :=
  if r = 0 then .ok s else call (.page_up_for r 0) s

/-- The loop `for (i = 0; i < (ed.nlines + 2) / 2; ++i) { scroll_down(); previous_row(); }`. -/
def page_up_for (call : Call) (r i : Nat) (s : Ed) : Except Fault Ed :=
  if i < (s.nlines + 2) / 2 then do
    let s1 ← call .scroll_down s
    let s2 ← call .previous_row s1
    call (.page_up_for r (i + 1)) s2
  else call (.page_up_loop (r - 1)) s

/-- `void set_goal_column()` -/
def set_goal_column (s : Ed) : Ed :=
  { s with force_goal_col := ! Ed.is_prefix s,
           goal_col := if Ed.is_prefix s then s.goal_col else s.cursor_col }

/-- The stores of `do_insert_char`: `*ed.gap_start = t; if (ed.cursor_row == 0 &&
ed.cursor_col == 0) ed.tl = ed.gap_start; ++ed.gap_start;`, and `assert(0)` when the
gap is empty. -/
def insert_store (t : tedchar) (s0 : Ed) : Except Fault Ed :=
  if s0.gap_start < s0.gap_end then do
    let w ← store s0 s0.gap_start t
    let s1 : Ed :=
      { w with tl := if w.cursor_row = 0 ∧ w.cursor_col = 0 then some w.gap_start else w.tl }
    pure { s1 with gap_start := s1.gap_start + 1 }
  else .error .assertion

/-- `void do_insert_char(struct tedchar t)` -/
def do_insert_char (call : Call) (t : tedchar) (s : Ed) : Except Fault Ed := do
  let s2 ← insert_store t { s with is_dirty := true }
  let new_col ← next_col s2 t s2.cursor_col
  let s3 ←
    if new_col = 0 then do
      let a ← if s2.cursor_row = s2.nlines - 1 then call .scroll_up s2 else .ok s2
      pure { a with cursor_row := size_inc a.cursor_row }
    else .ok s2
  pure (update_goal { s3 with cursor_col := new_col })

/-- `void insert_char()` -/
def insert_char (call : Call) (s : Ed) : Except Fault Ed :=
  let k := s.last_key
  if !is_textchar k then .error .assertion
  else if s.is_read_only then .ok s
  else
    let t :=
      if key_eq k kbd_cr then tedchar_newline
      else if key_eq k kbd_tab then tedchar_utf8 (utf8_ascii 9)
      else tedchar_utf8 k.u
    call (.insert_char_loop t (repeat_count s)) (prefix_clear s)

/-- The loop `while (repeat--) do_insert_char(t);` of `insert_char`. -/
def insert_char_loop (call : Call) (t : tedchar) (r : Nat) (s : Ed) : Except Fault Ed :=
  if r = 0 then .ok s
  else do
    let s1 ← call (.do_insert_char t) s
    call (.insert_char_loop t (r - 1)) s1

/-- `void open_line()` -/
def open_line (call : Call) (s : Ed) : Except Fault Ed :=
  if s.is_read_only then .ok s
  else call (.open_line_loop (repeat_count s)) (prefix_clear s)

/-- One turn of `while (repeat--)` in `open_line`. -/
def open_line_loop (call : Call) (r : Nat) (s : Ed) : Except Fault Ed :=
  if r = 0 then .ok s
  else do
    let s1 ← call (.do_insert_char tedchar_newline) s
    let s2 ← call .backward_char s1
    call (.open_line_loop (r - 1)) s2

/-- `void open_next_line()` -/
def open_next_line (call : Call) (s : Ed) : Except Fault Ed :=
  if s.is_read_only then .ok s
  else call (.open_next_line_loop (repeat_count s)) (prefix_clear s)

/-- One turn of `while (repeat--)` in `open_next_line`. -/
def open_next_line_loop (call : Call) (r : Nat) (s : Ed) : Except Fault Ed :=
  if r = 0 then .ok s
  else do
    let s1 ← call .end_of_line s
    let s2 ← call (.do_insert_char tedchar_newline) s1
    call (.open_next_line_loop (r - 1)) s2

/-- `void open_previous_line()` -/
def open_previous_line (call : Call) (s : Ed) : Except Fault Ed :=
  if s.is_read_only then .ok s
  else call (.open_previous_line_loop (repeat_count s)) (prefix_clear s)

/-- One turn of `while (repeat--)` in `open_previous_line`. -/
def open_previous_line_loop (call : Call) (r : Nat) (s : Ed) : Except Fault Ed :=
  if r = 0 then .ok s
  else do
    let s1 ← call .beginning_of_line s
    let s2 ← call .open_line s1
    call (.open_previous_line_loop (r - 1)) s2

/-- `void delete_char()` -/
def delete_char (call : Call) (s : Ed) : Except Fault Ed :=
  if s.is_read_only then .ok s
  else call (.delete_char_loop (repeat_count s)) (prefix_clear s)

/-- The statements `if (ed.tl == ed.gap_end) ed.tl = advance(ed.gap_end);
++ed.gap_end;` of `delete_char`. -/
def delete_char_drop (s1 : Ed) : Ed :=
  let s2 : Ed :=
    { s1 with tl := if s1.tl = some s1.gap_end then advance s1 s1.gap_end else s1.tl }
  { s2 with gap_end := s2.gap_end + 1 }

/-- One turn of `while (repeat--)` in `delete_char`. -/
def delete_char_loop (call : Call) (r : Nat) (s : Ed) : Except Fault Ed :=
  if r = 0 then .ok s
  else if is_buffer_empty s || is_point_at_end_of_buffer s then .ok s
  else
    match scroll_at_last_row call { s with is_dirty := true } with
    | .error e => .error e
    | .ok (s1, _) => call (.delete_char_loop (r - 1)) (delete_char_drop s1)

/-- `void point_mark_low_high(size_t *low, size_t *high)` -/
def point_mark_low_high (s : Ed) : Nat × Nat :=
  let p := where_ s
  let m := s.marks_m s.marks_current
  (if p ≤ m then p else m, if p ≤ m then m else p)

/-- `void delete_region()` -/
def delete_region (call : Call) (s : Ed) : Except Fault Ed :=
  if s.is_read_only then .ok s
  else
    let lh := point_mark_low_high s
    match char_at_index s lh.1 with
    | none => .ok s
    | some _ =>
      let nchars := lh.2 - lh.1
      if nchars = 0 then .ok s
      else do
        let s1 ← call (.move_to lh.1) s
        call (.delete_region_loop nchars) s1

/-- The loop `while (nchars--) delete_char();` of `delete_region`. -/
def delete_region_loop (call : Call) (nchars : Nat) (s : Ed) : Except Fault Ed :=
  if nchars = 0 then .ok s
  else do
    let s1 ← call .delete_char s
    call (.delete_region_loop (nchars - 1)) s1

/-- `void disable_mark()` -/
def disable_mark (s : Ed) : Ed := { s with marks_is_active := false }

/-- `void delete_backward_char()` -/
def delete_backward_char (call : Call) (s : Ed) : Except Fault Ed :=
  if s.is_read_only then .ok s
  else if s.marks_is_active then do
    let s1 ← call .delete_region s
    pure (disable_mark s1)
  else call (.delete_backward_char_loop (repeat_count s)) (prefix_clear s)

/-- One turn of `while (repeat--)` in `delete_backward_char`. -/
def delete_backward_char_loop (call : Call) (r : Nat) (s : Ed) : Except Fault Ed :=
  if r = 0 then .ok s
  else if is_buffer_empty s || is_point_at_beginning_of_buffer s then .ok s
  else do
    let s1 ← call .backward_char s
    let s2 ← call .delete_char s1
    call (.delete_backward_char_loop (r - 1)) s2

/-- `void delete_forward_char()` -/
def delete_forward_char (call : Call) (s : Ed) : Except Fault Ed :=
  if s.is_read_only then .ok s
  else if s.marks_is_active then do
    let s1 ← call .delete_region s
    pure (disable_mark s1)
  else call .delete_char s

/-- The outcomes of the system calls of one `save_buffer`: `open_save_file`,
`write_all` inside `write_buffer_to_file`, `close`, the test
`timespec_lt(ed.mtime, st.st_mtim)` and `rename`. -/
structure SaveCalls where
  open_ok : Bool
  write_ok : Bool
  close_ok : Bool
  disk_newer : Bool
  rename_ok : Bool

/-- Whether `save_buffer` passes its four early returns, `if (fd < 0)`,
`if (close(fd))`, `if (timespec_lt(ed.mtime, st.st_mtim))` and
`if (rename(pathbuf, ed.filename))`, and reaches `ed.is_dirty = false`. There is
no test of the write between them. -/
def SaveCalls.io_ok (e : SaveCalls) : Bool :=
  e.open_ok && e.close_ok && !e.disk_newer && e.rename_ok

/-- A successful save: the buffer has been written and has replaced the file. -/
def SaveCalls.successful (e : SaveCalls) : Bool :=
  e.open_ok && e.write_ok && e.close_ok && !e.disk_newer && e.rename_ok

/-- `static void maybe_insert_trailing_newline()` -/
def maybe_insert_trailing_newline (call : Call) (s : Ed) : Except Fault Ed :=
  if !s.ensure_trailing_newline || is_buffer_empty s then .ok s
  else do
    let t ← deref s (char_at_index s (buffer_size s - 1))
    if is_newline t then pure s
    else if is_point_at_end_of_buffer s then call (.do_insert_char tedchar_newline) s
    else
      match char_at_point s with
      | none => .error .null_deref
      | some p =>
        let save := index_of s p
        let s1 ← call .end_of_buffer s
        let s2 ← call (.do_insert_char tedchar_newline) s1
        call (.move_to save) s2

/-- `void save_buffer()`; `io_ok` says whether the function reaches its last
statements: `open_save_file`, `close` and `rename` succeeded and the file on disk
is not newer (`SaveCalls.io_ok`). The outcome of the write is not part of it:
`write_buffer_to_file` is `void` and returns on a failed `write_all` without
telling `save_buffer`. -/
def save_buffer (call : Call) (io_ok : Bool) (s : Ed) : Except Fault Ed := do
  let s1 ← call .maybe_insert_trailing_newline s
  pure { s1 with is_dirty := if io_ok then false else s1.is_dirty }

/-- `void do_push_mark(size_t w)` -/
def do_push_mark (w : Nat) (s : Ed) : Ed :=
  { s with marks_m := Function.update s.marks_m s.marks_last w,
           marks_current := s.marks_last,
           marks_last := (s.marks_last + 1) % MARK_RING_SIZE,
           marks_first :=
             if s.marks_len = MARK_RING_SIZE then size_inc s.marks_first else s.marks_first,
           marks_len :=
             if s.marks_len = MARK_RING_SIZE then s.marks_len else size_inc s.marks_len }

/-- `void exchange_point_and_mark()` -/
def exchange_point_and_mark (call : Call) (s : Ed) : Except Fault Ed :=
  if is_buffer_empty s then .ok s
  else if s.marks_len = 0 then .ok s
  else
    let save := s.marks_m s.marks_current
    call (.move_to save)
      { s with marks_m := Function.update s.marks_m s.marks_current (where_ s) }

/-- `void set_mark()` -/
def set_mark (call : Call) (s : Ed) : Except Fault Ed :=
  if Ed.is_prefix s then
    if s.marks_len = 0 then .ok s
    else do
      let s1 ← call .exchange_point_and_mark s
      pure { s1 with marks_current :=
        if s1.marks_len ≤ 1 then s1.marks_current
        else if s1.marks_current = s1.marks_first then
          if 0 < s1.marks_last then s1.marks_last - 1 else MARK_RING_SIZE - 1
        else if s1.marks_current = 0 then MARK_RING_SIZE - 1
        else s1.marks_current - 1 }
  else .ok { do_push_mark (where_ s) s with marks_is_active := true }

/-- The functions `set_mark_forward_word` ... `set_mark_backward_char`:
`set_mark();` followed by the motion. -/
def set_mark_then (call : Call) (motion : Proc) (s : Ed) : Except Fault Ed := do
  let s1 ← call .set_mark s
  call motion s1

/-- The loop `while (t && t != last) { ed.kill_buffer[ed.kill_size++] = *t; t =
advance(t); }` of `kill_region_save`. -/
def kill_copy_loop (last : Option Nat) : Nat → Option Nat → Ed → Except Fault Ed
  | _, none, s => .ok s
  | 0, some _, _ => .error .fuel
  | f + 1, some t, s =>
    if some t = last then .ok s
    else
      match deref s (some t) with
      | .error e => .error e
      | .ok c =>
        if s.kill_size < BUFSIZE then
          kill_copy_loop last f (advance s t)
            { s with kill_buffer := Function.update s.kill_buffer s.kill_size c,
                     kill_size := s.kill_size + 1 }
        else .error .out_of_bounds

/-- `void kill_region_save()` -/
def kill_region_save (s : Ed) : Except Fault Ed :=
  if s.is_read_only then .ok s
  else if !s.marks_is_active then .ok s
  else do
    let s0 : Ed := { s with kill_size := 0 }
    let lh := point_mark_low_high s0
    let s1 ← kill_copy_loop (char_at_index s0 lh.2) BUFSIZE (char_at_index s0 lh.1) s0
    pure { s1 with marks_is_active := false }

/-- `void kill_region()` -/
def kill_region (call : Call) (s : Ed) : Except Fault Ed :=
  if !s.marks_is_active then .ok s
  else do
    let s1 ← call .kill_region_save s
    let lh := point_mark_low_high s1
    let s2 ← call (.move_to lh.1) s1
    call (.kill_region_loop (lh.2 - lh.1)) s2

/-- The loop `while (nchars--) delete_char();` of `kill_region`, then
`ed.marks.is_active = false;`. -/
def kill_region_loop (call : Call) (nchars : Nat) (s : Ed) : Except Fault Ed :=
  if nchars = 0 then .ok { s with marks_is_active := false }
  else do
    let s1 ← call .delete_char s
    call (.kill_region_loop (nchars - 1)) s1

/-- `void yank()` -/
def yank (call : Call) (s : Ed) : Except Fault Ed :=
  if s.is_read_only then .ok s
  else call (.yank_loop (repeat_count s)) (prefix_clear s)

/-- One turn of `while (repeat--)` in `yank`. -/
def yank_loop (call : Call) (r : Nat) (s : Ed) : Except Fault Ed :=
  if r = 0 then .ok s else call (.yank_for r 0) s

/-- The loop `for (i = 0; i < ed.kill_size; ++i) do_insert_char(ed.kill_buffer[i]);`. -/
def yank_for (call : Call) (r i : Nat) (s : Ed) : Except Fault Ed :=
  if i < s.kill_size then do
    let s1 ← call (.do_insert_char (s.kill_buffer i)) s
    call (.yank_for r (i + 1)) s1
  else call (.yank_loop (r - 1)) s

/-- `void search_previous()` -/
def search_previous (call : Call) (s : Ed) : Except Fault Ed :=
  if s.search_last = 0 then .ok s
  else
    let s1 : Ed :=
      { s with search_current :=
          if s.search_current = 0 then s.search_last - 1 else size_dec s.search_current }
    call (.move_to (s1.search_results s1.search_current)) s1

/-- `void search_next()` -/
def search_next (call : Call) (s : Ed) : Except Fault Ed :=
  if s.search_last = 0 then .ok s
  else
    let s0 : Ed := { s with search_current := size_inc s.search_current }
    let s1 : Ed :=
      { s0 with search_current :=
          if s0.search_current = s0.search_last then 0 else s0.search_current }
    call (.move_to (s1.search_results s1.search_current)) s1

/-- `void search_buffer()` once the temporary file is written: `results` are the
offsets read from the helper and `helper_ok` says that it exited with status 0. -/
def search_buffer (call : Call) (helper_ok : Bool) (results : List Nat) (s : Ed) :
    Except Fault Ed :=
  if s.search_last ≠ 0 then call .search_next s
  else if SEARCH_SIZE < results.length then .error .out_of_bounds
  else
    let s1 : Ed :=
      { s with search_results := fun i => if i < results.length then results.getD i 0
                                          else s.search_results i,
               search_last := results.length }
    if !helper_ok then .ok s1
    else if s1.search_last = 0 then .ok s1
    else
      let s2 := do_push_mark (where_ s1) s1
      let s3 : Ed := { s2 with search_current := 0 }
      call (.move_to (s3.search_results 0)) s3

/-- `void search_quit()` -/
def search_quit (s : Ed) : Ed := { s with search_last := 0 }

/-- `void quit()`; leaving the program is the fault `exit`. -/
def quit (call : Call) (io_ok : Bool) (s : Ed) : Except Fault Ed :=
  if s.is_dirty then
    if Ed.is_prefix s then do
      let s1 ← call (.save_buffer io_ok) s
      if !s1.is_dirty then .error .exit else pure s1
    else .ok s
  else .error .exit

/-- `void cancel()` -/
def cancel (s : Ed) : Ed := { s with marks_is_active := false }

/-- `void toggle_read_only_mode()` -/
def toggle_read_only_mode (s : Ed) : Ed := { s with is_read_only := !s.is_read_only }

/-- The branch of `main_loop` for a key without binding that is a text character:
`if (ed.marks.is_active) { delete_region(); disable_mark(); } ed.last_key = k;
insert_char();`. -/
def unbound_text_key (call : Call) (k : key) (s : Ed) : Except Fault Ed := do
  let s1 ←
    if s.marks_is_active then do
      let a ← call .delete_region s
      pure (disable_mark a)
    else .ok s
  call .insert_char { s1 with last_key := k }

/-- The code at a program point. -/
def step (call : Call) : Proc → Ed → Except Fault Ed
  | .scroll_down => scroll_down call
  | .scroll_down_loop r => scroll_down_loop call r
  | .scroll_up => scroll_up call
  | .scroll_up_loop r => scroll_up_loop call r
  | .forward_char => forward_char call
  | .forward_char_loop r => forward_char_loop call r
  | .backward_char => backward_char call
  | .backward_char_loop r => backward_char_loop call r
  | .forward_word => forward_word call
  | .forward_word_loop r => forward_word_loop call r
  | .forward_word_ws r => forward_word_ws call r
  | .forward_word_text r => forward_word_text call r
  | .backward_word => backward_word call
  | .backward_word_loop r => backward_word_loop call r
  | .backward_word_ws r => backward_word_ws call r
  | .backward_word_text r => backward_word_text call r
  | .forward_paragraph => forward_paragraph call
  | .forward_paragraph_loop r => forward_paragraph_loop call r
  | .forward_paragraph_ws r => forward_paragraph_ws call r
  | .forward_paragraph_run r run => forward_paragraph_run call r run
  | .backward_paragraph => backward_paragraph call
  | .backward_paragraph_loop r => backward_paragraph_loop call r
  | .backward_paragraph_ws r => backward_paragraph_ws call r
  | .backward_paragraph_run r run => backward_paragraph_run call r run
  | .backward_paragraph_fwd r => backward_paragraph_fwd call r
  | .next_row => next_row call
  | .next_row_loop r => next_row_loop call r
  | .next_row_goal r g => next_row_goal call r g
  | .previous_row => previous_row call
  | .previous_row_loop r => previous_row_loop call r
  | .previous_row_goal r g => previous_row_goal call r g
  | .beginning_of_row => beginning_of_row call
  | .end_of_row => end_of_row call
  | .beginning_of_line => beginning_of_line call
  | .beginning_of_line_loop => beginning_of_line_loop call
  | .end_of_line => end_of_line call
  | .end_of_line_loop => end_of_line_loop call
  | .goto_line => goto_line call
  | .goto_line_loop l => goto_line_loop call l
  | .move_to n => move_to call n
  | .move_to_loop n => move_to_loop call n
  | .goto_percent => goto_percent call
  | .beginning_of_buffer => beginning_of_buffer call
  | .end_of_buffer => end_of_buffer call
  | .page_down => page_down call
  | .page_down_loop r => page_down_loop call r
  | .page_down_for r i => page_down_for call r i
  | .page_up => page_up call
  | .page_up_loop r => page_up_loop call r
  | .page_up_for r i => page_up_for call r i
  | .set_goal_column => fun s => .ok (set_goal_column s)
  | .do_insert_char t => do_insert_char call t
  | .insert_char => insert_char call
  | .insert_char_loop t r => insert_char_loop call t r
  | .open_line => open_line call
  | .open_line_loop r => open_line_loop call r
  | .open_next_line => open_next_line call
  | .open_next_line_loop r => open_next_line_loop call r
  | .open_previous_line => open_previous_line call
  | .open_previous_line_loop r => open_previous_line_loop call r
  | .delete_char => delete_char call
  | .delete_char_loop r => delete_char_loop call r
  | .delete_region => delete_region call
  | .delete_region_loop n => delete_region_loop call n
  | .delete_backward_char => delete_backward_char call
  | .delete_backward_char_loop r => delete_backward_char_loop call r
  | .delete_forward_char => delete_forward_char call
  | .maybe_insert_trailing_newline => maybe_insert_trailing_newline call
  | .save_buffer io_ok => save_buffer call io_ok
  | .exchange_point_and_mark => exchange_point_and_mark call
  | .set_mark => set_mark call
  | .set_mark_forward_word => set_mark_then call .forward_word
  | .set_mark_backward_word => set_mark_then call .backward_word
  | .set_mark_forward_paragraph => set_mark_then call .forward_paragraph
  | .set_mark_backward_paragraph => set_mark_then call .backward_paragraph
  | .set_mark_next_row => set_mark_then call .next_row
  | .set_mark_previous_row => set_mark_then call .previous_row
  | .set_mark_forward_char => set_mark_then call .forward_char
  | .set_mark_backward_char => set_mark_then call .backward_char
  | .kill_region_save => kill_region_save
  | .kill_region => kill_region call
  | .kill_region_loop n => kill_region_loop call n
  | .yank => yank call
  | .yank_loop r => yank_loop call r
  | .yank_for r i => yank_for call r i
  | .search_previous => search_previous call
  | .search_next => search_next call
  | .search_buffer ok results => search_buffer call ok results
  | .search_quit => fun s => .ok (search_quit s)
  | .quit io_ok => quit call io_ok
  | .cancel => fun s => .ok (cancel s)
  | .toggle_read_only_mode => fun s => .ok (toggle_read_only_mode s)
  | .unbound_text_key k => unbound_text_key call k

/-- Run from a program point; `fuel` bounds the depth of calls and loop turns. -/
def exec : Nat → Proc → Ed → Except Fault Ed
  | 0, _, _ => .error .fuel
  | f + 1, p, s => step (exec f) p s

/-! ## Start-up and the command loop -/

/-- `memmove(dest, src, n * sizeof(struct tedchar))` inside `ed.buffer`. -/
def memmove (buf : Nat → tedchar) (d s n : Nat) : Nat → tedchar :=
  fun j => if d ≤ j ∧ j < d + n then buf (s + (j - d)) else buf j

/-- `void move_point(struct tedchar *p)` -/
def move_point (s : Ed) (p : Option Nat) : Except Fault Ed :=
  match p with
  | none => .error .assertion
  | some p =>
    if p = s.gap_end then .ok s
    else if p < s.gap_start then
      let n := s.gap_start - p
      let d := s.gap_end
      .ok { s with buffer := memmove s.buffer (d - n) p n, gap_start := p, gap_end := d - n }
    else if s.gap_end < p then
      let d := s.gap_start
      let sr := s.gap_end
      .ok { s with buffer := memmove s.buffer d sr (p - sr),
                   gap_start := s.gap_start + (p - sr),
                   gap_end := s.gap_end + (p - sr) }
    else .ok s

/-- `ed.options.position`: the `-g first | last | N` option. -/
inductive StartPosition where
  | FIRST
  | LAST
  | OFFSET (offset : Nat)

/-- What `editor_config_init` stores from the command line. -/
structure Config where
  nlines : Nat
  ncols : Nat
  tabstop : Nat
  filetype : Filetype
  position : StartPosition

/-- The limits `MIN_NLINES` ... `MAX_TABSTOP` that `editor_config_init` enforces. -/
def Config.valid (c : Config) : Prop :=
  5 ≤ c.nlines ∧ c.nlines ≤ 30 ∧ 30 ≤ c.ncols ∧ c.ncols ≤ 120 ∧ 2 ≤ c.tabstop ∧ c.tabstop ≤ 8

instance (c : Config) : Decidable c.valid := by unfold Config.valid; infer_instance

/-- The defaults of `editor_config_init`: 10 rows, 72 columns, tab stops of 8, unix
line ends, point at the first character. -/
def Config.default : Config := ⟨10, 72, 8, .UNIX, .FIRST⟩

/-- The global `ed` before `loadf`: static storage is zero, `editor_config_init`
has stored the options. -/
def ed_zero (c : Config) : Ed :=
  { nlines := c.nlines, ncols := c.ncols, is_prefix := false, prefix_arg := 0,
    tabstop := c.tabstop, filetype := c.filetype, ensure_trailing_newline := false,
    buffer := buffer_zero, gap_start := 0, gap_end := 0, tl := none,
    cursor_row := 0, cursor_col := 0, goal_col := 0, force_goal_col := false,
    marks_m := fun _ => 0, marks_len := 0, marks_first := 0, marks_last := 0,
    marks_current := 0, marks_is_active := false,
    search_results := fun _ => 0, search_last := 0, search_current := 0,
    is_read_only := false, is_dirty := false, last_key := key_zero,
    kill_buffer := buffer_zero, kill_size := 0 }

/-- The assignments of `loadf` that follow the call
`n = tedchar_from_bytes(ed.buffer, BUFSIZE, buf, st.st_size)`, with `r` the memory
from `ed.buffer` on and the count `n`: `ed.gap_start = ed.buffer + n;
ed.gap_end = ed.buffer + BUFSIZE; ...; ed.tl = NULL;` and the resets of the marks,
the search and the flags. -/
def loadf_fields (c : Config) (r : (Nat → tedchar) × Nat) : Ed :=
  { ed_zero c with
      buffer := r.1, ensure_trailing_newline := true,
      gap_start := r.2, gap_end := BUFSIZE, cursor_row := 0, cursor_col := 0,
      goal_col := 0, tl := none,
      marks_len := 0, marks_first := 0, marks_last := 0, marks_current := 0,
      marks_is_active := false, search_last := 0, search_current := 0,
      is_read_only := false, is_dirty := false, kill_size := 0 }

/-- `void loadf(const char *filename)` when the file is read in full: `bytes` are
its contents. The function has no test of `n` against `BUFSIZE`. When the decoder
returned more than `BUFSIZE` characters, `loadf_fields` has `gap_start` beyond
`gap_end` and `move_point(ed.buffer)` copies `n` characters to `gap_end - n`, which
lies before `ed.buffer`, and stores that address in `gap_end`; no offset into the
buffer stands for it, and the run is followed no further (`out_of_bounds`). -/
def loadf (c : Config) (bytes : List Nat) : Except Fault Ed := do
  let r ← tedchar_from_bytes (ed_zero c).filetype (ed_zero c).buffer BUFSIZE bytes
  let s := loadf_fields c r
  if r.2 ≠ 0 then
    if s.gap_end < s.gap_start then .error .out_of_bounds
    else do
      let s1 ← move_point s (some 0)
      pure { s1 with tl := some s1.gap_end }
  else pure s

/-- `main` from `loadf` to the call of `main_loop`. -/
def start (fuel : Nat) (c : Config) (bytes : List Nat) : Except Fault Ed := do
  let s ← loadf c bytes
  match c.position with
  | .FIRST => pure s
  | .LAST => exec fuel .end_of_buffer s
  | .OFFSET offset => exec fuel (.move_to offset) s

/-- The commands of `global_keymap` and `extended_keymap` that return to the loop
and act on `ed`, and `self_insert` for a key without binding. -/
inductive Cmd where
  | set_mark | beginning_of_row | backward_char | delete_char | end_of_row | forward_char
  | next_row | open_line | previous_row | search_quit | search_previous
  | search_buffer (helper_ok : Bool) (results : List Nat)
  | scroll_up | kill_region | yank | forward_paragraph | backward_word | forward_word
  | backward_paragraph | open_previous_line | beginning_of_line | end_of_line | goto_line
  | open_next_line | scroll_down | kill_region_save | goto_percent | beginning_of_buffer
  | end_of_buffer | set_mark_next_row | set_mark_backward_char | set_mark_forward_char
  | set_mark_previous_row | set_mark_forward_paragraph | set_mark_backward_word
  | set_mark_forward_word | set_mark_backward_paragraph | delete_backward_char
  | delete_forward_char | page_down | page_up
  | quit (io_ok : Bool) | set_goal_column | toggle_read_only_mode | save_buffer (io_ok : Bool)
  | exchange_point_and_mark | cancel
  | self_insert

/-- The function a keymap entry names. -/
def Cmd.proc (k : key) : Cmd → Proc
  | .set_mark => .set_mark
  | .beginning_of_row => .beginning_of_row
  | .backward_char => .backward_char
  | .delete_char => .delete_char
  | .end_of_row => .end_of_row
  | .forward_char => .forward_char
  | .next_row => .next_row
  | .open_line => .open_line
  | .previous_row => .previous_row
  | .search_quit => .search_quit
  | .search_previous => .search_previous
  | .search_buffer ok results => .search_buffer ok results
  | .scroll_up => .scroll_up
  | .kill_region => .kill_region
  | .yank => .yank
  | .forward_paragraph => .forward_paragraph
  | .backward_word => .backward_word
  | .forward_word => .forward_word
  | .backward_paragraph => .backward_paragraph
  | .open_previous_line => .open_previous_line
  | .beginning_of_line => .beginning_of_line
  | .end_of_line => .end_of_line
  | .goto_line => .goto_line
  | .open_next_line => .open_next_line
  | .scroll_down => .scroll_down
  | .kill_region_save => .kill_region_save
  | .goto_percent => .goto_percent
  | .beginning_of_buffer => .beginning_of_buffer
  | .end_of_buffer => .end_of_buffer
  | .set_mark_next_row => .set_mark_next_row
  | .set_mark_backward_char => .set_mark_backward_char
  | .set_mark_forward_char => .set_mark_forward_char
  | .set_mark_previous_row => .set_mark_previous_row
  | .set_mark_forward_paragraph => .set_mark_forward_paragraph
  | .set_mark_backward_word => .set_mark_backward_word
  | .set_mark_forward_word => .set_mark_forward_word
  | .set_mark_backward_paragraph => .set_mark_backward_paragraph
  | .delete_backward_char => .delete_backward_char
  | .delete_forward_char => .delete_forward_char
  | .page_down => .page_down
  | .page_up => .page_up
  | .quit io_ok => .quit io_ok
  | .set_goal_column => .set_goal_column
  | .toggle_read_only_mode => .toggle_read_only_mode
  | .save_buffer io_ok => .save_buffer io_ok
  | .exchange_point_and_mark => .exchange_point_and_mark
  | .cancel => .cancel
  | .self_insert => .unbound_text_key k

/-- The value of `ed.prefix_arg` when `main_loop` has read `C-u` and the decimal
digits of `n`: `ed.prefix_arg = 0;` and then, for each digit key,
`ed.prefix_arg = ed.prefix_arg * 10 + (k.u.c[0] - '0');` in an `int`. The digits
before the last one are those of `n / 10`, the last one is `n % 10`; the first
argument bounds the number of digits. -/
def prefix_read : Nat → Nat → Int
  | 0, _ => 0
  | f + 1, n =>
    if n < 10 then int_wrap (0 * 10 + (n : Int))
    else int_wrap (prefix_read f (n / 10) * 10 + ((n % 10 : Nat) : Int))

/-- One trip round `main_loop`: an optional `C-u` count, the key `k` and the
command it resolves to. The count `some n` stands for `C-u` followed by the digits
of `n`; `C-u` without a digit gives `ed.prefix_arg = 1`, as `some 1` does. A key
without binding that is no text character only echoes an error. -/
def key_event (fuel : Nat) (count : Option Nat) (k : key) (c : Cmd) (s : Ed) :
    Except Fault Ed :=
  let s0 : Ed :=
    match count with
    | none => { s with is_prefix := false }
    | some n => { s with is_prefix := true, prefix_arg := prefix_read (n + 1) n }
  match c with
  | .self_insert => if is_textchar k then exec fuel (c.proc k) s0 else .ok s0
  | _ => exec fuel (c.proc k) { s0 with last_key := k }

/-- The states of `ed` that the editor can be in when it waits for a key. -/
inductive Reachable : Ed → Prop where
  | start (fuel : Nat) (c : Config) (bytes : List Nat) (s : Ed) :
      c.valid → start fuel c bytes = .ok s → Reachable s
  | event (fuel : Nat) (count : Option Nat) (k : key) (c : Cmd) (s s1 : Ed) :
      Reachable s → key_event fuel count k c s = .ok s1 → Reachable s1

/-! ## Saving -/

/-- The stores `buf[i++] = c` for the bytes `c` of a list, in order. -/
def put_bytes (buf : Nat → Nat) (i : Nat) : List Nat → (Nat → Nat) × Nat
  | [] => (buf, i)
  | c :: cs => put_bytes (Function.update buf i c) (i + 1) cs

/-- The inner `while (p)` loop of the macro `for_each_block(buf, sz, i, body)`: it
fills `buf` from `i` on and stops at the end of the buffer or at the first
character that does not fit. The result is `p`, `buf` and `i` at `body`. -/
def block_fill (s : Ed) (sz : Nat) :
    Nat → Option Nat → (Nat → Nat) → Nat → Except Fault (Option Nat × (Nat → Nat) × Nat)
  | _, none, buf, i => .ok (none, buf, i)
  | 0, some _, _, _ => .error .fuel
  | f + 1, some p, buf, i =>
    match deref s (some p) with
    | .error e => .error e
    | .ok t =>
      if is_newline t then
        match s.filetype with
        | .UNIX =>
          if sz ≤ i then .ok (some p, buf, i)
          else block_fill s sz f (advance s p) (put_bytes buf i [10]).1 (put_bytes buf i [10]).2
        | .DOS =>
          if sz - 1 ≤ i then .ok (some p, buf, i)
          else
            block_fill s sz f (advance s p) (put_bytes buf i [13, 10]).1
              (put_bytes buf i [13, 10]).2
      else
        if sz ≤ i + utf8_count t.u.c0 then .ok (some p, buf, i)
        else
          block_fill s sz f (advance s p)
            (put_bytes buf i ((List.range (utf8_count t.u.c0)).map t.u.get)).1
            (put_bytes buf i ((List.range (utf8_count t.u.c0)).map t.u.get)).2

/-- The outer `while (p)` loop of `for_each_block(buf, sz, i, body)`: the list of
the blocks `buf[0 .. i)` that `body` is run on. The inner loop visits each
character once, so `BUFSIZE` turns suffice for it. -/
def for_each_block (s : Ed) (sz : Nat) :
    Nat → Option Nat → (Nat → Nat) → Nat → Except Fault (List (List Nat))
  | _, none, _, _ => .ok []
  | 0, some _, _, _ => .error .fuel
  | f + 1, some p, buf, i =>
    match block_fill s sz BUFSIZE (some p) buf i with
    | .error e => .error e
    | .ok (p1, buf1, i1) =>
      match for_each_block s sz f p1 buf1 0 with
      | .error e => .error e
      | .ok blocks => .ok ((List.range i1).map buf1 :: blocks)

/-- `void write_buffer_to_file(int fd)` when every `write_all` succeeds: the bytes
written, block after block. With blocks of `BUFSIZE` bytes every turn of the outer
loop takes a character, so `BUFSIZE` turns suffice. -/
def write_buffer_to_file (s : Ed) : Except Fault (List Nat) :=
  (for_each_block s BUFSIZE BUFSIZE (first_char s) (fun _ => 0) 0).map List.flatten

/-- The bytes that `save_buffer` writes to the file: `maybe_insert_trailing_newline()`
and then `write_buffer_to_file(fd)`. -/
def save_bytes (fuel : Nat) (s : Ed) : Except Fault (List Nat) := do
  let s1 ← exec fuel .maybe_insert_trailing_newline s
  write_buffer_to_file s1

/-! ## Definitions that follow the specification -/

/-- The per-character encoding of the specification: a newline is `0A` in unix mode
and `0D 0A` in dos mode, a UTF-8 character is its `utf8_count` bytes. -/
def encode_char (ft : Filetype) (t : tedchar) : List Nat :=
  if is_newline t then
    match ft with
    | .UNIX => [10]
    | .DOS => [13, 10]
  else (List.range (utf8_count t.u.c0)).map t.u.get

/-- The naive serialization of the specification: the encodings of the characters
in order. -/
def encode_chars (ft : Filetype) (cs : List tedchar) : List Nat :=
  (cs.map (encode_char ft)).flatten

/-- A valid `TedChar` of the specification: a newline, or a UTF-8 run that is a tab,
printable ASCII or multibyte, stored as the editor stores it (unused bytes zero). -/
def tedchar_valid (t : tedchar) : Prop :=
  t = tedchar_newline ∨
    (t.kind = UTF8 ∧
      (utf8_count t.u.c0 = 1 → t.u.c0 = 9 ∨ (0x20 ≤ t.u.c0 ∧ t.u.c0 ≤ 0x7e)) ∧
      ∀ x, utf8_count t.u.c0 ≤ x → x < 4 → t.u.get x = 0)

/-- The state in which `loadf` leaves the editor, or the zero state if it fails. -/
def loaded (c : Config) (bytes : List Nat) : Ed :=
  match loadf c bytes with
  | .ok s => s
  | .error _ => ed_zero c

/-- A sequence of trips round `main_loop`, each with its `C-u` count, key and
command. -/
def run_keys (fuel : Nat) : List (Option Nat × key × Cmd) → Ed → Except Fault Ed
  | [], s => .ok s
  | (count, k, c) :: rest, s =>
    match key_event fuel count k c s with
    | .error e => .error e
    | .ok s1 => run_keys fuel rest s1

/-- The walk of the viewport invariant of the specification: from the position `p`
at row `row` and column `col`, apply `next_col` character by character, a result 0
starting the next row, until the cursor's row and column are reached. The result is
the position reached, `some none` for the end of the buffer, and `none` when the
walk cannot reach the cursor. -/
def viewport_walk (s : Ed) : Nat → Option Nat → Nat → Nat → Option (Option Nat)
  | 0, p, row, col => if row = s.cursor_row ∧ col = s.cursor_col then some p else none
  | f + 1, p, row, col =>
    if row = s.cursor_row ∧ col = s.cursor_col then some p
    else
      match p with
      | none => none
      | some q =>
        match next_col s (s.buffer q) col with
        | .error _ => none
        | .ok c =>
          if c = 0 then viewport_walk s f (advance s q) (row + 1) 0
          else viewport_walk s f (advance s q) row c

/-- The viewport invariant of the specification: the walk from `tl` ends at the
point. -/
def viewport_ok (s : Ed) : Bool :=
  viewport_walk s BUFSIZE s.tl 0 0 == some (char_at_point s)

/-- The keys `C-f C-f C-v C-d`: forward twice, scroll up, delete. -/
def keys_delete_at_anchor : List (Option Nat × key × Cmd) :=
  [(none, key_zero, .forward_char), (none, key_zero, .forward_char),
   (none, key_zero, .scroll_up), (none, key_zero, .delete_char)]

/-- The state after the keys `evs`, or `s` itself when the run is cut short. -/
def after_keys (fuel : Nat) (evs : List (Option Nat × key × Cmd)) (s : Ed) : Ed :=
  match run_keys fuel evs s with
  | .ok s1 => s1
  | .error _ => s

/-- The keys `x C-b C-d`: insert an `x`, step back over it, delete it. -/
def keys_insert_back_delete : List (Option Nat × key × Cmd) :=
  [(none, { key_zero with u := utf8_ascii 0x78 }, .self_insert), (none, key_zero, .backward_char),
   (none, key_zero, .delete_char)]

/-! ## The gap invariant along commands -/

/-- The gap invariant together with the lower bound on the number of rows that
`editor_config_init` guarantees. -/
def Inv (s : Ed) : Prop := s.gap_start ≤ s.gap_end ∧ s.gap_end ≤ BUFSIZE ∧ 2 ≤ s.nlines

/-- The gap of `s1` is the gap of `s` and no prefix argument is pending in `s1`. -/
def SameGap (s s1 : Ed) : Prop :=
  s1.gap_start = s.gap_start ∧ s1.gap_end = s.gap_end ∧ Ed.is_prefix s1 = false

/-- What holds at a program point when it is entered, besides `Inv`: the loop of
`delete_char` runs with the prefix flag cleared. -/
@[reducible] def Guard (p : Proc) (s : Ed) : Prop :=
  match p with
  | .delete_char_loop _ => Ed.is_prefix s = false
  | _ => True

/-- What a run from a program point guarantees besides `Inv`: a `scroll_up` that
starts below row 0 without prefix argument leaves the gap alone. -/
@[reducible] def Frame (p : Proc) (s s1 : Ed) : Prop :=
  match p with
  | .scroll_up => Ed.is_prefix s = false → s.cursor_row ≠ 0 → SameGap s s1
  | .scroll_up_loop r =>
    Ed.is_prefix s = false → (r = 0 ∨ (r = 1 ∧ s.cursor_row ≠ 0)) → SameGap s s1
  | _ => True

/-- The contract of a run from `p` that takes `s` to `s1`. -/
def Good (p : Proc) (s s1 : Ed) : Prop := Inv s → Guard p s → Inv s1 ∧ Frame p s s1

/-! ## States in which the commands run to completion -/

/-- The options are within the limits of `editor_config_init` that the commands
rely on, the gap lies inside the array, the cursor column is inside the window and
the anchor `tl` points into the array. -/
def Fit (s : Ed) : Prop :=
  s.gap_start ≤ s.gap_end ∧ s.gap_end ≤ BUFSIZE ∧ 2 ≤ s.nlines ∧ s.nlines ≤ 30 ∧
    0 < s.ncols ∧ 0 < s.tabstop ∧ s.cursor_col < s.ncols ∧ ∀ p, s.tl = some p → p < BUFSIZE

/-- With the cursor at the origin of the window the anchor is not after the point:
it is at most `gap_start`, or it is `gap_end`. -/
def AnchorOk (s : Ed) : Prop :=
  s.cursor_row = 0 → s.cursor_col = 0 → ∀ p, s.tl = some p → p ≤ s.gap_start ∨ p = s.gap_end

/-- A state between two commands as the editor means to keep it: `Fit`, the cursor
row inside the window, and `AnchorOk`. -/
def Tidy (s : Ed) : Prop := Fit s ∧ s.cursor_row < s.nlines ∧ AnchorOk s

instance (o : Option Nat) (P : Nat → Prop) [DecidablePred P] :
    Decidable (∀ p, o = some p → P p) :=
  match o with
  | none => isTrue (fun p hp => by cases hp)
  | some q =>
    if hq : P q then isTrue (fun p hp => by cases hp; exact hq)
    else isFalse (fun hf => hq (hf q rfl))

instance (s : Ed) : Decidable (Fit s) := by unfold Fit; infer_instance

instance (s : Ed) : Decidable (AnchorOk s) := by unfold AnchorOk; infer_instance

instance (s : Ed) : Decidable (Tidy s) := by unfold Tidy; infer_instance

/-- The fields that motions, insertions and deletions leave alone. -/
def Keeps (s s1 : Ed) : Prop :=
  s1.nlines = s.nlines ∧ s1.ncols = s.ncols ∧ s1.tabstop = s.tabstop ∧
    s1.is_read_only = s.is_read_only ∧ s1.kill_buffer = s.kill_buffer ∧
    s1.kill_size = s.kill_size ∧ s1.marks_m = s.marks_m ∧
    s1.marks_current = s.marks_current ∧ s1.marks_is_active = s.marks_is_active

/-- What a motion does: the characters stay, the gap keeps its size, no prefix
argument is left pending. -/
def Motion (s s1 : Ed) : Prop :=
  Fit s1 ∧ Keeps s s1 ∧ content s1 = content s ∧ Ed.is_prefix s1 = false ∧
    s1.gap_end - s1.gap_start = s.gap_end - s.gap_start

/-- A motion towards the end of the buffer; it keeps `AnchorOk` as long as the
cursor row cannot wrap. -/
def Fwd (s s1 : Ed) : Prop :=
  Motion s s1 ∧ s.gap_start ≤ s1.gap_start ∧
    s1.cursor_row ≤ s.cursor_row + (s1.gap_start - s.gap_start) ∧
    (AnchorOk s → s.cursor_row + (s1.gap_start - s.gap_start) < SIZE_MOD → AnchorOk s1)

/-- The characters `ed.kill_buffer[0 .. ed.kill_size)`. -/
def killed (s : Ed) : List tedchar := (List.range s.kill_size).map s.kill_buffer

/-- The index just after the `k`-th newline of `cs` (0 for `k = 0`), or the length
of `cs` when it has fewer than `k` newlines. -/
def after_newlines : List tedchar → Nat → Nat
  | _, 0 => 0
  | [], _ + 1 => 0
  | c :: cs, k + 1 => 1 + (if is_newline c then after_newlines cs k else after_newlines cs (k + 1))

/-- The characters before the point: `ed.buffer[0 .. gap_start)`. -/
def text_before (s : Ed) : List tedchar := (List.range s.gap_start).map s.buffer

/-- The characters from the point on: `ed.gap_end[0 .. BUFSIZE - gap_end)`. -/
def text_after (s : Ed) : List tedchar :=
  (List.range (BUFSIZE - s.gap_end)).map (fun i => s.buffer (s.gap_end + i))

/-- A motion towards the beginning of the buffer; it ends with `AnchorOk`. -/
def Bwd (s s1 : Ed) : Prop := Motion s s1 ∧ AnchorOk s1 ∧ s1.gap_start ≤ s.gap_start

/-- A deletion at the point: the text before the point stays and the text after
it loses its first characters. -/
def Del (s s1 : Ed) : Prop :=
  Fit s1 ∧ Keeps s s1 ∧ Ed.is_prefix s1 = false ∧ s1.gap_start = s.gap_start ∧
    s.gap_end ≤ s1.gap_end ∧ text_before s1 = text_before s ∧
    text_after s1 = (text_after s).drop (s1.gap_end - s.gap_end)

/-- An insertion of the characters `l` at the point. -/
def Ins (l : List tedchar) (s s1 : Ed) : Prop :=
  Fit s1 ∧ Keeps s s1 ∧ Ed.is_prefix s1 = false ∧ s1.gap_start = s.gap_start + l.length ∧
    s1.gap_end = s.gap_end ∧ text_before s1 = text_before s ++ l ∧
    text_after s1 = text_after s

/-- The number of characters from the start of `l` to its first newline, or to its
end when it has none. -/
def line_rest (l : List tedchar) : Nat := (l.takeWhile (fun t => !is_newline t)).length

/-! ## Key decoding -/

/-- Value of `BEL` in the anonymous `enum { BEL = 1, BS, HT, LF, FF, CR, ESC, ... }`. -/
def BEL : Int := 1

/-- Value of `BS` in the anonymous `enum`. -/
def BS : Int := 2

/-- Value of `LF` in the anonymous `enum`. -/
def LF : Int := 4

/-- Value of `FF` in the anonymous `enum`. -/
def FF : Int := 5

/-- Value of `ESC` in the anonymous `enum`. -/
def ESC : Int := 7

/-- Value of `CUU` in the anonymous `enum`. -/
def CUU : Int := 8

/-- Value of `CUD` in the anonymous `enum`. -/
def CUD : Int := 9

/-- Value of `CUF` in the anonymous `enum`. -/
def CUF : Int := 10

/-- Value of `CUB` in the anonymous `enum`. -/
def CUB : Int := 11

/-- Value of `CNL` in the anonymous `enum`. -/
def CNL : Int := 12

/-- Value of `CPL` in the anonymous `enum`. -/
def CPL : Int := 13

/-- Value of `CHA` in the anonymous `enum`. -/
def CHA : Int := 14

/-- Value of `CUP` in the anonymous `enum`. -/
def CUP : Int := 15

/-- Value of `CPR` in the anonymous `enum`. -/
def CPR : Int := 16

/-- Value of `ED` in the anonymous `enum`. -/
def ED : Int := 17

/-- Value of `EL` in the anonymous `enum`. -/
def EL : Int := 18

/-- Value of `DEL` in the anonymous `enum`. -/
def DEL : Int := 19

/-- Value of `PGUP` in the anonymous `enum`. -/
def PGUP : Int := 20

/-- Value of `PGDN` in the anonymous `enum`. -/
def PGDN : Int := 21

/-- Value of `F1` in the anonymous `enum`. -/
def F1 : Int := 22

/-- Value of `F2` in the anonymous `enum`. -/
def F2 : Int := 23

/-- Value of `F3` in the anonymous `enum`. -/
def F3 : Int := 24

/-- Value of `F4` in the anonymous `enum`. -/
def F4 : Int := 25

/-- Value of `F5` in the anonymous `enum`. -/
def F5 : Int := 26

/-- Value of `F6` in the anonymous `enum`. -/
def F6 : Int := 27

/-- Value of `F7` in the anonymous `enum`. -/
def F7 : Int := 28

/-- Value of `F8` in the anonymous `enum`. -/
def F8 : Int := 29

/-- Value of `F9` in the anonymous `enum`. -/
def F9 : Int := 30

/-- Value of `F10` in the anonymous `enum`. -/
def F10 : Int := 31

/-- Value of `F11` in the anonymous `enum`. -/
def F11 : Int := 32

/-- Value of `F12` in the anonymous `enum`. -/
def F12 : Int := 33

/-- Largest value of an `int`. -/
def INT_MAX : Int := 2 ^ 31 - 1

/-- The C operator `!!x` on an `int`. -/
def bang_bang (x : Int) : Int := if x ≠ 0 then 1 else 0

/-- The value of `!!(x & (1 << i))` for an `int` in two's complement: 1 when bit
`i` of `x` is set and 0 when it is not. -/
def int_bit (x : Int) (i : Nat) : Int := (x / 2 ^ i) % 2

/-- The loop `while (*buf && '0' <= *buf && *buf <= '9') { v = v * 10 + (*buf - '0');
found = true; ++buf; }` of `scan_cs`: the value, whether a digit was found, and the
rest of the buffer. The buffer is a list of bytes followed by zeros. An overflow of
the `int`, undefined in C, ends the run with the fault `out_of_bounds`. -/
def scan_digits : List Nat → Int → Bool → Except Fault (Int × Bool × List Nat)
  | [], v, found => .ok (v, found, [])
  | b :: rest, v, found =>
    if b ≠ 0 ∧ 0x30 ≤ b ∧ b ≤ 0x39 then
      if v * 10 + ((b : Int) - 0x30) ≤ INT_MAX then
        scan_digits rest (v * 10 + ((b : Int) - 0x30)) true
      else .error .out_of_bounds
    else .ok (v, found, b :: rest)

/-- The `switch (k.n)` of the final byte `~` in `scan_cs`. -/
def scan_cs_tilde (k : key) : Except Fault key :=
  if k.n = 3 then .ok { k with n := 1, special := DEL }
  else if k.n = 5 then .ok { k with n := 1, special := PGUP }
  else if k.n = 6 then .ok { k with n := 1, special := PGDN }
  else if k.n = 11 then .ok { k with special := F1 }
  else if k.n = 12 then .ok { k with special := F2 }
  else if k.n = 13 then .ok { k with special := F3 }
  else if k.n = 14 then .ok { k with special := F4 }
  else if k.n = 15 then .ok { k with special := F5 }
  else if k.n = 17 then .ok { k with special := F6 }
  else if k.n = 18 then .ok { k with special := F7 }
  else if k.n = 19 then .ok { k with special := F8 }
  else if k.n = 20 then .ok { k with special := F9 }
  else if k.n = 21 then .ok { k with special := F10 }
  else if k.n = 23 then .ok { k with special := F11 }
  else if k.n = 24 then .ok { k with special := F12 }
  else .error .assertion

/-- The `switch (*buf)` of `scan_cs` for the final bytes that fall through to the
modifiers: the key with `special` set. The finals `0xd` and `Z` return at once and
are not handled here. -/
def scan_cs_final (k : key) (b : Nat) : Except Fault key :=
  if b = 0x7e then scan_cs_tilde k
  else if b = 0x41 then .ok { k with special := CUU }
  else if b = 0x42 then .ok { k with special := CUD }
  else if b = 0x43 then .ok { k with special := CUF }
  else if b = 0x44 then .ok { k with special := CUB }
  else if b = 0x45 then .ok { k with special := CNL }
  else if b = 0x46 then .ok { k with special := CPL }
  else if b = 0x47 then .ok { k with special := CHA }
  else if b = 0x48 then .ok { k with special := CUP }
  else if b = 0x4a then .ok { k with special := ED }
  else if b = 0x4b then .ok { k with special := EL }
  else if b = 0x52 then .ok { k with special := CPR }
  else .error .assertion

/-- The end of `scan_cs`: `k.shift = !!((k.m - 1) & 0x1); k.meta = !!((k.m - 1) & 0x2);
k.ctrl = !!((k.m - 1) & 0x4); k.super = !!((k.m - 1) & 0x8); k.n = !!k.n;
k.m = !!k.m;`. -/
def scan_cs_modifiers (k : key) : key :=
  { k with shift := int_bit (k.m - 1) 0,
           meta := int_bit (k.m - 1) 1,
           ctrl := int_bit (k.m - 1) 2,
           super := int_bit (k.m - 1) 3,
           n := bang_bang k.n,
           m := bang_bang k.m }

/-- `struct key scan_cs(uint8_t buf[])` -/
def scan_cs (buf : List Nat) : Except Fault key := do
  let r ← scan_digits buf 0 false
  let n : Int := if r.2.1 then r.1 else 1
  let r2 ←
    if r.2.2.headD 0 = 0x3b then scan_digits r.2.2.tail 0 false
    else pure ((0 : Int), false, r.2.2)
  let m : Int := if r2.2.1 then r2.1 else 1
  let k : key := { key_zero with n := n, m := m }
  let b := r2.2.2.headD 0
  if b = 0 then .error .assertion
  else if b = 0xd then pure { k with meta := 1, special := CR }
  else if b = 0x5a then pure { k with shift := 1, special := HT }
  else do
    let k1 ← scan_cs_final k b
    pure (scan_cs_modifiers k1)

/-- `struct key scan_escape(uint8_t buf[])` -/
def scan_escape (buf : List Nat) : Except Fault key :=
  let b0 := buf.headD 0
  let b1 := buf.tail.headD 0
  if b0 = 0 then .ok { key_zero with special := ESC }
  else if b0 ≤ 0x19 then
    .ok { key_zero with ctrl := 1, meta := 1, u := { utf8_zero with c0 := (0x61 + b0 - 1) % 256 } }
  else if b0 = 0x5b then
    if b1 ≠ 0 then scan_cs buf.tail
    else .ok { key_zero with meta := 1, u := { utf8_zero with c0 := b0 } }
  else if (0x20 ≤ b0 ∧ b0 ≤ 0x5a) ∨ (0x5c ≤ b0 ∧ b0 ≤ 0x7e) then
    if b1 = 0 then .ok { key_zero with meta := 1, u := { utf8_zero with c0 := b0 } }
    else .error .assertion
  else if b0 = 0x7f then .ok { key_zero with meta := 1, special := BS }
  else .error .assertion

/-- `void utf8_char_copy(uint8_t *dest, uint8_t *src)`, with `src` a buffer followed
by zeros. -/
def utf8_char_copy (dest : utf8) (src : List Nat) : utf8 :=
  let d3 : utf8 := if utf8_count (src.getD 0 0) = 4 then { dest with c3 := src.getD 3 0 } else dest
  let d2 : utf8 := if 3 ≤ utf8_count (src.getD 0 0) then { d3 with c2 := src.getD 2 0 } else d3
  let d1 : utf8 := if 2 ≤ utf8_count (src.getD 0 0) then { d2 with c1 := src.getD 1 0 } else d2
  { d1 with c0 := src.getD 0 0 }

/-- `struct key read_key()` for the bytes `inp` that `read` returns (at most 16):
`assert(nread > 0); buf[min(nread, 15)] = 0;` and the `switch (buf[0])`. -/
def read_key (inp : List Nat) : Except Fault key :=
  if inp.length = 0 then .error .assertion
  else
    let buf := inp.take 15
    let b0 := buf.headD 0
    if b0 = 0x00 then .ok { key_zero with ctrl := 1, u := { utf8_zero with c0 := 0x20 } }
    else if b0 = 0x07 then .ok { key_zero with special := BEL }
    else if b0 = 0x08 then .ok { key_zero with special := BS }
    else if b0 = 0x09 then .ok { key_zero with special := HT }
    else if b0 = 0x0a then .ok { key_zero with special := LF }
    else if b0 = 0x0c then .ok { key_zero with special := FF }
    else if b0 = 0x0d then .ok { key_zero with special := CR }
    else if (0x1 ≤ b0 ∧ b0 ≤ 0x6) ∨ b0 = 0xb ∨ (0xe ≤ b0 ∧ b0 ≤ 0x1a) then
      .ok { key_zero with ctrl := 1, u := { utf8_zero with c0 := (0x60 + b0) % 256 } }
    else if b0 = 0x1b then scan_escape buf.tail
    else if 0x20 ≤ b0 ∧ b0 ≤ 0x7e then .ok { key_zero with u := { utf8_zero with c0 := b0 } }
    else if b0 = 0x7f then .ok { key_zero with ctrl := 1, special := BS }
    else .ok { key_zero with u := utf8_char_copy utf8_zero buf }

/-- `const char *process_modifiers(const char *s, struct key *k)`: the rest of the
string and the key. -/
def process_modifiers : List Char → key → List Char × key
  | 'C' :: '-' :: rest, k => process_modifiers rest { k with ctrl := 1 }
  | 'M' :: '-' :: rest, k => process_modifiers rest { k with meta := 1 }
  | 's' :: '-' :: rest, k => process_modifiers rest { k with super := 1 }
  | 'S' :: '-' :: rest, k => process_modifiers rest { k with shift := 1 }
  | s, k => (s, k)

/-- `bool process_special(const char *s, struct key *k)`: `none` for `false`, the key
for `true`. A name of 32 or more characters overruns `buf[32]`. -/
def process_special (s : List Char) (k : key) : Except Fault (Option key) :=
  match s with
  | '<' :: rest =>
    let buf := rest.takeWhile (fun c => c ≠ '>')
    if 32 ≤ buf.length then .error .out_of_bounds
    else if buf = [] then .ok none
    else if buf = ['u', 'p'] then .ok (some { k with special := CUU, n := 1, m := 1 })
    else if buf = ['d', 'o', 'w', 'n'] then .ok (some { k with special := CUD, n := 1, m := 1 })
    else if buf = ['l', 'e', 'f', 't'] then .ok (some { k with special := CUB, n := 1, m := 1 })
    else if buf = ['r', 'i', 'g', 'h', 't'] then
      .ok (some { k with special := CUF, n := 1, m := 1 })
    else if buf = ['r', 'e', 't', 'u', 'r', 'n'] then
      .ok (some { k with special := LF, n := 1, m := 1 })
    else if buf = ['h', 'o', 'm', 'e'] then .ok (some { k with special := CUP, n := 1, m := 1 })
    else if buf = ['e', 'n', 'd'] then .ok (some { k with special := CPL, n := 1, m := 1 })
    else if buf = ['t', 'a', 'b'] then .ok (some { k with special := HT })
    else if buf = ['b', 'a', 'c', 'k', 's', 'p', 'a', 'c', 'e'] then
      .ok (some { k with special := BS })
    else if buf = ['d', 'e', 'l', 'e', 't', 'e'] then
      .ok (some { k with special := DEL, n := 1, m := 1 })
    else if buf = ['p', 'r', 'i', 'o', 'r'] then
      .ok (some { k with special := PGUP, n := 1, m := 1 })
    else if buf = ['n', 'e', 'x', 't'] then .ok (some { k with special := PGDN, n := 1, m := 1 })
    else if buf = ['c', 'r'] then .ok (some { k with special := CR })
    else if buf = ['s', 'p', 'a', 'c', 'e'] then
      .ok (some { k with u := { k.u with c0 := 0x20 } })
    else .ok none
  | _ => .ok none

/-- `struct key kbd(const char *s)` -/
def kbd (s : String) : Except Fault key := do
  let r := process_modifiers s.toList key_zero
  let k := r.2
  match ← process_special r.1 k with
  | some k1 => pure k1
  | none =>
    let c := (r.1.headD (Char.ofNat 0)).toNat
    if k.ctrl ≠ 0 ∧ k.meta = 0 ∧ k.super = 0 ∧ k.shift = 0 ∧ c = 0x67 then
      pure { k with ctrl := 0, special := BEL }
    else if 0x20 ≤ c ∧ c ≤ 0x7e then pure { k with u := { k.u with c0 := c } }
    else .error .assertion

/-- The number that a string of decimal digits denotes. -/
def digits_value (ds : List Nat) : Int :=
  ds.foldl (fun (v : Int) (b : Nat) => v * 10 + ((b : Int) - 0x30)) 0

/-- A parameter of a CSI sequence as the specification reads it: the value of its
digit string, 1 for the empty string. -/
def csi_param (ds : List Nat) : Int := if ds = [] then 1 else digits_value ds

/-- The final letters of a CSI sequence in the specification, each with its key:
the arrows and the navigation keys. -/
def csi_letter_keys : List (Nat × Int) :=
  [(0x41, CUU), (0x42, CUD), (0x43, CUF), (0x44, CUB), (0x45, CNL), (0x46, CPL), (0x47, CHA),
   (0x48, CUP), (0x4a, ED), (0x4b, EL), (0x52, CPR)]

/-- The selectors `n` of the final `~` in the specification, each with its key:
Del = 3, PgUp = 5, PgDn = 6 and F1 ... F12 at 11 ... 15, 17 ... 21, 23, 24. -/
def csi_tilde_keys : List (Int × Int) :=
  [(3, DEL), (5, PGUP), (6, PGDN), (11, F1), (12, F2), (13, F3), (14, F4), (15, F5), (17, F6),
   (18, F7), (19, F8), (20, F9), (21, F10), (23, F11), (24, F12)]

/-! ## The renderer -/

/-- `#define SCREENBUF_SIZE (MAX_NLINES * (MAX_NCOLS + 1) * 4)` -/
def SCREENBUF_SIZE : Nat := 30 * (120 + 1) * 4

/-- `#define CONTINUATION_LINE_STR "\x1b[31m\\\x1b[m"` -/
def CONTINUATION_LINE_STR : List Nat := [0x1b, 0x5b, 0x33, 0x31, 0x6d, 0x5c, 0x1b, 0x5b, 0x6d]

/-- `#define EMPTY_LINE_STR "\x1b[34m~\x1b[m"` -/
def EMPTY_LINE_STR : List Nat := [0x1b, 0x5b, 0x33, 0x34, 0x6d, 0x7e, 0x1b, 0x5b, 0x6d]

/-- `void just_cstring(const char *s)` on the bytes `screenbuf.b[0 .. screenbuf.last)`;
a store past the end of `screenbuf.b` is outside the array. -/
def just_cstring (sb : List Nat) (str : List Nat) : Except Fault (List Nat) :=
  if sb.length + str.length ≤ SCREENBUF_SIZE then .ok (sb ++ str) else .error .out_of_bounds

/-- `void just_utf8(struct utf8 u)` -/
def just_utf8 (sb : List Nat) (u : utf8) : Except Fault (List Nat) :=
  if sb.length + utf8_count u.c0 ≤ SCREENBUF_SIZE then
    .ok (sb ++ (List.range (utf8_count u.c0)).map u.get)
  else .error .out_of_bounds

/-- `void highlight_on()`: `just_cstring("\x1b[7m")`. -/
def highlight_on (sb : List Nat) : Except Fault (List Nat) :=
  just_cstring sb [0x1b, 0x5b, 0x37, 0x6d]

/-- `void highlight_off()`: `just_cstring("\x1b[m")`. -/
def highlight_off (sb : List Nat) : Except Fault (List Nat) :=
  just_cstring sb [0x1b, 0x5b, 0x6d]

/-- The calls `el(); cr(); lf();` that end a visual line: `csi('K', -1, -1)` prints
`"\x1b[K"`, then `"\r"` and `"\n"`. -/
def el_cr_lf (sb : List Nat) : Except Fault (List Nat) := do
  let sb1 ← just_cstring sb [0x1b, 0x5b, 0x4b]
  let sb2 ← just_cstring sb1 [0x0d]
  just_cstring sb2 [0x0a]

/-- The locals of `refresh` and the bytes of `screenbuf`. -/
structure Pen where
  sb : List Nat
  current : Option Nat
  highlight_active : Bool
  col : Nat
  line : Bool
  newline : Bool

/-- The two statements at the head of the inner loop of `refresh` that switch the
highlight on when `current` enters `[low, high)` and off when it is at `high`. -/
def refresh_highlight (s : Ed) (low high : Nat) (p : Pen) (cur : Nat) : Except Fault Pen := do
  let p1 ←
    if s.marks_is_active ∧ p.highlight_active = false ∧ low ≤ index_of s cur ∧
        index_of s cur < high then do
      let sb ← highlight_on p.sb
      pure { p with sb := sb, highlight_active := true }
    else pure p
  if s.marks_is_active ∧ p1.highlight_active = true ∧ index_of s cur = high then do
    let sb ← highlight_off p1.sb
    pure { p1 with sb := sb, highlight_active := false }
  else pure p1

/-- The break of a visual line inside the text: `if (highlight_active)
highlight_off(); just_cstring(CONTINUATION_LINE_STR); el(); cr(); lf(); if
(highlight_active) highlight_on();`. -/
def refresh_break (p : Pen) : Except Fault Pen := do
  let sb1 ← if p.highlight_active then highlight_off p.sb else pure p.sb
  let sb2 ← just_cstring sb1 CONTINUATION_LINE_STR
  let sb3 ← el_cr_lf sb2
  let sb4 ← if p.highlight_active then highlight_on sb3 else pure sb3
  pure { p with sb := sb4 }

/-- The loop `while (col < target) { just_cstring(" "); ++col; }` for `n = target - col`
turns. -/
def pad_loop : Nat → List Nat → Except Fault (List Nat)
  | 0, sb => .ok sb
  | n + 1, sb =>
    match just_cstring sb [0x20] with
    | .error e => .error e
    | .ok sb1 => pad_loop n sb1

/-- The branch `else if (is_tab(*current))` of `refresh` for the tab `t` at `cur`: the
locals after it and whether the inner loop is left by `break`. -/
def refresh_tab (s : Ed) (p : Pen) (cur : Nat) (t : tedchar) : Except Fault (Pen × Bool) := do
  let new_col ← next_col s t p.col
  let p1 : Pen := { p with current := advance s cur }
  if new_col = 0 then
    let sb1 ← pad_loop (s.ncols - p1.col) p1.sb
    let sb2 ← just_cstring sb1 CONTINUATION_LINE_STR
    let sb3 ← el_cr_lf sb2
    pure ({ p1 with sb := sb3, col := max p1.col s.ncols }, true)
  else
    let sb1 ← pad_loop (new_col - p1.col) p1.sb
    pure ({ p1 with sb := sb1, col := max p1.col new_col }, false)

/-- The last branch of the inner loop of `refresh`, for a character `t` at `cur` that
is neither a newline nor a tab. -/
def refresh_char (s : Ed) (p : Pen) (cur : Nat) (t : tedchar) : Except Fault (Pen × Bool) :=
  if ¬ p.col < s.ncols then .error .assertion
  else do
    let sb1 ← just_utf8 p.sb t.u
    let new_col ← next_col s t p.col
    let p1 : Pen := { p with sb := sb1, current := advance s cur }
    if new_col = 0 then
      let p2 ← refresh_break p1
      pure (p2, true)
    else pure ({ p1 with col := new_col }, false)

/-- One turn of the loop `while (current)` of `refresh` with `current` at `cur`: the
locals after it and whether the loop is left by `break`. -/
def refresh_step (s : Ed) (low high : Nat) (p : Pen) (cur : Nat) :
    Except Fault (Pen × Bool) := do
  let p1 ← refresh_highlight s low high p cur
  let p2 : Pen := { p1 with line := true }
  if ¬ p2.col ≤ s.ncols then .error .assertion
  else if p2.col = s.ncols then
    let p3 ← refresh_break p2
    pure (p3, true)
  else
    let t ← deref s (some cur)
    if is_newline t then
      let sb1 ← just_cstring p2.sb [0x20]
      let sb2 ← el_cr_lf sb1
      pure ({ p2 with sb := sb2, newline := true, current := advance s cur }, true)
    else if is_tab t then refresh_tab s p2 cur t
    else refresh_char s p2 cur t

/-- The loop `while (current)` of `refresh`. -/
def refresh_line_loop (s : Ed) (low high : Nat) : Nat → Pen → Except Fault Pen
  | 0, _ => .error .fuel
  | f + 1, p =>
    match p.current with
    | none => .ok p
    | some cur =>
      match refresh_step s low high p cur with
      | .error e => .error e
      | .ok (p1, true) => .ok p1
      | .ok (p1, false) => refresh_line_loop s low high f p1

/-- One turn of the loop `for (size_t lines = 0; lines < ed.nlines; ++lines)` of
`refresh`. A turn of the inner loop that does not break moves `col` to the right, so
`ncols + 2` turns are enough. -/
def refresh_line (s : Ed) (low high : Nat) (p : Pen) : Except Fault Pen := do
  let p1 ← refresh_line_loop s low high (s.ncols + 2)
    { p with col := 0, line := false, newline := false }
  if !p1.line then
    let sb1 ← if p1.highlight_active then highlight_off p1.sb else pure p1.sb
    let sb2 ← just_cstring sb1 EMPTY_LINE_STR
    let sb3 ← el_cr_lf sb2
    let sb4 ← if p1.highlight_active then highlight_on sb3 else pure sb3
    pure { p1 with sb := sb4 }
  else if !p1.newline && p1.current.isNone then
    let sb1 ← el_cr_lf p1.sb
    pure { p1 with sb := sb1 }
  else pure p1

/-- The loop `for (size_t lines = 0; lines < ed.nlines; ++lines)` of `refresh` with
`n` turns left. -/
def refresh_lines (s : Ed) (low high : Nat) : Nat → Pen → Except Fault Pen
  | 0, p => .ok p
  | n + 1, p =>
    match refresh_line s low high p with
    | .error e => .error e
    | .ok p1 => refresh_lines s low high n p1

/-- `void refresh()`: the bytes composed in `screenbuf` that `screenbuf_draw` writes to
the terminal at `ed.screen_begin`. -/
def refresh (s : Ed) : Except Fault (List Nat) := do
  let lh : Nat × Nat := if s.marks_is_active then point_mark_low_high s else (0, 0)
  let p ← refresh_lines s lh.1 lh.2 s.nlines
    { sb := [], current := s.tl, highlight_active := false, col := 0, line := false,
      newline := false }
  pure p.sb

/-! ## Words -/

/-- The number of leading characters of `l` that satisfy `pred`. -/
def run_len (pred : tedchar → Bool) (l : List tedchar) : Nat := (l.takeWhile pred).length

/-! ## The mark ring -/

/-- The state after `do_push_mark(w)` for the offsets `w` of `ws` in turn. -/
def push_marks (ws : List Nat) (s : Ed) : Ed := ws.foldl (fun a w => do_push_mark w a) s

/-! ## The dirty flag along commands -/

/-- The program points from which no character is inserted or deleted and the buffer is
not saved: the motion, mark, scroll and search commands, their loops, and the commands
that only set a flag. The others are the insertions, the deletions, `kill_region`,
`yank`, saving and quitting. -/
def Proc.quiet : Proc → Bool
  | .do_insert_char _ => false
  | .insert_char => false
  | .insert_char_loop _ _ => false
  | .open_line => false
  | .open_line_loop _ => false
  | .open_next_line => false
  | .open_next_line_loop _ => false
  | .open_previous_line => false
  | .open_previous_line_loop _ => false
  | .delete_char => false
  | .delete_char_loop _ => false
  | .delete_region => false
  | .delete_region_loop _ => false
  | .delete_backward_char => false
  | .delete_backward_char_loop _ => false
  | .delete_forward_char => false
  | .maybe_insert_trailing_newline => false
  | .save_buffer _ => false
  | .kill_region => false
  | .kill_region_loop _ => false
  | .yank => false
  | .yank_loop _ => false
  | .yank_for _ _ => false
  | .quit _ => false
  | .unbound_text_key _ => false
  | _ => true

/-- Every program point but the `save_buffer` that reaches `ed.is_dirty = false`. -/
def Proc.nosave : Proc → Bool
  | .save_buffer true => false
  | _ => true

/-- The logical character sequence as a function of the array and the gap. -/
def content_of (buf : Nat → tedchar) (gs ge : Nat) : List tedchar :=
  (List.range (gs + (BUFSIZE - ge))).map
    (fun i => if i < gs then buf i else buf (ge + (i - gs)))

/-- `KeepC none l` says that the dirty flag is set or the content is `l`;
`KeepC (some d) l` says that the content is `l` and the dirty flag is `d`. -/
def KeepC (m : Option Bool) (l : List tedchar) (buf : Nat → tedchar) (gs ge : Nat)
    (dirty : Bool) : Prop :=
  match m with
  | none => dirty = true ∨ content_of buf gs ge = l
  | some d => content_of buf gs ge = l ∧ dirty = d

/-- `KeepC` of the array, the gap and the dirty flag of a state. -/
def Keep (m : Option Bool) (l : List tedchar) (s : Ed) : Prop :=
  KeepC m l s.buffer s.gap_start s.gap_end s.is_dirty

/-- Which program points keep which form of `Keep`: all but a successful save keep
`Keep none`, the quiet ones keep `Keep (some d)`. -/
def allowed (m : Option Bool) (p : Proc) : Bool :=
  match m with
  | none => p.nosave
  | some _ => p.quiet

/-- The contract of a run from `p` that takes `s` to `s1`, for the dirty flag. -/
def Kept (p : Proc) (s s1 : Ed) : Prop :=
  Inv s → Guard p s → ∀ m l, allowed m p = true → Keep m l s → Keep m l s1

/-! ## Saving: the modification times -/

/-- `struct timespec`: seconds and nanoseconds. -/
structure timespec where
  tv_sec : Int
  tv_nsec : Int

/-- `bool timespec_lt(struct timespec a, struct timespec b)` -/
def timespec_lt (a b : timespec) : Bool :=
  decide (a.tv_sec < b.tv_sec) || decide (a.tv_nsec < b.tv_nsec)

/-- The test `if (timespec_lt(ed.mtime, st.st_mtim))` of `save_buffer`: whether the
save stops with "File has been modified", for the recorded time `mtime` and the time
`st_mtim` of the file on disk. -/
def save_conflict (mtime st_mtim : timespec) : Bool := timespec_lt mtime st_mtim

/-- The order of the specification: `a` is strictly earlier than `b` in the
lexicographic order on seconds, then nanoseconds. -/
def timespec_earlier (a b : timespec) : Prop :=
  a.tv_sec < b.tv_sec ∨ (a.tv_sec = b.tv_sec ∧ a.tv_nsec < b.tv_nsec)

instance (a b : timespec) : Decidable (timespec_earlier a b) := by
  unfold timespec_earlier; infer_instance

/-! ## The line terminators of the screen buffer -/

/-- The number of places where the bytes CR LF stand in the screen buffer. -/
def crlf_count : List Nat → Nat
  | 0x0d :: 0x0a :: rest => crlf_count rest + 1
  | _ :: rest => crlf_count rest
  | [] => 0

/-- The file of 25 letters `a`, a tab and `b`. -/
def tab_file : List Nat := List.replicate 25 0x61 ++ [9, 0x62]

/-- The file of 30 letters `a` and `b`. -/
def wrap_file : List Nat := List.replicate 30 0x61 ++ [0x62]

/-- The keys `C-SPC M->`: set the mark, move to the end of the buffer. -/
def keys_mark_all : List (Option Nat × key × Cmd) :=
  [(none, key_zero, .set_mark), (none, key_zero, .end_of_buffer)]

/-! ## The literals of the global keymap -/

/-- The key literals of `global_keymap[]`, in the order of the table. -/
def global_keymap_literals : List String :=
  ["C-<space>", "C-a", "C-b", "C-d", "C-e", "C-f", "C-n", "C-o", "C-p", "C-q", "C-r", "C-s",
   "C-v", "C-w", "C-x", "C-y", "C-z", "C-<down>", "C-<left>", "C-<right>", "C-<up>", "M-O",
   "M-a", "M-b", "M-e", "M-f", "M-g", "M-o", "M-v", "M-w", "M-%", "M-<", "M->", "S-<down>",
   "S-<left>", "S-<right>", "S-<up>", "C-M-b", "C-M-f", "C-S-<down>", "C-S-<left>",
   "C-S-<right>", "C-S-<up>", "<backspace>", "<delete>", "<down>", "<end>", "<home>", "<left>",
   "<next>", "<prior>", "<right>", "<up>"]

/-- The bytes a terminal sends for an arrow or navigation key with the final letter
`final`, in the convention the specification names: `ESC [ final` without modifier,
`ESC [ 1 ; m final` with `m - 1` the modifier mask `mask` (shift 1, meta 2, ctrl 4,
super 8), `m` being a single digit. -/
def csi_letter_sequence (mask final : Nat) : List Nat :=
  if mask = 0 then [0x1b, 0x5b, final] else [0x1b, 0x5b, 0x31, 0x3b, 0x30 + (mask + 1), final]

/-- The bytes a terminal sends for the key with the selector `n` (a single digit) and the
final `~`: `ESC [ n ~`. -/
def csi_tilde_sequence (n : Nat) : List Nat := [0x1b, 0x5b, 0x30 + n, 0x7e]

/-- The arrow and navigation literals of `global_keymap[]`, each with the bytes of its
key: up, down, right, left are the finals `A`, `B`, `C`, `D`, end and home are `F` and
`H`, delete, prior and next are the selectors 3, 5 and 6. -/
def keymap_sequences : List (String × List Nat) :=
  [("C-<down>", csi_letter_sequence 4 0x42), ("C-<left>", csi_letter_sequence 4 0x44),
   ("C-<right>", csi_letter_sequence 4 0x43), ("C-<up>", csi_letter_sequence 4 0x41),
   ("S-<down>", csi_letter_sequence 1 0x42), ("S-<left>", csi_letter_sequence 1 0x44),
   ("S-<right>", csi_letter_sequence 1 0x43), ("S-<up>", csi_letter_sequence 1 0x41),
   ("C-S-<down>", csi_letter_sequence 5 0x42), ("C-S-<left>", csi_letter_sequence 5 0x44),
   ("C-S-<right>", csi_letter_sequence 5 0x43), ("C-S-<up>", csi_letter_sequence 5 0x41),
   ("<delete>", csi_tilde_sequence 3), ("<down>", csi_letter_sequence 0 0x42),
   ("<end>", csi_letter_sequence 0 0x46), ("<home>", csi_letter_sequence 0 0x48),
   ("<left>", csi_letter_sequence 0 0x44), ("<next>", csi_tilde_sequence 6),
   ("<prior>", csi_tilde_sequence 5), ("<right>", csi_letter_sequence 0 0x43),
   ("<up>", csi_letter_sequence 0 0x41)]

/-- The name between angle brackets in a literal, empty when there is none. -/
def bracket_name (l : String) : List Char :=
  ((l.toList.dropWhile (fun c => c ≠ '<')).drop 1).takeWhile (fun c => c ≠ '>')

/-- Whether the literal names a key in angle brackets other than `<space>` and
`<backspace>`, which are no CSI keys. -/
def is_navigation_literal (l : String) : Bool :=
  bracket_name l ≠ [] && bracket_name l ≠ ['s', 'p', 'a', 'c', 'e'] &&
    bracket_name l ≠ ['b', 'a', 'c', 'k', 's', 'p', 'a', 'c', 'e']

/-- Whether the key read from the bytes `seq` is `key_eq` to `kbd(lit)`. -/
def decodes_to (lit : String) (seq : List Nat) : Except Fault Bool := do
  let k ← read_key seq
  let k1 ← kbd lit
  pure (key_eq k k1)

/-- Whether `kbd(a)` and `kbd(b)` are `key_eq`. -/
def same_key (a b : String) : Except Fault Bool := do
  let ka ← kbd a
  let kb ← kbd b
  pure (key_eq ka kb)

/-! ## The goal column along the vertical motions -/

/-- What a run from a program point guarantees for the goal column: `next_row`,
`previous_row`, `scroll_up`, `scroll_down` and their loops end with the goal column
they start with, and the `while (1)` loops of `next_row` and `previous_row` end with
the saved goal column. -/
@[reducible] def GoalKept (p : Proc) (s s1 : Ed) : Prop :=
  match p with
  | .next_row => s1.goal_col = s.goal_col
  | .next_row_loop _ => s1.goal_col = s.goal_col
  | .next_row_goal _ g => s1.goal_col = g
  | .previous_row => s1.goal_col = s.goal_col
  | .previous_row_loop _ => s1.goal_col = s.goal_col
  | .previous_row_goal _ g => s1.goal_col = g
  | .scroll_up => s1.goal_col = s.goal_col
  | .scroll_up_loop _ => s1.goal_col = s.goal_col
  | .scroll_down => s1.goal_col = s.goal_col
  | .scroll_down_loop _ => s1.goal_col = s.goal_col
  | _ => True

/-- The motion commands of the specification: the character, word, paragraph, row, line
and buffer motions, `goto_line`, `goto_percent`, the page and scroll commands and
`exchange_point_and_mark`. -/
def Cmd.is_motion : Cmd → Bool
  | .forward_char => true
  | .backward_char => true
  | .forward_word => true
  | .backward_word => true
  | .forward_paragraph => true
  | .backward_paragraph => true
  | .next_row => true
  | .previous_row => true
  | .beginning_of_row => true
  | .end_of_row => true
  | .beginning_of_line => true
  | .end_of_line => true
  | .beginning_of_buffer => true
  | .end_of_buffer => true
  | .goto_line => true
  | .goto_percent => true
  | .page_up => true
  | .page_down => true
  | .scroll_up => true
  | .scroll_down => true
  | .exchange_point_and_mark => true
  | _ => false

/-- The local `t` of `insert_char` for the key `k`: a newline for `<cr>`, a tab for
`<tab>`, else the character of the key. -/
def insert_char_arg (k : key) : tedchar :=
  if key_eq k kbd_cr then tedchar_newline
  else if key_eq k kbd_tab then tedchar_utf8 (utf8_ascii 9)
  else tedchar_utf8 k.u

/-- The condition of the specification under which a save appends a newline:
`ensure_trailing_newline` holds and the buffer is not empty and does not end in a
newline. -/
def lacks_trailing_newline (s : Ed) : Bool :=
  s.ensure_trailing_newline && !is_buffer_empty s &&
    !is_newline (cell s (buffer_size s - 1))

/-! ## The search results along the motions -/

/-- The fields `ed.search`: the offsets, their number and the current index. -/
def search_of (s : Ed) : (Nat → Nat) × Nat × Nat :=
  (s.search_results, s.search_last, s.search_current)

/-- The program points that `move_to` runs through: the character and row motions, the
scroll commands and their loops. -/
def Proc.moves : Proc → Bool
  | .move_to _ => true
  | .move_to_loop _ => true
  | .beginning_of_buffer => true
  | .forward_char => true
  | .forward_char_loop _ => true
  | .backward_char => true
  | .backward_char_loop _ => true
  | .scroll_up => true
  | .scroll_up_loop _ => true
  | .scroll_down => true
  | .scroll_down_loop _ => true
  | .next_row => true
  | .next_row_loop _ => true
  | .next_row_goal _ _ => true
  | .previous_row => true
  | .previous_row_loop _ => true
  | .previous_row_goal _ _ => true
  | .end_of_row => true
  | .beginning_of_row => true
  | _ => false

/-- The contract of a run from `p` that takes `s` to `s1`, for the search results. -/
def SearchKept (p : Proc) (s s1 : Ed) : Prop := p.moves = true → search_of s1 = search_of s

/-- The calls of a save on a full disk: the write fails, the other calls succeed and
the file on disk is not newer. -/
def SaveCalls.disk_full : SaveCalls :=
  { open_ok := true, write_ok := false, close_ok := true, disk_newer := false,
    rename_ok := true }

/-! ## A save with a pending prefix argument -/

/-- The fault that a run ends in, `none` when it returns. -/
def fault_of {α : Type} (r : Except Fault α) : Option Fault :=
  match r with
  | .ok _ => none
  | .error e => some e

/-- The options `-r 5`: a window of five rows, the other options at their defaults. -/
def Config.five_rows : Config := { Config.default with nlines := 5 }

/-- The file `a\nb\nc\nd\ne\nf`: six lines of one letter, the last one without
newline. -/
def six_lines : List Nat := [0x61, 10, 0x62, 10, 0x63, 10, 0x64, 10, 0x65, 10, 0x66]

/-- The keys `M-> C-u 5 C-x C-s`: go to the end of the buffer, then save with the
prefix argument 5. -/
def keys_count_save : List (Option Nat × key × Cmd) :=
  [(none, key_zero, .end_of_buffer), (some 5, key_zero, .save_buffer true)]

/-- The keys `M-> C-u 5 C-x C-s M-v M-v C-b C-f C-d M-v M-v M-v C-u 5 C-x C-s`. After
the first save the cursor is at row 0, column 0 with the point behind the letter `f`;
`M-v M-v C-b` leave the cursor row one less than the rows between `tl` and the point,
`C-f C-d` delete the newline that the save appended, three `M-v` bring the cursor to
the last row of the window, and the second save scrolls with the count 5 again: on the
six-line file of `six_lines` it ends with `cursor_row = 2^64 - 1`. -/
def keys_wrap_row : List (Option Nat × key × Cmd) :=
  keys_count_save ++
    [(none, key_zero, .scroll_down), (none, key_zero, .scroll_down),
     (none, key_zero, .backward_char), (none, key_zero, .forward_char),
     (none, key_zero, .delete_char), (none, key_zero, .scroll_down),
     (none, key_zero, .scroll_down), (none, key_zero, .scroll_down),
     (some 5, key_zero, .save_buffer true)]

/-- The keys of `keys_wrap_row` followed by `C-b M-v C-p C-v M-v`: on `six_lines` the
point is at index 8, `tl` is `gap_end` and `cursor_row = 2^64 - 2`. -/
def keys_anchor_at_point : List (Option Nat × key × Cmd) :=
  keys_wrap_row ++
    [(none, key_zero, .backward_char), (none, key_zero, .scroll_down),
     (none, key_zero, .previous_row), (none, key_zero, .scroll_up),
     (none, key_zero, .scroll_down)]

/-- The keys of `keys_anchor_at_point` followed by `M->`: on `six_lines` the four steps
to the end of the buffer leave `tl` four slots below `gap_end`, inside the gap, and
bring the cursor to row 0, column 0. -/
def keys_stale_anchor : List (Option Nat × key × Cmd) :=
  keys_anchor_at_point ++ [(none, key_zero, .end_of_buffer)]

/-- The keys of `keys_wrap_row` followed by `C-d C-b M-v C-p C-v M-v`: as
`keys_anchor_at_point`, with the newline of the second save deleted first. -/
def keys_before_save : List (Option Nat × key × Cmd) :=
  keys_wrap_row ++
    [(none, key_zero, .delete_char), (none, key_zero, .backward_char),
     (none, key_zero, .scroll_down), (none, key_zero, .previous_row),
     (none, key_zero, .scroll_up), (none, key_zero, .scroll_down)]

/-- The keys of `keys_anchor_at_point` followed by `C-f C-f C-f`: on `six_lines` the
point is before the last newline and `cursor_row = 2^64 - 1`. -/
def keys_before_word : List (Option Nat × key × Cmd) :=
  keys_anchor_at_point ++
    [(none, key_zero, .forward_char), (none, key_zero, .forward_char),
     (none, key_zero, .forward_char)]

/-- The keys of `keys_anchor_at_point` followed by `C-SPC M->`. -/
def keys_region : List (Option Nat × key × Cmd) :=
  keys_anchor_at_point ++ [(none, key_zero, .set_mark), (none, key_zero, .end_of_buffer)]

/-- The keys of `keys_stale_anchor` followed by `C-SPC`. -/
def keys_mark_at_point : List (Option Nat × key × Cmd) :=
  keys_stale_anchor ++ [(none, key_zero, .set_mark)]

/-! # Theorems -/

/-! ## The load decoder -/

theorem utf8_count_pos (b : Nat) : 1 ≤ utf8_count b := by
  unfold utf8_count; split_ifs <;> omega

theorem utf8_count_le (b : Nat) : utf8_count b ≤ 4 := by
  unfold utf8_count; split_ifs <;> omega

theorem utf8_fill_congr (l1 l2 : List Nat) (j1 j2 k : Nat) (u : utf8)
    (h : ∀ x, x < k → l1.getD (j1 + x) 0 = l2.getD (j2 + x) 0) :
    utf8_fill l1 j1 k u = utf8_fill l2 j2 k u := by
  unfold utf8_fill
  induction k with
  | zero => rfl
  | succ k ih =>
    rw [List.range_succ, List.foldl_append, List.foldl_append, ih (fun x hx => h x (by omega))]
    simp only [List.foldl_cons, List.foldl_nil]
    rw [h k (by omega)]

theorem getD_append_shift (pre rest : List Nat) (x : Nat) :
    (pre ++ rest).getD (pre.length + x) 0 = rest.getD x 0 := by
  rw [List.getD_append_right _ _ _ _ (by omega)]; simp

theorem getD_append_low (pre rest : List Nat) (x : Nat) (h : x < pre.length) :
    (pre ++ rest).getD x 0 = pre.getD x 0 :=
  List.getD_append _ _ _ _ h

theorem body_shift (ft : Filetype) (n : Nat) (pre rest : List Nat) (dest : Nat → tedchar)
    (i j : Nat) :
    tedchar_from_bytes_body ft n (pre ++ rest) dest i (pre.length + j) =
      (tedchar_from_bytes_body ft n rest dest i j).map
        (fun r => (r.1, r.2.1, pre.length + r.2.2)) := by
  have hk := utf8_count_pos (rest.getD j 0)
  have h1 := getD_append_shift pre rest j
  have h2 := getD_append_shift pre rest (j + 1)
  rw [← Nat.add_assoc] at h2
  have h3 : ∀ k u, utf8_fill (pre ++ rest) (pre.length + j) k u = utf8_fill rest j k u := by
    intro k u
    apply utf8_fill_congr
    intro x _
    rw [Nat.add_assoc]; exact getD_append_shift pre rest (j + x)
  unfold tedchar_from_bytes_body
  simp only [h1, h2, h3, List.length_append]
  split_ifs <;> first | rfl | omega | (simp [Except.map]; try omega)

theorem body_facts (ft : Filetype) (n : Nat) (src : List Nat) (dest d1 : Nat → tedchar)
    (i j i1 j1 : Nat) (h : tedchar_from_bytes_body ft n src dest i j = .ok (d1, i1, j1)) :
    j < j1 ∧ (j < src.length → j1 ≤ src.length) ∧ i1 = i + 1 ∧
      d1 = Function.update dest i (d1 i) := by
  have hk := utf8_count_pos (src.getD j 0)
  unfold tedchar_from_bytes_body at h
  split_ifs at h <;> simp only [Except.ok.injEq, Prod.mk.injEq, reduceCtorEq] at h
  all_goals
    obtain ⟨hd, hi, hj⟩ := h
    subst hd hi hj
    refine ⟨by omega, by omega, rfl, ?_⟩
    simp only [Function.update_same, Function.update_idem]

theorem body_extend (ft : Filetype) (n : Nat) (pre rest : List Nat) (dest : Nat → tedchar)
    (i j : Nat) (r : (Nat → tedchar) × Nat × Nat) (hj : j < pre.length)
    (h : tedchar_from_bytes_body ft n pre dest i j = .ok r) :
    tedchar_from_bytes_body ft n (pre ++ rest) dest i j = .ok r := by
  have hk := utf8_count_pos (pre.getD j 0)
  have h1 := getD_append_low pre rest j hj
  unfold tedchar_from_bytes_body at h ⊢
  simp only [h1, List.length_append]
  split_ifs at h with c1 c2 c4 c6 c7 c8
  · have h2 := getD_append_low pre rest (j + 1) c2.1
    rw [h2, if_pos c1, if_pos ⟨by omega, c2.2⟩]; exact h
  · rw [if_neg c1, if_pos c4]; exact h
  · have h3 : utf8_fill (pre ++ rest) j (utf8_count (pre.getD j 0)) (dest i).u =
        utf8_fill pre j (utf8_count (pre.getD j 0)) (dest i).u := by
      apply utf8_fill_congr
      intro x hx
      exact getD_append_low pre rest (j + x) (by omega)
    rw [if_neg c1, if_neg c4]
    simp only [h3]
    rw [if_neg (by omega), if_neg c7, if_pos c8]; exact h

theorem body_corr (ft : Filetype) (n : Nat) (src : List Nat) (dest1 dest2 d2 : Nat → tedchar)
    (a b b1 j j1 : Nat) (hab : dest1 a = dest2 b) (ha : a < n)
    (h : tedchar_from_bytes_body ft n src dest2 b j = .ok (d2, b1, j1)) :
    tedchar_from_bytes_body ft n src dest1 a j =
      .ok (Function.update dest1 a (d2 b), a + 1, j1) := by
  unfold tedchar_from_bytes_body at h ⊢
  rw [hab]
  split_ifs at h ⊢ <;> simp only [Except.ok.injEq, Prod.mk.injEq, reduceCtorEq] at h
  all_goals
    obtain ⟨hd, hi, hj⟩ := h
    subst hd hi hj
    simp only [Function.update_same]

theorem body_corr_ok (ft : Filetype) (n : Nat) (src : List Nat) (dest1 dest2 d2 : Nat → tedchar)
    (a b b1 j j1 : Nat) (r : (Nat → tedchar) × Nat × Nat) (hab : dest1 a = dest2 b)
    (h : tedchar_from_bytes_body ft n src dest2 b j = .ok (d2, b1, j1))
    (h1 : tedchar_from_bytes_body ft n src dest1 a j = .ok r) :
    r = (Function.update dest1 a (d2 b), a + 1, j1) := by
  unfold tedchar_from_bytes_body at h h1
  rw [hab] at h1
  split_ifs at h h1 <;> simp only [Except.ok.injEq, Prod.mk.injEq, reduceCtorEq] at h h1
  all_goals
    obtain ⟨hd, hi, hj⟩ := h
    subst hd hi hj
    rw [← h1]
    simp only [Function.update_same]

theorem body_corr_err (ft : Filetype) (n : Nat) (src : List Nat) (dest1 dest2 : Nat → tedchar)
    (a b j : Nat) (e : Fault) (hba : b ≤ a)
    (h : tedchar_from_bytes_body ft n src dest2 b j = .error e) :
    ∃ e1, tedchar_from_bytes_body ft n src dest1 a j = .error e1 := by
  unfold tedchar_from_bytes_body at h ⊢
  split_ifs at h ⊢ <;> first | exact ⟨_, rfl⟩ | omega

theorem loop_shift (ft : Filetype) (n : Nat) (pre rest : List Nat) :
    ∀ (f : Nat) (dest : Nat → tedchar) (i j : Nat),
      tedchar_from_bytes_loop ft n (pre ++ rest) f dest i (pre.length + j) =
        tedchar_from_bytes_loop ft n rest f dest i j := by
  intro f
  induction f with
  | zero =>
    intro dest i j
    simp only [tedchar_from_bytes_loop, List.length_append, Nat.add_lt_add_iff_left]
  | succ f ih =>
    intro dest i j
    simp only [tedchar_from_bytes_loop, List.length_append, Nat.add_lt_add_iff_left, body_shift]
    split_ifs with hj
    · cases hb : tedchar_from_bytes_body ft n rest dest i j with
      | error e => simp [Except.map]
      | ok r =>
        obtain ⟨d1, i1, j1⟩ := r
        simp only [Except.map]
        exact ih d1 i1 j1
    · rfl

theorem loop_fuel_irrel (ft : Filetype) (n : Nat) (src : List Nat) :
    ∀ (f1 f2 : Nat) (dest : Nat → tedchar) (i j : Nat),
      src.length - j ≤ f1 → src.length - j ≤ f2 →
      tedchar_from_bytes_loop ft n src f1 dest i j =
        tedchar_from_bytes_loop ft n src f2 dest i j := by
  intro f1
  induction f1 with
  | zero =>
    intro f2 dest i j h1 _
    have hj : ¬ j < src.length := by omega
    cases f2 <;> simp only [tedchar_from_bytes_loop, if_neg hj]
  | succ f1 ih =>
    intro f2 dest i j h1 h2
    by_cases hj : j < src.length
    · cases f2 with
      | zero => omega
      | succ f2 =>
        simp only [tedchar_from_bytes_loop, if_pos hj]
        cases hb : tedchar_from_bytes_body ft n src dest i j with
        | error e => rfl
        | ok r =>
          obtain ⟨d1, i1, j1⟩ := r
          have hf := body_facts ft n src dest d1 i j i1 j1 hb
          exact ih f2 d1 i1 j1 (by omega) (by omega)
    · cases f2 <;> simp only [tedchar_from_bytes_loop, if_neg hj]

theorem loop_extend (ft : Filetype) (n : Nat) (pre rest : List Nat) :
    ∀ (f : Nat) (dest d1 : Nat → tedchar) (i j i1 : Nat), j ≤ pre.length →
      tedchar_from_bytes_loop ft n pre f dest i j = .ok (d1, i1) →
      ∀ g, rest.length ≤ g →
        tedchar_from_bytes_loop ft n (pre ++ rest) (f + g) dest i j =
          tedchar_from_bytes_loop ft n rest g d1 i1 0 := by
  intro f
  induction f with
  | zero =>
    intro dest d1 i j i1 hj h g hg
    simp only [tedchar_from_bytes_loop] at h
    split_ifs at h with c
    simp only [Except.ok.injEq, Prod.mk.injEq] at h
    obtain ⟨h1, h2⟩ := h
    subst h1 h2
    have hjj : j = pre.length + 0 := by omega
    rw [hjj, loop_shift, Nat.zero_add]
  | succ f ih =>
    intro dest d1 i j i1 hj h g hg
    by_cases c : j < pre.length
    · simp only [tedchar_from_bytes_loop, if_pos c] at h
      have e1 : f + 1 + g = (f + g) + 1 := by omega
      have c2 : j < (pre ++ rest).length := by rw [List.length_append]; omega
      rw [e1]
      simp only [tedchar_from_bytes_loop, if_pos c2]
      cases hb : tedchar_from_bytes_body ft n pre dest i j with
      | error e => rw [hb] at h; cases h
      | ok r =>
        obtain ⟨d2, i2, j2⟩ := r
        rw [hb] at h
        rw [body_extend ft n pre rest dest i j _ c hb]
        have hf := body_facts ft n pre dest d2 i j i2 j2 hb
        exact ih d2 d1 i2 j2 i1 (hf.2.1 c) h g hg
    · simp only [tedchar_from_bytes_loop, if_neg c] at h
      simp only [Except.ok.injEq, Prod.mk.injEq] at h
      obtain ⟨h1, h2⟩ := h
      subst h1 h2
      have hjj : j = pre.length + 0 := by omega
      rw [hjj, loop_shift]
      exact loop_fuel_irrel ft n rest _ _ dest i 0 (by omega) (by omega)

theorem loop_frame (ft : Filetype) (n : Nat) (src : List Nat) :
    ∀ (f : Nat) (dest d1 : Nat → tedchar) (i j i1 : Nat),
      tedchar_from_bytes_loop ft n src f dest i j = .ok (d1, i1) →
      i ≤ i1 ∧ (∀ x, x < i → d1 x = dest x) ∧ (∀ x, i1 ≤ x → d1 x = dest x) := by
  intro f
  induction f with
  | zero =>
    intro dest d1 i j i1 h
    simp only [tedchar_from_bytes_loop] at h
    split_ifs at h
    simp only [Except.ok.injEq, Prod.mk.injEq] at h
    obtain ⟨h1, h2⟩ := h
    subst h1 h2
    exact ⟨le_refl _, fun _ _ => rfl, fun _ _ => rfl⟩
  | succ f ih =>
    intro dest d1 i j i1 h
    simp only [tedchar_from_bytes_loop] at h
    split_ifs at h with c
    · cases hb : tedchar_from_bytes_body ft n src dest i j with
      | error e => rw [hb] at h; cases h
      | ok r =>
        obtain ⟨d2, i2, j2⟩ := r
        rw [hb] at h
        have hf := body_facts ft n src dest d2 i j i2 j2 hb
        obtain ⟨k1, k3, k4⟩ := ih d2 d1 i2 j2 i1 h
        obtain ⟨_, _, hi2, hd2⟩ := hf
        subst hi2
        refine ⟨by omega, ?_, ?_⟩
        · intro x hx
          rw [k3 x (by omega), hd2, Function.update_noteq (by omega)]
        · intro x hx
          rw [k4 x hx, hd2, Function.update_noteq (by omega)]
    · simp only [Except.ok.injEq, Prod.mk.injEq] at h
      obtain ⟨h1, h2⟩ := h
      subst h1 h2
      exact ⟨le_refl _, fun _ _ => rfl, fun _ _ => rfl⟩

theorem loop_corr (ft : Filetype) (n : Nat) (src : List Nat) :
    ∀ (f : Nat) (dest1 dest2 d2 : Nat → tedchar) (a b j c : Nat),
      (∀ x, dest1 (a + x) = dest2 (b + x)) →
      tedchar_from_bytes_loop ft n src f dest2 b j = .ok (d2, c) →
      a + (c - b) ≤ n →
      ∃ d1, tedchar_from_bytes_loop ft n src f dest1 a j = .ok (d1, a + (c - b)) ∧
        (∀ x, d1 (a + x) = d2 (b + x)) ∧ (∀ x, x < a → d1 x = dest1 x) := by
  intro f
  induction f with
  | zero =>
    intro dest1 dest2 d2 a b j c hc h _
    simp only [tedchar_from_bytes_loop] at h ⊢
    split_ifs at h ⊢
    simp only [Except.ok.injEq, Prod.mk.injEq] at h
    obtain ⟨h1, h2⟩ := h
    subst h1 h2
    exact ⟨dest1, by simp, hc, fun _ _ => rfl⟩
  | succ f ih =>
    intro dest1 dest2 d2 a b j c hc h hn
    simp only [tedchar_from_bytes_loop] at h ⊢
    split_ifs at h ⊢ with cj
    · cases hb : tedchar_from_bytes_body ft n src dest2 b j with
      | error e => rw [hb] at h; cases h
      | ok r =>
        obtain ⟨d3, b1, j1⟩ := r
        rw [hb] at h
        have hf := body_facts ft n src dest2 d3 b j b1 j1 hb
        obtain ⟨_, _, hb1, hd3⟩ := hf
        subst hb1
        have hfr := loop_frame ft n src f d3 d2 (b + 1) j1 c h
        have han : a < n := by omega
        have h0 := hc 0
        simp only [Nat.add_zero] at h0
        rw [body_corr ft n src dest1 dest2 d3 a b (b + 1) j j1 h0 han hb]
        have hc2 : ∀ x, Function.update dest1 a (d3 b) (a + 1 + x) = d3 (b + 1 + x) := by
          intro x
          rw [Function.update_noteq (by omega), hd3, Function.update_noteq (by omega)]
          have := hc (1 + x)
          rw [← Nat.add_assoc, ← Nat.add_assoc] at this
          exact this
        obtain ⟨d1, k1, k2, k3⟩ :=
          ih (Function.update dest1 a (d3 b)) d3 d2 (a + 1) (b + 1) j1 c hc2 h (by omega)
        have e1 : a + 1 + (c - (b + 1)) = a + (c - b) := by omega
        rw [e1] at k1
        refine ⟨d1, k1, ?_, ?_⟩
        · intro x
          cases x with
          | zero =>
            rw [Nat.add_zero, Nat.add_zero, k3 a (by omega), Function.update_same,
              hfr.2.1 b (by omega)]
          | succ x =>
            have := k2 x
            have e2 : a + (x + 1) = a + 1 + x := by omega
            have e3 : b + (x + 1) = b + 1 + x := by omega
            rw [e2, e3]; exact this
        · intro x hx
          rw [k3 x (by omega), Function.update_noteq (by omega)]
    · simp only [Except.ok.injEq, Prod.mk.injEq] at h
      obtain ⟨h1, h2⟩ := h
      subst h1 h2
      exact ⟨dest1, by simp, hc, fun _ _ => rfl⟩

theorem loop_corr_err (ft : Filetype) (n : Nat) (src : List Nat) :
    ∀ (f : Nat) (dest1 dest2 : Nat → tedchar) (a b j : Nat) (e : Fault),
      (∀ x, dest1 (a + x) = dest2 (b + x)) → b ≤ a →
      tedchar_from_bytes_loop ft n src f dest2 b j = .error e →
      ∃ e1, tedchar_from_bytes_loop ft n src f dest1 a j = .error e1 := by
  intro f
  induction f with
  | zero =>
    intro dest1 dest2 a b j e _ _ h
    simp only [tedchar_from_bytes_loop] at h ⊢
    split_ifs at h ⊢
    exact ⟨_, rfl⟩
  | succ f ih =>
    intro dest1 dest2 a b j e hc hba h
    simp only [tedchar_from_bytes_loop] at h ⊢
    split_ifs at h ⊢ with cj
    cases hb : tedchar_from_bytes_body ft n src dest2 b j with
    | error e2 =>
      obtain ⟨e1, he1⟩ := body_corr_err ft n src dest1 dest2 a b j e2 hba hb
      rw [he1]; exact ⟨_, rfl⟩
    | ok r =>
      obtain ⟨d3, b1, j1⟩ := r
      rw [hb] at h
      have hf := body_facts ft n src dest2 d3 b j b1 j1 hb
      obtain ⟨_, _, hb1, hd3⟩ := hf
      subst hb1
      have h0 := hc 0
      simp only [Nat.add_zero] at h0
      cases hb1 : tedchar_from_bytes_body ft n src dest1 a j with
      | error e2 => exact ⟨_, rfl⟩
      | ok r1 =>
        have hr1 := body_corr_ok ft n src dest1 dest2 d3 a b (b + 1) j j1 r1 h0 hb hb1
        subst hr1
        have hc2 : ∀ x, Function.update dest1 a (d3 b) (a + 1 + x) = d3 (b + 1 + x) := by
          intro x
          rw [Function.update_noteq (by omega), hd3, Function.update_noteq (by omega)]
          have := hc (1 + x)
          rw [← Nat.add_assoc, ← Nat.add_assoc] at this
          exact this
        exact ih (Function.update dest1 a (d3 b)) d3 (a + 1) (b + 1) j1 e hc2 (by omega) h

theorem loop_corr_ok (ft : Filetype) (n : Nat) (src : List Nat) :
    ∀ (f : Nat) (dest1 dest2 d1 d2 : Nat → tedchar) (a b j c c1 : Nat),
      (∀ x, dest1 (a + x) = dest2 (b + x)) →
      tedchar_from_bytes_loop ft n src f dest2 b j = .ok (d2, c) →
      tedchar_from_bytes_loop ft n src f dest1 a j = .ok (d1, c1) →
      c1 = a + (c - b) ∧ (∀ x, d1 (a + x) = d2 (b + x)) ∧ (∀ x, x < a → d1 x = dest1 x) := by
  intro f
  induction f with
  | zero =>
    intro dest1 dest2 d1 d2 a b j c c1 hc h h1
    simp only [tedchar_from_bytes_loop] at h h1
    split_ifs at h h1
    simp only [Except.ok.injEq, Prod.mk.injEq] at h h1
    obtain ⟨e1, e2⟩ := h
    obtain ⟨e3, e4⟩ := h1
    subst e1 e2 e3 e4
    exact ⟨by simp, hc, fun _ _ => rfl⟩
  | succ f ih =>
    intro dest1 dest2 d1 d2 a b j c c1 hc h h1
    simp only [tedchar_from_bytes_loop] at h h1
    split_ifs at h h1 with cj
    · cases hb : tedchar_from_bytes_body ft n src dest2 b j with
      | error e => rw [hb] at h; cases h
      | ok r =>
        obtain ⟨d3, b1, j1⟩ := r
        rw [hb] at h
        have hf := body_facts ft n src dest2 d3 b j b1 j1 hb
        obtain ⟨_, _, hb1, hd3⟩ := hf
        subst hb1
        have hfr := loop_frame ft n src f d3 d2 (b + 1) j1 c h
        have h0 := hc 0
        simp only [Nat.add_zero] at h0
        cases hb1 : tedchar_from_bytes_body ft n src dest1 a j with
        | error e => rw [hb1] at h1; cases h1
        | ok r1 =>
          rw [hb1] at h1
          have hr1 := body_corr_ok ft n src dest1 dest2 d3 a b (b + 1) j j1 r1 h0 hb hb1
          subst hr1
          have hc2 : ∀ x, Function.update dest1 a (d3 b) (a + 1 + x) = d3 (b + 1 + x) := by
            intro x
            rw [Function.update_noteq (by omega), hd3, Function.update_noteq (by omega)]
            have := hc (1 + x)
            rw [← Nat.add_assoc, ← Nat.add_assoc] at this
            exact this
          obtain ⟨k1, k2, k3⟩ :=
            ih (Function.update dest1 a (d3 b)) d3 d1 d2 (a + 1) (b + 1) j1 c c1 hc2 h h1
          refine ⟨by omega, ?_, ?_⟩
          · intro x
            cases x with
            | zero =>
              rw [Nat.add_zero, Nat.add_zero, k3 a (by omega), Function.update_same,
                hfr.2.1 b (by omega)]
            | succ x =>
              have := k2 x
              have e2 : a + (x + 1) = a + 1 + x := by omega
              have e3 : b + (x + 1) = b + 1 + x := by omega
              rw [e2, e3]; exact this
          · intro x hx
            rw [k3 x (by omega), Function.update_noteq (by omega)]
    · simp only [Except.ok.injEq, Prod.mk.injEq] at h h1
      obtain ⟨e1, e2⟩ := h
      obtain ⟨e3, e4⟩ := h1
      subst e1 e2 e3 e4
      exact ⟨by simp, hc, fun _ _ => rfl⟩

/-- The decoder never runs out of its `src.length` turns. -/
theorem loop_no_fuel (ft : Filetype) (n : Nat) (src : List Nat) :
    ∀ (f : Nat) (dest : Nat → tedchar) (i j : Nat), src.length - j ≤ f →
      tedchar_from_bytes_loop ft n src f dest i j ≠ .error .fuel := by
  intro f
  induction f with
  | zero =>
    intro dest i j hf
    simp only [tedchar_from_bytes_loop]
    rw [if_neg (by omega)]
    intro h; cases h
  | succ f ih =>
    intro dest i j hf
    simp only [tedchar_from_bytes_loop]
    split_ifs with cj
    · cases hb : tedchar_from_bytes_body ft n src dest i j with
      | error e =>
        intro h
        simp only [Except.error.injEq] at h
        subst h
        unfold tedchar_from_bytes_body at hb
        split_ifs at hb <;> cases hb
      | ok r =>
        obtain ⟨d1, i1, j1⟩ := r
        have hfa := body_facts ft n src dest d1 i j i1 j1 hb
        exact ih d1 i1 j1 (by omega)
    · intro h; cases h

theorem decoded_length (r : (Nat → tedchar) × Nat) : (decoded r).length = r.2 := by
  simp [decoded]

theorem load_chars_ok_iff (ft : Filetype) (src : List Nat) (cs : List tedchar) :
    load_chars ft src = .ok cs ↔
      ∃ d i, tedchar_from_bytes ft buffer_zero BUFSIZE src = .ok (d, i) ∧ cs = decoded (d, i) := by
  unfold load_chars
  cases h : tedchar_from_bytes ft buffer_zero BUFSIZE src with
  | error e => simp [Except.map]
  | ok r =>
    obtain ⟨d, i⟩ := r
    simp only [Except.map, Except.ok.injEq, Prod.mk.injEq]
    constructor
    · intro h1; exact ⟨d, i, ⟨rfl, rfl⟩, h1.symm⟩
    · rintro ⟨d1, i1, ⟨h1, h2⟩, h3⟩; subst h1 h2; exact h3.symm

theorem load_chars_err_iff (ft : Filetype) (src : List Nat) (e : Fault) :
    load_chars ft src = .error e ↔ tedchar_from_bytes ft buffer_zero BUFSIZE src = .error e := by
  unfold load_chars
  cases h : tedchar_from_bytes ft buffer_zero BUFSIZE src with
  | error e => simp [Except.map]
  | ok r => simp [Except.map]

theorem decoded_append (d d1 d2 : Nat → tedchar) (i1 i2 : Nat)
    (m3 : ∀ x, x < i1 → d x = d1 x) (m2 : ∀ x, d (i1 + x) = d2 (0 + x)) :
    decoded (d, i1 + i2) = decoded (d1, i1) ++ decoded (d2, i2) := by
  simp only [decoded, List.range_add, List.map_append, List.map_map]
  congr 1
  · apply List.map_congr_left
    intro x hx
    rw [List.mem_range] at hx
    exact m3 x hx
  · apply List.map_congr_left
    intro x _
    have := m2 x
    simp only [Nat.zero_add] at this
    simp only [Function.comp, this]

theorem load_chars_append (ft : Filetype) (pre rest : List Nat) (cs1 cs2 : List tedchar)
    (h1 : load_chars ft pre = .ok cs1) (h2 : load_chars ft rest = .ok cs2)
    (hn : cs1.length + cs2.length ≤ BUFSIZE) :
    load_chars ft (pre ++ rest) = .ok (cs1 ++ cs2) := by
  rw [load_chars_ok_iff] at h1 h2 ⊢
  obtain ⟨d1, i1, k1, k2⟩ := h1
  obtain ⟨d2, i2, k3, k4⟩ := h2
  subst k2 k4
  rw [decoded_length, decoded_length] at hn
  simp only at hn
  unfold tedchar_from_bytes at k1 k3 ⊢
  have hp := loop_extend ft BUFSIZE pre rest pre.length buffer_zero d1 0 0 i1 (Nat.zero_le _) k1
    rest.length (le_refl _)
  have hfr := loop_frame ft BUFSIZE pre pre.length buffer_zero d1 0 0 i1 k1
  have hc : ∀ x, d1 (i1 + x) = buffer_zero (0 + x) := by
    intro x; rw [hfr.2.2 (i1 + x) (by omega)]; rfl
  obtain ⟨d3, m1, m2, m3⟩ :=
    loop_corr ft BUFSIZE rest rest.length d1 buffer_zero d2 i1 0 0 i2 hc k3 (by omega)
  rw [List.length_append, hp, m1]
  refine ⟨d3, i1 + (i2 - 0), rfl, ?_⟩
  simp only [decoded, Nat.sub_zero, List.range_add, List.map_append, List.map_map]
  congr 1
  · apply List.map_congr_left
    intro x hx
    rw [List.mem_range] at hx
    exact (m3 x hx).symm
  · apply List.map_congr_left
    intro x _
    have := m2 x
    simp only [Nat.zero_add] at this
    simp only [Function.comp, this]

theorem load_chars_append_err (ft : Filetype) (pre rest : List Nat) (cs1 : List tedchar)
    (e : Fault) (h1 : load_chars ft pre = .ok cs1) (h2 : load_chars ft rest = .error e) :
    ∃ e1, load_chars ft (pre ++ rest) = .error e1 := by
  rw [load_chars_ok_iff] at h1
  rw [load_chars_err_iff] at h2
  obtain ⟨d1, i1, k1, _⟩ := h1
  unfold tedchar_from_bytes at k1 h2
  have hp := loop_extend ft BUFSIZE pre rest pre.length buffer_zero d1 0 0 i1 (Nat.zero_le _) k1
    rest.length (le_refl _)
  have hfr := loop_frame ft BUFSIZE pre pre.length buffer_zero d1 0 0 i1 k1
  have hc : ∀ x, d1 (i1 + x) = buffer_zero (0 + x) := by
    intro x; rw [hfr.2.2 (i1 + x) (by omega)]; rfl
  obtain ⟨e1, he1⟩ :=
    loop_corr_err ft BUFSIZE rest rest.length d1 buffer_zero i1 0 0 e hc (Nat.zero_le _) h2
  refine ⟨e1, ?_⟩
  rw [load_chars_err_iff]
  unfold tedchar_from_bytes
  rw [List.length_append, hp, he1]

theorem utf8_fill_get (src : List Nat) (j k : Nat) (u : utf8) (hk : k ≤ 4) (x : Nat)
    (hx : x < 4) :
    (utf8_fill src j k u).get x = if x < k then src.getD (j + x) 0 else u.get x := by
  interval_cases k <;> interval_cases x <;>
    simp [utf8_fill, List.range, List.range.loop, utf8.set, utf8.get]

theorem load_chars_cons (ft : Filetype) (b : Nat) (rest : List Nat) :
    load_chars ft (b :: rest) =
      (match tedchar_from_bytes_body ft BUFSIZE (b :: rest) buffer_zero 0 0 with
        | .ok (d1, i1, j1) =>
          tedchar_from_bytes_loop ft BUFSIZE (b :: rest) rest.length d1 i1 j1
        | .error e => .error e).map decoded := by
  unfold load_chars tedchar_from_bytes
  simp only [List.length_cons, tedchar_from_bytes_loop, Nat.zero_lt_succ, if_true]

/-- A `\r` at a character boundary that is not followed by `\n` stops a dos load. -/
theorem load_chars_cr_fail (rest : List Nat) (h : rest.head? ≠ some 10) :
    load_chars .DOS (13 :: rest) = .error .exit := by
  rw [load_chars_cons]
  have h2 : ¬ (0 + 1 < (13 :: rest).length ∧ (13 :: rest).getD (0 + 1) 0 = 10) := by
    cases rest with
    | nil => simp
    | cons a r => simp at h; simp; exact h
  unfold tedchar_from_bytes_body
  rw [if_pos ⟨rfl, by simp⟩, if_neg h2]
  rfl

/-- A single-byte character that is neither a newline of the file type, a tab nor
printable ASCII stops the load. -/
theorem load_chars_ascii_fail (ft : Filetype) (b : Nat) (rest : List Nat)
    (hk : utf8_count b = 1) (hu : ¬ (ft = .UNIX ∧ b = 10))
    (hd : ¬ (ft = .DOS ∧ b = 13 ∧ rest.head? = some 10))
    (ht : b ≠ 9) (hb : b < 0x20 ∨ 0x7e < b) :
    load_chars ft (b :: rest) = .error .exit := by
  rw [load_chars_cons]
  have e0 : (b :: rest).getD 0 0 = b := rfl
  unfold tedchar_from_bytes_body
  simp only [e0, hk]
  by_cases c1 : ft = .DOS ∧ b = 13
  · have h2 : ¬ (0 + 1 < (b :: rest).length ∧ (b :: rest).getD (0 + 1) 0 = 10) := by
      intro hh
      apply hd
      refine ⟨c1.1, c1.2, ?_⟩
      cases rest with
      | nil => simp at hh
      | cons a r => simp at hh; simp [hh]
    rw [if_pos c1, if_neg h2]; rfl
  · rw [if_neg c1, if_neg hu, if_neg (by simp), if_pos ⟨trivial, ht, hb⟩]; rfl

theorem utf8_count_newline_bytes (b : Nat) (h : 2 ≤ utf8_count b) : b ≠ 10 ∧ b ≠ 13 := by
  constructor
  · intro hb; subst hb; revert h; decide
  · intro hb; subst hb; revert h; decide

/-- A multibyte run cut short by the end of the input stops the load. -/
theorem load_chars_truncated (ft : Filetype) (b : Nat) (rest : List Nat)
    (hk : 2 ≤ utf8_count b) (hl : rest.length < utf8_count b - 1) :
    load_chars ft (b :: rest) = .error .exit := by
  rw [load_chars_cons]
  have e0 : (b :: rest).getD 0 0 = b := rfl
  have hn := utf8_count_newline_bytes b hk
  unfold tedchar_from_bytes_body
  simp only [e0]
  rw [if_neg (by intro h; exact hn.2 h.2), if_neg (by intro h; exact hn.1 h.2),
    if_pos (by simp only [List.length_cons]; omega)]
  rfl

/-- A leader with all the bytes its count asks for becomes one character, whatever
the bytes after the leader are. -/
theorem load_chars_run (ft : Filetype) (b : Nat) (run : List Nat)
    (hk : 2 ≤ utf8_count b) (hl : run.length = utf8_count b - 1) :
    load_chars ft (b :: run) =
      .ok [{ kind := UTF8, u := utf8_fill (b :: run) 0 (utf8_count b) utf8_zero }] := by
  rw [load_chars_cons]
  have e0 : (b :: run).getD 0 0 = b := rfl
  have hn := utf8_count_newline_bytes b hk
  unfold tedchar_from_bytes_body
  simp only [e0]
  rw [if_neg (by intro h; exact hn.2 h.2), if_neg (by intro h; exact hn.1 h.2),
    if_neg (by simp only [List.length_cons]; omega), if_neg (by omega),
    if_pos (by decide)]
  simp only
  have hf := loop_fuel_irrel ft BUFSIZE (b :: run) run.length 0
    (Function.update buffer_zero 0
      { kind := UTF8, u := utf8_fill (b :: run) 0 (utf8_count b) (buffer_zero 0).u })
    (0 + 1) (0 + utf8_count b) (by simp only [List.length_cons]; omega)
    (by simp only [List.length_cons]; omega)
  rw [hf]
  simp only [tedchar_from_bytes_loop, List.length_cons]
  rw [if_neg (by omega)]
  simp [Except.map, decoded, buffer_zero, List.range_succ]

/-- A printable ASCII byte or a tab becomes one character. -/
theorem load_chars_ascii (ft : Filetype) (b : Nat) (hk : utf8_count b = 1)
    (hb : b = 9 ∨ (0x20 ≤ b ∧ b ≤ 0x7e)) :
    load_chars ft [b] = .ok [{ kind := UTF8, u := ⟨b, 0, 0, 0⟩ }] := by
  rw [load_chars_cons]
  have e0 : [b].getD 0 0 = b := rfl
  unfold tedchar_from_bytes_body
  simp only [e0, hk]
  rw [if_neg (by omega), if_neg (by omega), if_neg (by simp), if_neg (by omega),
    if_pos (by decide)]
  simp [Except.map, decoded, buffer_zero, tedchar_from_bytes_loop, utf8_fill, utf8.set,
    utf8_zero, List.range_succ]

theorem load_chars_append_inv (ft : Filetype) (pre rest : List Nat) (cs1 cs : List tedchar)
    (h1 : load_chars ft pre = .ok cs1) (h : load_chars ft (pre ++ rest) = .ok cs) :
    ∃ cs2, load_chars ft rest = .ok cs2 ∧ cs = cs1 ++ cs2 := by
  cases h2 : load_chars ft rest with
  | error e =>
    obtain ⟨e1, he1⟩ := load_chars_append_err ft pre rest cs1 e h1 h2
    rw [he1] at h; cases h
  | ok cs2 =>
    refine ⟨cs2, rfl, ?_⟩
    rw [load_chars_ok_iff] at h1 h2 h
    obtain ⟨d1, i1, k1, k2⟩ := h1
    obtain ⟨d2, i2, k3, k4⟩ := h2
    obtain ⟨d, i, k5, k6⟩ := h
    subst k2 k4 k6
    unfold tedchar_from_bytes at k1 k3 k5
    have hp := loop_extend ft BUFSIZE pre rest pre.length buffer_zero d1 0 0 i1
      (Nat.zero_le _) k1 rest.length (le_refl _)
    rw [List.length_append, hp] at k5
    have hfr := loop_frame ft BUFSIZE pre pre.length buffer_zero d1 0 0 i1 k1
    have hc : ∀ x, d1 (i1 + x) = buffer_zero (0 + x) := by
      intro x; rw [hfr.2.2 (i1 + x) (by omega)]; rfl
    obtain ⟨m1, m2, m3⟩ :=
      loop_corr_ok ft BUFSIZE rest rest.length d1 buffer_zero d d2 i1 0 0 i2 i hc k3 k5
    rw [m1, Nat.sub_zero]
    exact decoded_append d d1 d2 i1 i2 m3 m2

/-! ## Indices and pointers -/

theorem content_length (s : Ed) : (content s).length = buffer_size s := by
  simp [content]

theorem content_drop (s : Ed) (idx : Nat) (h : idx < buffer_size s) :
    (content s).drop idx = cell s idx :: (content s).drop (idx + 1) := by
  have hl : idx < (content s).length := by rw [content_length]; exact h
  rw [List.drop_eq_getElem_cons hl]
  congr 1
  simp [content]

theorem char_at_index_some (s : Ed) (idx : Nat) (hg : GapInv s) (h : idx < buffer_size s) :
    ∃ p, char_at_index s idx = some p ∧ p < BUFSIZE ∧ deref s (some p) = .ok (cell s idx) ∧
      advance s p = char_at_index s (idx + 1) := by
  unfold GapInv at hg
  unfold buffer_size at h
  by_cases c : idx < s.gap_start
  · refine ⟨idx, ?_, by omega, ?_, ?_⟩
    · unfold char_at_index buffer_size; rw [if_neg (by omega), if_pos c]
    · unfold deref cell; simp only; rw [if_pos (by omega), if_pos c]
    · unfold advance char_at_index buffer_size
      rw [if_neg (by omega)]
      by_cases c2 : idx + 1 < s.gap_start
      · rw [if_pos c2, if_neg (by omega), if_pos c2]
      · rw [if_neg c2]
        by_cases c3 : s.gap_end < BUFSIZE
        · rw [if_pos c3, if_neg (by omega), if_neg c2]
          congr 1; omega
        · rw [if_neg c3, if_pos (by omega)]
  · refine ⟨s.gap_end + (idx - s.gap_start), ?_, by omega, ?_, ?_⟩
    · unfold char_at_index buffer_size; rw [if_neg (by omega), if_neg c]
    · unfold deref cell; simp only; rw [if_pos (by omega), if_neg c]
    · unfold advance char_at_index buffer_size
      rw [if_pos (by omega)]
      by_cases c2 : s.gap_end + (idx - s.gap_start) + 1 < BUFSIZE
      · rw [if_pos c2, if_neg (by omega), if_neg (by omega)]
        congr 1; omega
      · rw [if_neg c2, if_pos (by omega)]

theorem char_at_index_none (s : Ed) (idx : Nat) (h : buffer_size s ≤ idx) :
    char_at_index s idx = none := by
  unfold char_at_index; rw [if_pos h]

theorem first_char_eq (s : Ed) (hg : GapInv s) : first_char s = char_at_index s 0 := by
  unfold GapInv at hg
  unfold first_char char_at_index is_buffer_empty buffer_size
  simp only [beq_iff_eq]
  split_ifs <;> first | rfl | omega | (congr 1; omega)

/-! ## Serialization -/

theorem put_bytes_spec (l : List Nat) :
    ∀ (buf : Nat → Nat) (i : Nat), (put_bytes buf i l).2 = i + l.length ∧
      (List.range (i + l.length)).map (put_bytes buf i l).1 = (List.range i).map buf ++ l := by
  induction l with
  | nil => intro buf i; simp [put_bytes]
  | cons c cs ih =>
    intro buf i
    obtain ⟨h1, h2⟩ := ih (Function.update buf i c) (i + 1)
    simp only [put_bytes, List.length_cons]
    refine ⟨by rw [h1]; omega, ?_⟩
    have e : i + (cs.length + 1) = i + 1 + cs.length := by omega
    rw [e, h2, List.range_succ, List.map_append, List.append_assoc]
    congr 1
    · apply List.map_congr_left
      intro x hx
      rw [List.mem_range] at hx
      rw [Function.update_noteq (by omega)]
    · simp

theorem encode_chars_cons (ft : Filetype) (t : tedchar) (cs : List tedchar) :
    encode_chars ft (t :: cs) = encode_char ft t ++ encode_chars ft cs := by
  simp [encode_chars]

theorem encode_chars_append (ft : Filetype) (as bs : List tedchar) :
    encode_chars ft (as ++ bs) = encode_chars ft as ++ encode_chars ft bs := by
  simp [encode_chars]

theorem encode_char_length (ft : Filetype) (t : tedchar) :
    1 ≤ (encode_char ft t).length ∧ (encode_char ft t).length ≤ 4 := by
  have h1 := utf8_count_pos t.u.c0
  have h2 := utf8_count_le t.u.c0
  unfold encode_char
  split_ifs
  · cases ft <;> simp
  · simp only [List.length_map, List.length_range]; omega

theorem block_fill_none (s : Ed) (sz f : Nat) (buf : Nat → Nat) (i : Nat) :
    block_fill s sz f none buf i = .ok (none, buf, i) := by
  cases f <;> rfl

theorem block_fill_spec (s : Ed) (sz : Nat) (hg : GapInv s) :
    ∀ (f idx : Nat) (buf : Nat → Nat) (i : Nat), buffer_size s - idx ≤ f →
      ∃ idx1 buf1 i1,
        block_fill s sz f (char_at_index s idx) buf i = .ok (char_at_index s idx1, buf1, i1) ∧
        idx ≤ idx1 ∧
        (List.range i1).map buf1 = (List.range i).map buf ++
          encode_chars s.filetype (((content s).drop idx).take (idx1 - idx)) ∧
        (i = 0 → 5 ≤ sz → idx < buffer_size s → idx < idx1) := by
  intro f
  induction f with
  | zero =>
    intro idx buf i hf
    rw [char_at_index_none s idx (by omega), block_fill_none]
    refine ⟨idx, buf, i, ?_, le_refl _, ?_, ?_⟩
    · rw [char_at_index_none s idx (by omega)]
    · simp [encode_chars]
    · intro _ _ h; omega
  | succ f ih =>
    intro idx buf i hf
    by_cases hidx : idx < buffer_size s
    · obtain ⟨p, hp, _, hd, ha⟩ := char_at_index_some s idx hg hidx
      have hlen := encode_char_length s.filetype (cell s idx)
      have hput := put_bytes_spec (encode_char s.filetype (cell s idx)) buf i
      have stay : ∃ idx1 buf1 i1,
          (Except.ok (some p, buf, i) : Except Fault (Option Nat × (Nat → Nat) × Nat)) =
            .ok (char_at_index s idx1, buf1, i1) ∧ idx ≤ idx1 ∧
          (List.range i1).map buf1 = (List.range i).map buf ++
            encode_chars s.filetype (((content s).drop idx).take (idx1 - idx)) := by
        refine ⟨idx, buf, i, by rw [hp], le_refl _, ?_⟩
        simp [encode_chars]
      have go : ∃ idx1 buf1 i1,
          block_fill s sz f (advance s p) (put_bytes buf i (encode_char s.filetype (cell s idx))).1
              (put_bytes buf i (encode_char s.filetype (cell s idx))).2 =
            .ok (char_at_index s idx1, buf1, i1) ∧ idx ≤ idx1 ∧
          (List.range i1).map buf1 = (List.range i).map buf ++
            encode_chars s.filetype (((content s).drop idx).take (idx1 - idx)) ∧
          (i = 0 → 5 ≤ sz → idx < buffer_size s → idx < idx1) := by
        obtain ⟨idx1, buf1, i1, k1, k2, k3, _⟩ :=
          ih (idx + 1) (put_bytes buf i (encode_char s.filetype (cell s idx))).1
            (put_bytes buf i (encode_char s.filetype (cell s idx))).2 (by omega)
        refine ⟨idx1, buf1, i1, by rw [ha]; exact k1, by omega, ?_, fun _ _ _ => by omega⟩
        rw [k3, hput.1, hput.2, content_drop s idx hidx]
        have e : idx1 - idx = (idx1 - (idx + 1)) + 1 := by omega
        rw [e, List.take_succ_cons, encode_chars_cons, List.append_assoc]
      rw [hp]
      simp only [block_fill, hd]
      unfold encode_char at go hlen
      by_cases hn : is_newline (cell s idx) = true
      · rw [if_pos hn] at go hlen
        rw [if_pos hn]
        cases hft : s.filetype with
        | UNIX =>
          rw [hft] at go hlen
          simp only at go hlen ⊢
          by_cases hfit : sz ≤ i
          · rw [if_pos hfit]
            obtain ⟨a, b, c, k1, k2, k3⟩ := stay
            rw [hft] at k3
            exact ⟨a, b, c, k1, k2, k3, fun h0 h5 _ => by omega⟩
          · rw [if_neg hfit]; exact go
        | DOS =>
          rw [hft] at go hlen
          simp only at go hlen ⊢
          by_cases hfit : sz - 1 ≤ i
          · rw [if_pos hfit]
            obtain ⟨a, b, c, k1, k2, k3⟩ := stay
            rw [hft] at k3
            exact ⟨a, b, c, k1, k2, k3, fun h0 h5 _ => by omega⟩
          · rw [if_neg hfit]; exact go
      · rw [if_neg hn] at go hlen
        rw [if_neg hn]
        by_cases hfit : sz ≤ i + utf8_count (cell s idx).u.c0
        · rw [if_pos hfit]
          obtain ⟨a, b, c, k1, k2, k3⟩ := stay
          have := utf8_count_le (cell s idx).u.c0
          exact ⟨a, b, c, k1, k2, k3, fun h0 h5 _ => by omega⟩
        · rw [if_neg hfit]; exact go
    · rw [char_at_index_none s idx (by omega), block_fill_none]
      refine ⟨idx, buf, i, ?_, le_refl _, ?_, ?_⟩
      · rw [char_at_index_none s idx (by omega)]
      · simp [encode_chars]
      · intro _ _ h; omega

theorem for_each_block_none (s : Ed) (sz f : Nat) (buf : Nat → Nat) (i : Nat) :
    for_each_block s sz f none buf i = .ok [] := by
  cases f <;> rfl

theorem for_each_block_spec (s : Ed) (sz : Nat) (hg : GapInv s) (hsz : 5 ≤ sz) :
    ∀ (f idx : Nat) (buf : Nat → Nat), buffer_size s - idx ≤ f →
      ∃ blocks, for_each_block s sz f (char_at_index s idx) buf 0 = .ok blocks ∧
        blocks.flatten = encode_chars s.filetype ((content s).drop idx) := by
  intro f
  induction f with
  | zero =>
    intro idx buf hf
    rw [char_at_index_none s idx (by omega), for_each_block_none]
    refine ⟨[], rfl, ?_⟩
    rw [List.drop_eq_nil_of_le (by rw [content_length]; omega)]
    rfl
  | succ f ih =>
    intro idx buf hf
    by_cases hidx : idx < buffer_size s
    · obtain ⟨p, hp, _, _, _⟩ := char_at_index_some s idx hg hidx
      have hsize : buffer_size s ≤ BUFSIZE := by
        unfold GapInv at hg; unfold buffer_size; omega
      obtain ⟨idx1, buf1, i1, k1, k2, k3, k4⟩ :=
        block_fill_spec s sz hg BUFSIZE idx buf 0 (by omega)
      have hlt := k4 rfl hsz hidx
      obtain ⟨blocks, m1, m2⟩ := ih idx1 buf1 (by omega)
      rw [hp] at k1 ⊢
      simp only [for_each_block, k1, m1]
      refine ⟨_, rfl, ?_⟩
      rw [List.flatten_cons, k3, m2]
      simp only [List.range_zero, List.map_nil, List.nil_append]
      rw [← encode_chars_append]
      congr 1
      have e : (content s).drop idx1 = ((content s).drop idx).drop (idx1 - idx) := by
        rw [List.drop_drop]; congr 1; omega
      rw [e, List.take_append_drop]
    · rw [char_at_index_none s idx (by omega), for_each_block_none]
      refine ⟨[], rfl, ?_⟩
      rw [List.drop_eq_nil_of_le (by rw [content_length]; omega)]
      rfl

/-! ## Round trip -/

theorem load_encode_char (ft : Filetype) (t : tedchar) (hv : tedchar_valid t) :
    load_chars ft (encode_char ft t) = .ok [t] := by
  rcases hv with h | ⟨hk, ha, hpad⟩
  · subst h
    cases ft <;> decide
  · obtain ⟨kind, ⟨c0, c1, c2, c3⟩⟩ := t
    simp only at hk ha hpad
    subst hk
    have hn : is_newline { kind := UTF8, u := ⟨c0, c1, c2, c3⟩ } = false := rfl
    unfold encode_char
    rw [hn]
    simp only [Bool.false_eq_true, if_false]
    have h1 := utf8_count_pos c0
    have h4 := utf8_count_le c0
    have p1 := hpad 1
    have p2 := hpad 2
    have p3 := hpad 3
    simp only [utf8.get] at p1 p2 p3
    norm_num at p1 p2 p3
    have hcases : utf8_count c0 = 1 ∨ utf8_count c0 = 2 ∨ utf8_count c0 = 3 ∨
        utf8_count c0 = 4 := by omega
    rcases hcases with hc | hc | hc | hc
    · rw [hc]
      have e : (List.range 1).map (utf8.get ⟨c0, c1, c2, c3⟩) = [c0] := by
        simp [List.range_succ, utf8.get]
      rw [e, load_chars_ascii ft c0 hc (ha hc)]
      rw [p1 (by omega), p2 (by omega), p3 (by omega)]
    · have e : (List.range (utf8_count c0)).map (utf8.get ⟨c0, c1, c2, c3⟩) = [c0, c1] := by
        rw [hc]; simp [List.range_succ, utf8.get]
      rw [e, load_chars_run ft c0 [c1] (by omega) (by rw [hc]; rfl), hc]
      rw [p2 (by omega), p3 (by omega)]
      simp [utf8_fill, List.range_succ, utf8.set, utf8_zero]
    · have e : (List.range (utf8_count c0)).map (utf8.get ⟨c0, c1, c2, c3⟩) = [c0, c1, c2] := by
        rw [hc]; simp [List.range_succ, utf8.get]
      rw [e, load_chars_run ft c0 [c1, c2] (by omega) (by rw [hc]; rfl), hc]
      rw [p3 (by omega)]
      simp [utf8_fill, List.range_succ, utf8.set, utf8_zero]
    · have e : (List.range (utf8_count c0)).map (utf8.get ⟨c0, c1, c2, c3⟩) =
          [c0, c1, c2, c3] := by
        rw [hc]; simp [List.range_succ, utf8.get]
      rw [e, load_chars_run ft c0 [c1, c2, c3] (by omega) (by rw [hc]; rfl), hc]
      simp [utf8_fill, List.range_succ, utf8.set, utf8_zero]

theorem load_encode_chars (ft : Filetype) (cs : List tedchar)
    (hv : ∀ t ∈ cs, tedchar_valid t) (hn : cs.length ≤ BUFSIZE) :
    load_chars ft (encode_chars ft cs) = .ok cs := by
  induction cs with
  | nil => cases ft <;> decide
  | cons t cs ih =>
    rw [encode_chars_cons]
    have h1 := load_encode_char ft t (hv t (List.mem_cons_self _ _))
    have h2 := ih (fun x hx => hv x (List.mem_cons_of_mem _ hx))
      (by simp only [List.length_cons] at hn; omega)
    exact load_chars_append ft _ _ [t] cs h1 h2
      (by simp only [List.length_cons, List.length_nil] at hn ⊢; omega)

theorem write_buffer_to_file_spec (s : Ed) (hg : GapInv s) :
    write_buffer_to_file s = .ok (encode_chars s.filetype (content s)) := by
  have hsize : buffer_size s ≤ BUFSIZE := by
    unfold GapInv at hg; unfold buffer_size; omega
  obtain ⟨blocks, h1, h2⟩ :=
    for_each_block_spec s BUFSIZE hg (by decide) BUFSIZE 0 (fun _ => 0) (by omega)
  unfold write_buffer_to_file
  rw [first_char_eq s hg, h1]
  simp only [Except.map, h2, List.drop_zero]

theorem content_getLast (s : Ed) (h : 0 < buffer_size s) :
    (content s).getLast? = some (cell s (buffer_size s - 1)) := by
  unfold content
  have e : buffer_size s = (buffer_size s - 1) + 1 := by omega
  rw [e, List.range_succ, List.map_append]
  simp

theorem is_buffer_empty_iff (s : Ed) (hg : GapInv s) :
    is_buffer_empty s = true ↔ buffer_size s = 0 := by
  unfold GapInv at hg
  unfold is_buffer_empty buffer_size
  simp only [beq_iff_eq]
  omega

theorem trailing_newline_noop (s : Ed) (call : Call) (hg : GapInv s)
    (hnl : ∀ t, (content s).getLast? = some t → is_newline t = true) :
    maybe_insert_trailing_newline call s = .ok s := by
  unfold maybe_insert_trailing_newline
  by_cases he : is_buffer_empty s = true
  · simp [he]
  · have hpos : 0 < buffer_size s := by
      rw [is_buffer_empty_iff s hg] at he; omega
    obtain ⟨p, hp, _, hd, _⟩ := char_at_index_some s (buffer_size s - 1) hg (by omega)
    have hl := hnl _ (content_getLast s hpos)
    by_cases hen : s.ensure_trailing_newline = true
    · simp only [hen, Bool.not_true, he, Bool.or_self, Bool.false_eq_true, if_false, hp, hd,
        bind, Except.bind, hl, if_true, pure, Except.pure]
    · simp [hen]

/-! ## Reachable states -/

theorem map_ok_exists {α β : Type} (r : Except Fault α) (f : α → β) (v : β)
    (h : r.map f = .ok v) : ∃ a, r = .ok a ∧ f a = v := by
  cases r with
  | error e => cases h
  | ok a =>
    simp only [Except.map, Except.ok.injEq] at h
    exact ⟨a, rfl, h⟩

theorem loaded_eq (c : Config) (bytes : List Nat) (s : Ed) (h : loadf c bytes = .ok s) :
    loaded c bytes = s := by
  unfold loaded; rw [h]

theorem reachable_loaded (c : Config) (bytes : List Nat) (s : Ed) (hv : c.valid)
    (hp : c.position = .FIRST) (h : loadf c bytes = .ok s) : Reachable s := by
  apply Reachable.start 0 c bytes s hv
  unfold start
  rw [h, hp]
  rfl

theorem reachable_run_keys (fuel : Nat) :
    ∀ (evs : List (Option Nat × key × Cmd)) (s s1 : Ed), Reachable s →
      run_keys fuel evs s = .ok s1 → Reachable s1 := by
  intro evs
  induction evs with
  | nil =>
    intro s s1 hr h
    simp only [run_keys, Except.ok.injEq] at h
    rw [← h]; exact hr
  | cons ev rest ih =>
    intro s s1 hr h
    obtain ⟨count, k, c⟩ := ev
    simp only [run_keys] at h
    cases he : key_event fuel count k c s with
    | error e => rw [he] at h; cases h
    | ok s2 =>
      rw [he] at h
      exact ih s2 s1 (Reachable.event fuel count k c s s2 hr he) h

theorem reachable_loaded_abc : Reachable (loaded Config.default [0x61, 10, 0x62]) := by
  have h : (loadf Config.default [0x61, 10, 0x62]).map (fun _ => ()) = .ok () := by decide
  obtain ⟨s, hs, _⟩ := map_ok_exists _ _ _ h
  rw [loaded_eq _ _ s hs]
  exact reachable_loaded _ _ s (by decide) rfl hs

/-! ## The gap invariant -/

theorem call_inv (call : Call) (hcall : ∀ q s s1, call q s = .ok s1 → Good q s s1)
    (q : Proc) (s s1 : Ed) (h : call q s = .ok s1) (hg : Guard q s) (hI : Inv s) : Inv s1 :=
  (hcall q s s1 h hI hg).1

theorem inv_mk (nlines ncols : Nat) (ip : Bool) (pa : Int) (ts : Nat) (ft : Filetype) (etn : Bool)
    (buf : Nat → tedchar) (gs ge : Nat) (tl : Option Nat) (row col goal : Nat) (fg : Bool)
    (mm : Nat → Nat) (ml mf mla mc : Nat) (ma : Bool) (sr : Nat → Nat) (sl sc : Nat)
    (ro dirty : Bool) (lk : key) (kb : Nat → tedchar) (ks : Nat) :
    Inv ⟨nlines, ncols, ip, pa, ts, ft, etn, buf, gs, ge, tl, row, col, goal, fg, mm, ml, mf,
      mla, mc, ma, sr, sl, sc, ro, dirty, lk, kb, ks⟩ ↔
      gs ≤ ge ∧ ge ≤ BUFSIZE ∧ 2 ≤ nlines := Iff.rfl

theorem inv_fold (s : Ed) :
    (s.gap_start ≤ s.gap_end ∧ s.gap_end ≤ BUFSIZE ∧ 2 ≤ s.nlines) ↔ Inv s := Iff.rfl

theorem inv_update_goal (s : Ed) (h : Inv s) : Inv (update_goal s) := h

theorem inv_do_push_mark (w : Nat) (s : Ed) (h : Inv s) : Inv (do_push_mark w s) := h

theorem inv_set_goal_column (s : Ed) (h : Inv s) : Inv (set_goal_column s) := h

theorem store_fields (s w : Ed) (p : Nat) (t : tedchar) (h : store s p t = .ok w) :
    w = { s with buffer := Function.update s.buffer p t } ∧ p < BUFSIZE := by
  unfold store at h
  split at h
  · simp only [Except.ok.injEq] at h
    exact ⟨h.symm, by assumption⟩
  · cases h

theorem kill_copy_loop_inv (last : Option Nat) :
    ∀ (f : Nat) (t : Option Nat) (s s1 : Ed), kill_copy_loop last f t s = .ok s1 →
      Inv s → Inv s1 := by
  intro f
  induction f with
  | zero =>
    intro t s s1 h hI
    cases t with
    | none => simp only [kill_copy_loop, Except.ok.injEq] at h; rw [← h]; exact hI
    | some p => simp only [kill_copy_loop] at h; cases h
  | succ f ih =>
    intro t s s1 h hI
    cases t with
    | none => simp only [kill_copy_loop, Except.ok.injEq] at h; rw [← h]; exact hI
    | some p =>
      simp only [kill_copy_loop] at h
      repeat' split at h
      all_goals first | (cases h; done) | (cases h; assumption) | exact ih _ _ _ h hI

theorem scroll_at_last_row_spec (call : Call)
    (hcall : ∀ q s s1, call q s = .ok s1 → Good q s s1) (s s1 : Ed) (b : Bool)
    (h : scroll_at_last_row call s = .ok (s1, b)) (hI : Inv s) :
    Inv s1 ∧ (b = false → s1 = s) ∧ (Ed.is_prefix s = false → SameGap s s1) := by
  have hsame : Ed.is_prefix s = false → SameGap s s := fun hp => ⟨rfl, rfl, hp⟩
  unfold scroll_at_last_row at h
  split at h
  · rename_i hrow
    split at h
    · cases h
    split at h
    · cases h
    split at h
    · split at h
      · cases h
      · rename_i s2 hs2
        simp only [Except.ok.injEq, Prod.mk.injEq] at h
        obtain ⟨h1, h2⟩ := h
        subst h1 h2
        have hg := hcall _ _ _ hs2 hI True.intro
        refine ⟨hg.1, (fun hb => by cases hb), fun hp => hg.2 hp ?_⟩
        unfold Inv at hI
        omega
    · simp only [Except.ok.injEq, Prod.mk.injEq] at h
      obtain ⟨h1, h2⟩ := h
      subst h1 h2
      exact ⟨hI, fun _ => rfl, hsame⟩
  · simp only [Except.ok.injEq, Prod.mk.injEq] at h
    obtain ⟨h1, h2⟩ := h
    subst h1 h2
    exact ⟨hI, fun _ => rfl, hsame⟩

theorem deref_char_at_point (s x : Ed) (t : tedchar)
    (h : deref x (char_at_point s) = .ok t) : s.gap_end < BUFSIZE := by
  unfold char_at_point at h
  split at h
  · cases h
  · unfold deref at h
    simp only at h
    split at h
    · assumption
    · cases h

theorem forward_char_move_inv (s1 s2 : Ed) (hI : Inv s1)
    (h : forward_char_move s1 (char_at_point s1) = .ok s2) : Inv s2 := by
  unfold forward_char_move at h
  simp only [bind, Except.bind, pure, Except.pure] at h
  split at h
  · cases h
  rename_i t ht
  have hlt := deref_char_at_point s1 _ t ht
  split at h
  · cases h
  rename_i w hw
  obtain ⟨hw1, _⟩ := store_fields _ _ _ _ hw
  subst hw1
  repeat' split at h
  all_goals first
    | (cases h; done)
    | (simp only [Except.ok.injEq] at h
       subst h
       unfold Inv at hI
       exact ⟨by show s1.gap_start + 1 ≤ s1.gap_end + 1; omega,
         by show s1.gap_end + 1 ≤ BUFSIZE; omega, hI.2.2⟩)

theorem backward_char_move_inv (s s1 : Ed) (h : backward_char_move s = .ok s1) (hI : Inv s) :
    Inv s1 := by
  unfold backward_char_move at h
  split at h
  · simp only [bind, Except.bind, pure, Except.pure] at h
    split at h
    · cases h
    split at h
    · cases h
    rename_i w hw
    obtain ⟨hw1, _⟩ := store_fields _ _ _ _ hw
    subst hw1
    repeat' split at h
    all_goals first
      | (cases h; done)
      | (simp only [Except.ok.injEq] at h
         subst h
         unfold Inv at hI
         exact ⟨by show s.gap_start - 1 ≤ s.gap_end - 1; omega,
           by show s.gap_end - 1 ≤ BUFSIZE; omega, hI.2.2⟩)
  · cases h; exact hI

theorem insert_store_inv (t : tedchar) (s s1 : Ed) (h : insert_store t s = .ok s1)
    (hI : Inv s) : Inv s1 := by
  unfold insert_store at h
  split at h
  · simp only [bind, Except.bind, pure, Except.pure] at h
    split at h
    · cases h
    rename_i w hw
    obtain ⟨hw1, _⟩ := store_fields _ _ _ _ hw
    subst hw1
    simp only [Except.ok.injEq] at h
    subst h
    unfold Inv at hI
    exact ⟨by show s.gap_start + 1 ≤ s.gap_end; omega, hI.2.1, hI.2.2⟩
  · cases h

theorem good_forward_char_loop (call : Call)
    (hcall : ∀ q s s1, call q s = .ok s1 → Good q s s1) (r : Nat) (s s1 : Ed)
    (h : forward_char_loop call r s = .ok s1) (hI : Inv s) : Inv s1 := by
  have hc := call_inv call hcall
  unfold forward_char_loop at h
  split at h
  · cases h; exact hI
  split at h
  · cases h; exact hI
  split at h
  · cases h
  rename_i sa scrolled hsa
  obtain ⟨hIa, hb, _⟩ := scroll_at_last_row_spec call hcall s sa scrolled hsa hI
  have hcp : (if scrolled = true then char_at_point sa else char_at_point s) =
      char_at_point sa := by
    cases scrolled with
    | true => rfl
    | false => rw [hb rfl]; rfl
  rw [hcp] at h
  split at h
  · cases h
  rename_i s2 hs2
  exact hc _ _ _ h True.intro (forward_char_move_inv sa s2 hIa hs2)

theorem good_delete_char_loop (call : Call)
    (hcall : ∀ q s s1, call q s = .ok s1 → Good q s s1) (r : Nat) (s s1 : Ed)
    (h : delete_char_loop call r s = .ok s1) (hI : Inv s) (hp : Ed.is_prefix s = false) :
    Inv s1 := by
  unfold delete_char_loop at h
  split at h
  · cases h; exact hI
  split at h
  · cases h; exact hI
  rename_i hne
  split at h
  · cases h
  rename_i sa scrolled hsa
  obtain ⟨hIa, _, hsame⟩ :=
    scroll_at_last_row_spec call hcall { s with is_dirty := true } sa scrolled hsa hI
  obtain ⟨g1, g2, g3⟩ := hsame hp
  simp only at g1 g2
  have hend : s.gap_end ≠ BUFSIZE := by
    intro he
    apply hne
    simp [is_point_at_end_of_buffer, he]
  refine (hcall _ _ _ h ?_ ?_).1
  · unfold Inv at hI hIa
    exact ⟨by show sa.gap_start ≤ sa.gap_end + 1; omega,
      by show sa.gap_end + 1 ≤ BUFSIZE; omega, hIa.2.2⟩
  · exact g3

theorem good_scroll_up_loop (call : Call)
    (hcall : ∀ q s s1, call q s = .ok s1 → Good q s s1) (r : Nat) (s s1 : Ed)
    (h : scroll_up_loop call r s = .ok s1) (hI : Inv s) :
    Inv s1 ∧ (Ed.is_prefix s = false → (r = 0 ∨ (r = 1 ∧ s.cursor_row ≠ 0)) → SameGap s s1) := by
  have hc := call_inv call hcall
  constructor
  · unfold scroll_up_loop at h
    simp only [bind, Except.bind, pure, Except.pure] at h
    repeat' split at h
    all_goals first | (cases h; done) | skip
    all_goals try cases h
    all_goals
      repeat (first
        | (simp only [inv_mk, inv_fold])
        | exact hI
        | (refine hc _ _ _ (by assumption) True.intro ?_))
  · intro hp hr
    unfold scroll_up_loop at h
    rcases hr with h0 | ⟨h1, hrow⟩
    · rw [if_pos h0] at h; cases h; exact ⟨rfl, rfl, hp⟩
    · subst h1
      simp only [bind, Except.bind, pure, Except.pure, hrow, if_false, one_ne_zero] at h
      repeat' split at h
      all_goals first
        | contradiction
        | (cases h; done)
        | (cases h; exact ⟨rfl, rfl, hp⟩)
        | exact (hcall _ _ _ h hI True.intro).2 hp (Or.inl rfl)

theorem good_scroll_up (call : Call)
    (hcall : ∀ q s s1, call q s = .ok s1 → Good q s s1) (s s1 : Ed)
    (h : scroll_up call s = .ok s1) (hI : Inv s) :
    Inv s1 ∧ (Ed.is_prefix s = false → s.cursor_row ≠ 0 → SameGap s s1) := by
  unfold scroll_up at h
  split at h
  · cases h; exact ⟨hI, fun hp _ => ⟨rfl, rfl, hp⟩⟩
  · have hg := hcall _ _ _ h hI True.intro
    refine ⟨hg.1, fun hp hrow => ?_⟩
    have := hg.2 rfl (Or.inr ⟨by unfold repeat_count; rw [hp]; rfl, hrow⟩)
    exact this

theorem good_delete_char (call : Call)
    (hcall : ∀ q s s1, call q s = .ok s1 → Good q s s1) (s s1 : Ed)
    (h : delete_char call s = .ok s1) (hI : Inv s) : Inv s1 := by
  unfold delete_char at h
  split at h
  · cases h; exact hI
  · exact (hcall _ _ _ h hI rfl).1

set_option maxRecDepth 8000 in
set_option maxHeartbeats 4000000 in
/-- Every program point keeps its contract when the calls it makes keep theirs. -/
theorem step_good (call : Call) (hcall : ∀ q s s1, call q s = .ok s1 → Good q s s1)
    (p : Proc) (s s1 : Ed) (h : step call p s = .ok s1) : Good p s s1 := by
  have hc := call_inv call hcall
  intro hI hG
  cases p
  case scroll_up => exact good_scroll_up call hcall s s1 h hI
  case scroll_up_loop r => exact good_scroll_up_loop call hcall r s s1 h hI
  case forward_char_loop r => exact ⟨good_forward_char_loop call hcall r s s1 h hI, True.intro⟩
  case delete_char_loop r => exact ⟨good_delete_char_loop call hcall r s s1 h hI hG, True.intro⟩
  case delete_char => exact ⟨good_delete_char call hcall s s1 h hI, True.intro⟩
  all_goals refine ⟨?_, True.intro⟩
  all_goals
    simp only [step, scroll_down, scroll_down_loop, forward_char, backward_char,
      backward_char_loop, forward_word, forward_word_loop, forward_word_ws, forward_word_text,
      backward_word, backward_word_loop, backward_word_ws, backward_word_text,
      forward_paragraph, forward_paragraph_loop, forward_paragraph_ws, forward_paragraph_run,
      backward_paragraph, backward_paragraph_loop, backward_paragraph_ws,
      backward_paragraph_run, backward_paragraph_fwd, next_row, next_row_loop, next_row_goal,
      previous_row, previous_row_loop, previous_row_goal, beginning_of_row, end_of_row,
      beginning_of_line, beginning_of_line_loop, end_of_line, end_of_line_loop, goto_line,
      goto_line_loop, move_to, move_to_loop, goto_percent, beginning_of_buffer, end_of_buffer,
      page_down, page_down_loop, page_down_for, page_up, page_up_loop, page_up_for,
      do_insert_char, insert_char, insert_char_loop, open_line, open_line_loop, open_next_line,
      open_next_line_loop, open_previous_line, open_previous_line_loop, delete_region,
      delete_region_loop, delete_backward_char, delete_backward_char_loop, delete_forward_char,
      maybe_insert_trailing_newline, save_buffer, exchange_point_and_mark, set_mark,
      set_mark_then, kill_region_save, kill_region, kill_region_loop, yank, yank_loop, yank_for,
      search_previous, search_next, search_buffer, quit, unbound_text_key,
      bind, Except.bind, pure, Except.pure] at h
  all_goals repeat' split at h
  all_goals first | (cases h; done) | skip
  all_goals try cases h
  all_goals
    repeat (first
      | (simp only [inv_mk, inv_fold, prefix_clear, update_goal, disable_mark, do_push_mark,
          set_goal_column, search_quit, cancel, toggle_read_only_mode])
      | exact hI
      | (refine hc _ _ _ (by assumption) True.intro ?_)
      | (refine backward_char_move_inv _ _ (by assumption) ?_)
      | (refine insert_store_inv _ _ _ (by assumption) ?_)
      | (refine kill_copy_loop_inv _ _ _ _ _ (by assumption) ?_))

/-! ## The gap invariant in every reachable state -/

theorem exec_good : ∀ (f : Nat) (p : Proc) (s s1 : Ed), exec f p s = .ok s1 → Good p s s1 := by
  intro f
  induction f with
  | zero =>
    intro p s s1 h
    simp only [exec] at h
    cases h
  | succ n ih =>
    intro p s s1 h
    exact step_good (exec n) ih p s s1 h

theorem exec_inv (f : Nat) (p : Proc) (s s1 : Ed) (h : exec f p s = .ok s1) (hI : Inv s)
    (hG : Guard p s) : Inv s1 :=
  (exec_good f p s s1 h hI hG).1

theorem move_point_inv (s s1 : Ed) (p : Nat) (h : move_point s (some p) = .ok s1)
    (hI : Inv s) (hp : p ≤ BUFSIZE) : Inv s1 := by
  obtain ⟨h1, h2, h3⟩ := hI
  simp only [move_point] at h
  split_ifs at h <;> cases h <;> refine ⟨?_, ?_, h3⟩ <;> first | omega | (simp only; omega)

theorem loadf_inv (c : Config) (bytes : List Nat) (s : Ed) (hv : c.valid)
    (h : loadf c bytes = .ok s) : Inv s := by
  have hn : 2 ≤ c.nlines := by
    have := hv.1
    omega
  simp only [loadf, bind, Except.bind, pure, Except.pure] at h
  split at h
  · cases h
  · rename_i r hr
    split_ifs at h with c1 c2
    · split at h
      · cases h
      · rename_i s1 hm
        cases h
        have hle : r.2 ≤ BUFSIZE := by
          simp only [loadf_fields] at c2
          omega
        have hI1 := move_point_inv _ _ 0 hm ⟨hle, le_refl _, hn⟩ (Nat.zero_le _)
        exact hI1
    · cases h
      have hle : r.2 ≤ BUFSIZE := by omega
      exact ⟨hle, le_refl _, hn⟩

theorem start_inv (fuel : Nat) (c : Config) (bytes : List Nat) (s : Ed) (hv : c.valid)
    (h : start fuel c bytes = .ok s) : Inv s := by
  simp only [start, bind, Except.bind, pure, Except.pure] at h
  split at h
  · cases h
  · rename_i s0 hl
    have hI := loadf_inv c bytes s0 hv hl
    split at h
    · cases h
      exact hI
    · exact exec_inv _ _ _ _ h hI True.intro
    · exact exec_inv _ _ _ _ h hI True.intro

theorem guard_proc (k : key) (c : Cmd) (s : Ed) : Guard (c.proc k) s := by
  cases c <;> exact True.intro

theorem key_event_inv (fuel : Nat) (count : Option Nat) (k : key) (c : Cmd) (s s1 : Ed)
    (h : key_event fuel count k c s = .ok s1) (hI : Inv s) : Inv s1 := by
  unfold key_event at h
  cases count <;> cases c
  case none.self_insert =>
    simp only at h
    split_ifs at h
    · exact exec_inv _ _ _ _ h hI (guard_proc k .self_insert _)
    · cases h
      exact hI
  case some.self_insert =>
    simp only at h
    split_ifs at h
    · exact exec_inv _ _ _ _ h hI (guard_proc k .self_insert _)
    · cases h
      exact hI
  all_goals exact exec_inv _ _ _ _ h hI True.intro

theorem reachable_inv (s : Ed) (h : Reachable s) : Inv s := by
  induction h with
  | start fuel c bytes s hv hs => exact start_inv fuel c bytes s hv hs
  | event fuel count k c s s1 _ he ih => exact key_event_inv fuel count k c s s1 he ih

theorem reachable_after_keys (fuel : Nat) (evs : List (Option Nat × key × Cmd)) (s : Ed)
    (h : Reachable s) : Reachable (after_keys fuel evs s) := by
  unfold after_keys
  split
  · rename_i s1 hr
    exact reachable_run_keys fuel evs s s1 h hr
  · exact h

/-! ## The prefix argument as an `int` -/

theorem int_wrap_small (n : Nat) (h : n < 2 ^ 31) : int_wrap (n : Int) = (n : Int) := by
  unfold int_wrap
  omega

theorem int_wrap_wrap (a d : Int) : int_wrap (int_wrap a * 10 + d) = int_wrap (a * 10 + d) := by
  unfold int_wrap
  omega

theorem size_of_int_small (n : Nat) (h : n < 2 ^ 64) : size_of_int (n : Int) = n := by
  unfold size_of_int
  omega

/-- The digits of a count are accumulated modulo `2 ^ 32`. -/
theorem prefix_read_eq : ∀ (f n : Nat), n < f → prefix_read f n = int_wrap (n : Int) := by
  intro f
  induction f with
  | zero => intro n h; omega
  | succ f ih =>
    intro n h
    unfold prefix_read
    split_ifs with c
    · congr 1
      omega
    · rw [ih (n / 10) (by omega), int_wrap_wrap]
      congr 1
      omega

/-- A count below `2 ^ 31` arrives in the commands as typed. -/
theorem prefix_read_small (n : Nat) (h : n < 2 ^ 31) : prefix_read (n + 1) n = (n : Int) := by
  rw [prefix_read_eq (n + 1) n (by omega), int_wrap_small n h]

theorem size_of_prefix_read (n : Nat) (h : n < 2 ^ 31) : size_of_int (prefix_read (n + 1) n) = n := by
  rw [prefix_read_small n h, size_of_int_small n (by omega)]

/-! ## C1: the load has no bound on the newlines -/

/-- The decoder turns `k` letters into `k` characters as long as they fit. -/
theorem decode_letters (n : Nat) :
    ∀ (k : Nat) (dest : Nat → tedchar) (i : Nat), i + k ≤ n →
      ∃ d1, tedchar_from_bytes_loop .UNIX n (List.replicate k 0x61) k dest i 0 = .ok (d1, i + k) := by
  intro k
  induction k with
  | zero =>
    intro dest i _
    exact ⟨dest, by simp [tedchar_from_bytes_loop]⟩
  | succ k ih =>
    intro dest i h
    rw [List.replicate_succ]
    have hb : tedchar_from_bytes_body .UNIX n (0x61 :: List.replicate k 0x61) dest i 0 =
        .ok (Function.update dest i
          { kind := UTF8, u := utf8_fill (0x61 :: List.replicate k 0x61) 0 1 (dest i).u },
          i + 1, 1) := by
      have e0 : (0x61 :: List.replicate k 0x61).getD 0 0 = 0x61 := rfl
      have e1 : utf8_count 0x61 = 1 := by decide
      unfold tedchar_from_bytes_body
      simp only [e0, e1, List.length_cons, List.length_replicate]
      rw [if_neg (by decide), if_neg (by decide), if_neg (by omega), if_neg (by decide),
        if_pos (by omega)]
    obtain ⟨d1, h1⟩ := ih (Function.update dest i
      { kind := UTF8, u := utf8_fill (0x61 :: List.replicate k 0x61) 0 1 (dest i).u }) (i + 1)
      (by omega)
    refine ⟨d1, ?_⟩
    have hs := loop_shift .UNIX n [0x61] (List.replicate k 0x61) k
      (Function.update dest i
        { kind := UTF8, u := utf8_fill (0x61 :: List.replicate k 0x61) 0 1 (dest i).u }) (i + 1) 0
    simp only [List.length_singleton, Nat.add_zero, List.singleton_append] at hs
    simp only [tedchar_from_bytes_loop, List.length_cons, Nat.zero_lt_succ, if_true, hb]
    rw [hs, h1]
    congr 2
    omega

/-- C1 (code bug): the file of `BUFSIZE` letters `a` followed by one newline is loaded
without complaint. `tedchar_from_bytes` fills the `BUFSIZE` elements of `ed.buffer`,
stores the newline at `ed.buffer[BUFSIZE]`, outside the array, and returns
`BUFSIZE + 1`; `loadf` then assigns `gap_start = buffer + BUFSIZE + 1` and
`gap_end = buffer + BUFSIZE`, so `gap_start ≤ gap_end` fails, and the `gap_end` that
`move_point(ed.buffer)` computes from them, `gap_end - (gap_start - buffer)`, is one
element before the buffer. -/
theorem loadf_overflows_buffer :
    ∃ r, tedchar_from_bytes .UNIX buffer_zero BUFSIZE (List.replicate BUFSIZE 0x61 ++ [10]) =
        .ok r ∧
      r.2 = BUFSIZE + 1 ∧ r.1 BUFSIZE = tedchar_newline ∧
      (loadf_fields Config.default r).gap_start = BUFSIZE + 1 ∧
      (loadf_fields Config.default r).gap_end = BUFSIZE ∧
      ¬ ((loadf_fields Config.default r).gap_start ≤ (loadf_fields Config.default r).gap_end) ∧
      ((loadf_fields Config.default r).gap_end : Int) -
        (((loadf_fields Config.default r).gap_start : Int) - 0) = -1 := by
  obtain ⟨d1, h1⟩ := decode_letters BUFSIZE BUFSIZE buffer_zero 0 (by omega)
  rw [Nat.zero_add] at h1
  have hx := loop_extend .UNIX BUFSIZE (List.replicate BUFSIZE 0x61) [10] BUFSIZE buffer_zero d1
    0 0 BUFSIZE (Nat.zero_le _) h1 1 (le_refl _)
  have hb : tedchar_from_bytes_body .UNIX BUFSIZE [10] d1 BUFSIZE 0 =
      .ok (Function.update d1 BUFSIZE tedchar_newline, BUFSIZE + 1, 1) := by
    unfold tedchar_from_bytes_body
    rw [if_neg (by decide), if_pos (by decide)]
  refine ⟨(Function.update d1 BUFSIZE tedchar_newline, BUFSIZE + 1), ?_, rfl, ?_, rfl, rfl, ?_, ?_⟩
  · unfold tedchar_from_bytes
    rw [List.length_append, List.length_replicate, List.length_singleton, hx]
    simp only [tedchar_from_bytes_loop, List.length_singleton, Nat.zero_lt_one, if_true, hb,
      Nat.lt_irrefl, if_false]
  · exact Function.update_same BUFSIZE tedchar_newline d1
  · simp only [loadf_fields]
    omega
  · simp only [loadf_fields]
    push_cast
    omega

/-! ## The gap buffer -/

/-- C2: for a buffer with `gap_start ≤ gap_end ≤ BUFSIZE` and a logical index
`i ≤ buffer_size()`, `move_point` to the position of index `i` (the pointer
`char_at_index(i)`, or the end of the array for `i = buffer_size()`) returns,
leaves the character sequence and the length unchanged, keeps the gap inside the
array, and makes `gap_start` the offset `i`. -/
theorem move_point_spec (s : Ed) (i : Nat) (h1 : s.gap_start ≤ s.gap_end)
    (h2 : s.gap_end ≤ BUFSIZE) (hi : i ≤ buffer_size s) :
    ∃ s1, move_point s (some ((char_at_index s i).getD BUFSIZE)) = .ok s1 ∧
      content s1 = content s ∧ buffer_size s1 = buffer_size s ∧ s1.gap_start = i ∧
      s1.gap_start ≤ s1.gap_end ∧ s1.gap_end ≤ BUFSIZE := by
  unfold buffer_size at hi
  by_cases c1 : i < s.gap_start
  · have hp : (char_at_index s i).getD BUFSIZE = i := by
      unfold char_at_index buffer_size
      rw [if_neg (by omega), if_pos c1]; rfl
    rw [hp]
    unfold move_point
    simp only
    rw [if_neg (by omega), if_pos c1]
    refine ⟨_, rfl, ?_, ?_, rfl, ?_, ?_⟩
    · unfold content cell buffer_size
      simp only
      have e : i + (BUFSIZE - (s.gap_end - (s.gap_start - i))) =
          s.gap_start + (BUFSIZE - s.gap_end) := by omega
      rw [e]
      apply List.map_congr_left
      intro x hx
      rw [List.mem_range] at hx
      unfold memmove
      split_ifs <;> first | rfl | omega | (congr 1; omega)
    · unfold buffer_size; simp only; omega
    · simp only; omega
    · simp only; omega
  · by_cases c2 : i = s.gap_start
    · have hp : (char_at_index s i).getD BUFSIZE = s.gap_end := by
        unfold char_at_index buffer_size
        by_cases c3 : s.gap_start + (BUFSIZE - s.gap_end) ≤ i
        · rw [if_pos c3]; simp only [Option.getD_none]; omega
        · rw [if_neg c3, if_neg c1]; simp only [Option.getD_some]; omega
      rw [hp]
      unfold move_point
      simp only [if_true]
      exact ⟨s, rfl, rfl, rfl, c2.symm, h1, h2⟩
    · have hp : (char_at_index s i).getD BUFSIZE = s.gap_end + (i - s.gap_start) := by
        unfold char_at_index buffer_size
        by_cases c3 : s.gap_start + (BUFSIZE - s.gap_end) ≤ i
        · rw [if_pos c3]; simp only [Option.getD_none]; omega
        · rw [if_neg c3, if_neg c1]; simp only [Option.getD_some]
      rw [hp]
      unfold move_point
      simp only
      rw [if_neg (by omega), if_neg (by omega), if_pos (by omega)]
      refine ⟨_, rfl, ?_, ?_, ?_, ?_, ?_⟩
      · unfold content cell buffer_size
        simp only
        have e : s.gap_start + (s.gap_end + (i - s.gap_start) - s.gap_end) +
            (BUFSIZE - (s.gap_end + (s.gap_end + (i - s.gap_start) - s.gap_end))) =
            s.gap_start + (BUFSIZE - s.gap_end) := by omega
        rw [e]
        apply List.map_congr_left
        intro x hx
        rw [List.mem_range] at hx
        unfold memmove
        split_ifs <;> first | rfl | omega | (congr 1; omega)
      · unfold buffer_size; simp only; omega
      · simp only; omega
      · simp only; omega
      · simp only; omega

/-- Witness of `move_point_spec`: the file `a b c`, as `tedchar_from_bytes` leaves
it in `loadf` (gap after the text), with the point moved to index 1. -/
theorem move_point_spec_witness :
    ∃ s1, move_point { ed_zero Config.default with gap_start := 3, gap_end := BUFSIZE }
        (some ((char_at_index { ed_zero Config.default with gap_start := 3, gap_end := BUFSIZE }
          1).getD BUFSIZE)) = .ok s1 ∧
      content s1 = content { ed_zero Config.default with gap_start := 3, gap_end := BUFSIZE } ∧
      buffer_size s1 = buffer_size { ed_zero Config.default with gap_start := 3, gap_end := BUFSIZE } ∧
      s1.gap_start = 1 ∧ s1.gap_start ≤ s1.gap_end ∧ s1.gap_end ≤ BUFSIZE :=
  move_point_spec { ed_zero Config.default with gap_start := 3, gap_end := BUFSIZE } 1
    (by decide) (by decide) (by decide)

/-! ## Claims about the viewport -/

/-- C3 fails on the code at the file `a\nb` with the keys `C-f C-f C-v C-d C-b`: the
state reached holds the characters `a\n`, the point is at the newline, and the walk
of the viewport invariant does not end at the point (the anchor `tl` is null and the
cursor row is `2^64 - 1`). -/
theorem viewport_invariant_broken :
    ∃ s, Reachable s ∧
      run_keys 20 (keys_delete_at_anchor ++ [(none, key_zero, .backward_char)])
        (loaded Config.default [0x61, 10, 0x62]) = .ok s ∧
      is_buffer_empty s = false ∧ char_at_point s = some (BUFSIZE - 1) ∧
      s.tl = none ∧ viewport_ok s = false := by
  have h : (run_keys 20 (keys_delete_at_anchor ++ [(none, key_zero, .backward_char)])
      (loaded Config.default [0x61, 10, 0x62])).map
      (fun s => (is_buffer_empty s, char_at_point s, s.tl, viewport_ok s)) =
      .ok (false, some (BUFSIZE - 1), none, false) := by decide
  obtain ⟨s, hs, ho⟩ := map_ok_exists _ _ _ h
  simp only [Prod.mk.injEq] at ho
  exact ⟨s, reachable_run_keys 20 _ _ s reachable_loaded_abc hs, hs, ho.1, ho.2.1, ho.2.2.1,
    ho.2.2.2⟩

/-- C4 fails on the code at the file `a\nb` with the keys `C-f C-f C-v C-d C-b`:
`backward_char` decrements the cursor row 0 and leaves `cursor_row = 2^64 - 1`, which
is not below `nlines = 10`. -/
theorem cursor_row_wraps :
    ∃ s, Reachable s ∧
      run_keys 20 (keys_delete_at_anchor ++ [(none, key_zero, .backward_char)])
        (loaded Config.default [0x61, 10, 0x62]) = .ok s ∧
      s.cursor_row = 2 ^ 64 - 1 ∧ s.nlines = 10 ∧ ¬ s.cursor_row < s.nlines := by
  have h : (run_keys 20 (keys_delete_at_anchor ++ [(none, key_zero, .backward_char)])
      (loaded Config.default [0x61, 10, 0x62])).map (fun s => (s.cursor_row, s.nlines)) =
      .ok (2 ^ 64 - 1, 10) := by decide
  obtain ⟨s, hs, ho⟩ := map_ok_exists _ _ _ h
  simp only [Prod.mk.injEq] at ho
  refine ⟨s, reachable_run_keys 20 _ _ s reachable_loaded_abc hs, hs, ho.1, ho.2, ?_⟩
  rw [ho.1, ho.2]
  decide

/-- C5 fails on the code at the file `a\nb` with the keys `C-f C-f C-v C-d`: deleting
the character at the anchor, the last of the buffer, leaves `tl` null while the
characters `a\n` remain. -/
theorem anchor_null_while_nonempty :
    ∃ s, Reachable s ∧
      run_keys 20 keys_delete_at_anchor (loaded Config.default [0x61, 10, 0x62]) = .ok s ∧
      s.tl = none ∧ is_buffer_empty s = false ∧ buffer_size s = 2 := by
  have h : (run_keys 20 keys_delete_at_anchor (loaded Config.default [0x61, 10, 0x62])).map
      (fun s => (s.tl, is_buffer_empty s, buffer_size s)) = .ok (none, false, 2) := by decide
  obtain ⟨s, hs, ho⟩ := map_ok_exists _ _ _ h
  simp only [Prod.mk.injEq] at ho
  exact ⟨s, reachable_run_keys 20 _ _ s reachable_loaded_abc hs, hs, ho.1, ho.2.1, ho.2.2⟩

/-! ## Claims about saving -/

/-- C7: for every buffer with the gap inside the array and every block size
`sz ≥ 5`, `for_each_block` returns (given fuel for one turn per character), and the
blocks it hands to `body`, put one after the other, are the per-character encoding
of the content: newline as `0A` (unix) or `0D 0A` (dos), a UTF-8 character as its
`utf8_count` bytes, in order. -/
theorem for_each_block_serializes (s : Ed) (sz fuel : Nat) (buf : Nat → Nat)
    (hg : GapInv s) (hsz : 5 ≤ sz) (hf : buffer_size s ≤ fuel) :
    ∃ blocks, for_each_block s sz fuel (first_char s) buf 0 = .ok blocks ∧
      blocks.flatten = encode_chars s.filetype (content s) := by
  obtain ⟨blocks, h1, h2⟩ := for_each_block_spec s sz hg hsz fuel 0 buf (by omega)
  rw [first_char_eq s hg]
  exact ⟨blocks, h1, by rw [h2, List.drop_zero]⟩

/-- Witness of `for_each_block_serializes`: dos, content `ab\ncd\n`, blocks of 5
bytes: the bytes are `61 62 0D 0A 63 64 0D 0A`. -/
theorem for_each_block_serializes_witness :
    ∃ blocks,
      for_each_block (loaded ⟨10, 72, 8, .DOS, .FIRST⟩ [0x61, 0x62, 13, 10, 0x63, 0x64, 13, 10])
        5 6 (first_char (loaded ⟨10, 72, 8, .DOS, .FIRST⟩
          [0x61, 0x62, 13, 10, 0x63, 0x64, 13, 10])) (fun _ => 0) 0 = .ok blocks ∧
      blocks.flatten = [0x61, 0x62, 13, 10, 0x63, 0x64, 13, 10] := by
  have h := for_each_block_serializes
    (loaded ⟨10, 72, 8, .DOS, .FIRST⟩ [0x61, 0x62, 13, 10, 0x63, 0x64, 13, 10]) 5 6
    (fun _ => 0) ⟨by decide, by decide⟩ (by decide) (by decide)
  have e : encode_chars
      (loaded ⟨10, 72, 8, .DOS, .FIRST⟩ [0x61, 0x62, 13, 10, 0x63, 0x64, 13, 10]).filetype
      (content (loaded ⟨10, 72, 8, .DOS, .FIRST⟩ [0x61, 0x62, 13, 10, 0x63, 0x64, 13, 10])) =
      [0x61, 0x62, 13, 10, 0x63, 0x64, 13, 10] := by decide
  rw [e] at h
  exact h

/-- C6, as stated, fails: the content `a` is a valid character sequence, `save_buffer`
writes `61 0A` for it (it first appends the missing final newline), and loading
these bytes gives `a`, newline. -/
theorem save_load_round_trip_counterexample :
    content (loaded Config.default [0x61]) = [{ kind := UTF8, u := ⟨0x61, 0, 0, 0⟩ }] ∧
    tedchar_valid { kind := UTF8, u := ⟨0x61, 0, 0, 0⟩ } ∧
    save_bytes 30 (loaded Config.default [0x61]) = .ok [0x61, 10] ∧
    load_chars .UNIX [0x61, 10] = .ok [{ kind := UTF8, u := ⟨0x61, 0, 0, 0⟩ }, tedchar_newline] ∧
    [{ kind := UTF8, u := ⟨0x61, 0, 0, 0⟩ }, tedchar_newline] ≠
      content (loaded Config.default [0x61]) := by
  refine ⟨by decide, ?_, by decide, by decide, by decide⟩
  right
  refine ⟨rfl, fun _ => Or.inr (by decide), ?_⟩
  intro x h1 h2
  have hc : utf8_count 0x61 = 1 := by decide
  simp only [hc] at h1
  interval_cases x <;> rfl

/-- C6 (amended): for every buffer whose content is a sequence of valid TedChars
that is empty or ends with a newline, and for each newline convention, `save_buffer`
writes bytes (the trailing-newline step changes nothing), and decoding these bytes
as `loadf` does yields exactly the content. -/
theorem save_load_round_trip (s : Ed) (fuel : Nat) (hg : GapInv s)
    (hv : ∀ t ∈ content s, tedchar_valid t)
    (hnl : ∀ t, (content s).getLast? = some t → is_newline t = true) (hf : 1 ≤ fuel) :
    ∃ bytes, save_bytes fuel s = .ok bytes ∧ load_chars s.filetype bytes = .ok (content s) := by
  obtain ⟨f, rfl⟩ : ∃ f, fuel = f + 1 := ⟨fuel - 1, by omega⟩
  have hsize : (content s).length ≤ BUFSIZE := by
    rw [content_length]; unfold GapInv at hg; unfold buffer_size; omega
  refine ⟨encode_chars s.filetype (content s), ?_, load_encode_chars _ _ hv hsize⟩
  unfold save_bytes
  simp only [exec, step, trailing_newline_noop s (exec f) hg hnl, bind, Except.bind,
    write_buffer_to_file_spec s hg]

/-- Witness of `save_load_round_trip`: the dos file `ab\ncd\n`. -/
theorem save_load_round_trip_witness :
    ∃ bytes,
      save_bytes 1 (loaded ⟨10, 72, 8, .DOS, .FIRST⟩ [0x61, 0x62, 13, 10, 0x63, 0x64, 13, 10]) =
        .ok bytes ∧
      load_chars (loaded ⟨10, 72, 8, .DOS, .FIRST⟩
          [0x61, 0x62, 13, 10, 0x63, 0x64, 13, 10]).filetype bytes =
        .ok (content (loaded ⟨10, 72, 8, .DOS, .FIRST⟩
          [0x61, 0x62, 13, 10, 0x63, 0x64, 13, 10])) :=
  save_load_round_trip
    (loaded ⟨10, 72, 8, .DOS, .FIRST⟩ [0x61, 0x62, 13, 10, 0x63, 0x64, 13, 10]) 1
    ⟨by decide, by decide⟩
    (by
      have e : content (loaded ⟨10, 72, 8, .DOS, .FIRST⟩
          [0x61, 0x62, 13, 10, 0x63, 0x64, 13, 10]) =
          [{ kind := UTF8, u := ⟨0x61, 0, 0, 0⟩ }, { kind := UTF8, u := ⟨0x62, 0, 0, 0⟩ },
            tedchar_newline, { kind := UTF8, u := ⟨0x63, 0, 0, 0⟩ },
            { kind := UTF8, u := ⟨0x64, 0, 0, 0⟩ }, tedchar_newline] := by decide
      rw [e]
      intro t ht
      simp only [List.mem_cons, List.mem_singleton, List.not_mem_nil, or_false] at ht
      have hc : ∀ b : Nat, utf8_count b = 1 → (b = 9 ∨ (0x20 ≤ b ∧ b ≤ 0x7e)) →
          tedchar_valid { kind := UTF8, u := ⟨b, 0, 0, 0⟩ } := by
        intro b hb hr
        right
        refine ⟨rfl, fun _ => hr, ?_⟩
        intro x h1 h2
        simp only [hb] at h1
        interval_cases x <;> rfl
      rcases ht with h | h | h | h | h | h <;> subst h
      · exact hc _ (by decide) (by decide)
      · exact hc _ (by decide) (by decide)
      · exact Or.inl rfl
      · exact hc _ (by decide) (by decide)
      · exact hc _ (by decide) (by decide)
      · exact Or.inl rfl)
    (by decide) (by decide)

/-! ## Claims about the load decoder -/

/-- C8, as stated, fails: in dos mode the input `C3 0D` holds a `0D` that is not
followed by `0A` and loads as one character, and in unix mode the `0A` of `C3 0A`
does not become a newline. -/
theorem load_newline_policy_counterexample :
    ¬ (∀ src : List Nat, (∃ j, j < src.length ∧ src.getD j 0 = 13 ∧ src.getD (j + 1) 0 ≠ 10) →
        ∃ e, load_chars .DOS src = .error e) ∧
    load_chars .DOS [0xC3, 0x0D] = .ok [{ kind := UTF8, u := ⟨0xC3, 0x0D, 0, 0⟩ }] ∧
    load_chars .UNIX [0xC3, 0x0A] = .ok [{ kind := UTF8, u := ⟨0xC3, 0x0A, 0, 0⟩ }] := by
  refine ⟨?_, by decide, by decide⟩
  intro h
  obtain ⟨e, he⟩ := h [0xC3, 0x0D] ⟨1, by decide, by decide, by decide⟩
  have h2 : load_chars .DOS [0xC3, 0x0D] = .ok [{ kind := UTF8, u := ⟨0xC3, 0x0D, 0, 0⟩ }] := by
    decide
  rw [h2] at he
  cases he

/-- C8 (amended): at a character boundary, that is after a prefix `pre` that loads,
a byte `0A` in unix mode and a byte pair `0D 0A` in dos mode load as one newline
character followed by the characters of the rest, and in dos mode a `0D` that is not
followed by `0A` stops the load. -/
theorem load_newline_policy (ft : Filetype) (pre rest : List Nat) (cs1 : List tedchar)
    (hpre : load_chars ft pre = .ok cs1) :
    (ft = .UNIX → ∀ cs2, load_chars ft rest = .ok cs2 →
        cs1.length + 1 + cs2.length ≤ BUFSIZE →
        load_chars ft (pre ++ 10 :: rest) = .ok (cs1 ++ tedchar_newline :: cs2)) ∧
    (ft = .DOS → ∀ cs2, load_chars ft rest = .ok cs2 →
        cs1.length + 1 + cs2.length ≤ BUFSIZE →
        load_chars ft (pre ++ 13 :: 10 :: rest) = .ok (cs1 ++ tedchar_newline :: cs2)) ∧
    (ft = .DOS → rest.head? ≠ some 10 →
        ∃ e, load_chars ft (pre ++ 13 :: rest) = .error e) := by
  refine ⟨?_, ?_, ?_⟩
  · intro hft cs2 h2 hn
    subst hft
    have h10 : load_chars .UNIX [10] = .ok [tedchar_newline] := by decide
    have e1 : (10 : Nat) :: rest = [10] ++ rest := rfl
    have hx := load_chars_append .UNIX [10] rest _ _ h10 h2 (by simp only [List.length_cons, List.length_nil]; omega)
    rw [e1]
    exact load_chars_append .UNIX pre ([10] ++ rest) _ _ hpre hx
      (by simp only [List.length_append, List.length_cons, List.length_nil]; omega)
  · intro hft cs2 h2 hn
    subst hft
    have h10 : load_chars .DOS [13, 10] = .ok [tedchar_newline] := by decide
    have e1 : (13 : Nat) :: 10 :: rest = [13, 10] ++ rest := rfl
    have hx := load_chars_append .DOS [13, 10] rest _ _ h10 h2 (by simp only [List.length_cons, List.length_nil]; omega)
    rw [e1]
    exact load_chars_append .DOS pre ([13, 10] ++ rest) _ _ hpre hx
      (by simp only [List.length_append, List.length_cons, List.length_nil]; omega)
  · intro hft hr
    subst hft
    exact load_chars_append_err .DOS pre (13 :: rest) cs1 _ hpre (load_chars_cr_fail rest hr)

/-- Witness of `load_newline_policy`: after `a`, the dos pair `0D 0A` before `b`. -/
theorem load_newline_policy_witness :
    load_chars .DOS [0x61, 13, 10, 0x62] =
      .ok [{ kind := UTF8, u := ⟨0x61, 0, 0, 0⟩ }, tedchar_newline,
        { kind := UTF8, u := ⟨0x62, 0, 0, 0⟩ }] :=
  (load_newline_policy .DOS [0x61] [0x62] [{ kind := UTF8, u := ⟨0x61, 0, 0, 0⟩ }]
    (by decide)).2.1 rfl [{ kind := UTF8, u := ⟨0x62, 0, 0, 0⟩ }] (by decide) (by decide)

/-- C9: after a prefix that loads, a single-byte character that is not taken as a
newline and is neither a tab nor in `0x20..0x7E` stops the load, and a multibyte
leader `b` followed by the `utf8_count b - 1` bytes `run` gives exactly one UTF8
character, which holds `b :: run` in its first `utf8_count b` bytes, placed after the
characters of the prefix and before those of the input after the run. -/
theorem decoder_single_and_multibyte (ft : Filetype) (pre rest : List Nat)
    (cs1 : List tedchar) (b : Nat) (hpre : load_chars ft pre = .ok cs1) :
    (utf8_count b = 1 → ¬ (ft = .UNIX ∧ b = 10) →
      ¬ (ft = .DOS ∧ b = 13 ∧ rest.head? = some 10) → b ≠ 9 → (b < 0x20 ∨ 0x7e < b) →
      ∃ e, load_chars ft (pre ++ b :: rest) = .error e) ∧
    (2 ≤ utf8_count b → ∀ run tail, rest = run ++ tail → run.length = utf8_count b - 1 →
      ∃ t : tedchar, t.kind = UTF8 ∧
        (∀ x, x < utf8_count b → t.u.get x = (b :: run).getD x 0) ∧
        (∀ cs2, load_chars ft tail = .ok cs2 → cs1.length + 1 + cs2.length ≤ BUFSIZE →
          load_chars ft (pre ++ b :: rest) = .ok (cs1 ++ t :: cs2)) ∧
        (∀ cs, load_chars ft (pre ++ b :: rest) = .ok cs →
          ∃ cs2, load_chars ft tail = .ok cs2 ∧ cs = cs1 ++ t :: cs2)) := by
  constructor
  · intro hk hu hd ht hb
    exact load_chars_append_err ft pre (b :: rest) cs1 _ hpre
      (load_chars_ascii_fail ft b rest hk hu hd ht hb)
  · intro hk run tail hrest hlen
    subst hrest
    have hrun := load_chars_run ft b run hk hlen
    have e1 : b :: (run ++ tail) = (b :: run) ++ tail := rfl
    refine ⟨{ kind := UTF8, u := utf8_fill (b :: run) 0 (utf8_count b) utf8_zero }, rfl, ?_, ?_, ?_⟩
    · intro x hx
      have h4 := utf8_count_le b
      rw [utf8_fill_get _ _ _ _ h4 x (by omega), if_pos hx, Nat.zero_add]
    · intro cs2 h2 hn
      have hx := load_chars_append ft (b :: run) tail _ _ hrun h2
        (by simp only [List.length_cons, List.length_nil]; omega)
      rw [e1]
      exact load_chars_append ft pre ((b :: run) ++ tail) _ _ hpre hx
        (by simp only [List.length_append, List.length_cons, List.length_nil]; omega)
    · intro cs h
      rw [e1] at h
      obtain ⟨cs3, h3, hcs⟩ := load_chars_append_inv ft pre ((b :: run) ++ tail) cs1 cs hpre h
      obtain ⟨cs2, h2, hcs3⟩ := load_chars_append_inv ft (b :: run) tail _ cs3 hrun h3
      exact ⟨cs2, h2, by rw [hcs, hcs3]; rfl⟩

/-- Witness of `decoder_single_and_multibyte`: after `a`, the byte `0x01` stops the
load. -/
theorem decoder_single_and_multibyte_witness :
    ∃ e, load_chars .UNIX ([0x61] ++ 0x01 :: [0x62]) = .error e :=
  (decoder_single_and_multibyte .UNIX [0x61] [0x62] [{ kind := UTF8, u := ⟨0x61, 0, 0, 0⟩ }]
    0x01 (by decide)).1 (by decide) (by decide) (by decide) (by decide) (by decide)

/-- C10, as stated, fails: the leader `C3` followed by the byte `41`, which is no
continuation byte (`41 & C0 ≠ 80`), loads as one character. -/
theorem load_rejects_invalid_utf8_counterexample :
    (0x41 &&& 0xC0 ≠ 0x80) ∧
    load_chars .UNIX [0xC3, 0x41] = .ok [{ kind := UTF8, u := ⟨0xC3, 0x41, 0, 0⟩ }] := by
  decide

/-- C10 (amended): after a prefix that loads, a multibyte leader with fewer than
`utf8_count b - 1` bytes left after it stops the load, while a leader followed by
any `utf8_count b - 1` bytes loads as one character: the bytes after a leader are
counted, not examined. -/
theorem load_rejects_truncated_run (ft : Filetype) (pre rest : List Nat)
    (cs1 : List tedchar) (b : Nat) (hpre : load_chars ft pre = .ok cs1)
    (hk : 2 ≤ utf8_count b) :
    (rest.length < utf8_count b - 1 → ∃ e, load_chars ft (pre ++ b :: rest) = .error e) ∧
    (rest.length = utf8_count b - 1 → cs1.length + 1 ≤ BUFSIZE →
      ∃ t : tedchar, load_chars ft (pre ++ b :: rest) = .ok (cs1 ++ [t])) := by
  constructor
  · intro hl
    exact load_chars_append_err ft pre (b :: rest) cs1 _ hpre (load_chars_truncated ft b rest hk hl)
  · intro hl hn
    exact ⟨_, load_chars_append ft pre (b :: rest) _ _ hpre (load_chars_run ft b rest hk hl)
      (by simp only [List.length_cons, List.length_nil]; omega)⟩

/-- Witness of `load_rejects_truncated_run`: the three-byte leader `E2` with one
byte after it. -/
theorem load_rejects_truncated_run_witness :
    ∃ e, load_chars .UNIX ([0x61] ++ 0xE2 :: [0x82]) = .error e :=
  (load_rejects_truncated_run .UNIX [0x61] [0x82] [{ kind := UTF8, u := ⟨0x61, 0, 0, 0⟩ }]
    0xE2 (by decide) (by decide)).1 (by decide)

/-! ## Commands run to completion: the primitives -/

theorem exec_succ (f : Nat) (p : Proc) (s : Ed) : exec (f + 1) p s = step (exec f) p s := rfl

theorem prefix_clear_eq (s : Ed) (h : Ed.is_prefix s = false) : prefix_clear s = s := by
  cases s
  simp only at h
  subst h
  rfl

theorem repeat_count_one (s : Ed) (h : Ed.is_prefix s = false) : repeat_count s = 1 := by
  unfold repeat_count
  rw [h]
  rfl

theorem size_dec_pos (x : Nat) (h : 0 < x) (h2 : x < SIZE_MOD) : size_dec x = x - 1 := by
  unfold size_dec SIZE_MOD at *
  omega

theorem size_dec_le (x : Nat) (h : 0 < x) : size_dec x ≤ x := by
  unfold size_dec SIZE_MOD at *
  omega

theorem size_inc_lt (x : Nat) (h : x + 1 < SIZE_MOD) : size_inc x = x + 1 := by
  unfold size_inc SIZE_MOD at *
  omega

theorem size_inc_le (x : Nat) : size_inc x ≤ x + 1 := by
  unfold size_inc SIZE_MOD
  omega

theorem next_col_ok (s : Ed) (t : tedchar) (col : Nat) (hn : 0 < s.ncols)
    (hc : col < s.ncols) : ∃ n, next_col s t col = .ok n ∧ n < s.ncols := by
  unfold next_col
  rw [if_neg (by omega)]
  split_ifs <;> exact ⟨_, rfl, by omega⟩

theorem next_col_congr (s s1 : Ed) (h1 : s1.ncols = s.ncols) (h2 : s1.tabstop = s.tabstop)
    (t : tedchar) (col : Nat) : next_col s1 t col = next_col s t col := by
  unfold next_col
  rw [h1, h2]

theorem advance_some (s : Ed) (p q : Nat) (h1 : s.gap_start ≤ s.gap_end)
    (h2 : s.gap_end ≤ BUFSIZE) (h : advance s p = some q) : p < q ∧ q < BUFSIZE := by
  unfold advance at h
  split_ifs at h <;> first | (cases h; done) | (cases h; omega)

theorem deref_ok (s : Ed) (p : Nat) (h : p < BUFSIZE) : deref s (some p) = .ok (s.buffer p) := by
  unfold deref
  simp only
  rw [if_pos h]

theorem next_visual_line_total (s : Ed) (hn : 0 < s.ncols) (hg1 : s.gap_start ≤ s.gap_end)
    (hg2 : s.gap_end ≤ BUFSIZE) :
    ∀ (f p n : Nat), n < s.ncols → p < BUFSIZE → BUFSIZE ≤ p + f →
      ∃ v, next_visual_line s f p n = .ok v ∧ ∀ q, v = some q → q < BUFSIZE := by
  intro f
  induction f with
  | zero => intro p n _ hp hf; omega
  | succ f ih =>
    intro p n hc hp hf
    obtain ⟨n1, hn1, hn1c⟩ := next_col_ok s (s.buffer p) n hn hc
    simp only [next_visual_line, deref_ok s p hp, hn1]
    cases ha : advance s p with
    | none => exact ⟨none, rfl, fun q hq => by cases hq⟩
    | some p1 =>
      obtain ⟨h1, h2⟩ := advance_some s p p1 hg1 hg2 ha
      simp only
      by_cases c : n1 = 0
      · rw [if_pos c]
        exact ⟨some p1, rfl, fun q hq => by cases hq; exact h2⟩
      · rw [if_neg c]
        exact ih p1 n1 hn1c h2 (by omega)

theorem scroll_up_total (f : Nat) (s : Ed) (hW : Fit s) (hp : Ed.is_prefix s = false)
    (hrow : s.cursor_row ≠ 0) (hf : 3 ≤ f) :
    ∃ tl1 row1, exec f .scroll_up s = .ok { s with tl := tl1, cursor_row := row1 } ∧
      (∀ p, tl1 = some p → p < BUFSIZE) ∧
      (row1 = s.cursor_row ∨ row1 = size_dec s.cursor_row) := by
  obtain ⟨f3, rfl⟩ : ∃ f3, f = f3 + 3 := ⟨f - 3, by omega⟩
  obtain ⟨hg1, hg2, _, _, hn, _, _, htl⟩ := hW
  have same : ∃ tl1 row1, (Except.ok s : Except Fault Ed) =
      .ok { s with tl := tl1, cursor_row := row1 } ∧
      (∀ p, tl1 = some p → p < BUFSIZE) ∧
      (row1 = s.cursor_row ∨ row1 = size_dec s.cursor_row) :=
    ⟨s.tl, s.cursor_row, rfl, htl, Or.inl rfl⟩
  simp only [exec_succ, step, scroll_up]
  split_ifs
  · exact same
  rw [repeat_count_one s hp, prefix_clear_eq s hp]
  simp only [exec_succ, step, scroll_up_loop, one_ne_zero, if_false, if_neg hrow, bind,
    Except.bind, pure, Except.pure]
  cases htl1 : s.tl with
  | none => exact same
  | some p =>
    obtain ⟨v, hv, hvb⟩ := next_visual_line_total s hn hg1 hg2 BUFSIZE p 0 hn (htl p htl1) (by omega)
    simp only [hv]
    cases v with
    | none => exact same
    | some p1 =>
      simp only [Nat.sub_self, if_true]
      exact ⟨some p1, size_dec s.cursor_row, rfl, hvb, Or.inr rfl⟩

theorem update_self_at (buf : Nat → tedchar) (a b : Nat) :
    Function.update buf a (buf b) b = buf b := by
  by_cases c : b = a
  · subst c; simp
  · rw [Function.update_noteq c]

theorem forward_char_move_eq (s : Ed) (n : Nat) (h1 : s.gap_start ≤ s.gap_end)
    (he : s.gap_end < BUFSIZE)
    (hn : next_col s (s.buffer s.gap_end) s.cursor_col = .ok n) :
    forward_char_move s (some s.gap_end) =
      .ok (update_goal { s with
        tl := if s.cursor_row = 0 ∧ s.cursor_col = 0 then some s.gap_start else s.tl,
        buffer := Function.update s.buffer s.gap_start (s.buffer s.gap_end),
        gap_start := s.gap_start + 1, gap_end := s.gap_end + 1,
        cursor_row := if n = 0 then size_inc s.cursor_row else s.cursor_row,
        cursor_col := n }) := by
  have hs : s.gap_start < BUFSIZE := by omega
  unfold next_col at hn
  simp only [forward_char_move, bind, Except.bind, pure, Except.pure, deref, store, if_pos he,
    if_pos hs, update_self_at, next_col, hn]

/-! ## The text on both sides of the gap -/

theorem text_before_length (s : Ed) : (text_before s).length = s.gap_start := by
  simp [text_before]

theorem text_after_length (s : Ed) : (text_after s).length = BUFSIZE - s.gap_end := by
  simp [text_after]

theorem content_split (s : Ed) :
    content s = text_before s ++ text_after s := by
  unfold content text_before text_after buffer_size
  rw [List.range_add, List.map_append, List.map_map]
  congr 1
  · apply List.map_congr_left
    intro x hx
    rw [List.mem_range] at hx
    unfold cell
    rw [if_pos hx]
  · apply List.map_congr_left
    intro x _
    simp only [Function.comp]
    unfold cell
    rw [if_neg (by omega)]
    congr 1
    omega

theorem text_before_take (s : Ed) : text_before s = (content s).take s.gap_start := by
  rw [content_split s, List.take_left' (text_before_length s)]

theorem text_after_drop (s : Ed) : text_after s = (content s).drop s.gap_start := by
  rw [content_split s, List.drop_left' (text_before_length s)]

theorem text_before_snoc (s s1 : Ed) (t : tedchar)
    (hb : s1.buffer = Function.update s.buffer s.gap_start t)
    (hgs : s1.gap_start = s.gap_start + 1) : text_before s1 = text_before s ++ [t] := by
  unfold text_before
  rw [hgs, hb, List.range_succ, List.map_append]
  congr 1
  · apply List.map_congr_left
    intro x hx
    rw [List.mem_range] at hx
    rw [Function.update_noteq (by omega)]
  · simp

theorem text_after_cons (s s1 : Ed) (he : s.gap_end < BUFSIZE)
    (hb : ∀ x, s.gap_end < x → s1.buffer x = s.buffer x)
    (hge : s1.gap_end = s.gap_end + 1) :
    text_after s = s.buffer s.gap_end :: text_after s1 := by
  unfold text_after
  obtain ⟨k, hk⟩ : ∃ k, BUFSIZE - s.gap_end = k + 1 := ⟨BUFSIZE - s.gap_end - 1, by omega⟩
  have hk1 : BUFSIZE - s1.gap_end = k := by omega
  rw [hk, hk1, List.range_succ_eq_map, List.map_cons, List.map_map]
  congr 1
  apply List.map_congr_left
  intro x _
  simp only [Function.comp]
  rw [hge, hb _ (by omega)]
  congr 1
  omega

theorem text_before_same (s s1 : Ed) (hb : ∀ x, x < s.gap_start → s1.buffer x = s.buffer x)
    (hgs : s1.gap_start = s.gap_start) : text_before s1 = text_before s := by
  unfold text_before
  rw [hgs]
  apply List.map_congr_left
  intro x hx
  rw [List.mem_range] at hx
  exact hb x hx

theorem text_after_same (s s1 : Ed) (hb : ∀ x, s.gap_end ≤ x → s1.buffer x = s.buffer x)
    (hge : s1.gap_end = s.gap_end) : text_after s1 = text_after s := by
  unfold text_after
  rw [hge]
  apply List.map_congr_left
  intro x _
  exact hb _ (by omega)

/-! ## Frames of motions -/

theorem keeps_refl (s : Ed) : Keeps s s := ⟨rfl, rfl, rfl, rfl, rfl, rfl, rfl, rfl, rfl⟩

theorem keeps_trans (s s1 s2 : Ed) (h1 : Keeps s s1) (h2 : Keeps s1 s2) : Keeps s s2 := by
  obtain ⟨a1, a2, a3, a4, a5, a6, a7, a8, a9⟩ := h1
  obtain ⟨b1, b2, b3, b4, b5, b6, b7, b8, b9⟩ := h2
  exact ⟨b1.trans a1, b2.trans a2, b3.trans a3, b4.trans a4, b5.trans a5, b6.trans a6,
    b7.trans a7, b8.trans a8, b9.trans a9⟩

theorem motion_refl (s : Ed) (hW : Fit s) (hp : Ed.is_prefix s = false) : Motion s s :=
  ⟨hW, keeps_refl s, rfl, hp, rfl⟩

theorem motion_trans (s s1 s2 : Ed) (h1 : Motion s s1) (h2 : Motion s1 s2) : Motion s s2 := by
  obtain ⟨_, k1, c1, _, g1⟩ := h1
  obtain ⟨w2, k2, c2, p2, g2⟩ := h2
  exact ⟨w2, keeps_trans s s1 s2 k1 k2, c2.trans c1, p2, g2.trans g1⟩

theorem fwd_refl (s : Ed) (hW : Fit s) (hp : Ed.is_prefix s = false) : Fwd s s :=
  ⟨motion_refl s hW hp, le_refl _, by omega, fun h _ => h⟩

theorem fwd_trans (s s1 s2 : Ed) (h1 : Fwd s s1) (h2 : Fwd s1 s2) : Fwd s s2 := by
  obtain ⟨m1, l1, r1, a1⟩ := h1
  obtain ⟨m2, l2, r2, a2⟩ := h2
  refine ⟨motion_trans s s1 s2 m1 m2, by omega, by omega, fun ha hr => ?_⟩
  exact a2 (a1 ha (by omega)) (by omega)

theorem motion_of_step (s s1 : Ed) (hW1 : Fit s1) (hK : Keeps s s1)
    (hb : s1.buffer = Function.update s.buffer s.gap_start (s.buffer s.gap_end))
    (hgs : s1.gap_start = s.gap_start + 1) (hge : s1.gap_end = s.gap_end + 1)
    (h1 : s.gap_start ≤ s.gap_end) (he : s.gap_end < BUFSIZE)
    (hp : Ed.is_prefix s1 = false) : Motion s s1 := by
  refine ⟨hW1, hK, ?_, hp, by omega⟩
  rw [content_split s, content_split s1,
    text_before_snoc s s1 _ hb hgs,
    text_after_cons s s1 he (fun x hx => by rw [hb, Function.update_noteq (by omega)]) hge]
  simp

theorem fwd_of_step (s s1 : Ed) (hW1 : Fit s1) (hK : Keeps s s1)
    (hb : s1.buffer = Function.update s.buffer s.gap_start (s.buffer s.gap_end))
    (hgs : s1.gap_start = s.gap_start + 1) (hge : s1.gap_end = s.gap_end + 1)
    (h1 : s.gap_start ≤ s.gap_end) (he : s.gap_end < BUFSIZE)
    (hp : Ed.is_prefix s1 = false) (hrow : s1.cursor_row ≤ s.cursor_row + 1)
    (horg : s.cursor_row + 1 < SIZE_MOD → ¬(s1.cursor_row = 0 ∧ s1.cursor_col = 0)) :
    Fwd s s1 := by
  refine ⟨motion_of_step s s1 hW1 hK hb hgs hge h1 he hp, by omega, by omega, fun _ hr => ?_⟩
  intro r0 c0
  exact absurd ⟨r0, c0⟩ (horg (by omega))

theorem scroll_at_last_row_total (f : Nat) (s : Ed) (hW : Fit s) (hp : Ed.is_prefix s = false)
    (he : s.gap_end < BUFSIZE) (hf : 3 ≤ f) :
    ∃ tl1 row1 b, scroll_at_last_row (exec f) s =
        .ok ({ s with tl := tl1, cursor_row := row1 }, b) ∧
      (∀ p, tl1 = some p → p < BUFSIZE) ∧ row1 ≤ s.cursor_row := by
  have hW0 := hW
  obtain ⟨hg1, hg2, hl1, hl2, hn, _, hc, htl⟩ := hW
  have same : ∃ tl1 row1 b, (Except.ok (s, false) : Except Fault (Ed × Bool)) =
      .ok ({ s with tl := tl1, cursor_row := row1 }, b) ∧
      (∀ p, tl1 = some p → p < BUFSIZE) ∧ row1 ≤ s.cursor_row :=
    ⟨s.tl, s.cursor_row, false, rfl, htl, le_refl _⟩
  unfold scroll_at_last_row
  split_ifs with hrow
  · have hcp : char_at_point s = some s.gap_end := by
      unfold char_at_point is_buffer_empty is_point_at_end_of_buffer
      rw [if_neg]
      simp only [Bool.or_eq_true, beq_iff_eq]
      omega
    obtain ⟨n, hn1, _⟩ := next_col_ok s (s.buffer s.gap_end) s.cursor_col hn hc
    rw [hcp, deref_ok s _ he]
    simp only [hn1]
    split_ifs
    · obtain ⟨tl1, row1, h1, h2, h3⟩ := scroll_up_total f s hW0 hp (by omega) hf
      rw [h1]
      refine ⟨tl1, row1, true, rfl, h2, ?_⟩
      rcases h3 with h3 | h3
      · omega
      · rw [h3]; exact size_dec_le _ (by omega)
    · exact same
  · exact same

theorem char_at_point_some (s : Ed) (h1 : s.gap_start ≤ s.gap_end) (he : s.gap_end < BUFSIZE) :
    char_at_point s = some s.gap_end := by
  unfold char_at_point is_buffer_empty is_point_at_end_of_buffer
  rw [if_neg]
  simp only [Bool.or_eq_true, beq_iff_eq]
  omega

theorem forward_step (s : Ed) (tl1 : Option Nat) (row1 : Nat) (hW : Fit s)
    (hp : Ed.is_prefix s = false) (he : s.gap_end < BUFSIZE)
    (htl : ∀ p, tl1 = some p → p < BUFSIZE) (hrow : row1 ≤ s.cursor_row) :
    ∃ s2, forward_char_move { s with tl := tl1, cursor_row := row1 } (some s.gap_end) = .ok s2 ∧
      Fwd s s2 ∧ s2.gap_start = s.gap_start + 1 ∧ s2.gap_end = s.gap_end + 1 := by
  obtain ⟨hg1, hg2, hl1, hl2, hn, ht, hc, _⟩ := hW
  obtain ⟨n, hn1, hn2⟩ := next_col_ok s (s.buffer s.gap_end) s.cursor_col hn hc
  have e := forward_char_move_eq { s with tl := tl1, cursor_row := row1 } n hg1 he hn1
  simp only at e
  rw [e]
  refine ⟨_, rfl, fwd_of_step s _ ?_ ?_ rfl rfl rfl hg1 he hp ?_ ?_, rfl, rfl⟩
  · refine ⟨?_, ?_, hl1, hl2, hn, ht, hn2, ?_⟩
    · show s.gap_start + 1 ≤ s.gap_end + 1
      omega
    · show s.gap_end + 1 ≤ BUFSIZE
      omega
    · intro p hp1
      simp only [update_goal] at hp1
      split_ifs at hp1
      · cases hp1; omega
      · exact htl p hp1
  · exact ⟨rfl, rfl, rfl, rfl, rfl, rfl, rfl, rfl, rfl⟩
  · show (if n = 0 then size_inc row1 else row1) ≤ s.cursor_row + 1
    have := size_inc_le row1
    split_ifs <;> omega
  · intro hr
    show ¬((if n = 0 then size_inc row1 else row1) = 0 ∧ n = 0)
    intro ⟨h1, h2⟩
    rw [if_pos h2, size_inc_lt row1 (by omega)] at h1
    omega

theorem forward_char_loop_total :
    ∀ (r f : Nat) (s : Ed), Fit s → Ed.is_prefix s = false →
      min r (BUFSIZE - s.gap_end) + 4 ≤ f →
      ∃ s1, exec f (.forward_char_loop r) s = .ok s1 ∧ Fwd s s1 ∧
        s1.gap_start = s.gap_start + min r (BUFSIZE - s.gap_end) := by
  intro r
  induction r with
  | zero =>
    intro f s hW hp hf
    obtain ⟨f1, rfl⟩ : ∃ f1, f = f1 + 1 := ⟨f - 1, by omega⟩
    exact ⟨s, rfl, fwd_refl s hW hp, by simp⟩
  | succ r ih =>
    intro f s hW hp hf
    obtain ⟨f1, rfl⟩ : ∃ f1, f = f1 + 1 := ⟨f - 1, by omega⟩
    have hg1 := hW.1
    have hg2 := hW.2.1
    simp only [exec_succ, step, forward_char_loop]
    rw [if_neg (Nat.succ_ne_zero r)]
    by_cases hend : s.gap_end = BUFSIZE
    · rw [if_pos (by simp [is_point_at_end_of_buffer, hend])]
      refine ⟨s, rfl, fwd_refl s hW hp, ?_⟩
      rw [hend]
      simp
    · have he : s.gap_end < BUFSIZE := by omega
      rw [if_neg (by simp [is_point_at_end_of_buffer, hend])]
      obtain ⟨tl1, row1, b, h1, h2, h3⟩ := scroll_at_last_row_total f1 s hW hp he (by omega)
      rw [h1]
      simp only
      have hcp : (if b = true then char_at_point { s with tl := tl1, cursor_row := row1 }
          else char_at_point s) = some s.gap_end := by
        have := char_at_point_some s hg1 he
        split_ifs
        · exact this
        · exact this
      rw [hcp]
      obtain ⟨s2, e2, hf2, hgs2, hge2⟩ := forward_step s tl1 row1 hW hp he h2 h3
      rw [e2]
      simp only
      obtain ⟨s3, e3, hf3, hgs3⟩ := ih f1 s2 hf2.1.1 hf2.1.2.2.2.1 (by rw [hge2]; omega)
      refine ⟨s3, e3, fwd_trans s s2 s3 hf2 hf3, ?_⟩
      rw [hgs3, hgs2, hge2]
      omega

/-! ## Columns and visual lines before the gap -/

theorem retreat_below (s : Ed) (p : Nat) (hg : s.gap_start ≤ s.gap_end) (hp : p < s.gap_start) :
    retreat s p = if p = 0 then none else some (p - 1) := by
  unfold retreat
  split_ifs <;> first | rfl | omega

theorem advance_below (s : Ed) (p : Nat) (hg : s.gap_start ≤ s.gap_end)
    (hp : p + 1 < s.gap_start) : advance s p = some (p + 1) := by
  unfold advance
  rw [if_neg (by omega), if_pos hp]

theorem advance_last_below (s : Ed) (p : Nat) (hg : s.gap_start ≤ s.gap_end)
    (he : s.gap_end < BUFSIZE) (hp : p + 1 = s.gap_start) : advance s p = some s.gap_end := by
  unfold advance
  rw [if_neg (by omega), if_neg (by omega), if_pos he]

theorem line_start_loop_none (s : Ed) (f q : Nat) : line_start_loop s f q none = .ok q := by
  cases f <;> rfl

theorem line_start_loop_total (s : Ed) (hg1 : s.gap_start ≤ s.gap_end)
    (hg2 : s.gap_end ≤ BUFSIZE) :
    ∀ (f q p : Nat), p ≤ q → q < s.gap_start → p < f →
      ∃ q1, line_start_loop s f q (some p) = .ok q1 ∧ q1 ≤ q := by
  intro f
  induction f with
  | zero => intro q p _ _ hf; omega
  | succ f ih =>
    intro q p hpq hq hf
    simp only [line_start_loop, deref_ok s p (by omega)]
    split_ifs
    · exact ⟨q, rfl, le_refl _⟩
    · rw [retreat_below s p hg1 (by omega)]
      by_cases c : p = 0
      · rw [if_pos c]
        exact ⟨p, line_start_loop_none s f p, hpq⟩
      · rw [if_neg c]
        obtain ⟨q1, e1, h1⟩ := ih p (p - 1) (by omega) (by omega) (by omega)
        exact ⟨q1, e1, by omega⟩

theorem col_loop_total (s : Ed) (hg1 : s.gap_start ≤ s.gap_end) (he : s.gap_end < BUFSIZE)
    (hn : 0 < s.ncols) :
    ∀ (f j col : Nat), j ≤ s.gap_start → col < s.ncols → s.gap_start - j ≤ f →
      ∃ c, col_loop s s.gap_end f (some (if j < s.gap_start then j else s.gap_end)) col = .ok c ∧
        c < s.ncols := by
  intro f
  induction f with
  | zero =>
    intro j col hj hc hf
    have e : j = s.gap_start := by omega
    subst e
    simp only [col_loop, lt_self_iff_false, if_false, if_true]
    exact ⟨col, rfl, hc⟩
  | succ f ih =>
    intro j col hj hc hf
    by_cases c : j < s.gap_start
    · rw [if_pos c]
      obtain ⟨n, hn1, hn2⟩ := next_col_ok s (s.buffer j) col hn hc
      have hne : ¬ (some j = some s.gap_end) := by
        intro h
        cases h
        omega
      simp only [col_loop, if_neg hne, deref_ok s j (by omega), hn1, Option.bind]
      have ha : advance s j = some (if j + 1 < s.gap_start then j + 1 else s.gap_end) := by
        split_ifs with c2
        · exact advance_below s j hg1 c2
        · exact advance_last_below s j hg1 he (by omega)
      rw [ha]
      exact ih (j + 1) n (by omega) hn2 (by omega)
    · rw [if_neg c]
      simp only [col_loop, if_true]
      exact ⟨col, rfl, hc⟩

theorem col_of_total (s : Ed) (hg1 : s.gap_start ≤ s.gap_end) (he : s.gap_end < BUFSIZE)
    (hn : 0 < s.ncols) : ∃ c, col_of s s.gap_end = .ok c ∧ c < s.ncols := by
  unfold col_of
  have hr : retreat s s.gap_end = if s.gap_start = 0 then none else some (s.gap_start - 1) := by
    unfold retreat
    split_ifs <;> first | rfl | omega
  rw [hr]
  by_cases c : s.gap_start = 0
  · rw [if_pos c]
    exact ⟨0, rfl, hn⟩
  · rw [if_neg c]
    simp only
    obtain ⟨q1, e1, h1⟩ := line_start_loop_total s hg1 (by omega) BUFSIZE (s.gap_start - 1)
      (s.gap_start - 1) (le_refl _) (by omega) (by omega)
    rw [e1]
    simp only
    have := col_loop_total s hg1 he hn BUFSIZE q1 0 (by omega) hn (by omega)
    rw [if_pos (by omega)] at this
    exact this

theorem visual_loop_total (s : Ed) (t : Nat) (hg1 : s.gap_start ≤ s.gap_end)
    (hg2 : s.gap_end ≤ BUFSIZE) (ht : t < s.gap_start) (hn : 0 < s.ncols) :
    ∀ (f j col : Nat) (r : Option Nat), j ≤ t → col < s.ncols → t - j ≤ f →
      (∀ p, r = some p → p < BUFSIZE) →
      ∃ r1, visual_loop s t f (some j) col r = .ok r1 ∧ ∀ p, r1 = some p → p < BUFSIZE := by
  intro f
  induction f with
  | zero =>
    intro j col r hj hc hf hr
    have e : j = t := by omega
    subst e
    simp only [visual_loop, if_true]
    exact ⟨r, rfl, hr⟩
  | succ f ih =>
    intro j col r hj hc hf hr
    by_cases c : j = t
    · subst c
      simp only [visual_loop, if_true]
      exact ⟨r, rfl, hr⟩
    · obtain ⟨n, hn1, hn2⟩ := next_col_ok s (s.buffer j) col hn hc
      have hne : ¬ (some j = some t) := by
        intro h
        cases h
        exact c rfl
      simp only [visual_loop, if_neg hne, deref_ok s j (by omega), hn1, Option.bind,
        advance_below s j hg1 (by omega)]
      apply ih (j + 1) n _ (by omega) hn2 (by omega)
      intro p hp
      split_ifs at hp
      · cases hp; omega
      · exact hr p hp

theorem first_of_visual_line_total (s : Ed) (q : Nat) (hg1 : s.gap_start ≤ s.gap_end)
    (hg2 : s.gap_end ≤ BUFSIZE) (hq : q < s.gap_start) (hn : 0 < s.ncols) :
    ∃ v, first_of_visual_line s q = .ok v ∧ ∀ p, v = some p → p < BUFSIZE := by
  unfold first_of_visual_line
  rw [retreat_below s q hg1 hq]
  by_cases c : q = 0
  · rw [if_pos c]
    exact ⟨some q, rfl, fun p hp => by cases hp; omega⟩
  · rw [if_neg c]
    simp only
    obtain ⟨q1, e1, h1⟩ := line_start_loop_total s hg1 hg2 BUFSIZE (q - 1) (q - 1) (le_refl _)
      (by omega) (by omega)
    rw [e1]
    simp only
    exact visual_loop_total s q hg1 hg2 hq hn BUFSIZE q1 0 (some q1) (by omega) hn (by omega)
      (fun p hp => by cases hp; omega)

/-! ## Commands run to completion: steps towards the beginning -/

theorem text_before_snoc_of (s s1 : Ed) (hb : ∀ x, x < s.gap_start → s1.buffer x = s.buffer x)
    (hgs : s1.gap_start = s.gap_start + 1) :
    text_before s1 = text_before s ++ [s1.buffer s.gap_start] := by
  unfold text_before
  rw [hgs, List.range_succ, List.map_append]
  congr 1
  · apply List.map_congr_left
    intro x hx
    rw [List.mem_range] at hx
    exact hb x hx

theorem content_backward (s s2 : Ed)
    (hb : s2.buffer = Function.update s.buffer (s.gap_end - 1) (s.buffer (s.gap_start - 1)))
    (hgs : s2.gap_start = s.gap_start - 1) (hge : s2.gap_end = s.gap_end - 1)
    (h0 : 0 < s.gap_start) (h1 : s.gap_start ≤ s.gap_end) (h2 : s.gap_end ≤ BUFSIZE) :
    content s2 = content s := by
  have e1 : text_before s = text_before s2 ++ [s.buffer s2.gap_start] :=
    text_before_snoc_of s2 s
      (fun x hx => by rw [hb, Function.update_noteq (by omega)]) (by omega)
  have e2 : text_after s2 = s2.buffer s2.gap_end :: text_after s :=
    text_after_cons s2 s (by omega)
      (fun x hx => by rw [hb, Function.update_noteq (by omega)]) (by omega)
  have e3 : s2.buffer s2.gap_end = s.buffer s2.gap_start := by
    rw [hb, hge, hgs, Function.update_same]
  rw [content_split s, content_split s2, e1, e2, e3]
  simp

theorem backward_char_move_eq (s : Ed) (c : Nat) (h0 : 0 < s.gap_start)
    (h1 : s.gap_start ≤ s.gap_end) (h2 : s.gap_end ≤ BUFSIZE)
    (hc : col_of { s with
        buffer := Function.update s.buffer (s.gap_end - 1) (s.buffer (s.gap_start - 1)),
        gap_start := s.gap_start - 1, gap_end := s.gap_end - 1,
        cursor_row := if is_newline (s.buffer (s.gap_start - 1)) || s.cursor_col == 0
          then size_dec s.cursor_row else s.cursor_row } (s.gap_end - 1) = .ok c) :
    backward_char_move s = .ok { s with
        buffer := Function.update s.buffer (s.gap_end - 1) (s.buffer (s.gap_start - 1)),
        gap_start := s.gap_start - 1, gap_end := s.gap_end - 1,
        cursor_row := if is_newline (s.buffer (s.gap_start - 1)) || s.cursor_col == 0
          then size_dec s.cursor_row else s.cursor_row,
        cursor_col := c } := by
  have a1 : s.gap_start - 1 < BUFSIZE := by omega
  have a2 : s.gap_end - 1 < BUFSIZE := by omega
  unfold backward_char_move
  rw [if_pos h0]
  simp only [bind, Except.bind, pure, Except.pure, deref, store, if_pos a1, if_pos a2,
    Function.update_same, hc]

theorem bwd_refl (s : Ed) (hW : Fit s) (hA : AnchorOk s) (hp : Ed.is_prefix s = false) :
    Bwd s s := ⟨motion_refl s hW hp, hA, le_refl _⟩

theorem bwd_trans (s s1 s2 : Ed) (h1 : Bwd s s1) (h2 : Bwd s1 s2) : Bwd s s2 :=
  ⟨motion_trans s s1 s2 h1.1 h2.1, h2.2.1, le_trans h2.2.2 h1.2.2⟩

theorem char_at_point_eq (s : Ed) (p : Nat) (h : char_at_point s = some p) :
    p = s.gap_end := by
  unfold char_at_point at h
  split_ifs at h
  cases h
  rfl

theorem ite_anchor_bound (c : Prop) [Decidable c] (a b : Option Nat) (n : Nat)
    (ha : ∀ p, a = some p → p < n) (hb : ∀ p, b = some p → p < n) :
    ∀ p, (if c then a else b) = some p → p < n := by
  intro p hp
  split_ifs at hp
  · exact ha p hp
  · exact hb p hp

theorem backward_step (s : Ed) (tl1 : Option Nat) (row1 : Nat) (hW : Fit s)
    (hp : Ed.is_prefix s = false) (h0 : 0 < s.gap_start)
    (htl : ∀ p, tl1 = some p → p < BUFSIZE) :
    ∃ s2, backward_char_move { s with tl := tl1, cursor_row := row1 } = .ok s2 ∧
      Bwd s (update_goal { s2 with
        tl := (if s2.cursor_row = 0 ∧ s2.cursor_col = 0 then char_at_point s2 else s2.tl) }) ∧
      s2.gap_start + 1 = s.gap_start ∧ s2.gap_end + 1 = s.gap_end := by
  obtain ⟨hg1, hg2, hl1, hl2, hn, ht, hc, _⟩ := hW
  obtain ⟨c, hc1, hc2⟩ := col_of_total { s with
      tl := tl1,
      buffer := Function.update s.buffer (s.gap_end - 1) (s.buffer (s.gap_start - 1)),
      gap_start := s.gap_start - 1, gap_end := s.gap_end - 1,
      cursor_row := if is_newline (s.buffer (s.gap_start - 1)) || s.cursor_col == 0
        then size_dec row1 else row1 }
    (by show s.gap_start - 1 ≤ s.gap_end - 1; omega) (by show s.gap_end - 1 < BUFSIZE; omega) hn
  have e := backward_char_move_eq { s with tl := tl1, cursor_row := row1 } c h0 hg1 hg2 hc1
  simp only at e
  rw [e]
  refine ⟨_, rfl, ⟨⟨?_, ?_, ?_, hp, ?_⟩, ?_, ?_⟩, ?_, ?_⟩
  · refine ⟨?_, ?_, hl1, hl2, hn, ht, hc2, ?_⟩
    · show s.gap_start - 1 ≤ s.gap_end - 1
      omega
    · show s.gap_end - 1 ≤ BUFSIZE
      omega
    · refine ite_anchor_bound _ _ _ _ (fun p hp1 => ?_) htl
      have := char_at_point_eq _ p hp1
      simp only at this
      omega
  · exact ⟨rfl, rfl, rfl, rfl, rfl, rfl, rfl, rfl, rfl⟩
  · exact content_backward s _ rfl rfl rfl h0 hg1 hg2
  · show s.gap_end - 1 - (s.gap_start - 1) = s.gap_end - s.gap_start
    omega
  · intro r0 c0 p hp1
    simp only [update_goal] at hp1 r0 c0
    rw [if_pos ⟨r0, c0⟩] at hp1
    exact Or.inr (char_at_point_eq _ p hp1)
  · show s.gap_start - 1 ≤ s.gap_start
    omega
  · show s.gap_start - 1 + 1 = s.gap_start
    omega
  · show s.gap_end - 1 + 1 = s.gap_end
    omega

theorem scroll_down_total (f : Nat) (s : Ed) (hW : Fit s) (hp : Ed.is_prefix s = false)
    (hrow : s.cursor_row ≠ s.nlines - 1)
    (ha : ∀ p, s.tl = some p → p ≤ s.gap_start ∨ p = s.gap_end) (hf : 3 ≤ f) :
    ∃ tl1 row1, exec f .scroll_down s = .ok { s with tl := tl1, cursor_row := row1 } ∧
      (∀ p, tl1 = some p → p < BUFSIZE) := by
  obtain ⟨f3, rfl⟩ : ∃ f3, f = f3 + 3 := ⟨f - 3, by omega⟩
  obtain ⟨hg1, hg2, _, _, hn, _, _, htl⟩ := hW
  have same : ∃ tl1 row1, (Except.ok s : Except Fault Ed) =
      .ok { s with tl := tl1, cursor_row := row1 } ∧ (∀ p, tl1 = some p → p < BUFSIZE) :=
    ⟨s.tl, s.cursor_row, rfl, htl⟩
  simp only [exec_succ, step, scroll_down]
  split_ifs
  · exact same
  rw [repeat_count_one s hp, prefix_clear_eq s hp]
  simp only [exec_succ, step, scroll_down_loop, one_ne_zero, if_false, if_neg hrow, bind,
    Except.bind, pure, Except.pure]
  cases htl1 : s.tl with
  | none => exact same
  | some p =>
    simp only
    cases hr : retreat s p with
    | none => exact same
    | some q =>
      have hq : q < s.gap_start := by
        unfold retreat at hr
        have := ha p htl1
        split_ifs at hr <;> first | (cases hr; done) | (cases hr; omega)
      obtain ⟨v, hv, hvb⟩ := first_of_visual_line_total s q hg1 hg2 hq hn
      simp only [hv, Nat.sub_self, if_true]
      exact ⟨v, size_inc s.cursor_row, rfl, hvb⟩

theorem backward_char_loop_total :
    ∀ (r f : Nat) (s : Ed), Fit s → AnchorOk s → Ed.is_prefix s = false →
      min r s.gap_start + 4 ≤ f →
      ∃ s1, exec f (.backward_char_loop r) s = .ok s1 ∧ Bwd s s1 ∧
        s1.gap_start + min r s.gap_start = s.gap_start := by
  intro r
  induction r with
  | zero =>
    intro f s hW hA hp hf
    obtain ⟨f1, rfl⟩ : ∃ f1, f = f1 + 1 := ⟨f - 1, by omega⟩
    exact ⟨s, rfl, bwd_refl s hW hA hp, by simp⟩
  | succ r ih =>
    intro f s hW hA hp hf
    obtain ⟨f1, rfl⟩ : ∃ f1, f = f1 + 1 := ⟨f - 1, by omega⟩
    simp only [exec_succ, step, backward_char_loop]
    rw [if_neg (Nat.succ_ne_zero r)]
    by_cases hbeg : s.gap_start = 0
    · rw [if_pos (by simp [is_point_at_beginning_of_buffer, hbeg])]
      refine ⟨s, rfl, bwd_refl s hW hA hp, ?_⟩
      rw [hbeg]
      simp
    · rw [if_neg (by simp [is_point_at_beginning_of_buffer, hbeg])]
      have h0 : 0 < s.gap_start := by omega
      by_cases c : s.cursor_row = 0 ∧ s.cursor_col = 0
      · rw [if_pos c]
        obtain ⟨tl1, row1, e1, htl1⟩ := scroll_down_total f1 s hW hp
          (by have := hW.2.2.1; omega) (hA c.1 c.2) (by omega)
        rw [e1]
        simp only [bind, Except.bind, pure, Except.pure]
        obtain ⟨s2, e2, hb2, hgs2, hge2⟩ := backward_step s tl1 row1 hW hp h0 htl1
        rw [e2]
        simp only
        obtain ⟨s3, e3, hb3, hgs3⟩ := ih f1 _ hb2.1.1 hb2.2.1 hb2.1.2.2.2.1
          (by show min r s2.gap_start + 4 ≤ f1; omega)
        refine ⟨s3, e3, bwd_trans s _ s3 hb2 hb3, ?_⟩
        have : s3.gap_start + min r s2.gap_start = s2.gap_start := hgs3
        omega
      · rw [if_neg c]
        simp only [bind, Except.bind, pure, Except.pure]
        obtain ⟨s2, e2, hb2, hgs2, hge2⟩ :=
          backward_step s s.tl s.cursor_row hW hp h0 hW.2.2.2.2.2.2.2
        have e2a : backward_char_move s = .ok s2 := e2
        rw [e2a]
        simp only
        obtain ⟨s3, e3, hb3, hgs3⟩ := ih f1 _ hb2.1.1 hb2.2.1 hb2.1.2.2.2.1
          (by show min r s2.gap_start + 4 ≤ f1; omega)
        refine ⟨s3, e3, bwd_trans s _ s3 hb2 hb3, ?_⟩
        have : s3.gap_start + min r s2.gap_start = s2.gap_start := hgs3
        omega

theorem forward_char_total (f : Nat) (s : Ed) (hW : Fit s) (hp : Ed.is_prefix s = false)
    (hf : 6 ≤ f) :
    ∃ s1, exec f .forward_char s = .ok s1 ∧ Fwd s s1 ∧
      s1.gap_start = s.gap_start + min 1 (BUFSIZE - s.gap_end) := by
  obtain ⟨f1, rfl⟩ : ∃ f1, f = f1 + 1 := ⟨f - 1, by omega⟩
  simp only [exec_succ, step, forward_char]
  split_ifs with c
  · refine ⟨s, rfl, fwd_refl s hW hp, ?_⟩
    have := hW.2.1
    simp only [is_buffer_empty, beq_iff_eq] at c
    have e : BUFSIZE - s.gap_end = 0 := by omega
    rw [e]
    simp
  · rw [repeat_count_one s hp, prefix_clear_eq s hp]
    exact forward_char_loop_total 1 f1 s hW hp (by omega)

theorem backward_char_total (f : Nat) (s : Ed) (hW : Fit s) (hA : AnchorOk s)
    (hp : Ed.is_prefix s = false) (hf : 6 ≤ f) :
    ∃ s1, exec f .backward_char s = .ok s1 ∧ Bwd s s1 ∧
      s1.gap_start + min 1 s.gap_start = s.gap_start := by
  obtain ⟨f1, rfl⟩ : ∃ f1, f = f1 + 1 := ⟨f - 1, by omega⟩
  simp only [exec_succ, step, backward_char]
  split_ifs with c
  · refine ⟨s, rfl, bwd_refl s hW hA hp, ?_⟩
    have := hW.2.1
    have hB : 0 < BUFSIZE := by decide
    simp only [is_buffer_empty, beq_iff_eq] at c
    have e : s.gap_start = 0 := by omega
    rw [e]
    rfl
  · rw [repeat_count_one s hp, prefix_clear_eq s hp]
    exact backward_char_loop_total 1 f1 s hW hA hp (by omega)

theorem beginning_of_buffer_total :
    ∀ (n f : Nat) (s : Ed), s.gap_start = n → Fit s → AnchorOk s → Ed.is_prefix s = false →
      n + 6 ≤ f →
      ∃ s1, exec f .beginning_of_buffer s = .ok s1 ∧ Bwd s s1 ∧ s1.gap_start = 0 := by
  intro n
  induction n with
  | zero =>
    intro f s hn hW hA hp hf
    obtain ⟨f1, rfl⟩ : ∃ f1, f = f1 + 1 := ⟨f - 1, by omega⟩
    simp only [exec_succ, step, beginning_of_buffer]
    rw [if_neg (by omega)]
    exact ⟨s, rfl, bwd_refl s hW hA hp, hn⟩
  | succ n ih =>
    intro f s hn hW hA hp hf
    obtain ⟨f1, rfl⟩ : ∃ f1, f = f1 + 1 := ⟨f - 1, by omega⟩
    simp only [exec_succ, step, beginning_of_buffer]
    rw [if_pos (by omega)]
    obtain ⟨s1, e1, hb1, hgs1⟩ := backward_char_total f1 s hW hA hp (by omega)
    simp only [bind, Except.bind, e1]
    obtain ⟨s2, e2, hb2, hgs2⟩ := ih f1 s1 (by omega) hb1.1.1 hb1.2.1 hb1.1.2.2.2.1 (by omega)
    exact ⟨s2, e2, bwd_trans s s1 s2 hb1 hb2, hgs2⟩

theorem move_to_loop_total :
    ∀ (n f : Nat) (s : Ed), Fit s → Ed.is_prefix s = false → n + 6 ≤ f →
      ∃ s1, exec f (.move_to_loop n) s = .ok s1 ∧ Fwd s s1 ∧
        s1.gap_start = s.gap_start + min n (BUFSIZE - s.gap_end) := by
  intro n
  induction n with
  | zero =>
    intro f s hW hp hf
    obtain ⟨f1, rfl⟩ : ∃ f1, f = f1 + 1 := ⟨f - 1, by omega⟩
    exact ⟨s, rfl, fwd_refl s hW hp, by simp⟩
  | succ n ih =>
    intro f s hW hp hf
    obtain ⟨f1, rfl⟩ : ∃ f1, f = f1 + 1 := ⟨f - 1, by omega⟩
    simp only [exec_succ, step, move_to_loop]
    rw [if_neg (Nat.succ_ne_zero n)]
    obtain ⟨s1, e1, hf1, hgs1⟩ := forward_char_total f1 s hW hp (by omega)
    simp only [bind, Except.bind, e1, Nat.add_sub_cancel]
    obtain ⟨s2, e2, hf2, hgs2⟩ := ih f1 s1 hf1.1.1 hf1.1.2.2.2.1 (by omega)
    refine ⟨s2, e2, fwd_trans s s1 s2 hf1 hf2, ?_⟩
    have hsz := hf1.1.2.2.2.2
    have := hW.1
    have := hW.2.1
    have := hf1.1.1.1
    have := hf1.1.1.2.1
    omega

theorem move_to_total (n f : Nat) (s : Ed) (hW : Fit s) (hA : AnchorOk s)
    (hp : Ed.is_prefix s = false) (hf1 : s.gap_start + 7 ≤ f) (hf2 : n + 7 ≤ f) :
    ∃ s1, exec f (.move_to n) s = .ok s1 ∧ Motion s s1 ∧
      s1.gap_start = min n (buffer_size s) := by
  obtain ⟨f1, rfl⟩ : ∃ f1, f = f1 + 1 := ⟨f - 1, by omega⟩
  simp only [exec_succ, step, move_to]
  obtain ⟨s1, e1, hb1, hgs1⟩ := beginning_of_buffer_total s.gap_start f1 s rfl hW hA hp (by omega)
  simp only [bind, Except.bind, e1]
  obtain ⟨s2, e2, hb2, hgs2⟩ := move_to_loop_total n f1 s1 hb1.1.1 hb1.1.2.2.2.1 (by omega)
  refine ⟨s2, e2, motion_trans s s1 s2 hb1.1 hb2.1, ?_⟩
  have hsz := hb1.1.2.2.2.2
  have := hW.1
  have := hW.2.1
  have := hb1.1.1.1
  have := hb1.1.1.2.1
  unfold buffer_size
  rw [hgs2, hgs1]
  have e : BUFSIZE - s1.gap_end = s.gap_start + (BUFSIZE - s.gap_end) := by omega
  rw [e]
  omega

/-! ## Commands run to completion: deletion and insertion -/

theorem del_refl (s : Ed) (hW : Fit s) (hp : Ed.is_prefix s = false) : Del s s :=
  ⟨hW, keeps_refl s, hp, rfl, le_refl _, rfl, by simp⟩

theorem del_trans (s s1 s2 : Ed) (h1 : Del s s1) (h2 : Del s1 s2) : Del s s2 := by
  obtain ⟨_, k1, _, g1, e1, b1, a1⟩ := h1
  obtain ⟨w2, k2, p2, g2, e2, b2, a2⟩ := h2
  refine ⟨w2, keeps_trans s s1 s2 k1 k2, p2, g2.trans g1, le_trans e1 e2, b2.trans b1, ?_⟩
  rw [a2, a1, List.drop_drop]
  congr 1
  omega

theorem delete_step (s : Ed) (tl1 : Option Nat) (row1 : Nat) (hW : Fit s)
    (hp : Ed.is_prefix s = false) (he : s.gap_end < BUFSIZE)
    (htl : ∀ p, tl1 = some p → p < BUFSIZE) :
    Del s (delete_char_drop { s with is_dirty := true, tl := tl1, cursor_row := row1 }) := by
  obtain ⟨hg1, hg2, hl1, hl2, hn, ht, hc, _⟩ := hW
  refine ⟨⟨?_, ?_, hl1, hl2, hn, ht, hc, ?_⟩, ⟨rfl, rfl, rfl, rfl, rfl, rfl, rfl, rfl, rfl⟩,
    hp, rfl, ?_, ?_, ?_⟩
  · show s.gap_start ≤ s.gap_end + 1
    omega
  · show s.gap_end + 1 ≤ BUFSIZE
    omega
  · refine ite_anchor_bound _ _ _ _ (fun p hp1 => ?_) htl
    exact (advance_some _ _ _ hg1 hg2 hp1).2
  · show s.gap_end ≤ s.gap_end + 1
    omega
  · exact text_before_same s _ (fun x _ => rfl) rfl
  · have e := text_after_cons s
      (delete_char_drop { s with is_dirty := true, tl := tl1, cursor_row := row1 }) he
      (fun x _ => rfl) rfl
    rw [e]
    show _ = List.drop (s.gap_end + 1 - s.gap_end) _
    rw [Nat.add_sub_cancel_left]
    rfl

theorem delete_char_loop_total :
    ∀ (r f : Nat) (s : Ed), Fit s → Ed.is_prefix s = false →
      min r (BUFSIZE - s.gap_end) + 4 ≤ f →
      ∃ s1, exec f (.delete_char_loop r) s = .ok s1 ∧ Del s s1 ∧
        s1.gap_end = s.gap_end + min r (BUFSIZE - s.gap_end) := by
  intro r
  induction r with
  | zero =>
    intro f s hW hp hf
    obtain ⟨f1, rfl⟩ : ∃ f1, f = f1 + 1 := ⟨f - 1, by omega⟩
    exact ⟨s, rfl, del_refl s hW hp, by simp⟩
  | succ r ih =>
    intro f s hW hp hf
    obtain ⟨f1, rfl⟩ : ∃ f1, f = f1 + 1 := ⟨f - 1, by omega⟩
    have hg1 := hW.1
    have hg2 := hW.2.1
    simp only [exec_succ, step, delete_char_loop]
    rw [if_neg (Nat.succ_ne_zero r)]
    by_cases hend : s.gap_end = BUFSIZE
    · rw [if_pos (by simp [is_point_at_end_of_buffer, hend])]
      refine ⟨s, rfl, del_refl s hW hp, ?_⟩
      rw [hend]
      simp
    · have he : s.gap_end < BUFSIZE := by omega
      have hB : 0 < BUFSIZE := by decide
      rw [if_neg (by
        simp only [is_buffer_empty, is_point_at_end_of_buffer, Bool.or_eq_true, beq_iff_eq]
        omega)]
      obtain ⟨tl1, row1, b, h1, h2, h3⟩ :=
        scroll_at_last_row_total f1 { s with is_dirty := true } hW hp he (by omega)
      rw [h1]
      simp only
      have hd := delete_step s tl1 row1 hW hp he h2
      obtain ⟨s3, e3, hd3, hge3⟩ := ih f1 _ hd.1 hd.2.2.1
        (by show min r (BUFSIZE - (s.gap_end + 1)) + 4 ≤ f1; omega)
      refine ⟨s3, e3, del_trans s _ s3 hd hd3, ?_⟩
      have : s3.gap_end = s.gap_end + 1 + min r (BUFSIZE - (s.gap_end + 1)) := hge3
      omega

theorem delete_char_total (f : Nat) (s : Ed) (hW : Fit s) (hro : s.is_read_only = false)
    (hf : min (repeat_count s) (BUFSIZE - s.gap_end) + 5 ≤ f) :
    ∃ s1, exec f .delete_char s = .ok s1 ∧ Del s s1 ∧
      s1.gap_end = s.gap_end + min (repeat_count s) (BUFSIZE - s.gap_end) := by
  obtain ⟨f1, rfl⟩ : ∃ f1, f = f1 + 1 := ⟨f - 1, by omega⟩
  simp only [exec_succ, step, delete_char, hro]
  exact delete_char_loop_total (repeat_count s) f1 (prefix_clear s) hW rfl (by
    show min (repeat_count s) (BUFSIZE - s.gap_end) + 4 ≤ f1
    omega)

theorem insert_store_eq (t : tedchar) (s : Ed) (h1 : s.gap_start < s.gap_end)
    (h2 : s.gap_end ≤ BUFSIZE) :
    insert_store t s = .ok { s with
      buffer := Function.update s.buffer s.gap_start t,
      tl := if s.cursor_row = 0 ∧ s.cursor_col = 0 then some s.gap_start else s.tl,
      gap_start := s.gap_start + 1 } := by
  have a : s.gap_start < BUFSIZE := by omega
  simp only [insert_store, if_pos h1, store, if_pos a, bind, Except.bind, pure, Except.pure]

theorem ins_of_fields (t : tedchar) (s s1 : Ed) (hW : Fit s) (h1 : s.gap_start < s.gap_end)
    (hK : Keeps s s1) (hb : s1.buffer = Function.update s.buffer s.gap_start t)
    (hgs : s1.gap_start = s.gap_start + 1) (hge : s1.gap_end = s.gap_end)
    (hp : Ed.is_prefix s1 = false) (hc : s1.cursor_col < s.ncols)
    (htl : ∀ p, s1.tl = some p → p < BUFSIZE) : Ins [t] s s1 := by
  obtain ⟨hg1, hg2, hl1, hl2, hn, ht, _, _⟩ := hW
  have hK0 := hK
  obtain ⟨k1, k2, k3, _⟩ := hK0
  refine ⟨⟨by omega, by omega, by omega, by omega, by omega, by omega, by omega, htl⟩, hK, hp,
    by rw [hgs]; rfl, hge, text_before_snoc s s1 t hb hgs, ?_⟩
  exact text_after_same s s1 (fun x hx => by rw [hb, Function.update_noteq (by omega)]) hge

theorem do_insert_char_total (f : Nat) (t : tedchar) (s : Ed) (hW : Fit s)
    (hp : Ed.is_prefix s = false) (h1 : s.gap_start < s.gap_end) (hf : 4 ≤ f) :
    ∃ s1, exec f (.do_insert_char t) s = .ok s1 ∧ Ins [t] s s1 := by
  obtain ⟨f1, rfl⟩ : ∃ f1, f = f1 + 1 := ⟨f - 1, by omega⟩
  have hW0 := hW
  obtain ⟨hg1, hg2, hl1, hl2, hn, ht, hc, htl⟩ := hW
  obtain ⟨n, hn1, hn2⟩ := next_col_ok s t s.cursor_col hn hc
  have hK : ∀ x : Ed, x.nlines = s.nlines → x.ncols = s.ncols → x.tabstop = s.tabstop →
      x.is_read_only = s.is_read_only → x.kill_buffer = s.kill_buffer →
      x.kill_size = s.kill_size → x.marks_m = s.marks_m →
      x.marks_current = s.marks_current → x.marks_is_active = s.marks_is_active → Keeps s x :=
    fun x a1 a2 a3 a4 a5 a6 a7 a8 a9 => ⟨a1, a2, a3, a4, a5, a6, a7, a8, a9⟩
  have htl2 : ∀ p, (if s.cursor_row = 0 ∧ s.cursor_col = 0 then some s.gap_start else s.tl) =
      some p → p < BUFSIZE :=
    ite_anchor_bound _ _ _ _ (fun p hp1 => by cases hp1; omega) htl
  unfold next_col at hn1
  simp only [exec_succ, step, do_insert_char, insert_store_eq t { s with is_dirty := true } h1 hg2,
    bind, Except.bind, pure, Except.pure, next_col, hn1]
  by_cases c1 : n = 0
  · rw [if_pos c1]
    by_cases c2 : s.cursor_row = s.nlines - 1
    · rw [if_pos c2]
      obtain ⟨tl1, row1, e1, h2, _⟩ := scroll_up_total f1 { s with
          is_dirty := true,
          buffer := Function.update s.buffer s.gap_start t,
          tl := if s.cursor_row = 0 ∧ s.cursor_col = 0 then some s.gap_start else s.tl,
          gap_start := s.gap_start + 1 }
        ⟨by show s.gap_start + 1 ≤ s.gap_end; omega, hg2, hl1, hl2, hn, ht, hc, htl2⟩ hp
        (by show s.cursor_row ≠ 0; omega) (by omega)
      simp only at e1
      rw [e1]
      exact ⟨_, rfl, ins_of_fields t s _ hW0 h1 (hK _ rfl rfl rfl rfl rfl rfl rfl rfl rfl) rfl
        rfl rfl hp hn2 h2⟩
    · rw [if_neg c2]
      exact ⟨_, rfl, ins_of_fields t s _ hW0 h1 (hK _ rfl rfl rfl rfl rfl rfl rfl rfl rfl) rfl
        rfl rfl hp hn2 htl2⟩
  · rw [if_neg c1]
    exact ⟨_, rfl, ins_of_fields t s _ hW0 h1 (hK _ rfl rfl rfl rfl rfl rfl rfl rfl rfl) rfl rfl
      rfl hp hn2 htl2⟩

theorem ins_nil (s : Ed) (hW : Fit s) (hp : Ed.is_prefix s = false) : Ins [] s s :=
  ⟨hW, keeps_refl s, hp, rfl, rfl, by simp, rfl⟩

theorem ins_trans (l1 l2 : List tedchar) (s s1 s2 : Ed) (h1 : Ins l1 s s1)
    (h2 : Ins l2 s1 s2) : Ins (l1 ++ l2) s s2 := by
  obtain ⟨_, k1, _, g1, e1, b1, a1⟩ := h1
  obtain ⟨w2, k2, p2, g2, e2, b2, a2⟩ := h2
  refine ⟨w2, keeps_trans s s1 s2 k1 k2, p2, ?_, e2.trans e1, ?_, a2.trans a1⟩
  · rw [g2, g1, List.length_append]
    omega
  · rw [b2, b1, List.append_assoc]

theorem killed_drop (s : Ed) (i : Nat) (h : i < s.kill_size) :
    (killed s).drop i = s.kill_buffer i :: (killed s).drop (i + 1) := by
  have hl : i < (killed s).length := by simp [killed]; exact h
  rw [List.drop_eq_getElem_cons hl]
  congr 1
  simp [killed]

theorem yank_for_total :
    ∀ (n f i : Nat) (s : Ed), s.kill_size - i = n → Fit s → Ed.is_prefix s = false →
      n ≤ s.gap_end - s.gap_start → n + 6 ≤ f →
      ∃ s1, exec f (.yank_for 1 i) s = .ok s1 ∧ Ins ((killed s).drop i) s s1 := by
  intro n
  induction n with
  | zero =>
    intro f i s hn hW hp _ hf
    obtain ⟨f2, rfl⟩ : ∃ f2, f = f2 + 2 := ⟨f - 2, by omega⟩
    simp only [exec_succ, step, yank_for]
    rw [if_neg (by omega)]
    simp only [exec_succ, step, yank_loop, Nat.sub_self, if_true]
    have e : (killed s).drop i = [] := by
      apply List.drop_eq_nil_of_le
      simp [killed]
      omega
    rw [e]
    exact ⟨s, rfl, ins_nil s hW hp⟩
  | succ n ih =>
    intro f i s hn hW hp hroom hf
    obtain ⟨f1, rfl⟩ : ∃ f1, f = f1 + 1 := ⟨f - 1, by omega⟩
    simp only [exec_succ, step, yank_for]
    rw [if_pos (by omega)]
    obtain ⟨s1, e1, hi1⟩ := do_insert_char_total f1 (s.kill_buffer i) s hW hp (by omega)
      (by omega)
    simp only [bind, Except.bind, e1]
    have hks : s1.kill_size = s.kill_size := hi1.2.1.2.2.2.2.2.1
    have hkb : s1.kill_buffer = s.kill_buffer := hi1.2.1.2.2.2.2.1
    have hk : killed s1 = killed s := by unfold killed; rw [hks, hkb]
    obtain ⟨s2, e2, hi2⟩ := ih f1 (i + 1) s1 (by omega) hi1.1 hi1.2.2.1
      (by rw [hi1.2.2.2.1, hi1.2.2.2.2.1]; simp only [List.length_singleton]; omega) (by omega)
    refine ⟨s2, e2, ?_⟩
    rw [killed_drop s i (by omega), ← hk]
    exact ins_trans [s.kill_buffer i] _ s s1 s2 hi1 hi2

theorem yank_total (f : Nat) (s : Ed) (hW : Fit s) (hp : Ed.is_prefix s = false)
    (hro : s.is_read_only = false) (hroom : s.kill_size ≤ s.gap_end - s.gap_start)
    (hf : s.kill_size + 8 ≤ f) :
    ∃ s1, exec f .yank s = .ok s1 ∧ Ins (killed s) s s1 := by
  obtain ⟨f2, rfl⟩ : ∃ f2, f = f2 + 2 := ⟨f - 2, by omega⟩
  simp only [exec_succ, step, yank, hro, repeat_count_one s hp, prefix_clear_eq s hp, yank_loop,
    one_ne_zero, if_false, Bool.false_eq_true]
  exact yank_for_total s.kill_size f2 0 s rfl hW hp hroom (by omega)

theorem kill_copy_loop_none (last : Option Nat) (f : Nat) (s : Ed) :
    kill_copy_loop last f none s = .ok s := by
  cases f <;> rfl

theorem char_at_index_inj (s : Ed) (i j : Nat) (hg : GapInv s) (hi : i < buffer_size s)
    (h : char_at_index s i = char_at_index s j) : i = j := by
  unfold GapInv at hg
  unfold char_at_index at h
  unfold buffer_size at hi h
  split_ifs at h <;> first | omega | (cases h; done) | (simp only [Option.some.injEq] at h; omega)

theorem where_eq (s : Ed) (h1 : s.gap_start ≤ s.gap_end) :
    where_ s = s.gap_start := by
  unfold where_ is_point_at_end_of_buffer buffer_size index_of
  simp only [beq_iff_eq]
  split_ifs <;> omega

theorem kill_copy_loop_total (high : Nat) :
    ∀ (f i : Nat) (st : Ed), GapInv st → i ≤ high →
      st.kill_size + (min high (buffer_size st) - i) ≤ BUFSIZE →
      (high < buffer_size st → high - i < f) → (buffer_size st ≤ high → buffer_size st - i ≤ f) →
      ∃ kb ks, kill_copy_loop (char_at_index st high) f (char_at_index st i) st =
          .ok { st with kill_buffer := kb, kill_size := ks } ∧
        killed { st with kill_buffer := kb, kill_size := ks } =
          killed st ++ ((content st).drop i).take (high - i) := by
  intro f
  induction f with
  | zero =>
    intro i st hg hi hroom hf1 hf2
    by_cases c : buffer_size st ≤ i
    · rw [char_at_index_none st i c, kill_copy_loop_none]
      refine ⟨st.kill_buffer, st.kill_size, rfl, ?_⟩
      rw [List.drop_eq_nil_of_le (by rw [content_length]; exact c)]
      simp only [List.take_nil, List.append_nil]
    · exfalso
      by_cases c2 : high < buffer_size st
      · have := hf1 c2
        omega
      · have := hf2 (by omega)
        omega
  | succ f ih =>
    intro i st hg hi hroom hf1 hf2
    by_cases c : buffer_size st ≤ i
    · rw [char_at_index_none st i c, kill_copy_loop_none]
      refine ⟨st.kill_buffer, st.kill_size, rfl, ?_⟩
      rw [List.drop_eq_nil_of_le (by rw [content_length]; exact c)]
      simp only [List.take_nil, List.append_nil]
    · have hlt : i < buffer_size st := by omega
      obtain ⟨p, hp, hpb, hd, ha⟩ := char_at_index_some st i hg hlt
      rw [hp]
      by_cases c2 : i = high
      · subst c2
        rw [hp]
        simp only [kill_copy_loop, if_true]
        refine ⟨st.kill_buffer, st.kill_size, rfl, ?_⟩
        simp only [Nat.sub_self, List.take_zero, List.append_nil]
      · have hne : ¬ (some p = char_at_index st high) := by
          intro h
          rw [← hp] at h
          exact c2 (char_at_index_inj st i high hg hlt h)
        have hks : st.kill_size < BUFSIZE := by omega
        simp only [kill_copy_loop, if_neg hne, hd, if_pos hks]
        rw [ha]
        obtain ⟨kb, ks, e, hk⟩ := ih (i + 1)
          { st with kill_buffer := Function.update st.kill_buffer st.kill_size (cell st i),
                    kill_size := st.kill_size + 1 } hg (by omega)
          (by
            show st.kill_size + 1 + (min high (buffer_size st) - (i + 1)) ≤ BUFSIZE
            omega)
          (show high < buffer_size st → high - (i + 1) < f from fun h => by
            have := hf1 h
            omega)
          (show buffer_size st ≤ high → buffer_size st - (i + 1) ≤ f from fun h => by
            have := hf2 h
            omega)
        refine ⟨kb, ks, e, ?_⟩
        rw [hk]
        have e1 : killed { st with
            kill_buffer := Function.update st.kill_buffer st.kill_size (cell st i),
            kill_size := st.kill_size + 1 } = killed st ++ [cell st i] := by
          unfold killed
          simp only
          rw [List.range_succ, List.map_append]
          congr 1
          · apply List.map_congr_left
            intro x hx
            rw [List.mem_range] at hx
            rw [Function.update_noteq (by omega)]
          · simp
        have e2 : high - i = (high - (i + 1)) + 1 := by omega
        rw [e1, content_drop st i hlt, e2, List.take_succ_cons, List.append_assoc]
        rfl

theorem kill_region_save_total (s : Ed) (h1 : s.gap_start ≤ s.gap_end)
    (h2 : s.gap_end ≤ BUFSIZE) (hro : s.is_read_only = false)
    (hact : s.marks_is_active = true) :
    ∃ kb ks, kill_region_save s =
        .ok { s with kill_buffer := kb, kill_size := ks, marks_is_active := false } ∧
      (List.range ks).map kb = ((content s).drop (point_mark_low_high s).1).take
        ((point_mark_low_high s).2 - (point_mark_low_high s).1) ∧
      ks = min (point_mark_low_high s).2 (buffer_size s) - (point_mark_low_high s).1 := by
  have hle : (point_mark_low_high s).1 ≤ (point_mark_low_high s).2 := by
    unfold point_mark_low_high
    simp only
    split_ifs <;> omega
  have hL : buffer_size s ≤ BUFSIZE := by unfold buffer_size; omega
  obtain ⟨kb, ks, e, hk⟩ := kill_copy_loop_total (point_mark_low_high s).2 BUFSIZE
    (point_mark_low_high s).1 { s with kill_size := 0 } ⟨h1, h2⟩ hle
    (by show 0 + _ ≤ BUFSIZE
        have : buffer_size { s with kill_size := 0 } = buffer_size s := rfl
        omega)
    (fun h => by
      have : buffer_size { s with kill_size := 0 } = buffer_size s := rfl
      omega)
    (fun h => by
      have : buffer_size { s with kill_size := 0 } = buffer_size s := rfl
      omega)
  have hk2 : (List.range ks).map kb = ((content s).drop (point_mark_low_high s).1).take
      ((point_mark_low_high s).2 - (point_mark_low_high s).1) := by
    have e0 : killed { s with kill_size := 0 } = [] := rfl
    rw [e0, List.nil_append] at hk
    exact hk
  refine ⟨kb, ks, ?_, hk2, ?_⟩
  · unfold kill_region_save
    rw [if_neg (by rw [hro]; decide), if_neg (by rw [hact]; decide)]
    simp only [bind, Except.bind, pure, Except.pure]
    have e1 : kill_copy_loop
        (char_at_index { s with kill_size := 0 } (point_mark_low_high { s with kill_size := 0 }).2)
        BUFSIZE
        (char_at_index { s with kill_size := 0 } (point_mark_low_high { s with kill_size := 0 }).1)
        { s with kill_size := 0 } = .ok { s with kill_buffer := kb, kill_size := ks } := e
    simp only at e1
    rw [e1]
  · have := congrArg List.length hk2
    simp only [List.length_map, List.length_range, List.length_take, List.length_drop,
      content_length] at this
    omega

theorem kill_region_loop_total :
    ∀ (n f : Nat) (s : Ed), Fit s → Ed.is_prefix s = false → s.is_read_only = false →
      n + 7 ≤ f →
      ∃ s1, exec f (.kill_region_loop n) s = .ok { s1 with marks_is_active := false } ∧
        Del s s1 ∧ s1.gap_end = s.gap_end + min n (BUFSIZE - s.gap_end) := by
  intro n
  induction n with
  | zero =>
    intro f s hW hp _ hf
    obtain ⟨f1, rfl⟩ : ∃ f1, f = f1 + 1 := ⟨f - 1, by omega⟩
    exact ⟨s, rfl, del_refl s hW hp, by simp⟩
  | succ n ih =>
    intro f s hW hp hro hf
    obtain ⟨f1, rfl⟩ : ∃ f1, f = f1 + 1 := ⟨f - 1, by omega⟩
    simp only [exec_succ, step, kill_region_loop]
    rw [if_neg (Nat.succ_ne_zero n)]
    obtain ⟨s1, e1, hd1, hge1⟩ := delete_char_total f1 s hW hro
      (by rw [repeat_count_one s hp]; omega)
    rw [repeat_count_one s hp] at hge1
    simp only [bind, Except.bind, e1, Nat.add_sub_cancel]
    obtain ⟨s2, e2, hd2, hge2⟩ := ih f1 s1 hd1.1 hd1.2.2.1
      (hd1.2.1.2.2.2.1.trans hro) (by omega)
    refine ⟨s2, e2, del_trans s s1 s2 hd1 hd2, ?_⟩
    have := hW.2.1
    have := hd1.1.2.1
    omega

theorem delete_region_loop_total :
    ∀ (n f : Nat) (s : Ed), Fit s → Ed.is_prefix s = false → s.is_read_only = false →
      n + 7 ≤ f →
      ∃ s1, exec f (.delete_region_loop n) s = .ok s1 ∧
        Del s s1 ∧ s1.gap_end = s.gap_end + min n (BUFSIZE - s.gap_end) := by
  intro n
  induction n with
  | zero =>
    intro f s hW hp _ hf
    obtain ⟨f1, rfl⟩ : ∃ f1, f = f1 + 1 := ⟨f - 1, by omega⟩
    exact ⟨s, rfl, del_refl s hW hp, by simp⟩
  | succ n ih =>
    intro f s hW hp hro hf
    obtain ⟨f1, rfl⟩ : ∃ f1, f = f1 + 1 := ⟨f - 1, by omega⟩
    simp only [exec_succ, step, delete_region_loop]
    rw [if_neg (Nat.succ_ne_zero n)]
    obtain ⟨s1, e1, hd1, hge1⟩ := delete_char_total f1 s hW hro
      (by rw [repeat_count_one s hp]; omega)
    rw [repeat_count_one s hp] at hge1
    simp only [bind, Except.bind, e1, Nat.add_sub_cancel]
    obtain ⟨s2, e2, hd2, hge2⟩ := ih f1 s1 hd1.1 hd1.2.2.1
      (hd1.2.1.2.2.2.1.trans hro) (by omega)
    refine ⟨s2, e2, del_trans s s1 s2 hd1 hd2, ?_⟩
    have := hW.2.1
    have := hd1.1.2.1
    omega

/-- The text that a deletion of `n` characters at index `lo` leaves, when the point
was first moved to `lo`. -/
theorem content_after_delete (s sb sc : Ed) (lo hi : Nat) (hm : Motion s sb) (hd : Del sb sc)
    (hlo : sb.gap_start = lo) (hlh : lo ≤ hi)
    (hge : sc.gap_end = sb.gap_end + min (hi - lo) (BUFSIZE - sb.gap_end)) :
    content sc = (content s).take lo ++ (content s).drop hi := by
  obtain ⟨hwb, _, hcb, _, hsz⟩ := hm
  obtain ⟨_, _, _, hgs, _, hb, ha⟩ := hd
  have hL : buffer_size sb = buffer_size s := by
    rw [← content_length, ← content_length, hcb]
  rw [content_split sc, hb, ha, text_before_take sb, text_after_drop sb, hcb, hlo, hge,
    Nat.add_sub_cancel_left, List.drop_drop]
  congr 1
  unfold buffer_size at hL
  have := hwb.1
  have := hwb.2.1
  by_cases c : hi ≤ buffer_size s
  · unfold buffer_size at c
    congr 1
    omega
  · unfold buffer_size at c
    rw [List.drop_eq_nil_of_le (by rw [content_length]; unfold buffer_size; omega),
      List.drop_eq_nil_of_le (by rw [content_length]; unfold buffer_size; omega)]

/-! ## Commands run to completion: regions -/

theorem kill_region_total (f : Nat) (s : Ed) (hW : Fit s) (hA : AnchorOk s)
    (hp : Ed.is_prefix s = false) (hro : s.is_read_only = false)
    (hact : s.marks_is_active = true)
    (hf1 : s.gap_start + 9 ≤ f)
    (hf2 : (point_mark_low_high s).2 - (point_mark_low_high s).1 + 9 ≤ f) :
    ∃ s1, exec f .kill_region s = .ok s1 ∧ Fit s1 ∧ Ed.is_prefix s1 = false ∧
      s1.is_read_only = false ∧ s1.marks_is_active = false ∧
      s1.gap_start = (point_mark_low_high s).1 ∧
      content s1 = (content s).take (point_mark_low_high s).1 ++
        (content s).drop (point_mark_low_high s).2 ∧
      killed s1 = ((content s).drop (point_mark_low_high s).1).take
        ((point_mark_low_high s).2 - (point_mark_low_high s).1) ∧
      s1.kill_size ≤ s1.gap_end - s1.gap_start := by
  obtain ⟨f1, rfl⟩ : ∃ f1, f = f1 + 1 := ⟨f - 1, by omega⟩
  have hg1 := hW.1
  have hg2 := hW.2.1
  have hle : (point_mark_low_high s).1 ≤ (point_mark_low_high s).2 := by
    unfold point_mark_low_high
    simp only
    split_ifs <;> omega
  have hlo : (point_mark_low_high s).1 ≤ s.gap_start := by
    unfold point_mark_low_high
    simp only
    rw [where_eq s hg1]
    split_ifs <;> omega
  obtain ⟨kb, ks, e1, hk, hks⟩ := kill_region_save_total s hg1 hg2 hro hact
  have ek : exec f1 .kill_region_save s =
      .ok { s with kill_buffer := kb, kill_size := ks, marks_is_active := false } := by
    obtain ⟨f2, hf⟩ : ∃ f2, f1 = f2 + 1 := ⟨f1 - 1, by omega⟩
    rw [hf]
    exact e1
  simp only [exec_succ, step, kill_region]
  rw [if_neg (by rw [hact]; decide)]
  simp only [bind, Except.bind, ek]
  have hplh : point_mark_low_high
      { s with kill_buffer := kb, kill_size := ks, marks_is_active := false } =
      point_mark_low_high s := rfl
  rw [hplh]
  obtain ⟨sb, e2, hm, hgsb⟩ := move_to_total (point_mark_low_high s).1 f1
    { s with kill_buffer := kb, kill_size := ks, marks_is_active := false } hW hA hp
    (by show s.gap_start + 7 ≤ f1; omega) (by omega)
  rw [e2]
  simp only
  have hL : buffer_size { s with kill_buffer := kb, kill_size := ks, marks_is_active := false } =
      buffer_size s := rfl
  rw [hL] at hgsb
  have hgsb2 : sb.gap_start = (point_mark_low_high s).1 := by
    rw [hgsb]
    unfold buffer_size
    omega
  have hrob : sb.is_read_only = false := hm.2.1.2.2.2.1.trans hro
  obtain ⟨sc, e3, hd, hgec⟩ := kill_region_loop_total
    ((point_mark_low_high s).2 - (point_mark_low_high s).1) f1 sb hm.1 hm.2.2.2.1 hrob
    (by omega)
  rw [e3]
  have hc : content sc = (content s).take (point_mark_low_high s).1 ++
      (content s).drop (point_mark_low_high s).2 :=
    content_after_delete { s with kill_buffer := kb, kill_size := ks, marks_is_active := false }
      sb sc _ _ hm hd hgsb2 hle hgec
  have hkc : killed sc = (List.range ks).map kb := by
    unfold killed
    rw [hd.2.1.2.2.2.2.2.1, hd.2.1.2.2.2.2.1, hm.2.1.2.2.2.2.2.1, hm.2.1.2.2.2.2.1]
  refine ⟨_, rfl, hd.1, hd.2.2.1, hd.2.1.2.2.2.1.trans hrob, rfl, hd.2.2.2.1.trans hgsb2, hc,
    hkc.trans hk, ?_⟩
  show sc.kill_size ≤ sc.gap_end - sc.gap_start
  have a1 : sc.kill_size = ks := hd.2.1.2.2.2.2.2.1.trans hm.2.1.2.2.2.2.2.1
  have a2 := hd.2.2.2.1
  have a3 := hm.2.2.2.2
  have a4 := hm.1.1
  have a5 := hm.1.2.1
  simp only at a3
  rw [a1, hks, hgec, a2]
  unfold buffer_size
  omega

/-! ## Commands run to completion: words and lines -/

theorem motion_gap_end (s s1 : Ed) (k : Nat) (hW : Fit s) (hm : Motion s s1)
    (hgs : s1.gap_start = s.gap_start + k) : s1.gap_end = s.gap_end + k := by
  have := hW.1
  have := hm.1.1
  have := hm.2.2.2.2
  omega

theorem point_is_ok (pred : tedchar → Bool) (s : Ed) (h1 : s.gap_start ≤ s.gap_end)
    (he : s.gap_end < BUFSIZE) : point_is pred s = .ok (pred (s.buffer s.gap_end)) := by
  unfold point_is
  rw [char_at_point_some s h1 he, deref_ok s _ he]

theorem at_end_iff (s : Ed) : is_point_at_end_of_buffer s = true ↔ s.gap_end = BUFSIZE := by
  simp [is_point_at_end_of_buffer]

theorem forward_word_text_total :
    ∀ (n f : Nat) (s : Ed), BUFSIZE - s.gap_end = n → Fit s → Ed.is_prefix s = false →
      n + 8 ≤ f → ∃ s1, exec f (.forward_word_text 1) s = .ok s1 ∧ Fwd s s1 := by
  intro n
  induction n with
  | zero =>
    intro f s hn hW hp hf
    obtain ⟨f2, rfl⟩ : ∃ f2, f = f2 + 2 := ⟨f - 2, by omega⟩
    have he : is_point_at_end_of_buffer s = true := by
      rw [at_end_iff]
      have := hW.2.1
      omega
    simp only [exec_succ, step, forward_word_text, he, if_true, bind, Except.bind, pure,
      Except.pure, Bool.false_eq_true, if_false, forward_word_loop, Nat.sub_self]
    exact ⟨s, rfl, fwd_refl s hW hp⟩
  | succ n ih =>
    intro f s hn hW hp hf
    obtain ⟨f2, rfl⟩ : ∃ f2, f = f2 + 2 := ⟨f - 2, by omega⟩
    have hlt : s.gap_end < BUFSIZE := by omega
    have he : ¬ (is_point_at_end_of_buffer s = true) := by
      rw [at_end_iff]
      omega
    rw [exec_succ]
    simp only [step, forward_word_text, if_neg he, point_is_ok _ s hW.1 hlt, bind, Except.bind,
      pure, Except.pure]
    by_cases c : (!is_whitespace (s.buffer s.gap_end)) = true
    · rw [if_pos c]
      obtain ⟨s1, e1, hf1, hgs1⟩ := forward_char_total (f2 + 1) s hW hp (by omega)
      rw [e1]
      simp only
      have hge1 := motion_gap_end s s1 _ hW hf1.1 hgs1
      obtain ⟨s2, e2, hf2⟩ := ih (f2 + 1) s1 (by rw [hge1]; omega) hf1.1.1 hf1.1.2.2.2.1
        (by omega)
      exact ⟨s2, e2, fwd_trans s s1 s2 hf1 hf2⟩
    · rw [if_neg c]
      simp only [exec_succ, step, forward_word_loop, Nat.sub_self, if_true]
      exact ⟨s, rfl, fwd_refl s hW hp⟩

theorem forward_word_ws_total :
    ∀ (n f : Nat) (s : Ed), BUFSIZE - s.gap_end = n → Fit s → Ed.is_prefix s = false →
      n + 9 ≤ f → ∃ s1, exec f (.forward_word_ws 1) s = .ok s1 ∧ Fwd s s1 := by
  intro n
  induction n with
  | zero =>
    intro f s hn hW hp hf
    obtain ⟨f1, rfl⟩ : ∃ f1, f = f1 + 1 := ⟨f - 1, by omega⟩
    have he : is_point_at_end_of_buffer s = true := by
      rw [at_end_iff]
      have := hW.2.1
      omega
    rw [exec_succ]
    simp only [step, forward_word_ws, he, if_true, bind, Except.bind, pure,
      Except.pure, Bool.false_eq_true, if_false]
    exact forward_word_text_total 0 f1 s hn hW hp (by omega)
  | succ n ih =>
    intro f s hn hW hp hf
    obtain ⟨f1, rfl⟩ : ∃ f1, f = f1 + 1 := ⟨f - 1, by omega⟩
    have hlt : s.gap_end < BUFSIZE := by omega
    have he : ¬ (is_point_at_end_of_buffer s = true) := by
      rw [at_end_iff]
      omega
    rw [exec_succ]
    simp only [step, forward_word_ws, if_neg he, point_is_ok _ s hW.1 hlt, bind, Except.bind,
      pure, Except.pure]
    by_cases c : is_whitespace (s.buffer s.gap_end) = true
    · rw [if_pos c]
      obtain ⟨s1, e1, hf1, hgs1⟩ := forward_char_total f1 s hW hp (by omega)
      rw [e1]
      simp only
      have hge1 := motion_gap_end s s1 _ hW hf1.1 hgs1
      obtain ⟨s2, e2, hf2⟩ := ih f1 s1 (by rw [hge1]; omega) hf1.1.1 hf1.1.2.2.2.1
        (by omega)
      exact ⟨s2, e2, fwd_trans s s1 s2 hf1 hf2⟩
    · rw [if_neg c]
      exact forward_word_text_total (n + 1) f1 s hn hW hp (by omega)

theorem forward_word_total (f : Nat) (s : Ed) (hW : Fit s) (hp : Ed.is_prefix s = false)
    (hf : BUFSIZE - s.gap_end + 11 ≤ f) :
    ∃ s1, exec f .forward_word s = .ok s1 ∧ Fwd s s1 := by
  obtain ⟨f2, rfl⟩ : ∃ f2, f = f2 + 2 := ⟨f - 2, by omega⟩
  rw [exec_succ]
  simp only [step, forward_word]
  split_ifs
  · exact ⟨s, rfl, fwd_refl s hW hp⟩
  rw [repeat_count_one s hp, prefix_clear_eq s hp, exec_succ]
  simp only [step, forward_word_loop, one_ne_zero, if_false]
  split_ifs
  · exact ⟨s, rfl, fwd_refl s hW hp⟩
  · exact forward_word_ws_total _ f2 s rfl hW hp (by omega)

/-! ## Mark a word, kill it, yank it back -/

theorem take_region_drop (l : List tedchar) (a b : Nat) (h : a ≤ b) :
    l.take a ++ ((l.drop a).take (b - a) ++ l.drop b) = l := by
  rw [← List.append_assoc, ← List.take_add, Nat.add_sub_cancel' h, List.take_append_drop]

theorem tidy_key (s : Ed) (k : key) (h : Fit s) :
    Fit { { s with is_prefix := false } with last_key := k } := h

/-- In a tidy state that is not read-only, the keys for `set_mark`,
`forward_word`, `kill_region` and `yank`, typed without prefix argument, run to
completion and leave the character sequence as it was. -/
theorem mark_word_kill_yank_restores (s : Ed) (k1 k2 k3 k4 : key) (f : Nat) (hT : Tidy s)
    (hro : s.is_read_only = false) (hf : BUFSIZE + 11 ≤ f) :
    ∃ s1, run_keys f [(none, k1, .set_mark), (none, k2, .forward_word),
        (none, k3, .kill_region), (none, k4, .yank)] s = .ok s1 ∧
      content s1 = content s := by
  obtain ⟨hW, hrow, hA⟩ := hT
  have hg1 := hW.1
  have hg2 := hW.2.1
  have hl2 := hW.2.2.2.1
  obtain ⟨f1, rfl⟩ : ∃ f1, f = f1 + 1 := ⟨f - 1, by omega⟩
  -- set_mark
  have e1 : key_event (f1 + 1) none k1 .set_mark s =
      .ok { do_push_mark (where_ s) { { s with is_prefix := false } with last_key := k1 } with
        marks_is_active := true } := rfl
  -- forward_word
  obtain ⟨sb, e2, hfb⟩ := forward_word_total (f1 + 1)
    { { ({ do_push_mark (where_ s) { { s with is_prefix := false } with last_key := k1 } with
        marks_is_active := true } : Ed) with is_prefix := false } with last_key := k2 }
    hW rfl (by show BUFSIZE - s.gap_end + 11 ≤ f1 + 1; omega)
  have e2a : key_event (f1 + 1) none k2 .forward_word
      { do_push_mark (where_ s) { { s with is_prefix := false } with last_key := k1 } with
        marks_is_active := true } = .ok sb := e2
  obtain ⟨⟨hWb, hKb, hcb, hpb, hszb⟩, hgsb, hrowb, hAb⟩ := hfb
  simp only [do_push_mark] at hgsb hrowb hszb
  have hgb2 := hWb.2.1
  have hgb1 := hWb.1
  have hAb2 : AnchorOk sb := hAb hA (by
    show s.cursor_row + (sb.gap_start - s.gap_start) < SIZE_MOD
    have : BUFSIZE + 30 < SIZE_MOD := by decide
    omega)
  obtain ⟨_, _, _, hk4, hk5, hk6, hk7, hk8, hk9⟩ := hKb
  simp only [do_push_mark] at hk4 hk7 hk8 hk9
  have hmark : sb.marks_m sb.marks_current = s.gap_start := by
    rw [hk7, hk8, Function.update_same, where_eq s hg1]
  have hplh : point_mark_low_high { { sb with is_prefix := false } with last_key := k3 } =
      (s.gap_start, sb.gap_start) := by
    have hw : where_ { { sb with is_prefix := false } with last_key := k3 } = sb.gap_start :=
      where_eq _ hgb1
    unfold point_mark_low_high
    simp only [hw, hmark]
    by_cases c : sb.gap_start ≤ s.gap_start
    · rw [if_pos c, if_pos c]
      congr 1 <;> omega
    · rw [if_neg c, if_neg c]
  -- kill_region
  obtain ⟨sc, e3, hWc, hpc, hroc, _, hgsc, hcc, hkc, hroom⟩ := kill_region_total (f1 + 1)
    { { sb with is_prefix := false } with last_key := k3 } hWb hAb2 rfl (hk4.trans hro)
    (hk9.trans rfl) (by show sb.gap_start + 9 ≤ f1 + 1; omega)
    (by rw [hplh]; show sb.gap_start - s.gap_start + 9 ≤ f1 + 1; omega)
  rw [hplh] at hgsc hcc hkc
  simp only at hgsc hcc hkc
  have e3a : key_event (f1 + 1) none k3 .kill_region sb = .ok sc := e3
  have hcc2 : content sc = (content s).take s.gap_start ++ (content s).drop sb.gap_start := by
    rw [hcc]
    have : content { { sb with is_prefix := false } with last_key := k3 } = content sb := rfl
    rw [this, hcb]
    rfl
  have hkc2 : killed sc = ((content s).drop s.gap_start).take (sb.gap_start - s.gap_start) := by
    rw [hkc]
    have : content { { sb with is_prefix := false } with last_key := k3 } = content sb := rfl
    rw [this, hcb]
    rfl
  -- yank
  obtain ⟨sd, e4, _, _, _, hgsd, hged, hbd, had⟩ := yank_total (f1 + 1)
    { { sc with is_prefix := false } with last_key := k4 } hWc rfl hroc hroom (by
      show sc.kill_size + 8 ≤ f1 + 1
      have := hWc.1
      have := hWc.2.1
      omega)
  have e4a : key_event (f1 + 1) none k4 .yank sc = .ok sd := e4
  refine ⟨sd, ?_, ?_⟩
  · simp only [run_keys, e1, e2a, e3a, e4a]
  · have hb1 : text_before { { sc with is_prefix := false } with last_key := k4 } =
        (content s).take s.gap_start := by
      show text_before sc = _
      rw [text_before_take sc, hcc2, hgsc, List.take_left']
      rw [List.length_take, content_length]
      unfold buffer_size
      omega
    have ha1 : text_after { { sc with is_prefix := false } with last_key := k4 } =
        (content s).drop sb.gap_start := by
      show text_after sc = _
      rw [text_after_drop sc, hcc2, hgsc, List.drop_left']
      rw [List.length_take, content_length]
      unfold buffer_size
      omega
    have hk1 : killed { { sc with is_prefix := false } with last_key := k4 } = killed sc := rfl
    rw [content_split sd, hbd, had, hb1, ha1, hk1, hkc2, List.append_assoc]
    exact take_region_drop (content s) s.gap_start sb.gap_start hgsb

theorem point_mark_low_high_eq (s : Ed) :
    point_mark_low_high s =
      (min (where_ s) (s.marks_m s.marks_current), max (where_ s) (s.marks_m s.marks_current)) := by
  unfold point_mark_low_high
  simp only
  by_cases c : where_ s ≤ s.marks_m s.marks_current
  · rw [if_pos c, if_pos c, min_eq_left c, max_eq_right c]
  · rw [if_neg c, if_neg c, min_eq_right (by omega), max_eq_left (by omega)]

theorem kill_region_min_max (s : Ed) (f : Nat) (hT : Tidy s) (hp : Ed.is_prefix s = false)
    (hro : s.is_read_only = false) (hact : s.marks_is_active = true)
    (hf : max (where_ s) (s.marks_m s.marks_current) + 9 ≤ f) :
    ∃ s1, exec f .kill_region s = .ok s1 ∧
      killed s1 = ((content s).drop (min (where_ s) (s.marks_m s.marks_current))).take
        (max (where_ s) (s.marks_m s.marks_current) -
          min (where_ s) (s.marks_m s.marks_current)) ∧
      content s1 = (content s).take (min (where_ s) (s.marks_m s.marks_current)) ++
        (content s).drop (max (where_ s) (s.marks_m s.marks_current)) ∧
      (Fit s1 ∧ s1.gap_start = min (where_ s) (s.marks_m s.marks_current)) ∧
      s1.marks_is_active = false := by
  obtain ⟨hW, _, hA⟩ := hT
  have hw := where_eq s hW.1
  have hplh := point_mark_low_high_eq s
  obtain ⟨s1, e, hW1, _, _, hina, hgs, hc, hk, _⟩ := kill_region_total f s hW hA hp hro hact
    (by rw [hw] at hf; have := le_max_left s.gap_start (s.marks_m s.marks_current); omega)
    (by rw [hplh]; simp only; omega)
  rw [hplh] at hgs hc hk
  exact ⟨s1, e, hk, hc, ⟨hW1, hgs⟩, hina⟩

/-- In a tidy state with an active mark `m` and the point `p`, not read-only and
without prefix argument, `kill_region` runs to completion; afterwards the kill
buffer holds the characters at the indices `[min p m, max p m)` of the original
content, the content is the original without them, the point is `min p m` and the
mark is inactive. -/
theorem kill_region_spec (s : Ed) (f : Nat) (hT : Tidy s) (hp : Ed.is_prefix s = false)
    (hro : s.is_read_only = false) (hact : s.marks_is_active = true)
    (hf : max (where_ s) (s.marks_m s.marks_current) + 9 ≤ f) :
    ∃ s1, exec f .kill_region s = .ok s1 ∧
      killed s1 = ((content s).drop (min (where_ s) (s.marks_m s.marks_current))).take
        (max (where_ s) (s.marks_m s.marks_current) -
          min (where_ s) (s.marks_m s.marks_current)) ∧
      content s1 = (content s).take (min (where_ s) (s.marks_m s.marks_current)) ++
        (content s).drop (max (where_ s) (s.marks_m s.marks_current)) ∧
      where_ s1 = min (where_ s) (s.marks_m s.marks_current) ∧
      s1.marks_is_active = false := by
  obtain ⟨s1, e, hk, hc, ⟨hW1, hgs⟩, hina⟩ := kill_region_min_max s f hT hp hro hact hf
  refine ⟨s1, e, hk, hc, ?_, hina⟩
  rw [where_eq s1 hW1.1]
  exact hgs

/-- In a state that is fit to run and not read-only, `delete_char` with the repeat
count `n` (the `size_t` made of the prefix argument, or 1 without one) at the point `i` of a buffer
of length `L` runs to completion, removes exactly the `min n (L - i)` characters at
the indices `[i, i + min n (L - i))`, keeps the others in order and keeps the point. -/
theorem delete_char_spec (s : Ed) (f : Nat) (hW : Fit s) (hro : s.is_read_only = false)
    (hf : min (repeat_count s) (buffer_size s - where_ s) + 5 ≤ f) :
    ∃ s1, exec f .delete_char s = .ok s1 ∧ where_ s1 = where_ s ∧
      content s1 = (content s).take (where_ s) ++
        (content s).drop (where_ s + min (repeat_count s) (buffer_size s - where_ s)) := by
  have hg1 := hW.1
  have hg2 := hW.2.1
  have hw := where_eq s hg1
  have hL : buffer_size s - where_ s = BUFSIZE - s.gap_end := by
    rw [hw]
    unfold buffer_size
    omega
  rw [hL] at hf
  obtain ⟨s1, e, ⟨hW1, _, _, hgs, _, hb, ha⟩, hge⟩ := delete_char_total f s hW hro hf
  refine ⟨s1, e, ?_, ?_⟩
  · rw [where_eq s1 hW1.1, hw, hgs]
  · rw [content_split s1, hb, ha, text_before_take s, text_after_drop s, List.drop_drop, hL, hw,
      hge, Nat.add_sub_cancel_left]

/-! ## Region deletion -/

theorem delete_region_total (f : Nat) (s : Ed) (hW : Fit s) (hA : AnchorOk s)
    (hp : Ed.is_prefix s = false) (hro : s.is_read_only = false)
    (hne : (point_mark_low_high s).1 < (point_mark_low_high s).2)
    (hin : (point_mark_low_high s).1 < buffer_size s)
    (hf1 : s.gap_start + 9 ≤ f)
    (hf2 : (point_mark_low_high s).2 - (point_mark_low_high s).1 + 9 ≤ f) :
    ∃ s1, exec f .delete_region s = .ok s1 ∧ Fit s1 ∧
      s1.gap_start = (point_mark_low_high s).1 ∧
      content s1 = (content s).take (point_mark_low_high s).1 ++
        (content s).drop (point_mark_low_high s).2 ∧
      killed s1 = killed s ∧ s1.marks_is_active = s.marks_is_active := by
  obtain ⟨f1, rfl⟩ : ∃ f1, f = f1 + 1 := ⟨f - 1, by omega⟩
  have hg1 := hW.1
  have hg2 := hW.2.1
  have hlo : (point_mark_low_high s).1 ≤ s.gap_start := by
    unfold point_mark_low_high
    simp only
    rw [where_eq s hg1]
    split_ifs <;> omega
  obtain ⟨p, hp1, _⟩ := char_at_index_some s _ ⟨hg1, hg2⟩ hin
  simp only [exec_succ, step, delete_region, hp1]
  rw [if_neg (by rw [hro]; decide), if_neg (by omega)]
  obtain ⟨sb, e2, hm, hgsb⟩ := move_to_total (point_mark_low_high s).1 f1 s hW hA hp
    (by omega) (by omega)
  simp only [bind, Except.bind, e2]
  have hgsb2 : sb.gap_start = (point_mark_low_high s).1 := by
    rw [hgsb]
    omega
  have hrob : sb.is_read_only = false := hm.2.1.2.2.2.1.trans hro
  obtain ⟨sc, e3, hd, hgec⟩ := delete_region_loop_total
    ((point_mark_low_high s).2 - (point_mark_low_high s).1) f1 sb hm.1 hm.2.2.2.1 hrob
    (by omega)
  refine ⟨sc, e3, hd.1, hd.2.2.2.1.trans hgsb2,
    content_after_delete s sb sc _ _ hm hd hgsb2 (by omega) hgec, ?_, ?_⟩
  · unfold killed
    rw [hd.2.1.2.2.2.2.2.1, hd.2.1.2.2.2.2.1, hm.2.1.2.2.2.2.2.1, hm.2.1.2.2.2.2.1]
  · exact hd.2.1.2.2.2.2.2.2.2.2.trans hm.2.1.2.2.2.2.2.2.2.2

theorem delete_region_empty (f : Nat) (s : Ed) (hro : s.is_read_only = false)
    (he : where_ s = s.marks_m s.marks_current) (hf : 1 ≤ f) :
    exec f .delete_region s = .ok s := by
  obtain ⟨f1, rfl⟩ : ∃ f1, f = f1 + 1 := ⟨f - 1, by omega⟩
  have hplh : point_mark_low_high s = (where_ s, where_ s) := by
    rw [point_mark_low_high_eq, ← he, min_self, max_self]
  simp only [exec_succ, step, delete_region, hplh, Nat.sub_self, if_true]
  rw [if_neg (by rw [hro]; decide)]
  cases char_at_index s (where_ s) <;> rfl

theorem kill_region_save_inactive (f : Nat) (s : Ed) (h : s.marks_is_active = false)
    (hf : 1 ≤ f) : exec f .kill_region_save s = .ok s := by
  obtain ⟨f1, rfl⟩ : ∃ f1, f = f1 + 1 := ⟨f - 1, by omega⟩
  simp only [exec_succ, step, kill_region_save]
  by_cases c : s.is_read_only = true
  · rw [if_pos c]
  · rw [if_neg c, if_pos (by rw [h]; rfl)]

theorem kill_region_inactive (f : Nat) (s : Ed) (h : s.marks_is_active = false)
    (hf : 1 ≤ f) : exec f .kill_region s = .ok s := by
  obtain ⟨f1, rfl⟩ : ∃ f1, f = f1 + 1 := ⟨f - 1, by omega⟩
  simp only [exec_succ, step, kill_region, h]
  rfl

theorem delete_backward_char_region (f : Nat) (s : Ed) (hro : s.is_read_only = false)
    (hact : s.marks_is_active = true) :
    exec (f + 1) .delete_backward_char s =
      (exec f .delete_region s).bind (fun s1 => .ok (disable_mark s1)) := by
  simp only [exec_succ, step, delete_backward_char]
  rw [if_neg (by rw [hro]; decide), if_pos hact]
  rfl

theorem delete_forward_char_region (f : Nat) (s : Ed) (hro : s.is_read_only = false)
    (hact : s.marks_is_active = true) :
    exec (f + 1) .delete_forward_char s =
      (exec f .delete_region s).bind (fun s1 => .ok (disable_mark s1)) := by
  simp only [exec_succ, step, delete_forward_char]
  rw [if_neg (by rw [hro]; decide), if_pos hact]
  rfl

theorem killed_length (s : Ed) : (killed s).length = s.kill_size := by
  simp [killed]

/-- The region operations in a tidy state. Let `p` be the point and `m` the current
mark. With the mark inactive `kill_region_save` and `kill_region` change nothing. With
the mark active, not read-only, and `p = m`: `delete_backward_char` and
`delete_forward_char` only deactivate the mark, while `kill_region_save` and (in a tidy
state without prefix argument) `kill_region` keep the content but empty the kill
buffer. With the mark active at `m ≤ length`, `p ≠ m`, in a tidy state that is not
read-only and has no prefix argument: the two deletions and `kill_region` remove the
`max p m - min p m` characters of the region, and `kill_region_save` and `kill_region`
make the kill buffer the region, which is not empty. -/
theorem region_operations (s : Ed) (f p m : Nat) (hp : p = where_ s)
    (hm : m = s.marks_m s.marks_current) (hf : max p m + 10 ≤ f) :
    (s.marks_is_active = false →
      exec f .kill_region_save s = .ok s ∧ exec f .kill_region s = .ok s) ∧
    (s.marks_is_active = true → s.is_read_only = false → p = m →
      exec f .delete_backward_char s = .ok (disable_mark s) ∧
      exec f .delete_forward_char s = .ok (disable_mark s) ∧
      (s.gap_start ≤ s.gap_end → s.gap_end ≤ BUFSIZE →
        ∃ s1, exec f .kill_region_save s = .ok s1 ∧ content s1 = content s ∧
          s1.kill_size = 0) ∧
      (Tidy s → Ed.is_prefix s = false →
        ∃ s1, exec f .kill_region s = .ok s1 ∧ content s1 = content s ∧ s1.kill_size = 0)) ∧
    (s.marks_is_active = true → s.is_read_only = false → p ≠ m → m ≤ buffer_size s →
      Tidy s → Ed.is_prefix s = false →
      (∃ s1, exec f .delete_backward_char s = .ok s1 ∧
        content s1 = (content s).take (min p m) ++ (content s).drop (max p m) ∧
        (content s1).length + (max p m - min p m) = (content s).length ∧
        killed s1 = killed s) ∧
      (∃ s1, exec f .delete_forward_char s = .ok s1 ∧
        content s1 = (content s).take (min p m) ++ (content s).drop (max p m) ∧
        (content s1).length + (max p m - min p m) = (content s).length ∧
        killed s1 = killed s) ∧
      (∃ s1, exec f .kill_region_save s = .ok s1 ∧ content s1 = content s ∧
        killed s1 = ((content s).drop (min p m)).take (max p m - min p m) ∧
        killed s1 ≠ []) ∧
      (∃ s1, exec f .kill_region s = .ok s1 ∧
        content s1 = (content s).take (min p m) ++ (content s).drop (max p m) ∧
        (content s1).length + (max p m - min p m) = (content s).length ∧
        killed s1 = ((content s).drop (min p m)).take (max p m - min p m) ∧
        killed s1 ≠ [])) := by
  subst hp hm
  obtain ⟨f1, rfl⟩ : ∃ f1, f = f1 + 1 := ⟨f - 1, by omega⟩
  have hplh := point_mark_low_high_eq s
  refine ⟨fun h => ⟨kill_region_save_inactive _ s h (by omega),
    kill_region_inactive _ s h (by omega)⟩, ?_, ?_⟩
  · intro hact hro he
    have hd := delete_region_empty f1 s hro he (by omega)
    refine ⟨?_, ?_, ?_, ?_⟩
    · rw [delete_backward_char_region f1 s hro hact, hd]
      rfl
    · rw [delete_forward_char_region f1 s hro hact, hd]
      rfl
    · intro hg1 hg2
      obtain ⟨kb, ks, e, _, hks⟩ := kill_region_save_total s hg1 hg2 hro hact
      refine ⟨_, e, rfl, ?_⟩
      show ks = 0
      rw [hks, hplh, ← he]
      simp only [min_self, max_self]
      omega
    · intro hT hpf
      obtain ⟨s1, e, h1, h2, _, _⟩ := kill_region_min_max s (f1 + 1) hT hpf hro hact
        (by omega)
      refine ⟨s1, e, ?_, ?_⟩
      · rw [h2, ← he]
        simp only [min_self, max_self, List.take_append_drop]
      · rw [← killed_length, h1, ← he]
        simp
  · intro hact hro hne hmL hT hpf
    obtain ⟨hW, _, hA⟩ := hT
    have hg1 := hW.1
    have hg2 := hW.2.1
    have hw := where_eq s hg1
    have hpL : where_ s ≤ buffer_size s := by
      rw [hw]
      unfold buffer_size
      omega
    have hlt : min (where_ s) (s.marks_m s.marks_current) <
        max (where_ s) (s.marks_m s.marks_current) := by
      rcases Nat.lt_or_gt_of_ne hne with h | h
      · rw [min_eq_left (by omega), max_eq_right (by omega)]
        exact h
      · rw [min_eq_right (by omega), max_eq_left (by omega)]
        exact h
    have hhi : max (where_ s) (s.marks_m s.marks_current) ≤ buffer_size s :=
      max_le hpL hmL
    have hlen : ((content s).take (min (where_ s) (s.marks_m s.marks_current)) ++
        (content s).drop (max (where_ s) (s.marks_m s.marks_current))).length +
        (max (where_ s) (s.marks_m s.marks_current) -
          min (where_ s) (s.marks_m s.marks_current)) = (content s).length := by
      simp only [List.length_append, List.length_take, List.length_drop, content_length]
      omega
    have hreg : ((content s).drop (min (where_ s) (s.marks_m s.marks_current))).take
        (max (where_ s) (s.marks_m s.marks_current) -
          min (where_ s) (s.marks_m s.marks_current)) ≠ [] := by
      intro h
      have := congrArg List.length h
      simp only [List.length_take, List.length_drop, content_length, List.length_nil] at this
      omega
    obtain ⟨sd, ed, _, _, hcd, hkd, _⟩ := delete_region_total f1 s hW hA hpf hro
      (by rw [hplh]; exact hlt) (by rw [hplh]; simp only; omega)
      (by rw [hw] at hf; have := le_max_left s.gap_start (s.marks_m s.marks_current); omega)
      (by rw [hplh]; simp only; omega)
    rw [hplh] at hcd
    simp only at hcd
    have hcd2 : content (disable_mark sd) = content sd := rfl
    have hkd2 : killed (disable_mark sd) = killed sd := rfl
    refine ⟨?_, ?_, ?_, ?_⟩
    · refine ⟨disable_mark sd, ?_, hcd2.trans hcd, ?_, hkd2.trans hkd⟩
      · rw [delete_backward_char_region f1 s hro hact, ed]
        rfl
      · rw [hcd2, hcd]
        exact hlen
    · refine ⟨disable_mark sd, ?_, hcd2.trans hcd, ?_, hkd2.trans hkd⟩
      · rw [delete_forward_char_region f1 s hro hact, ed]
        rfl
      · rw [hcd2, hcd]
        exact hlen
    · obtain ⟨kb, ks, e, hk, _⟩ := kill_region_save_total s hg1 hg2 hro hact
      rw [hplh] at hk
      simp only at hk
      refine ⟨_, e, rfl, hk, ?_⟩
      have : killed { s with kill_buffer := kb, kill_size := ks, marks_is_active := false } =
          (List.range ks).map kb := rfl
      rw [this, hk]
      exact hreg
    · obtain ⟨s1, e, h1, h2, _, _⟩ := kill_region_min_max s (f1 + 1) ⟨hW, by assumption, hA⟩ hpf
        hro hact (by omega)
      refine ⟨s1, e, h2, ?_, h1, ?_⟩
      · rw [h2]
        exact hlen
      · rw [h1]
        exact hreg

/-! ## Lines -/

theorem line_rest_nil : line_rest [] = 0 := rfl

theorem line_rest_cons (c : tedchar) (cs : List tedchar) :
    line_rest (c :: cs) = if is_newline c then 0 else 1 + line_rest cs := by
  unfold line_rest
  rw [List.takeWhile_cons]
  by_cases h : is_newline c = true
  · simp [h]
  · simp [h]
    omega

theorem line_rest_le (l : List tedchar) : line_rest l ≤ l.length := by
  unfold line_rest
  exact (List.takeWhile_sublist _).length_le

theorem after_newlines_nil (k : Nat) : after_newlines [] k = 0 := by
  cases k <;> rfl

theorem after_newlines_step (l : List tedchar) (k : Nat) :
    after_newlines l (k + 1) = line_rest l + min 1 (l.length - line_rest l) +
      after_newlines (l.drop (line_rest l + 1)) k := by
  induction l with
  | nil => simp [after_newlines, line_rest_nil, after_newlines_nil]
  | cons c cs ih =>
    rw [line_rest_cons]
    by_cases h : is_newline c = true
    · simp [after_newlines, h]
    · rw [if_neg h]
      simp only [after_newlines, h, if_false, Bool.false_eq_true]
      rw [ih]
      have e : (c :: cs).drop (1 + line_rest cs + 1) = cs.drop (line_rest cs + 1) := by
        rw [show 1 + line_rest cs + 1 = (line_rest cs + 1) + 1 by omega, List.drop_succ_cons]
      rw [e]
      simp only [List.length_cons]
      have := line_rest_le cs
      omega

theorem text_after_nil (s : Ed) (h : s.gap_end = BUFSIZE) : text_after s = [] := by
  unfold text_after
  rw [h]
  simp

theorem text_after_head (s : Ed) (he : s.gap_end < BUFSIZE) :
    ∃ rest, text_after s = s.buffer s.gap_end :: rest := by
  have := text_after_cons s { s with gap_end := s.gap_end + 1 } he (fun _ _ => rfl) rfl
  exact ⟨_, this⟩

theorem text_after_forward (s s1 : Ed) (k : Nat) (hf : Fwd s s1)
    (hgs : s1.gap_start = s.gap_start + k) : text_after s1 = (text_after s).drop k := by
  rw [text_after_drop s1, text_after_drop s, hf.1.2.2.1, hgs, List.drop_drop]

theorem end_of_line_loop_total :
    ∀ (n f : Nat) (s : Ed), BUFSIZE - s.gap_end = n → Fit s → Ed.is_prefix s = false →
      n + 8 ≤ f →
      ∃ s1, exec f .end_of_line_loop s = .ok s1 ∧ Fwd s s1 ∧
        s1.gap_start = s.gap_start + line_rest (text_after s) := by
  intro n
  induction n with
  | zero =>
    intro f s hn hW hp hf
    obtain ⟨f1, rfl⟩ : ∃ f1, f = f1 + 1 := ⟨f - 1, by omega⟩
    have hge : s.gap_end = BUFSIZE := by
      have := hW.2.1
      omega
    have he : is_point_at_end_of_buffer s = true := (at_end_iff s).2 hge
    rw [exec_succ]
    simp only [step, end_of_line_loop, he, if_true, bind, Except.bind, pure,
      Except.pure, Bool.false_eq_true, if_false]
    refine ⟨s, rfl, fwd_refl s hW hp, ?_⟩
    rw [text_after_nil s hge, line_rest_nil]
    rfl
  | succ n ih =>
    intro f s hn hW hp hf
    obtain ⟨f1, rfl⟩ : ∃ f1, f = f1 + 1 := ⟨f - 1, by omega⟩
    have hlt : s.gap_end < BUFSIZE := by omega
    have he : ¬ (is_point_at_end_of_buffer s = true) := by
      rw [at_end_iff]
      omega
    obtain ⟨rest, hrest⟩ := text_after_head s hlt
    rw [exec_succ]
    simp only [step, end_of_line_loop, if_neg he, point_is_ok _ s hW.1 hlt, bind, Except.bind,
      pure, Except.pure]
    by_cases c : is_newline (s.buffer s.gap_end) = true
    · rw [if_neg (by rw [c]; decide)]
      refine ⟨s, rfl, fwd_refl s hW hp, ?_⟩
      rw [hrest, line_rest_cons, if_pos c]
      rfl
    · rw [if_pos (by simp only [Bool.not_eq_true] at c; rw [c]; rfl)]
      obtain ⟨s1, e1, hf1, hgs1⟩ := forward_char_total f1 s hW hp (by omega)
      rw [e1]
      simp only
      have hk : min 1 (BUFSIZE - s.gap_end) = 1 := by omega
      rw [hk] at hgs1
      have hge1 := motion_gap_end s s1 _ hW hf1.1 hgs1
      obtain ⟨s2, e2, hf2, hgs2⟩ := ih f1 s1 (by rw [hge1]; omega) hf1.1.1 hf1.1.2.2.2.1
        (by omega)
      refine ⟨s2, e2, fwd_trans s s1 s2 hf1 hf2, ?_⟩
      rw [hgs2, text_after_forward s s1 1 hf1 hgs1, hrest, line_rest_cons, if_neg c, hgs1]
      simp only [List.drop_succ_cons, List.drop_zero]
      omega

theorem end_of_line_total (f : Nat) (s : Ed) (hW : Fit s) (hp : Ed.is_prefix s = false)
    (hf : BUFSIZE - s.gap_end + 9 ≤ f) :
    ∃ s1, exec f .end_of_line s = .ok s1 ∧ Fwd s s1 ∧
      s1.gap_start = s.gap_start + line_rest (text_after s) := by
  obtain ⟨f1, rfl⟩ : ∃ f1, f = f1 + 1 := ⟨f - 1, by omega⟩
  rw [exec_succ]
  simp only [step, end_of_line]
  split_ifs with c
  · refine ⟨s, rfl, fwd_refl s hW hp, ?_⟩
    have := hW.2.1
    simp only [is_buffer_empty, beq_iff_eq] at c
    rw [text_after_nil s (by omega), line_rest_nil]
    rfl
  · exact end_of_line_loop_total _ f1 s rfl hW hp (by omega)

theorem goto_line_loop_total :
    ∀ (k f : Nat) (s : Ed), Fit s → Ed.is_prefix s = false → k + 1 < SIZE_MOD →
      k + (BUFSIZE - s.gap_end) + 11 ≤ f →
      ∃ s1, exec f (.goto_line_loop (k + 1)) s = .ok s1 ∧ Fwd s s1 ∧
        s1.gap_start = s.gap_start + after_newlines (text_after s) k := by
  intro k
  induction k with
  | zero =>
    intro f s hW hp _ hf
    obtain ⟨f1, rfl⟩ : ∃ f1, f = f1 + 1 := ⟨f - 1, by omega⟩
    have e : size_dec (0 + 1) = 0 := by decide
    rw [exec_succ]
    simp only [step, goto_line_loop, e, if_true]
    refine ⟨s, rfl, fwd_refl s hW hp, ?_⟩
    cases text_after s <;> rfl
  | succ k ih =>
    intro f s hW hp hk hf
    obtain ⟨f1, rfl⟩ : ∃ f1, f = f1 + 1 := ⟨f - 1, by omega⟩
    have e : size_dec (k + 1 + 1) = k + 1 := by
      rw [size_dec_pos _ (by omega) hk]
      rfl
    rw [exec_succ]
    simp only [step, goto_line_loop, e, Nat.succ_ne_zero, if_false, bind, Except.bind]
    obtain ⟨s1, e1, hf1, hgs1⟩ := end_of_line_total f1 s hW hp (by omega)
    rw [e1]
    simp only
    have hge1 := motion_gap_end s s1 _ hW hf1.1 hgs1
    obtain ⟨s2, e2, hf2, hgs2⟩ := forward_char_total f1 s1 hf1.1.1 hf1.1.2.2.2.1 (by omega)
    rw [e2]
    simp only
    have hge2 := motion_gap_end s1 s2 _ hf1.1.1 hf2.1 hgs2
    obtain ⟨s3, e3, hf3, hgs3⟩ := ih f1 s2 hf2.1.1 hf2.1.2.2.2.1 (by omega) (by omega)
    refine ⟨s3, e3, fwd_trans s s1 s3 hf1 (fwd_trans s1 s2 s3 hf2 hf3), ?_⟩
    have hl : BUFSIZE - s1.gap_end = (text_after s).length - line_rest (text_after s) := by
      rw [text_after_length, hge1]
      omega
    have ha2 : text_after s2 = (text_after s).drop (line_rest (text_after s) + 1) := by
      by_cases c : BUFSIZE - s1.gap_end = 0
      · have hz : text_after s2 = [] := text_after_nil s2 (by
          have := hf2.1.1.2.1
          omega)
        rw [hz, List.drop_eq_nil_of_le (by omega)]
      · have hk1 : min 1 (BUFSIZE - s1.gap_end) = 1 := by omega
        rw [hk1] at hgs2
        rw [text_after_forward s1 s2 1 hf2 hgs2, text_after_forward s s1 _ hf1 hgs1,
          List.drop_drop]
    rw [hgs3, hgs2, hgs1, ha2, after_newlines_step, hl]
    omega
/-- Without overflow of the count `goto_line` goes to the line of its count: in a tidy
state, with the prefix argument `n` from 1 to `2 ^ 31 - 1`, or without prefix argument
and `n = 1`, it runs to completion, keeps the character sequence and leaves the point
just after the `(n-1)`-th newline of the buffer (at 0 for `n = 1`), or at the end of the
buffer when it has fewer than `n-1` newlines. -/
theorem goto_line_total (s : Ed) (f n : Nat) (hT : Tidy s) (h1 : 1 ≤ n) (hsz : n < 2 ^ 31)
    (hn : (Ed.is_prefix s = true ∧ s.prefix_arg = (n : Int)) ∨ (Ed.is_prefix s = false ∧ n = 1))
    (hf : n + BUFSIZE + 11 ≤ f) :
    ∃ s1, exec f .goto_line s = .ok s1 ∧
      where_ s1 = after_newlines (content s) (n - 1) ∧ content s1 = content s := by
  obtain ⟨hW, _, hA⟩ := hT
  obtain ⟨f1, rfl⟩ : ∃ f1, f = f1 + 1 := ⟨f - 1, by omega⟩
  have hg1 := hW.1
  have hg2 := hW.2.1
  have hsz2 : n < SIZE_MOD := by
    unfold SIZE_MOD
    omega
  have hline : (if (!Ed.is_prefix s || decide (s.prefix_arg < 1)) = true then 1
      else size_of_int s.prefix_arg) = (n - 1) + 1 := by
    rcases hn with ⟨a, b⟩ | ⟨a, b⟩
    · rw [a, b]
      have : decide ((n : Int) < 1) = false := by
        rw [decide_eq_false_iff_not]
        omega
      rw [this]
      simp only [Bool.not_true, Bool.or_self, Bool.false_eq_true, if_false]
      unfold size_of_int
      omega
    · rw [a, b]
      rfl
  rw [exec_succ]
  simp only [step, goto_line, hline, bind, Except.bind]
  obtain ⟨s1, e1, hb1, hgs1⟩ := beginning_of_buffer_total s.gap_start f1 (prefix_clear s) rfl
    hW hA rfl (by omega)
  rw [e1]
  simp only
  have hge1 : BUFSIZE - s1.gap_end ≤ BUFSIZE := by omega
  obtain ⟨s2, e2, hf2, hgs2⟩ := goto_line_loop_total (n - 1) f1 s1 hb1.1.1 hb1.1.2.2.2.1
    (by omega) (by omega)
  have hc1 : content s1 = content s := hb1.1.2.2.1
  refine ⟨s2, e2, ?_, hf2.1.2.2.1.trans hc1⟩
  rw [where_eq s2 hf2.1.1.1, hgs2, hgs1, text_after_drop s1, hgs1, hc1]
  simp

/-- The steps of the point: `backward_char` with the point at the beginning of the
buffer and `forward_char` with the point at its end return the state as it is, apart
from clearing a pending prefix argument in a buffer that is not empty. Without prefix
argument, `forward_char` away from the end advances the point by exactly one in a state
fit to run, and `backward_char` away from the beginning retreats it by exactly one in a
tidy state, both keeping the character sequence. -/
theorem char_motion_steps (s : Ed) (f : Nat) (hf : 6 ≤ f) :
    (is_point_at_beginning_of_buffer s = true →
      exec f .backward_char s = .ok (if is_buffer_empty s then s else prefix_clear s)) ∧
    (is_point_at_end_of_buffer s = true →
      exec f .forward_char s = .ok (if is_buffer_empty s then s else prefix_clear s)) ∧
    (Fit s → Ed.is_prefix s = false → is_point_at_end_of_buffer s = false →
      ∃ s1, exec f .forward_char s = .ok s1 ∧ where_ s1 = where_ s + 1 ∧
        content s1 = content s) ∧
    (Tidy s → Ed.is_prefix s = false → is_point_at_beginning_of_buffer s = false →
      ∃ s1, exec f .backward_char s = .ok s1 ∧ where_ s1 + 1 = where_ s ∧
        content s1 = content s) := by
  refine ⟨?_, ?_, ?_, ?_⟩
  · intro hb
    obtain ⟨f2, rfl⟩ : ∃ f2, f = f2 + 2 := ⟨f - 2, by omega⟩
    simp only [exec_succ, step, backward_char]
    split_ifs
    · rfl
    · simp only [backward_char_loop]
      have hb2 : is_point_at_beginning_of_buffer (prefix_clear s) = true := hb
      rw [if_pos hb2]
      split_ifs <;> rfl
  · intro he
    obtain ⟨f2, rfl⟩ : ∃ f2, f = f2 + 2 := ⟨f - 2, by omega⟩
    simp only [exec_succ, step, forward_char]
    split_ifs
    · rfl
    · simp only [forward_char_loop]
      have he2 : is_point_at_end_of_buffer (prefix_clear s) = true := he
      rw [if_pos he2]
      split_ifs <;> rfl
  · intro hW hp he
    have hg1 := hW.1
    have hg2 := hW.2.1
    have hlt : s.gap_end < BUFSIZE := by
      simp only [is_point_at_end_of_buffer, beq_eq_false_iff_ne, ne_eq] at he
      omega
    obtain ⟨s1, e1, hf1, hgs1⟩ := forward_char_total f s hW hp hf
    refine ⟨s1, e1, ?_, hf1.1.2.2.1⟩
    rw [where_eq s1 hf1.1.1.1, where_eq s hg1, hgs1]
    omega
  · intro hT hp hb
    obtain ⟨hW, _, hA⟩ := hT
    have hg1 := hW.1
    have hlt : 0 < s.gap_start := by
      simp only [is_point_at_beginning_of_buffer, beq_eq_false_iff_ne, ne_eq] at hb
      omega
    obtain ⟨s1, e1, hb1, hgs1⟩ := backward_char_total f s hW hA hp hf
    refine ⟨s1, e1, ?_, hb1.1.2.2.1⟩
    rw [where_eq s1 hb1.1.1.1, where_eq s hg1]
    omega

/-! ## The column of the point depends on the text before it -/

theorem retreat_congr (s b : Ed) (hgs : b.gap_start = s.gap_start) (hge : b.gap_end = s.gap_end)
    (p : Nat) : retreat b p = retreat s p := by
  unfold retreat
  rw [hgs, hge]

theorem advance_congr (s b : Ed) (hgs : b.gap_start = s.gap_start) (hge : b.gap_end = s.gap_end)
    (p : Nat) : advance b p = advance s p := by
  unfold advance
  rw [hgs, hge]

theorem line_start_loop_congr (s b : Ed) (hgs : b.gap_start = s.gap_start)
    (hge : b.gap_end = s.gap_end) (hg1 : s.gap_start ≤ s.gap_end)
    (hb : ∀ x, x < s.gap_start → b.buffer x = s.buffer x) :
    ∀ (f q p : Nat), p < s.gap_start →
      line_start_loop b f q (some p) = line_start_loop s f q (some p) := by
  intro f
  induction f with
  | zero => intro q p _; rfl
  | succ f ih =>
    intro q p hp
    have hd : deref b (some p) = deref s (some p) := by
      unfold deref
      simp only
      rw [hb p hp]
    simp only [line_start_loop, hd]
    cases deref s (some p) with
    | error e => rfl
    | ok t =>
      simp only
      by_cases c0 : is_newline t = true
      · rw [if_pos c0, if_pos c0]
      · rw [if_neg c0, if_neg c0, retreat_congr s b hgs hge, retreat_below s p hg1 hp]
        by_cases c : p = 0
        · rw [if_pos c, line_start_loop_none, line_start_loop_none]
        · rw [if_neg c]
          exact ih p (p - 1) (by omega)

theorem col_loop_congr (s b : Ed) (hgs : b.gap_start = s.gap_start)
    (hge : b.gap_end = s.gap_end) (hnc : b.ncols = s.ncols) (hts : b.tabstop = s.tabstop)
    (hg1 : s.gap_start ≤ s.gap_end)
    (hb : ∀ x, x < s.gap_start → b.buffer x = s.buffer x) :
    ∀ (f : Nat) (q : Option Nat) (col : Nat),
      (∀ p, q = some p → p < s.gap_start ∨ p = s.gap_end) →
      col_loop b s.gap_end f q col = col_loop s s.gap_end f q col := by
  intro f
  induction f with
  | zero => intro q col _; rfl
  | succ f ih =>
    intro q col hq
    by_cases c : q = some s.gap_end
    · simp only [col_loop, if_pos c]
    · simp only [col_loop, if_neg c]
      cases q with
      | none => rfl
      | some p =>
        have hp : p < s.gap_start := by
          rcases hq p rfl with h | h
          · exact h
          · exact absurd (congrArg some h) c
        have hd : deref b (some p) = deref s (some p) := by
          unfold deref
          simp only
          rw [hb p hp]
        rw [hd]
        cases deref s (some p) with
        | error e => rfl
        | ok t =>
          simp only
          rw [next_col_congr s b hnc hts]
          cases next_col s t col with
          | error e => rfl
          | ok n =>
            simp only [Option.bind]
            rw [advance_congr s b hgs hge]
            apply ih
            intro p1 hp1
            unfold advance at hp1
            split_ifs at hp1 <;> first | omega | (cases hp1; omega)

theorem col_of_congr (s b : Ed) (hgs : b.gap_start = s.gap_start)
    (hge : b.gap_end = s.gap_end) (hnc : b.ncols = s.ncols) (hts : b.tabstop = s.tabstop)
    (hg1 : s.gap_start ≤ s.gap_end) (hg2 : s.gap_end ≤ BUFSIZE)
    (hb : ∀ x, x < s.gap_start → b.buffer x = s.buffer x) :
    col_of b b.gap_end = col_of s s.gap_end := by
  unfold col_of
  rw [hge, retreat_congr s b hgs hge]
  have hr : retreat s s.gap_end = if s.gap_start = 0 then none else some (s.gap_start - 1) := by
    unfold retreat
    split_ifs <;> first | rfl | omega
  rw [hr]
  by_cases c : s.gap_start = 0
  · rw [if_pos c]
  · rw [if_neg c]
    simp only
    rw [line_start_loop_congr s b hgs hge hg1 hb BUFSIZE _ _ (by omega)]
    obtain ⟨q1, e1, h1⟩ := line_start_loop_total s hg1 hg2 BUFSIZE (s.gap_start - 1)
      (s.gap_start - 1) (le_refl _) (by omega) (by omega)
    rw [e1]
    simp only
    exact col_loop_congr s b hgs hge hnc hts hg1 hb BUFSIZE (some q1) 0
      (fun p hp => by cases hp; left; omega)

/-! ## One step forward and one step back -/

theorem scroll_at_last_row_none (call : Call) (s : Ed) (n : Nat) (h1 : s.gap_start ≤ s.gap_end)
    (he : s.gap_end < BUFSIZE)
    (hn : next_col s (s.buffer s.gap_end) s.cursor_col = .ok n)
    (hno : s.cursor_row ≠ s.nlines - 1 ∨ n ≠ 0) :
    scroll_at_last_row call s = .ok (s, false) := by
  unfold scroll_at_last_row
  by_cases c : s.cursor_row = s.nlines - 1
  · rw [if_pos c, char_at_point_some s h1 he, deref_ok s _ he]
    simp only [hn]
    rw [if_neg (by omega)]
  · rw [if_neg c]

theorem exec_loop_zero (f : Nat) (x : Ed) (hf : 1 ≤ f) :
    exec f (.forward_char_loop 0) x = .ok x ∧ exec f (.backward_char_loop 0) x = .ok x := by
  obtain ⟨f1, rfl⟩ : ∃ f1, f = f1 + 1 := ⟨f - 1, by omega⟩
  exact ⟨rfl, rfl⟩

theorem not_empty_of (s : Ed) (h1 : s.gap_start ≤ s.gap_end) (h : s.gap_end < BUFSIZE ∨ 0 < s.gap_start)
    (h2 : s.gap_end ≤ BUFSIZE) : ¬ (is_buffer_empty s = true) := by
  simp only [is_buffer_empty, beq_iff_eq]
  omega

theorem forward_char_explicit (f : Nat) (s : Ed) (hW : Fit s) (hp : Ed.is_prefix s = false)
    (he : s.gap_end < BUFSIZE) (hf : 6 ≤ f) :
    ∃ tl1 row1 n, next_col s (s.buffer s.gap_end) s.cursor_col = .ok n ∧ n < s.ncols ∧
      row1 ≤ s.cursor_row ∧ ((s.cursor_row ≠ s.nlines - 1 ∨ n ≠ 0) → row1 = s.cursor_row) ∧
      exec f .forward_char s = .ok (update_goal { s with
        tl := tl1,
        buffer := Function.update s.buffer s.gap_start (s.buffer s.gap_end),
        gap_start := s.gap_start + 1, gap_end := s.gap_end + 1,
        cursor_row := if n = 0 then size_inc row1 else row1,
        cursor_col := n }) := by
  have hW0 := hW
  obtain ⟨hg1, hg2, hl1, hl2, hnc, ht, hc, htl⟩ := hW
  obtain ⟨n, hn1, hn2⟩ := next_col_ok s (s.buffer s.gap_end) s.cursor_col hnc hc
  obtain ⟨f2, rfl⟩ : ∃ f2, f = f2 + 2 := ⟨f - 2, by omega⟩
  have hz := (exec_loop_zero f2 · (by omega))
  have hcp := char_at_point_some s hg1 he
  rw [exec_succ]
  simp only [step, forward_char]
  rw [if_neg (not_empty_of s hg1 (Or.inl he) hg2), repeat_count_one s hp, prefix_clear_eq s hp,
    exec_succ]
  simp only [step, forward_char_loop, one_ne_zero, if_false]
  rw [if_neg (by rw [at_end_iff]; omega)]
  by_cases hno : s.cursor_row ≠ s.nlines - 1 ∨ n ≠ 0
  · rw [scroll_at_last_row_none (exec f2) s n hg1 he hn1 hno]
    simp only [Bool.false_eq_true, if_false]
    rw [hcp, forward_char_move_eq s n hg1 he hn1]
    simp only [Nat.sub_self]
    rw [(hz _).1]
    exact ⟨_, s.cursor_row, n, hn1, hn2, le_refl _, fun _ => rfl, rfl⟩
  · obtain ⟨tl1, row1, b, h1, h2, h3⟩ := scroll_at_last_row_total f2 s hW0 hp he (by omega)
    rw [h1]
    simp only
    have hcp2 : (if b = true then char_at_point { s with tl := tl1, cursor_row := row1 }
        else char_at_point s) = some s.gap_end := by
      split_ifs
      · exact hcp
      · exact hcp
    rw [hcp2]
    have e := forward_char_move_eq { s with tl := tl1, cursor_row := row1 } n hg1 he hn1
    simp only at e
    rw [e]
    simp only [Nat.sub_self]
    rw [(hz _).1]
    exact ⟨_, row1, n, hn1, hn2, h3, fun h => absurd h hno, rfl⟩

theorem backward_char_explicit (f : Nat) (x : Ed) (hW : Fit x) (hp : Ed.is_prefix x = false)
    (h0 : 0 < x.gap_start) (hno : ¬(x.cursor_row = 0 ∧ x.cursor_col = 0)) (hf : 6 ≤ f) :
    ∃ c tl2, col_of { x with
          buffer := Function.update x.buffer (x.gap_end - 1) (x.buffer (x.gap_start - 1)),
          gap_start := x.gap_start - 1, gap_end := x.gap_end - 1,
          cursor_row := if is_newline (x.buffer (x.gap_start - 1)) || x.cursor_col == 0
            then size_dec x.cursor_row else x.cursor_row } (x.gap_end - 1) = .ok c ∧
      exec f .backward_char x = .ok (update_goal { x with
        tl := tl2,
        buffer := Function.update x.buffer (x.gap_end - 1) (x.buffer (x.gap_start - 1)),
        gap_start := x.gap_start - 1, gap_end := x.gap_end - 1,
        cursor_row := if is_newline (x.buffer (x.gap_start - 1)) || x.cursor_col == 0
          then size_dec x.cursor_row else x.cursor_row,
        cursor_col := c }) := by
  obtain ⟨hg1, hg2, hl1, hl2, hnc, ht, hc, htl⟩ := hW
  obtain ⟨c, hc1, _⟩ := col_of_total { x with
      buffer := Function.update x.buffer (x.gap_end - 1) (x.buffer (x.gap_start - 1)),
      gap_start := x.gap_start - 1, gap_end := x.gap_end - 1,
      cursor_row := if is_newline (x.buffer (x.gap_start - 1)) || x.cursor_col == 0
        then size_dec x.cursor_row else x.cursor_row }
    (by show x.gap_start - 1 ≤ x.gap_end - 1; omega) (by show x.gap_end - 1 < BUFSIZE; omega) hnc
  obtain ⟨f2, rfl⟩ : ∃ f2, f = f2 + 2 := ⟨f - 2, by omega⟩
  have hz := (exec_loop_zero f2 · (by omega))
  rw [exec_succ]
  simp only [step, backward_char]
  rw [if_neg (not_empty_of x hg1 (Or.inr h0) hg2), repeat_count_one x hp, prefix_clear_eq x hp,
    exec_succ]
  simp only [step, backward_char_loop, one_ne_zero, if_false]
  have hb : ¬ (is_point_at_beginning_of_buffer x = true) := by
    simp only [is_point_at_beginning_of_buffer, beq_iff_eq]
    omega
  rw [if_neg hb, if_neg hno]
  simp only [bind, Except.bind, pure, Except.pure]
  rw [backward_char_move_eq x c h0 hg1 hg2 hc1]
  simp only [Nat.sub_self]
  rw [(hz _).2]
  exact ⟨c, _, hc1, rfl⟩

theorem next_col_newline (s : Ed) (t : tedchar) (col n : Nat)
    (h : next_col s t col = .ok n) (hn : n ≠ 0) : is_newline t = false := by
  by_cases c : is_newline t = true
  · exfalso
    unfold next_col at h
    rw [if_pos c] at h
    split_ifs at h
    cases h
    exact hn rfl
  · exact Bool.eq_false_iff.mpr c

/-- The round trip in a state fit to run whose cursor row is inside the window: with
the point not at the end of the buffer, no prefix argument pending and
`force_goal_col = false`, `forward_char` followed by `backward_char` returns, restores
the point and the character sequence, leaves the cursor column at the column computed
from the start of the line (the old column when that was so computed) and the goal
column equal to it (so the old goal column only when it was equal to the cursor
column), and restores the cursor row when the forward step did not scroll, that is
unless the cursor was on the last row and the step wrapped to column 0. -/
theorem forward_backward_round_trip (s : Ed) (f : Nat) (hW : Fit s)
    (hrow : s.cursor_row < s.nlines) (hp : Ed.is_prefix s = false)
    (hfg : s.force_goal_col = false) (he : is_point_at_end_of_buffer s = false)
    (hf : 6 ≤ f) :
    ∃ s1 s2, exec f .forward_char s = .ok s1 ∧ exec f .backward_char s1 = .ok s2 ∧
      where_ s2 = where_ s ∧ content s2 = content s ∧
      col_of s s.gap_end = .ok s2.cursor_col ∧ s2.goal_col = s2.cursor_col ∧
      (col_of s s.gap_end = .ok s.cursor_col → s2.cursor_col = s.cursor_col) ∧
      (s.goal_col = s.cursor_col → col_of s s.gap_end = .ok s.cursor_col →
        s2.goal_col = s.goal_col) ∧
      ((s.cursor_row ≠ s.nlines - 1 ∨ next_col s (s.buffer s.gap_end) s.cursor_col ≠ .ok 0) →
        s2.cursor_row = s.cursor_row) := by
  have hW0 := hW
  obtain ⟨hg1, hg2, hl1, hl2, hnc, ht, hc, htl⟩ := hW
  have he1 : s.gap_end < BUFSIZE := by
    have h := (at_end_iff s).not.mp (by rw [he]; decide)
    omega
  obtain ⟨t1, ex1, hF, _⟩ := forward_char_total f s hW0 hp hf
  obtain ⟨tl1, row1, n, hn1, hn2, hr1, hr2, e1⟩ := forward_char_explicit f s hW0 hp he1 hf
  obtain ⟨X, hX⟩ : ∃ X : Ed, X = update_goal { s with
        tl := tl1,
        buffer := Function.update s.buffer s.gap_start (s.buffer s.gap_end),
        gap_start := s.gap_start + 1, gap_end := s.gap_end + 1,
        cursor_row := if n = 0 then size_inc row1 else row1,
        cursor_col := n } := ⟨_, rfl⟩
  rw [← hX] at e1
  have hWX : Fit X := by
    rw [e1] at ex1
    cases ex1
    exact hF.1.1
  have hXgs : X.gap_start = s.gap_start + 1 := by rw [hX]; rfl
  have hXge : X.gap_end = s.gap_end + 1 := by rw [hX]; rfl
  have hXb : X.buffer = Function.update s.buffer s.gap_start (s.buffer s.gap_end) := by
    rw [hX]; rfl
  have hXr : X.cursor_row = if n = 0 then size_inc row1 else row1 := by rw [hX]; rfl
  have hXc : X.cursor_col = n := by rw [hX]; rfl
  have hXp : Ed.is_prefix X = false := by rw [hX]; exact hp
  have hXf : X.force_goal_col = false := by rw [hX]; exact hfg
  have hXnc : X.ncols = s.ncols := by rw [hX]; rfl
  have hXts : X.tabstop = s.tabstop := by rw [hX]; rfl
  have hinc : size_inc row1 = row1 + 1 := by
    apply size_inc_lt
    unfold SIZE_MOD
    omega
  have hno : ¬(X.cursor_row = 0 ∧ X.cursor_col = 0) := by
    rw [hXr, hXc]
    rintro ⟨a, b⟩
    rw [if_pos b, hinc] at a
    omega
  obtain ⟨c, tl2, hc2, e2⟩ := backward_char_explicit f X hWX hXp (by omega) hno hf
  have hch : X.buffer (X.gap_start - 1) = s.buffer s.gap_end := by
    rw [hXb, hXgs, Nat.add_sub_cancel, Function.update_same]
  have hcol : col_of s s.gap_end = .ok c := by
    rw [← hc2]
    symm
    refine col_of_congr s _ ?_ ?_ hXnc hXts hg1 hg2 ?_
    · show X.gap_start - 1 = s.gap_start
      omega
    · show X.gap_end - 1 = s.gap_end
      omega
    · intro x hx
      show Function.update X.buffer (X.gap_end - 1) (X.buffer (X.gap_start - 1)) x = s.buffer x
      rw [Function.update_noteq (by omega), hXb, Function.update_noteq (by omega)]
  refine ⟨X, _, e1, e2, ?_, ?_, hcol, ?_, ?_, ?_, ?_⟩
  · rw [where_eq s hg1, where_eq _ (by show X.gap_start - 1 ≤ X.gap_end - 1; omega)]
    show X.gap_start - 1 = s.gap_start
    omega
  · rw [content_split, content_split s]
    congr 1
    · apply text_before_same
      · intro x hx
        show Function.update X.buffer (X.gap_end - 1) (X.buffer (X.gap_start - 1)) x = s.buffer x
        rw [Function.update_noteq (by omega), hXb, Function.update_noteq (by omega)]
      · show X.gap_start - 1 = s.gap_start
        omega
    · apply text_after_same
      · intro x hx
        show Function.update X.buffer (X.gap_end - 1) (X.buffer (X.gap_start - 1)) x = s.buffer x
        rw [hch]
        by_cases hxe : x = s.gap_end
        · rw [hxe, hXge, Nat.add_sub_cancel, Function.update_same]
        · rw [Function.update_noteq (by omega), hXb, Function.update_noteq (by omega)]
      · show X.gap_end - 1 = s.gap_end
        omega
  · show (if X.force_goal_col = true then X.goal_col else c) = c
    rw [hXf]
    rfl
  · intro h
    rw [hcol] at h
    cases h
    rfl
  · intro hgc h
    rw [hcol] at h
    cases h
    show (if X.force_goal_col = true then X.goal_col else s.cursor_col) = s.goal_col
    rw [hXf, hgc]
    rfl
  · intro h
    have hr : row1 = s.cursor_row := by
      apply hr2
      rcases h with h | h
      · exact Or.inl h
      · right
        intro hn0
        rw [hn0] at hn1
        exact h hn1
    show (if (is_newline (X.buffer (X.gap_start - 1)) || X.cursor_col == 0) = true
      then size_dec X.cursor_row else X.cursor_row) = s.cursor_row
    rw [hch, hXr, hXc, ← hr]
    by_cases hn0 : n = 0
    · rw [if_pos (by rw [hn0]; simp), if_pos hn0, hinc]
      unfold size_dec SIZE_MOD
      omega
    · have := next_col_newline s _ _ n hn1 hn0
      rw [if_neg (by rw [this]; simpa using hn0), if_neg hn0]

/-! ## Claims about motion, regions and the read-only mode -/

theorem bind_ok_exists {α β : Type} (r : Except Fault α) (g : α → Except Fault β) (v : β)
    (h : r.bind g = .ok v) : ∃ a, r = .ok a ∧ g a = .ok v := by
  cases r with
  | error e => cases h
  | ok a => exact ⟨a, rfl, h⟩

theorem reachable_loaded_default (bytes : List Nat)
    (h : (loadf Config.default bytes).map (fun _ => ()) = .ok ()) :
    Reachable (loaded Config.default bytes) := by
  obtain ⟨s, hs, _⟩ := map_ok_exists _ _ _ h
  rw [loaded_eq _ _ s hs]
  exact reachable_loaded _ _ s (by decide) rfl hs

/-- Witness of `forward_backward_round_trip`: the state after loading `a\nb`. -/
theorem forward_backward_round_trip_witness :
    ∃ s1 s2, exec 6 .forward_char (loaded Config.default [0x61, 10, 0x62]) = .ok s1 ∧
      exec 6 .backward_char s1 = .ok s2 ∧
      where_ s2 = where_ (loaded Config.default [0x61, 10, 0x62]) ∧
      content s2 = content (loaded Config.default [0x61, 10, 0x62]) ∧
      s2.cursor_col = (loaded Config.default [0x61, 10, 0x62]).cursor_col ∧
      s2.goal_col = (loaded Config.default [0x61, 10, 0x62]).goal_col ∧
      s2.cursor_row = (loaded Config.default [0x61, 10, 0x62]).cursor_row := by
  obtain ⟨s1, s2, e1, e2, hw, hc, _, _, hcol, hgoal, hrow⟩ :=
    forward_backward_round_trip (loaded Config.default [0x61, 10, 0x62]) 6 (by decide)
      (by decide) (by decide) (by decide) (by decide) (by decide)
  exact ⟨s1, s2, e1, e2, hw, hc, hcol (by decide), hgoal (by decide) (by decide),
    hrow (Or.inl (by decide))⟩

/-- The goal column is not always kept by the round trip: at the file `abc\nd\ne`
after the keys `C-f C-f C-f C-n` the state is reachable, its point is not at the end,
no prefix argument is pending and `force_goal_col` is false, its goal column is 3 (kept
by `next_row`) while its cursor column is 1; `forward_char` then `backward_char` leaves
the goal column 1. -/
theorem forward_backward_goal_col_counterexample :
    ∃ s s1 s2, Reachable s ∧
      run_keys 40 [(none, key_zero, .forward_char), (none, key_zero, .forward_char),
        (none, key_zero, .forward_char), (none, key_zero, .next_row)]
        (loaded Config.default [0x61, 0x62, 0x63, 10, 0x64, 10, 0x65]) = .ok s ∧
      is_point_at_end_of_buffer s = false ∧ Ed.is_prefix s = false ∧
      s.force_goal_col = false ∧ s.goal_col = 3 ∧
      exec 40 .forward_char s = .ok s1 ∧ exec 40 .backward_char s1 = .ok s2 ∧
      s2.goal_col = 1 := by
  have h : (run_keys 40 [(none, key_zero, .forward_char), (none, key_zero, .forward_char),
        (none, key_zero, .forward_char), (none, key_zero, .next_row)]
        (loaded Config.default [0x61, 0x62, 0x63, 10, 0x64, 10, 0x65])).map
      (fun s => (is_point_at_end_of_buffer s, Ed.is_prefix s, s.force_goal_col, s.goal_col,
        ((exec 40 .forward_char s).bind (exec 40 .backward_char)).map (fun s2 => s2.goal_col))) =
      .ok (false, false, false, 3, .ok 1) := by decide
  obtain ⟨s, hs, ho⟩ := map_ok_exists _ _ _ h
  simp only [Prod.mk.injEq] at ho
  obtain ⟨s2, hb, hg⟩ := map_ok_exists _ _ _ ho.2.2.2.2
  obtain ⟨s1, e1, e2⟩ := bind_ok_exists _ _ _ hb
  exact ⟨s, s1, s2, reachable_run_keys 40 _ _ s (reachable_loaded_default _ (by decide)) hs, hs,
    ho.1, ho.2.1, ho.2.2.1, ho.2.2.2.1, e1, e2, hg⟩

/-- Witness of `char_motion_steps`: `forward_char` in the state after loading `a\nb`. -/
theorem char_motion_steps_witness :
    ∃ s1, exec 6 .forward_char (loaded Config.default [0x61, 10, 0x62]) = .ok s1 ∧
      where_ s1 = where_ (loaded Config.default [0x61, 10, 0x62]) + 1 ∧
      content s1 = content (loaded Config.default [0x61, 10, 0x62]) :=
  (char_motion_steps (loaded Config.default [0x61, 10, 0x62]) 6 (by decide)).2.2.1
    (by decide) (by decide) (by decide)

/-- C13 fails on the code at the file `abc\ndef\n` with the keys `C-u 50 M-%` typed
right after the load: the point ends at 8, the end of the buffer, and not at
`8 * 50 / 100 = 4`. `goto_percent` leaves the prefix argument pending, at point 0
`beginning_of_buffer` does not consume it, and the first `forward_char` of `move_to`
takes it as its repeat count. -/
theorem goto_percent_overshoots :
    ∃ s, Reachable s ∧
      run_keys 40 [(some 50, key_zero, .goto_percent)]
        (loaded Config.default [0x61, 0x62, 0x63, 10, 0x64, 0x65, 0x66, 10]) = .ok s ∧
      where_ (loaded Config.default [0x61, 0x62, 0x63, 10, 0x64, 0x65, 0x66, 10]) = 0 ∧
      buffer_size s = 8 ∧ where_ s = 8 ∧ where_ s ≠ buffer_size s * min 50 100 / 100 := by
  have h : (run_keys 40 [(some 50, key_zero, .goto_percent)]
      (loaded Config.default [0x61, 0x62, 0x63, 10, 0x64, 0x65, 0x66, 10])).map
      (fun s => (buffer_size s, where_ s)) = .ok (8, 8) := by decide
  obtain ⟨s, hs, ho⟩ := map_ok_exists _ _ _ h
  simp only [Prod.mk.injEq] at ho
  refine ⟨s, reachable_run_keys 40 _ _ s (reachable_loaded_default _ (by decide)) hs, hs,
    by decide, ho.1, ho.2, ?_⟩
  rw [ho.1, ho.2]
  decide

/-- Witness of `mark_word_kill_yank_restores`: the four keys typed after loading
`abc\ndef\n`. -/
theorem mark_word_kill_yank_restores_witness :
    ∃ s1, run_keys (BUFSIZE + 11) [(none, key_zero, .set_mark), (none, key_zero, .forward_word),
        (none, key_zero, .kill_region), (none, key_zero, .yank)]
        (loaded Config.default [0x61, 0x62, 0x63, 10, 0x64, 0x65, 0x66, 10]) = .ok s1 ∧
      content s1 = content (loaded Config.default [0x61, 0x62, 0x63, 10, 0x64, 0x65, 0x66, 10]) :=
  mark_word_kill_yank_restores (loaded Config.default [0x61, 0x62, 0x63, 10, 0x64, 0x65, 0x66, 10])
    key_zero key_zero key_zero key_zero (BUFSIZE + 11) (by decide) (by decide) (le_refl _)

/-- Witness of `kill_region_spec`: on `abc\ndef\n` with the mark at 0 and the point
at 3 (after `C-SPC M-f`), `kill_region` leaves the buffer `\ndef\n`, the kill buffer
`abc`, the point 0 and the mark inactive. -/
theorem kill_region_spec_witness :
    ∃ s1, exec 12 .kill_region
        (after_keys 40 [(none, key_zero, .set_mark), (none, key_zero, .forward_word)]
          (loaded Config.default [0x61, 0x62, 0x63, 10, 0x64, 0x65, 0x66, 10])) = .ok s1 ∧
      encode_chars .UNIX (killed s1) = [0x61, 0x62, 0x63] ∧
      encode_chars .UNIX (content s1) = [10, 0x64, 0x65, 0x66, 10] ∧
      where_ s1 = 0 ∧ s1.marks_is_active = false := by
  obtain ⟨s1, e, h1, h2, h3, h4⟩ := kill_region_spec
    (after_keys 40 [(none, key_zero, .set_mark), (none, key_zero, .forward_word)]
      (loaded Config.default [0x61, 0x62, 0x63, 10, 0x64, 0x65, 0x66, 10])) 12
    (by decide) (by decide) (by decide) (by decide) (by decide)
  exact ⟨s1, e, by rw [h1]; decide, by rw [h2]; decide, by rw [h3]; decide, h4⟩

/-- Witness of `delete_char_spec`: `C-u 3 C-d` on `abcdef` at the point 0 gives `def`
and keeps the point. -/
theorem delete_char_spec_witness :
    ∃ s1, exec 8 .delete_char
        { loaded Config.default [0x61, 0x62, 0x63, 0x64, 0x65, 0x66] with
          is_prefix := true, prefix_arg := 3 } = .ok s1 ∧
      where_ s1 = 0 ∧ encode_chars .UNIX (content s1) = [0x64, 0x65, 0x66] := by
  obtain ⟨s1, e, h1, h2⟩ := delete_char_spec
    { loaded Config.default [0x61, 0x62, 0x63, 0x64, 0x65, 0x66] with
      is_prefix := true, prefix_arg := 3 } 8 (by decide) (by decide) (by decide)
  exact ⟨s1, e, by rw [h1]; decide, by rw [h2]; decide⟩

/-- C18 fails on the code at the file `abcdef` with the keys
`C-f C-f C-SPC C-b C-b C-u 3 <delete>`: the mark is at 2 and the point at 0, so the
region is `ab`, but the buffer left is `ef`. `delete_region` leaves the prefix argument
pending, `move_to(0)` at the point 0 does not consume it, and the first `delete_char`
takes it as its repeat count. -/
theorem region_delete_takes_prefix :
    ∃ s0 s, Reachable s0 ∧ Reachable s ∧
      run_keys 40 [(none, key_zero, .forward_char), (none, key_zero, .forward_char),
        (none, key_zero, .set_mark), (none, key_zero, .backward_char),
        (none, key_zero, .backward_char)]
        (loaded Config.default [0x61, 0x62, 0x63, 0x64, 0x65, 0x66]) = .ok s0 ∧
      s0.marks_is_active = true ∧ s0.marks_m s0.marks_current = 2 ∧ where_ s0 = 0 ∧
      encode_chars .UNIX (content s0) = [0x61, 0x62, 0x63, 0x64, 0x65, 0x66] ∧
      key_event 40 (some 3) key_zero .delete_forward_char s0 = .ok s ∧
      encode_chars .UNIX (content s) = [0x65, 0x66] ∧
      content s ≠ (content s0).take 0 ++ (content s0).drop 2 := by
  have h : (run_keys 40 [(none, key_zero, .forward_char), (none, key_zero, .forward_char),
        (none, key_zero, .set_mark), (none, key_zero, .backward_char),
        (none, key_zero, .backward_char)]
        (loaded Config.default [0x61, 0x62, 0x63, 0x64, 0x65, 0x66])).map
      (fun s0 => (s0.marks_is_active, s0.marks_m s0.marks_current, where_ s0,
        encode_chars .UNIX (content s0), (content s0).length)) =
      .ok (true, 2, 0, [0x61, 0x62, 0x63, 0x64, 0x65, 0x66], 6) := by decide
  have h2 : ((run_keys 40 [(none, key_zero, .forward_char), (none, key_zero, .forward_char),
        (none, key_zero, .set_mark), (none, key_zero, .backward_char),
        (none, key_zero, .backward_char)]
        (loaded Config.default [0x61, 0x62, 0x63, 0x64, 0x65, 0x66])).bind
        (key_event 40 (some 3) key_zero .delete_forward_char)).map
      (fun s => (encode_chars .UNIX (content s), (content s).length)) =
      .ok ([0x65, 0x66], 2) := by decide
  obtain ⟨s0, hs0, ho⟩ := map_ok_exists _ _ _ h
  simp only [Prod.mk.injEq] at ho
  rw [hs0] at h2
  obtain ⟨s, hs, hc⟩ := map_ok_exists _ _ _ h2
  simp only [Prod.mk.injEq] at hc
  have hs1 : key_event 40 (some 3) key_zero .delete_forward_char s0 = .ok s := hs
  have hr0 := reachable_run_keys 40 _ _ s0 (reachable_loaded_default _ (by decide)) hs0
  refine ⟨s0, s, hr0, Reachable.event 40 (some 3) key_zero .delete_forward_char s0 s hr0 hs1,
    hs0, ho.1, ho.2.1, ho.2.2.1, ho.2.2.2.1, hs1, hc.1, ?_⟩
  intro he
  have hl := congrArg List.length he
  rw [hc.2, List.length_append, List.length_take, List.length_drop, ho.2.2.2.2] at hl
  omega

/-- Witness of `region_operations`: on `abc\ndef\n` with the mark at 0 and the point
at 3 (after `C-SPC M-f`), `kill_region_save` keeps the content and makes the kill
buffer the region, which is not empty. -/
theorem region_operations_witness :
    ∃ s1, exec 13 .kill_region_save
        (after_keys 40 [(none, key_zero, .set_mark), (none, key_zero, .forward_word)]
          (loaded Config.default [0x61, 0x62, 0x63, 10, 0x64, 0x65, 0x66, 10])) = .ok s1 ∧
      content s1 = content
        (after_keys 40 [(none, key_zero, .set_mark), (none, key_zero, .forward_word)]
          (loaded Config.default [0x61, 0x62, 0x63, 10, 0x64, 0x65, 0x66, 10])) ∧
      killed s1 = ((content
        (after_keys 40 [(none, key_zero, .set_mark), (none, key_zero, .forward_word)]
          (loaded Config.default [0x61, 0x62, 0x63, 10, 0x64, 0x65, 0x66, 10]))).drop
            (min 3 0)).take (max 3 0 - min 3 0) ∧
      killed s1 ≠ [] :=
  ((region_operations
      (after_keys 40 [(none, key_zero, .set_mark), (none, key_zero, .forward_word)]
        (loaded Config.default [0x61, 0x62, 0x63, 10, 0x64, 0x65, 0x66, 10])) 13 3 0
      (by decide) (by decide) (by decide)).2.2
    (by decide) (by decide) (by decide) (by decide) (by decide) (by decide)).2.2.1

/-- An operation on an empty region can change the kill buffer: at the file `ab` after
the keys `C-SPC C-f M-w C-SPC` the state is reachable, the mark is active and equal to
the point 1, the kill buffer holds one character; `kill_region_save` then leaves the
kill buffer empty. -/
theorem kill_region_save_at_mark_counterexample :
    ∃ s s1, Reachable s ∧
      run_keys 40 [(none, key_zero, .set_mark), (none, key_zero, .forward_char),
        (none, key_zero, .kill_region_save), (none, key_zero, .set_mark)]
        (loaded Config.default [0x61, 0x62]) = .ok s ∧
      s.marks_is_active = true ∧ where_ s = s.marks_m s.marks_current ∧
      encode_chars .UNIX (killed s) = [0x61] ∧
      exec 40 .kill_region_save s = .ok s1 ∧ killed s1 = [] ∧ killed s1 ≠ killed s := by
  have h : (run_keys 40 [(none, key_zero, .set_mark), (none, key_zero, .forward_char),
        (none, key_zero, .kill_region_save), (none, key_zero, .set_mark)]
        (loaded Config.default [0x61, 0x62])).map
      (fun s => (s.marks_is_active, where_ s, s.marks_m s.marks_current,
        encode_chars .UNIX (killed s), s.kill_size)) = .ok (true, 1, 1, [0x61], 1) := by decide
  have h2 : ((run_keys 40 [(none, key_zero, .set_mark), (none, key_zero, .forward_char),
        (none, key_zero, .kill_region_save), (none, key_zero, .set_mark)]
        (loaded Config.default [0x61, 0x62])).bind (exec 40 .kill_region_save)).map
      (fun s => s.kill_size) = .ok 0 := by decide
  obtain ⟨s, hs, ho⟩ := map_ok_exists _ _ _ h
  simp only [Prod.mk.injEq] at ho
  rw [hs] at h2
  obtain ⟨s1, hs1, hk⟩ := map_ok_exists _ _ _ h2
  have e1 : exec 40 .kill_region_save s = .ok s1 := hs1
  have hk1 : killed s1 = [] := by
    apply List.eq_nil_of_length_eq_zero
    rw [killed_length]
    exact hk
  refine ⟨s, s1, reachable_run_keys 40 _ _ s (reachable_loaded_default _ (by decide)) hs, hs,
    ho.1, by rw [ho.2.1, ho.2.2.1], ho.2.2.2.1, e1, hk1, ?_⟩
  intro he
  have hl := congrArg List.length he
  rw [killed_length, killed_length, hk, ho.2.2.2.2] at hl
  omega

/-- C20 fails on the code at the file `a` with the keys `C-x C-q C-x C-s`: in the
read-only mode `save_buffer` still runs `maybe_insert_trailing_newline`, which has no
read-only guard, and the buffer becomes `a\n`; when the write fails `is_dirty`, false
before, is left true as well. -/
theorem read_only_save_inserts_newline :
    ∃ s0 s s2, Reachable s0 ∧ Reachable s ∧
      run_keys 40 [(none, key_zero, .toggle_read_only_mode)]
        (loaded Config.default [0x61]) = .ok s0 ∧
      s0.is_read_only = true ∧ s0.is_dirty = false ∧
      encode_chars .UNIX (content s0) = [0x61] ∧
      key_event 40 none key_zero (.save_buffer true) s0 = .ok s ∧
      encode_chars .UNIX (content s) = [0x61, 10] ∧
      key_event 40 none key_zero (.save_buffer false) s0 = .ok s2 ∧
      encode_chars .UNIX (content s2) = [0x61, 10] ∧ s2.is_dirty = true := by
  have h : (run_keys 40 [(none, key_zero, .toggle_read_only_mode)]
        (loaded Config.default [0x61])).map
      (fun s => (s.is_read_only, s.is_dirty, encode_chars .UNIX (content s))) =
      .ok (true, false, [0x61]) := by decide
  have h2 : ((run_keys 40 [(none, key_zero, .toggle_read_only_mode)]
        (loaded Config.default [0x61])).bind
        (key_event 40 none key_zero (.save_buffer true))).map
      (fun s => encode_chars .UNIX (content s)) = .ok [0x61, 10] := by decide
  have h3 : ((run_keys 40 [(none, key_zero, .toggle_read_only_mode)]
        (loaded Config.default [0x61])).bind
        (key_event 40 none key_zero (.save_buffer false))).map
      (fun s => (encode_chars .UNIX (content s), s.is_dirty)) = .ok ([0x61, 10], true) := by
    decide
  obtain ⟨s0, hs0, ho⟩ := map_ok_exists _ _ _ h
  simp only [Prod.mk.injEq] at ho
  rw [hs0] at h2 h3
  obtain ⟨s, hs, hc⟩ := map_ok_exists _ _ _ h2
  obtain ⟨s2, hs2, hc2⟩ := map_ok_exists _ _ _ h3
  simp only [Prod.mk.injEq] at hc2
  have e1 : key_event 40 none key_zero (.save_buffer true) s0 = .ok s := hs
  have e2 : key_event 40 none key_zero (.save_buffer false) s0 = .ok s2 := hs2
  have hr0 := reachable_run_keys 40 _ _ s0 (reachable_loaded_default _ (by decide)) hs0
  exact ⟨s0, s, s2, hr0, Reachable.event 40 none key_zero (.save_buffer true) s0 s hr0 e1, hs0,
    ho.1, ho.2.1, ho.2.2, e1, hc, e2, hc2.1, hc2.2⟩

/-- The commands with the guard `guard(!ed.is_read_only)` return the state as it is in
the read-only mode; `maybe_insert_trailing_newline` has no such guard. -/
theorem read_only_guards (s : Ed) (f : Nat) (hro : s.is_read_only = true)
    (ht : is_textchar s.last_key = true) :
    exec (f + 1) .insert_char s = .ok s ∧ exec (f + 1) .open_line s = .ok s ∧
      exec (f + 1) .open_next_line s = .ok s ∧ exec (f + 1) .open_previous_line s = .ok s ∧
      exec (f + 1) .delete_char s = .ok s ∧ exec (f + 1) .delete_region s = .ok s ∧
      exec (f + 1) .delete_backward_char s = .ok s ∧
      exec (f + 1) .delete_forward_char s = .ok s ∧ exec (f + 1) .kill_region_save s = .ok s ∧
      exec (f + 1) .yank s = .ok s := by
  simp only [exec_succ, step, insert_char, open_line, open_next_line, open_previous_line,
    delete_char, delete_region, delete_backward_char, delete_forward_char, kill_region_save,
    yank, hro, ht, if_true, Bool.not_true, Bool.false_eq_true, if_false, and_self]

/-! ## C14, C17: a count of ten digits -/

/-- C17 (code bug): on the file `abcdefgh` the keys `C-u 4 2 9 4 9 6 7 2 9 8 C-d`,
typed right after the load with the point at 0, delete two characters and leave
`cdefgh`; with the count `n = 4294967298` the claim asks for the
`min(n, 8 - 0) = 8` characters from the point on to go. `main_loop` collects the
digits in the `int` `ed.prefix_arg` by `ed.prefix_arg * 10 + digit` without a bound,
and `4294967298 = 2 ^ 32 + 2` arrives in `delete_char` as 2. -/
theorem delete_char_count_wraps :
    ∃ s, Reachable s ∧
      key_event 20 (some 4294967298) key_zero .delete_char
        (loaded Config.default [0x61, 0x62, 0x63, 0x64, 0x65, 0x66, 0x67, 0x68]) = .ok s ∧
      prefix_read (4294967298 + 1) 4294967298 = 2 ∧
      where_ (loaded Config.default [0x61, 0x62, 0x63, 0x64, 0x65, 0x66, 0x67, 0x68]) = 0 ∧
      (content (loaded Config.default [0x61, 0x62, 0x63, 0x64, 0x65, 0x66, 0x67, 0x68])).length
        = 8 ∧
      where_ s = 0 ∧ encode_chars .UNIX (content s) = [0x63, 0x64, 0x65, 0x66, 0x67, 0x68] ∧
      content s ≠
        (content (loaded Config.default [0x61, 0x62, 0x63, 0x64, 0x65, 0x66, 0x67, 0x68])).take 0
          ++ (content (loaded Config.default
            [0x61, 0x62, 0x63, 0x64, 0x65, 0x66, 0x67, 0x68])).drop (0 + min 4294967298 (8 - 0)) := by
  have h : (key_event 20 (some 4294967298) key_zero .delete_char
      (loaded Config.default [0x61, 0x62, 0x63, 0x64, 0x65, 0x66, 0x67, 0x68])).map
      (fun s => (where_ s, encode_chars .UNIX (content s), (content s).length)) =
      .ok (0, [0x63, 0x64, 0x65, 0x66, 0x67, 0x68], 6) := by decide
  obtain ⟨s, hs, ho⟩ := map_ok_exists _ _ _ h
  simp only [Prod.mk.injEq] at ho
  have hl : (content (loaded Config.default
      [0x61, 0x62, 0x63, 0x64, 0x65, 0x66, 0x67, 0x68])).length = 8 := by decide
  refine ⟨s, Reachable.event 20 (some 4294967298) key_zero .delete_char _ s
    (reachable_loaded_default _ (by decide)) hs, hs, by decide, by decide, hl, ho.1, ho.2.1, ?_⟩
  intro he
  have hl2 := congrArg List.length he
  rw [ho.2.2, List.length_append, List.length_take, List.length_drop, hl] at hl2
  omega

/-- C14 (code bug): the file `abc\ndef\n` has the length 8 and two newlines, so for a
count `n` above 3 the claim puts the point at the end, at 8. The keys
`C-u 2 1 4 7 4 8 3 6 4 8 M-g` leave it at 0 and the keys `C-u 4 2 9 4 9 6 7 2 9 8 M-g`
leave it at 4. `main_loop` collects the digits in the `int` `ed.prefix_arg` by
`ed.prefix_arg * 10 + digit` without a bound: `2147483648 = 2 ^ 31` arrives in
`goto_line` as `-2147483648`, for which `ed.prefix_arg < 1` chooses line 1, and
`4294967298 = 2 ^ 32 + 2` arrives as 2. -/
theorem goto_line_count_wraps :
    ∃ s s2, Reachable s ∧ Reachable s2 ∧
      key_event 40 (some 2147483648) key_zero .goto_line
        (loaded Config.default [0x61, 0x62, 0x63, 10, 0x64, 0x65, 0x66, 10]) = .ok s ∧
      prefix_read (2147483648 + 1) 2147483648 = -2147483648 ∧
      key_event 40 (some 4294967298) key_zero .goto_line
        (loaded Config.default [0x61, 0x62, 0x63, 10, 0x64, 0x65, 0x66, 10]) = .ok s2 ∧
      prefix_read (4294967298 + 1) 4294967298 = 2 ∧
      (content (loaded Config.default [0x61, 0x62, 0x63, 10, 0x64, 0x65, 0x66, 10])).length = 8 ∧
      (content (loaded Config.default
        [0x61, 0x62, 0x63, 10, 0x64, 0x65, 0x66, 10])).countP (fun t => is_newline t) = 2 ∧
      where_ s = 0 ∧ where_ s2 = 4 := by
  have h : (key_event 40 (some 2147483648) key_zero .goto_line
      (loaded Config.default [0x61, 0x62, 0x63, 10, 0x64, 0x65, 0x66, 10])).map
      (fun s => where_ s) = .ok 0 := by decide
  have h2 : (key_event 40 (some 4294967298) key_zero .goto_line
      (loaded Config.default [0x61, 0x62, 0x63, 10, 0x64, 0x65, 0x66, 10])).map
      (fun s => where_ s) = .ok 4 := by decide
  obtain ⟨s, hs, ho⟩ := map_ok_exists _ _ _ h
  obtain ⟨s2, hs2, ho2⟩ := map_ok_exists _ _ _ h2
  exact ⟨s, s2, Reachable.event 40 (some 2147483648) key_zero .goto_line _ s
      (reachable_loaded_default _ (by decide)) hs,
    Reachable.event 40 (some 4294967298) key_zero .goto_line _ s2
      (reachable_loaded_default _ (by decide)) hs2,
    hs, by decide, hs2, by decide, by decide, by decide, ho, ho2⟩

/-! ## Key decoding -/

set_option maxRecDepth 100000 in
theorem read_key_ctrl_table :
    ∀ b, b < 0x1b → (1 ≤ b ∧ b ≠ 7 ∧ b ≠ 8 ∧ b ≠ 9 ∧ b ≠ 0xa ∧ b ≠ 0xc ∧ b ≠ 0xd) →
      read_key [b] =
        .ok { key_zero with ctrl := 1, u := { utf8_zero with c0 := b + 0x60 } } := by
  decide

set_option maxRecDepth 100000 in
theorem read_key_literal_table :
    ∀ b, b < 0x7f → 0x20 ≤ b →
      read_key [b] = .ok { key_zero with u := { utf8_zero with c0 := b } } := by
  decide

set_option maxRecDepth 100000 in
theorem read_key_not_bel :
    ∀ b, b < 256 → b ≠ 7 →
      (read_key [b]).map (fun k => key_eq k { key_zero with special := BEL }) = .ok false := by
  decide

set_option maxRecDepth 100000 in
theorem read_key_escape_ctrl_table :
    ∀ b, b < 0x1a → 1 ≤ b →
      read_key [0x1b, b] =
        .ok { key_zero with ctrl := 1, meta := 1,
                            u := { utf8_zero with c0 := 0x61 + (b - 1) } } := by
  decide

set_option maxRecDepth 100000 in
theorem read_key_escape_literal_table :
    ∀ b, b < 0x7f → 0x20 ≤ b →
      read_key [0x1b, b] =
        .ok { key_zero with meta := 1, u := { utf8_zero with c0 := b } } := by
  decide

/-- C24 (amended): a single input byte `b` in `0x01..0x1A` other than `0x07`, `0x08`,
`0x09`, `0x0A`, `0x0C`, `0x0D` is decoded by `read_key` to the key with `ctrl` set, no
other modifier, no symbolic key and the character `b + 0x60`; the bytes `0x07` and
`0x08` are decoded to the keys BEL and Backspace without `ctrl`. -/
theorem control_bytes_decode (b : Nat) (h1 : 1 ≤ b) (h2 : b ≤ 0x1a)
    (h7 : b ≠ 7) (h8 : b ≠ 8) (h9 : b ≠ 9) (ha : b ≠ 0xa) (hc : b ≠ 0xc) (hd : b ≠ 0xd) :
    read_key [b] =
        .ok { n := 0, m := 0, u := { c0 := b + 0x60, c1 := 0, c2 := 0, c3 := 0 },
              shift := 0, ctrl := 1, meta := 0, super := 0, special := 0 } ∧
      read_key [0x07] = .ok { key_zero with special := BEL } ∧
      read_key [0x08] = .ok { key_zero with special := BS } :=
  ⟨read_key_ctrl_table b (by omega) ⟨h1, h7, h8, h9, ha, hc, hd⟩, by decide, by decide⟩

/-- Witness of `control_bytes_decode`: the byte `0x06` is `C-f`. -/
theorem control_bytes_decode_witness :
    read_key [0x06] =
        .ok { n := 0, m := 0, u := { c0 := 0x66, c1 := 0, c2 := 0, c3 := 0 },
              shift := 0, ctrl := 1, meta := 0, super := 0, special := 0 } ∧
      read_key [0x07] = .ok { key_zero with special := BEL } ∧
      read_key [0x08] = .ok { key_zero with special := BS } :=
  control_bytes_decode 0x06 (by decide) (by decide) (by decide) (by decide) (by decide)
    (by decide) (by decide) (by decide)

/-- C24 as stated fails on the code at the byte `0x07`: it lies in `0x01..0x1A`, is
none of `0x09`, `0x0A`, `0x0C`, `0x0D`, and `read_key` decodes it to the symbolic key
BEL without `ctrl` and without a character, not to `Ctrl + g`. -/
theorem control_byte_bel_counterexample :
    (1 ≤ 0x07 ∧ 0x07 ≤ 0x1a ∧ 0x07 ≠ 0x09 ∧ 0x07 ≠ 0x0a ∧ 0x07 ≠ 0x0c ∧ 0x07 ≠ 0x0d) ∧
      read_key [0x07] = .ok { key_zero with special := BEL } ∧
      read_key [0x07] ≠
        .ok { key_zero with ctrl := 1, u := { utf8_zero with c0 := 0x07 + 0x60 } } := by
  decide

/-- C25: `read_key` decodes the single byte `0x00` to `Ctrl + space`, `0x07` to the
key BEL, `0x08` to Backspace, `0x7F` to `Ctrl + Backspace` and every byte `0x20..0x7E`
to the literal character without modifier; `kbd("C-g")` is the key BEL, the decoded
`0x07` is `key_eq` to it and the key decoded from any other single byte is not. -/
theorem special_bytes_decode :
    read_key [0x00] = .ok { key_zero with ctrl := 1, u := { utf8_zero with c0 := 0x20 } } ∧
      read_key [0x07] = .ok { key_zero with special := BEL } ∧
      read_key [0x08] = .ok { key_zero with special := BS } ∧
      read_key [0x7f] = .ok { key_zero with ctrl := 1, special := BS } ∧
      (∀ b, 0x20 ≤ b → b ≤ 0x7e →
        read_key [b] = .ok { n := 0, m := 0, u := { c0 := b, c1 := 0, c2 := 0, c3 := 0 },
                             shift := 0, ctrl := 0, meta := 0, super := 0, special := 0 }) ∧
      kbd "C-g" = .ok { key_zero with special := BEL } ∧
      key_eq { key_zero with special := BEL } { key_zero with special := BEL } = true ∧
      (∀ b k, b < 256 → b ≠ 0x07 → read_key [b] = .ok k →
        key_eq k { key_zero with special := BEL } = false) := by
  refine ⟨by decide, by decide, by decide, by decide, ?_, by decide, by decide, ?_⟩
  · intro b h1 h2
    exact read_key_literal_table b (by omega) h1
  · intro b k hb h7 hk
    have h := read_key_not_bel b hb h7
    rw [hk] at h
    simpa [Except.map] using h

/-- C27 fails on the code at the input `ESC 0x1A` (`C-M-z`): `scan_escape` handles the
control bytes by `case 0x00 ... 0x19`, so `0x1A` falls to `default: assert(0)`. The
other control bytes `0x01..0x19` decode to `Ctrl + Meta` with the letter
`'a' + (b - 1)`, `ESC` with a printable byte to `Meta` with that byte, and `ESC` alone
to the key ESC. -/
theorem escape_ctrl_z_asserts :
    read_key [0x1b, 0x1a] = .error .assertion ∧
      (∀ b, 1 ≤ b → b ≤ 0x19 →
        read_key [0x1b, b] =
          .ok { n := 0, m := 0, u := { c0 := 0x61 + (b - 1), c1 := 0, c2 := 0, c3 := 0 },
                shift := 0, ctrl := 1, meta := 1, super := 0, special := 0 }) ∧
      (∀ b, 0x20 ≤ b → b ≤ 0x7e →
        read_key [0x1b, b] =
          .ok { n := 0, m := 0, u := { c0 := b, c1 := 0, c2 := 0, c3 := 0 },
                shift := 0, ctrl := 0, meta := 1, super := 0, special := 0 }) ∧
      read_key [0x1b] = .ok { key_zero with special := ESC } := by
  refine ⟨by decide, ?_, ?_, by decide⟩
  · intro b h1 h2
    exact read_key_escape_ctrl_table b (by omega) h1
  · intro b h1 h2
    exact read_key_escape_literal_table b (by omega) h1

theorem digits_fold_ge (ds : List Nat) :
    ∀ v : Int, 0 ≤ v → (∀ b ∈ ds, 0x30 ≤ b ∧ b ≤ 0x39) →
      v ≤ ds.foldl (fun (v : Int) (b : Nat) => v * 10 + ((b : Int) - 0x30)) v := by
  induction ds with
  | nil => intro v _ _; exact le_refl _
  | cons b rest ih =>
    intro v hv hd
    have hb := hd b (List.mem_cons_self _ _)
    have h1 := ih (v * 10 + ((b : Int) - 0x30)) (by omega)
      (fun c hc => hd c (List.mem_cons_of_mem _ hc))
    simp only [List.foldl_cons]
    omega

theorem scan_digits_append (ds : List Nat) :
    ∀ (v : Int) (found : Bool) (t : List Nat), 0 ≤ v →
      (∀ b ∈ ds, 0x30 ≤ b ∧ b ≤ 0x39) →
      ds.foldl (fun (v : Int) (b : Nat) => v * 10 + ((b : Int) - 0x30)) v ≤ INT_MAX →
      ¬ (t.headD 0 ≠ 0 ∧ 0x30 ≤ t.headD 0 ∧ t.headD 0 ≤ 0x39) →
      scan_digits (ds ++ t) v found =
        .ok (ds.foldl (fun (v : Int) (b : Nat) => v * 10 + ((b : Int) - 0x30)) v, found || !ds.isEmpty, t) := by
  induction ds with
  | nil =>
    intro v found t _ _ _ ht
    cases t with
    | nil => simp [scan_digits]
    | cons c rest =>
      simp only [List.headD_cons] at ht
      simp only [List.nil_append, scan_digits, if_neg ht, List.foldl_nil, List.isEmpty_nil,
        Bool.not_true, Bool.or_false]
  | cons b rest ih =>
    intro v found t hv hd hm ht
    have hb := hd b (List.mem_cons_self _ _)
    have hd2 : ∀ c ∈ rest, 0x30 ≤ c ∧ c ≤ 0x39 := fun c hc => hd c (List.mem_cons_of_mem _ hc)
    simp only [List.foldl_cons] at hm
    have hge := digits_fold_ge rest (v * 10 + ((b : Int) - 0x30)) (by omega) hd2
    have hc : b ≠ 0 ∧ 0x30 ≤ b ∧ b ≤ 0x39 := ⟨by omega, hb.1, hb.2⟩
    have e := ih (v * 10 + ((b : Int) - 0x30)) true t (by omega) hd2 hm ht
    simp only [List.cons_append, scan_digits, if_pos hc]
    rw [if_pos (by omega)]
    show scan_digits (rest ++ t) (v * 10 + ((b : Int) - 0x30)) true = _
    rw [e]
    simp

theorem int_bit_cases (x : Int) (i : Nat) : int_bit x i = 0 ∨ int_bit x i = 1 := by
  unfold int_bit
  omega

theorem scan_cs_final_letter (k : key) (f : Nat) (sp : Int) (h : (f, sp) ∈ csi_letter_keys) :
    scan_cs_final k f = .ok { k with special := sp } ∧ f ≠ 0 ∧ f ≠ 0xd ∧ f ≠ 0x5a ∧ f ≠ 0x3b ∧
      ¬ (0x30 ≤ f ∧ f ≤ 0x39) := by
  simp only [csi_letter_keys, List.mem_cons, Prod.mk.injEq, List.mem_singleton,
    List.not_mem_nil, or_false] at h
  rcases h with h | h | h | h | h | h | h | h | h | h | h <;> obtain ⟨rfl, rfl⟩ := h <;>
    exact ⟨rfl, by decide, by decide, by decide, by decide, by decide⟩

theorem scan_cs_final_tilde (k : key) (sp : Int) (h : (k.n, sp) ∈ csi_tilde_keys) :
    ∃ n1, scan_cs_final k 0x7e = .ok { k with n := n1, special := sp } ∧ bang_bang n1 = 1 ∧
      bang_bang k.n = 1 := by
  simp only [csi_tilde_keys, List.mem_cons, Prod.mk.injEq, List.mem_singleton,
    List.not_mem_nil, or_false] at h
  rcases h with h | h | h | h | h | h | h | h | h | h | h | h | h | h | h <;>
    obtain ⟨hn, rfl⟩ := h <;>
    simp only [scan_cs_final, scan_cs_tilde, hn, if_true, Nat.reduceEqDiff, if_false] <;>
    first
    | exact ⟨1, rfl, by decide, by decide⟩
    | exact ⟨k.n, by simp [hn], by rw [hn]; decide, by decide⟩

theorem csi_param_eq (ds : List Nat) :
    (if (false || !ds.isEmpty) = true then digits_value ds else 1) = csi_param ds := by
  unfold csi_param
  cases ds <;> simp

theorem scan_cs_with_m (dn dm rest : List Nat) (f : Nat)
    (hdn : ∀ b ∈ dn, 0x30 ≤ b ∧ b ≤ 0x39) (hdm : ∀ b ∈ dm, 0x30 ≤ b ∧ b ≤ 0x39)
    (hn : digits_value dn ≤ INT_MAX) (hm : digits_value dm ≤ INT_MAX)
    (h0 : f ≠ 0) (hd : f ≠ 0xd) (hz : f ≠ 0x5a) (hdig : ¬ (0x30 ≤ f ∧ f ≤ 0x39)) :
    scan_cs (dn ++ 0x3b :: (dm ++ f :: rest)) =
      (scan_cs_final { key_zero with n := csi_param dn, m := csi_param dm } f).map
        scan_cs_modifiers := by
  have e1 := scan_digits_append dn 0 false (0x3b :: (dm ++ f :: rest)) (le_refl _) hdn hn
    (by simp)
  have e2 := scan_digits_append dm 0 false (f :: rest) (le_refl _) hdm hm
    (by simp only [List.headD_cons]; omega)
  unfold scan_cs
  rw [e1]
  simp only [bind, Except.bind, List.headD_cons, if_true, List.tail_cons]
  rw [e2]
  simp only [List.headD_cons, if_neg h0, if_neg hd, if_neg hz]
  have c1 := csi_param_eq dn
  have c2 := csi_param_eq dm
  unfold digits_value at c1 c2
  rw [c1, c2]
  cases scan_cs_final { key_zero with n := csi_param dn, m := csi_param dm } f <;> rfl

theorem scan_cs_without_m (dn rest : List Nat) (f : Nat)
    (hdn : ∀ b ∈ dn, 0x30 ≤ b ∧ b ≤ 0x39) (hn : digits_value dn ≤ INT_MAX)
    (h0 : f ≠ 0) (hd : f ≠ 0xd) (hz : f ≠ 0x5a) (hs : f ≠ 0x3b)
    (hdig : ¬ (0x30 ≤ f ∧ f ≤ 0x39)) :
    scan_cs (dn ++ f :: rest) =
      (scan_cs_final { key_zero with n := csi_param dn, m := 1 } f).map scan_cs_modifiers := by
  have e1 := scan_digits_append dn 0 false (f :: rest) (le_refl _) hdn hn
    (by simp only [List.headD_cons]; omega)
  unfold scan_cs
  rw [e1]
  simp only [bind, Except.bind, List.headD_cons, if_neg hs, pure, Except.pure,
    Bool.false_eq_true, if_false, if_neg h0, if_neg hd, if_neg hz]
  have c1 := csi_param_eq dn
  unfold digits_value at c1
  rw [c1]
  cases scan_cs_final { key_zero with n := csi_param dn, m := 1 } f <;> rfl

/-- C26 (amended): for a CSI sequence `n ; m <final>` whose parameters fit an `int` and
whose final byte is an arrow or navigation letter, or `~` with `n` one of 3, 5, 6,
11 ... 15, 17 ... 21, 23, 24, `scan_cs` returns the key of the final byte (Del, PgUp,
PgDn, F1 ... F12 selected by `n` for `~`) with `shift`, `meta`, `ctrl`, `super` set to 1
when bit 0, 1, 2, 3 of `m - 1` is set and to 0 when it is not (never to the masked
values 2, 4, 8), and with `n` and `m` replaced by `!!n` and `!!m`. Without `; m` the
parameter `m` is 1 and no modifier is set. -/
theorem csi_decode (dn dm rest : List Nat) (f : Nat) (sp : Int)
    (hdn : ∀ b ∈ dn, 0x30 ≤ b ∧ b ≤ 0x39) (hdm : ∀ b ∈ dm, 0x30 ≤ b ∧ b ≤ 0x39)
    (hn : digits_value dn ≤ INT_MAX) (hm : digits_value dm ≤ INT_MAX)
    (hf : (f, sp) ∈ csi_letter_keys ∨ (f = 0x7e ∧ (csi_param dn, sp) ∈ csi_tilde_keys)) :
    scan_cs (dn ++ 0x3b :: (dm ++ f :: rest)) =
        .ok { n := bang_bang (csi_param dn), m := bang_bang (csi_param dm), u := utf8_zero,
              shift := int_bit (csi_param dm - 1) 0, ctrl := int_bit (csi_param dm - 1) 2,
              meta := int_bit (csi_param dm - 1) 1, super := int_bit (csi_param dm - 1) 3,
              special := sp } ∧
      scan_cs (dn ++ f :: rest) =
        .ok { n := bang_bang (csi_param dn), m := 1, u := utf8_zero,
              shift := 0, ctrl := 0, meta := 0, super := 0, special := sp } ∧
      (∀ i, int_bit (csi_param dm - 1) i = 0 ∨ int_bit (csi_param dm - 1) i = 1) := by
  refine ⟨?_, ?_, fun i => int_bit_cases _ i⟩
  · rcases hf with hf | ⟨rfl, hf⟩
    · obtain ⟨e, h0, hd, hz, _, hdig⟩ :=
        scan_cs_final_letter { key_zero with n := csi_param dn, m := csi_param dm } f sp hf
      rw [scan_cs_with_m dn dm rest f hdn hdm hn hm h0 hd hz hdig, e]
      rfl
    · obtain ⟨n1, e, hb, hb2⟩ :=
        scan_cs_final_tilde { key_zero with n := csi_param dn, m := csi_param dm } sp hf
      rw [scan_cs_with_m dn dm rest _ hdn hdm hn hm (by decide) (by decide) (by decide)
        (by decide), e]
      simp only [Except.map, scan_cs_modifiers, hb]
      have hb3 : bang_bang (csi_param dn) = 1 := hb2
      rw [hb3]
      rfl
  · rcases hf with hf | ⟨rfl, hf⟩
    · obtain ⟨e, h0, hd, hz, hs, hdig⟩ :=
        scan_cs_final_letter { key_zero with n := csi_param dn, m := 1 } f sp hf
      rw [scan_cs_without_m dn rest f hdn hn h0 hd hz hs hdig, e]
      rfl
    · obtain ⟨n1, e, hb, hb2⟩ :=
        scan_cs_final_tilde { key_zero with n := csi_param dn, m := 1 } sp hf
      rw [scan_cs_without_m dn rest _ hdn hn (by decide) (by decide) (by decide) (by decide)
        (by decide), e]
      simp only [Except.map, scan_cs_modifiers, hb]
      have hb3 : bang_bang (csi_param dn) = 1 := hb2
      rw [hb3]
      rfl

/-- Witness of `csi_decode`: `1 ; 5 C` is `C-<right>` and `3 ~` is `<delete>`. -/
theorem csi_decode_witness :
    scan_cs [0x31, 0x3b, 0x35, 0x43] =
        .ok { n := 1, m := 1, u := utf8_zero, shift := 0, ctrl := 1, meta := 0, super := 0,
              special := CUF } ∧
      scan_cs [0x33, 0x7e] =
        .ok { n := 1, m := 1, u := utf8_zero, shift := 0, ctrl := 0, meta := 0, super := 0,
              special := DEL } :=
  ⟨(csi_decode [0x31] [0x35] [] 0x43 CUF (by decide) (by decide) (by decide) (by decide)
      (Or.inl (by decide))).1,
    (csi_decode [0x33] [] [] 0x7e DEL (by decide) (by decide) (by decide) (by decide)
      (Or.inr ⟨rfl, by decide⟩)).2.1⟩

/-- C26 as stated fails on the code at the sequence `1 ; 3 A` (`M-<up>`): the masked
value of `m - 1 = 2` at bit 1 is 2, and `scan_cs` sets `meta` to 1. -/
theorem csi_meta_counterexample :
    ∃ k, scan_cs [0x31, 0x3b, 0x33, 0x41] = .ok k ∧ k.special = CUU ∧ k.meta = 1 ∧
      2 * int_bit (3 - 1) 1 = 2 ∧ k.meta ≠ 2 * int_bit (3 - 1) 1 := by
  refine ⟨_, rfl, ?_, ?_, ?_, ?_⟩ <;> decide

/-! ## Columns and the renderer -/

/-- C28: for every character `t` and every `col < ncols` (with `tabstop` in `2..8` and
`ncols` in `30..120`), `next_col` returns 0 for a newline, for a tab
`col + tabstop - col % tabstop` when that is below `ncols` and 0 otherwise, for any
other character `col + 1` when that is below `ncols` and 0 otherwise; the result is
below `ncols` and is 0 or greater than `col`. -/
theorem next_col_spec (s : Ed) (t : tedchar) (col : Nat) (hcol : col < s.ncols)
    (hts : 2 ≤ s.tabstop ∧ s.tabstop ≤ 8) (hnc : 30 ≤ s.ncols ∧ s.ncols ≤ 120) :
    ∃ r, next_col s t col = .ok r ∧
      r = (if is_newline t then 0
           else if is_tab t then
             (if col + s.tabstop - col % s.tabstop < s.ncols
              then col + s.tabstop - col % s.tabstop else 0)
           else (if col + 1 < s.ncols then col + 1 else 0)) ∧
      r < s.ncols ∧ (r = 0 ∨ col < r) := by
  have hm : col % s.tabstop < s.tabstop := Nat.mod_lt _ (by omega)
  unfold next_col
  rw [if_neg (by omega)]
  by_cases c1 : is_newline t = true
  · rw [if_pos c1, if_pos c1]
    exact ⟨0, rfl, rfl, by omega, Or.inl rfl⟩
  · rw [if_neg c1, if_neg c1]
    by_cases c2 : is_tab t = true
    · rw [if_pos c2, if_pos c2]
      by_cases c3 : s.ncols ≤ col + s.tabstop - col % s.tabstop
      · rw [if_pos c3, if_neg (by omega)]
        exact ⟨0, rfl, rfl, by omega, Or.inl rfl⟩
      · rw [if_neg c3, if_pos (by omega)]
        exact ⟨_, rfl, rfl, by omega, Or.inr (by omega)⟩
    · rw [if_neg c2, if_neg c2]
      by_cases c3 : s.ncols ≤ col + 1
      · rw [if_pos c3, if_neg (by omega)]
        exact ⟨0, rfl, rfl, by omega, Or.inl rfl⟩
      · rw [if_neg c3, if_pos (by omega)]
        exact ⟨_, rfl, rfl, by omega, Or.inr (by omega)⟩

/-- Witness of `next_col_spec`: a tab at column 3 of the default window (72 columns,
tab stops of 8) ends at column 8. -/
theorem next_col_spec_witness :
    ∃ r, next_col (ed_zero Config.default) (tedchar_utf8 (utf8_ascii 9)) 3 = .ok r ∧ r = 8 ∧
      r < 72 ∧ (r = 0 ∨ 3 < r) := by
  obtain ⟨r, h1, h2, h3, h4⟩ := next_col_spec (ed_zero Config.default)
    (tedchar_utf8 (utf8_ascii 9)) 3 (by decide) (by decide) (by decide)
  exact ⟨r, h1, by rw [h2]; decide, h3, h4⟩

theorem pad_loop_ok (n : Nat) :
    ∀ sb : List Nat, sb.length + n ≤ SCREENBUF_SIZE →
      pad_loop n sb = .ok (sb ++ List.replicate n 0x20) := by
  induction n with
  | zero => intro sb _; simp [pad_loop]
  | succ n ih =>
    intro sb h
    simp only [pad_loop, just_cstring, List.length_singleton]
    rw [if_pos (by omega)]
    simp only
    rw [ih _ (by rw [List.length_append, List.length_singleton]; omega)]
    simp [List.replicate_succ]

theorem el_cr_lf_ok (sb : List Nat) (h : sb.length + 5 ≤ SCREENBUF_SIZE) :
    el_cr_lf sb = .ok (sb ++ [0x1b, 0x5b, 0x4b, 0x0d, 0x0a]) := by
  simp only [el_cr_lf, just_cstring, bind, Except.bind, List.length_cons, List.length_nil]
  rw [if_pos (by omega)]
  simp only [List.length_append, List.length_cons, List.length_nil]
  rw [if_pos (by omega)]
  simp only [List.length_append, List.length_cons, List.length_nil]
  rw [if_pos (by omega)]
  simp

/-- C29 (amended): let `e = col + tabstop - col % tabstop` be the expansion of a tab
at `col < ncols`. When `e < ncols`, in particular when `e = ncols - 1`, the tab does not
wrap: `next_col` returns `e`, which is not 0, and the renderer pads with spaces up to
column `e` and stays on the visual line, without continuation marker. When
`e ≥ ncols` the tab wraps: `next_col` returns 0 and the renderer pads with spaces up
to the column bound `ncols`, emits the continuation marker and the line break, and
leaves the line. -/
theorem tab_wraps_at_ncols (s : Ed) (p : Pen) (cur : Nat) (t : tedchar)
    (ht : is_tab t = true) (hts : 0 < s.tabstop) (hcol : p.col < s.ncols)
    (hroom : p.sb.length + s.ncols + 14 ≤ SCREENBUF_SIZE) :
    (p.col + s.tabstop - p.col % s.tabstop < s.ncols →
      next_col s t p.col = .ok (p.col + s.tabstop - p.col % s.tabstop) ∧
      p.col + s.tabstop - p.col % s.tabstop ≠ 0 ∧
      refresh_tab s p cur t = .ok
        ({ p with current := advance s cur,
                  sb := p.sb ++ List.replicate (p.col + s.tabstop - p.col % s.tabstop - p.col) 0x20,
                  col := p.col + s.tabstop - p.col % s.tabstop }, false)) ∧
    (s.ncols ≤ p.col + s.tabstop - p.col % s.tabstop →
      next_col s t p.col = .ok 0 ∧
      refresh_tab s p cur t = .ok
        ({ p with current := advance s cur,
                  sb := p.sb ++ List.replicate (s.ncols - p.col) 0x20 ++ CONTINUATION_LINE_STR ++
                    [0x1b, 0x5b, 0x4b, 0x0d, 0x0a],
                  col := s.ncols }, true)) := by
  have hm : p.col % s.tabstop < s.tabstop := Nat.mod_lt _ hts
  have hnl : ¬ (is_newline t = true) := by
    intro h
    simp only [is_tab, is_newline, Bool.and_eq_true, beq_iff_eq] at ht h
    rw [h] at ht
    exact absurd ht.1 (by decide)
  have hn : next_col s t p.col = .ok (if s.ncols ≤ p.col + s.tabstop - p.col % s.tabstop then 0
      else p.col + s.tabstop - p.col % s.tabstop) := by
    unfold next_col
    rw [if_neg (by omega), if_neg hnl, if_pos ht]
    split_ifs <;> rfl
  constructor
  · intro he
    rw [if_neg (by omega)] at hn
    refine ⟨hn, by omega, ?_⟩
    unfold refresh_tab
    rw [hn]
    simp only [bind, Except.bind]
    rw [if_neg (by omega), pad_loop_ok _ _ (by omega)]
    simp only [pure, Except.pure]
    rw [max_eq_right (by omega)]
  · intro he
    rw [if_pos he] at hn
    refine ⟨hn, ?_⟩
    unfold refresh_tab
    rw [hn]
    simp only [bind, Except.bind, if_true]
    rw [pad_loop_ok _ _ (by omega)]
    simp only [just_cstring]
    rw [if_pos (by
      simp only [List.length_append, List.length_replicate, CONTINUATION_LINE_STR,
        List.length_cons, List.length_nil]
      omega)]
    simp only
    rw [el_cr_lf_ok _ (by
      simp only [List.length_append, List.length_replicate, CONTINUATION_LINE_STR,
        List.length_cons, List.length_nil]
      omega)]
    simp only [pure, Except.pure]
    rw [max_eq_right (by omega)]

/-- Witness of `tab_wraps_at_ncols`: in a window of 33 columns with tab stops of 8 a tab
at column 24 expands to column 32, the last one; the renderer pads 8 spaces and stays on
the line. -/
theorem tab_wraps_at_ncols_witness :
    next_col { ed_zero Config.default with ncols := 33 } (tedchar_utf8 (utf8_ascii 9)) 24 =
        .ok 32 ∧
      refresh_tab { ed_zero Config.default with ncols := 33 }
          { sb := [], current := some 0, highlight_active := false, col := 24, line := true,
            newline := false } 0 (tedchar_utf8 (utf8_ascii 9)) =
        .ok ({ sb := List.replicate 8 0x20,
               current := advance { ed_zero Config.default with ncols := 33 } 0,
               highlight_active := false, col := 32, line := true, newline := false },
             false) := by
  obtain ⟨h1, _, h3⟩ := (tab_wraps_at_ncols { ed_zero Config.default with ncols := 33 }
    { sb := [], current := some 0, highlight_active := false, col := 24, line := true,
      newline := false } 0 (tedchar_utf8 (utf8_ascii 9)) (by decide) (by decide) (by decide)
    (by decide)).1 (by decide)
  exact ⟨h1, h3⟩

/-- C29 as stated fails on the code for 33 columns, tab stops of 8 and a tab at
column 24: its expansion `24 + 8 - 24 % 8 = 32` equals `ncols - 1`, the window sizes are
valid, and `next_col` returns 32, not 0. -/
theorem tab_last_column_counterexample :
    ({ Config.default with ncols := 33 } : Config).valid ∧
      24 + 8 - 24 % 8 = 33 - 1 ∧
      next_col (ed_zero { Config.default with ncols := 33 }) (tedchar_utf8 (utf8_ascii 9)) 24 =
        .ok 32 ∧
      next_col (ed_zero { Config.default with ncols := 33 }) (tedchar_utf8 (utf8_ascii 9)) 24 ≠
        .ok 0 := by
  decide

/-! ## Words -/

theorem run_len_cons (p : tedchar → Bool) (c : tedchar) (cs : List tedchar) :
    run_len p (c :: cs) = if p c then 1 + run_len p cs else 0 := by
  unfold run_len
  rw [List.takeWhile_cons]
  by_cases h : p c = true
  · simp [h]
    omega
  · simp [h]

theorem run_len_le (p : tedchar → Bool) (l : List tedchar) : run_len p l ≤ l.length := by
  unfold run_len
  exact (List.takeWhile_sublist _).length_le

theorem run_len_all (p : tedchar → Bool) (l : List tedchar) :
    ∀ x t, x < run_len p l → l[x]? = some t → p t = true := by
  induction l with
  | nil => intro x t h; simp [run_len] at h
  | cons c cs ih =>
    intro x t h ht
    rw [run_len_cons] at h
    by_cases hc : p c = true
    · rw [if_pos hc] at h
      cases x with
      | zero =>
        simp only [List.getElem?_cons_zero, Option.some.injEq] at ht
        rw [← ht]
        exact hc
      | succ x =>
        simp only [List.getElem?_cons_succ] at ht
        exact ih x t (by omega) ht
    · rw [if_neg hc] at h
      omega

theorem run_len_stop (p : tedchar → Bool) (l : List tedchar) :
    ∀ t, l[run_len p l]? = some t → p t = false := by
  induction l with
  | nil => intro t h; simp [run_len] at h
  | cons c cs ih =>
    intro t ht
    rw [run_len_cons] at ht
    by_cases hc : p c = true
    · rw [if_pos hc, show 1 + run_len p cs = run_len p cs + 1 by omega,
        List.getElem?_cons_succ] at ht
      exact ih t ht
    · rw [if_neg hc] at ht
      simp only [List.getElem?_cons_zero, Option.some.injEq] at ht
      rw [← ht]
      exact Bool.eq_false_iff.mpr hc

theorem forward_word_text_exact :
    ∀ (n f : Nat) (s : Ed), BUFSIZE - s.gap_end = n → Fit s → Ed.is_prefix s = false →
      n + 8 ≤ f →
      ∃ s1, exec f (.forward_word_text 1) s = .ok s1 ∧ Fwd s s1 ∧
        s1.gap_start = s.gap_start + run_len (fun t => !is_whitespace t) (text_after s) := by
  intro n
  induction n with
  | zero =>
    intro f s hn hW hp hf
    obtain ⟨f2, rfl⟩ : ∃ f2, f = f2 + 2 := ⟨f - 2, by omega⟩
    have he : is_point_at_end_of_buffer s = true := by
      rw [at_end_iff]
      have := hW.2.1
      omega
    simp only [exec_succ, step, forward_word_text, he, if_true, bind, Except.bind, pure,
      Except.pure, Bool.false_eq_true, if_false, forward_word_loop, Nat.sub_self]
    refine ⟨s, rfl, fwd_refl s hW hp, ?_⟩
    rw [text_after_nil s ((at_end_iff s).mp he)]
    rfl
  | succ n ih =>
    intro f s hn hW hp hf
    obtain ⟨f2, rfl⟩ : ∃ f2, f = f2 + 2 := ⟨f - 2, by omega⟩
    have hlt : s.gap_end < BUFSIZE := by omega
    have he : ¬ (is_point_at_end_of_buffer s = true) := by
      rw [at_end_iff]
      omega
    obtain ⟨rest, hrest⟩ := text_after_head s hlt
    rw [exec_succ]
    simp only [step, forward_word_text, if_neg he, point_is_ok _ s hW.1 hlt, bind, Except.bind,
      pure, Except.pure]
    by_cases c : (!is_whitespace (s.buffer s.gap_end)) = true
    · rw [if_pos c]
      obtain ⟨s1, e1, hf1, hgs1⟩ := forward_char_total (f2 + 1) s hW hp (by omega)
      rw [e1]
      simp only
      have hmin : min 1 (BUFSIZE - s.gap_end) = 1 := by omega
      rw [hmin] at hgs1
      have hge1 := motion_gap_end s s1 _ hW hf1.1 hgs1
      obtain ⟨s2, e2, hf2, hgs2⟩ := ih (f2 + 1) s1 (by rw [hge1]; omega) hf1.1.1
        hf1.1.2.2.2.1 (by omega)
      refine ⟨s2, e2, fwd_trans s s1 s2 hf1 hf2, ?_⟩
      rw [hgs2, hgs1, text_after_forward s s1 1 hf1 hgs1, hrest, run_len_cons, if_pos c]
      simp only [List.drop_succ_cons, List.drop_zero]
      omega
    · rw [if_neg c]
      simp only [exec_succ, step, forward_word_loop, Nat.sub_self, if_true]
      refine ⟨s, rfl, fwd_refl s hW hp, ?_⟩
      rw [hrest, run_len_cons, if_neg c]
      rfl

theorem forward_word_ws_exact :
    ∀ (n f : Nat) (s : Ed), BUFSIZE - s.gap_end = n → Fit s → Ed.is_prefix s = false →
      n + 9 ≤ f →
      ∃ s1, exec f (.forward_word_ws 1) s = .ok s1 ∧ Fwd s s1 ∧
        s1.gap_start = s.gap_start + run_len is_whitespace (text_after s) +
          run_len (fun t => !is_whitespace t)
            ((text_after s).drop (run_len is_whitespace (text_after s))) := by
  intro n
  induction n with
  | zero =>
    intro f s hn hW hp hf
    obtain ⟨f1, rfl⟩ : ∃ f1, f = f1 + 1 := ⟨f - 1, by omega⟩
    have he : is_point_at_end_of_buffer s = true := by
      rw [at_end_iff]
      have := hW.2.1
      omega
    rw [exec_succ]
    simp only [step, forward_word_ws, he, if_true, bind, Except.bind, pure, Except.pure,
      Bool.false_eq_true, if_false]
    obtain ⟨s1, e1, hf1, hgs1⟩ := forward_word_text_exact 0 f1 s hn hW hp (by omega)
    refine ⟨s1, e1, hf1, ?_⟩
    rw [hgs1, text_after_nil s ((at_end_iff s).mp he)]
    rfl
  | succ n ih =>
    intro f s hn hW hp hf
    obtain ⟨f1, rfl⟩ : ∃ f1, f = f1 + 1 := ⟨f - 1, by omega⟩
    have hlt : s.gap_end < BUFSIZE := by omega
    have he : ¬ (is_point_at_end_of_buffer s = true) := by
      rw [at_end_iff]
      omega
    obtain ⟨rest, hrest⟩ := text_after_head s hlt
    rw [exec_succ]
    simp only [step, forward_word_ws, if_neg he, point_is_ok _ s hW.1 hlt, bind, Except.bind,
      pure, Except.pure]
    by_cases c : is_whitespace (s.buffer s.gap_end) = true
    · rw [if_pos c]
      obtain ⟨s1, e1, hf1, hgs1⟩ := forward_char_total f1 s hW hp (by omega)
      rw [e1]
      simp only
      have hmin : min 1 (BUFSIZE - s.gap_end) = 1 := by omega
      rw [hmin] at hgs1
      have hge1 := motion_gap_end s s1 _ hW hf1.1 hgs1
      obtain ⟨s2, e2, hf2, hgs2⟩ := ih f1 s1 (by rw [hge1]; omega) hf1.1.1
        hf1.1.2.2.2.1 (by omega)
      refine ⟨s2, e2, fwd_trans s s1 s2 hf1 hf2, ?_⟩
      rw [hgs2, hgs1, text_after_forward s s1 1 hf1 hgs1, hrest, run_len_cons, if_pos c]
      simp only [List.drop_succ_cons, List.drop_zero]
      rw [show 1 + run_len is_whitespace rest = run_len is_whitespace rest + 1 by omega,
        List.drop_succ_cons]
      omega
    · rw [if_neg c]
      obtain ⟨s1, e1, hf1, hgs1⟩ := forward_word_text_exact (n + 1) f1 s hn hW hp (by omega)
      have hz : run_len is_whitespace (text_after s) = 0 := by
        rw [hrest, run_len_cons, if_neg c]
      refine ⟨s1, e1, hf1, ?_⟩
      rw [hgs1, hz]
      rfl

theorem forward_word_exact (f : Nat) (s : Ed) (hW : Fit s) (hp : Ed.is_prefix s = false)
    (hf : BUFSIZE - s.gap_end + 11 ≤ f) :
    ∃ s1, exec f .forward_word s = .ok s1 ∧ Fwd s s1 ∧
      s1.gap_start = s.gap_start + run_len is_whitespace (text_after s) +
        run_len (fun t => !is_whitespace t)
          ((text_after s).drop (run_len is_whitespace (text_after s))) := by
  obtain ⟨f2, rfl⟩ : ∃ f2, f = f2 + 2 := ⟨f - 2, by omega⟩
  have hnil : ∀ h : s.gap_end = BUFSIZE,
      s.gap_start = s.gap_start + run_len is_whitespace (text_after s) +
        run_len (fun t => !is_whitespace t)
          ((text_after s).drop (run_len is_whitespace (text_after s))) := by
    intro h
    rw [text_after_nil s h]
    rfl
  rw [exec_succ]
  simp only [step, forward_word]
  by_cases c1 : is_buffer_empty s = true
  · rw [if_pos c1]
    refine ⟨s, rfl, fwd_refl s hW hp, hnil ?_⟩
    have := hW.1
    have := hW.2.1
    simp only [is_buffer_empty, beq_iff_eq] at c1
    omega
  rw [if_neg c1, repeat_count_one s hp, prefix_clear_eq s hp, exec_succ]
  simp only [step, forward_word_loop, one_ne_zero, if_false]
  by_cases c2 : is_point_at_end_of_buffer s = true
  · rw [if_pos c2]
    exact ⟨s, rfl, fwd_refl s hW hp, hnil ((at_end_iff s).mp c2)⟩
  · rw [if_neg c2]
    exact forward_word_ws_exact _ f2 s rfl hW hp (by omega)

theorem content_at_after (s : Ed) (x : Nat)
    (hx : s.gap_start ≤ x) : (content s)[x]? = (text_after s)[x - s.gap_start]? := by
  rw [content_split, List.getElem?_append_right (by rw [text_before_length]; exact hx),
    text_before_length]

/-- C30: in a state fit to run, `forward_word` without prefix argument from the point
`i` of a buffer of length `L` runs to completion, keeps the content and ends at the
point `j` such that, for some `k` with `i ≤ k ≤ j ≤ L`, every character in `[i, k)` is
whitespace and the character at `k`, if `k < L`, is not (`k` is the least index from `i`
that holds no whitespace, or `L`), and every character in `[k, j)` is no whitespace and
the character at `j`, if `j < L`, is whitespace (`j` is the least index from `k` that
holds whitespace, or `L`). -/
theorem forward_word_spec (s : Ed) (f : Nat) (hW : Fit s) (hp : Ed.is_prefix s = false)
    (hf : buffer_size s - where_ s + 11 ≤ f) :
    ∃ s1 k, exec f .forward_word s = .ok s1 ∧ content s1 = content s ∧
      where_ s ≤ k ∧ k ≤ where_ s1 ∧ where_ s1 ≤ (content s).length ∧
      (∀ x t, where_ s ≤ x → x < k → (content s)[x]? = some t → is_whitespace t = true) ∧
      (∀ t, (content s)[k]? = some t → is_whitespace t = false) ∧
      (∀ x t, k ≤ x → x < where_ s1 → (content s)[x]? = some t → is_whitespace t = false) ∧
      (∀ t, (content s)[where_ s1]? = some t → is_whitespace t = true) := by
  have hg1 := hW.1
  have hg2 := hW.2.1
  have hw := where_eq s hg1
  have hfuel : BUFSIZE - s.gap_end + 11 ≤ f := by
    rw [hw] at hf
    unfold buffer_size at hf
    omega
  obtain ⟨s1, e, hF, hgs⟩ := forward_word_exact f s hW hp hfuel
  have hw1 := where_eq s1 hF.1.1.1
  have hlen : (content s).length = s.gap_start + (text_after s).length := by
    rw [content_split, List.length_append, text_before_length]
  have ha := run_len_le is_whitespace (text_after s)
  have hb := run_len_le (fun t => !is_whitespace t)
    ((text_after s).drop (run_len is_whitespace (text_after s)))
  rw [List.length_drop] at hb
  refine ⟨s1, s.gap_start + run_len is_whitespace (text_after s), e, hF.1.2.2.1, ?_, ?_, ?_,
    ?_, ?_, ?_, ?_⟩
  · rw [hw]
    omega
  · rw [hw1, hgs]
    omega
  · rw [hw1, hgs, hlen]
    omega
  · intro x t hx1 hx2 ht
    rw [hw] at hx1
    rw [content_at_after s x hx1] at ht
    exact run_len_all _ _ _ t (by omega) ht
  · intro t ht
    rw [content_at_after s _ (by omega), Nat.add_sub_cancel_left] at ht
    exact run_len_stop _ _ t ht
  · intro x t hx1 hx2 ht
    rw [hw1, hgs] at hx2
    rw [content_at_after s x (by omega)] at ht
    have hd : ((text_after s).drop (run_len is_whitespace (text_after s)))[x - s.gap_start -
        run_len is_whitespace (text_after s)]? = some t := by
      rw [List.getElem?_drop, ← ht]
      congr 1
      omega
    have hlt : x - s.gap_start - run_len is_whitespace (text_after s) <
        run_len (fun t => !is_whitespace t)
          ((text_after s).drop (run_len is_whitespace (text_after s))) := by
      omega
    have := run_len_all _ _ _ t hlt hd
    simpa using this
  · intro t ht
    rw [hw1, hgs] at ht
    rw [content_at_after s _ (by omega)] at ht
    have hd : ((text_after s).drop (run_len is_whitespace (text_after s)))[run_len
        (fun t => !is_whitespace t)
        ((text_after s).drop (run_len is_whitespace (text_after s)))]? = some t := by
      rw [List.getElem?_drop, ← ht]
      congr 1
      omega
    have := run_len_stop _ _ t hd
    simpa using this

/-- Witness of `forward_word_spec`: `forward_word` from the point 0 of ` ab c` ends at
the point 3, after the word `ab`. -/
theorem forward_word_spec_witness :
    ∃ s1, exec 20 .forward_word (loaded Config.default [0x20, 0x61, 0x62, 0x20, 0x63]) = .ok s1 ∧
      content s1 = content (loaded Config.default [0x20, 0x61, 0x62, 0x20, 0x63]) ∧
      where_ s1 = 3 := by
  obtain ⟨s1, k, e, hc, _, _, _, _, _, _, _⟩ := forward_word_spec
    (loaded Config.default [0x20, 0x61, 0x62, 0x20, 0x63]) 20 (by decide) (by decide) (by decide)
  refine ⟨s1, e, hc, ?_⟩
  have h : (exec 20 .forward_word (loaded Config.default [0x20, 0x61, 0x62, 0x20, 0x63])).map
      where_ = .ok 3 := by decide
  rw [e] at h
  simpa [Except.map] using h

/-! ## The mark ring -/

theorem push_marks_snoc (ws : List Nat) (w : Nat) (s : Ed) :
    push_marks (ws ++ [w]) s = do_push_mark w (push_marks ws s) := by
  simp [push_marks, List.foldl_append]

/-- The mark ring after `n` pushes into an empty ring: `len`, `last` and `current` are
as in a ring of 16 slots and the slots hold the 16 most recent marks, but `first` is
`n - 16` once the ring is full, without reduction modulo 16. -/
theorem push_marks_ring (s0 : Ed) (h0 : s0.marks_len = 0) (h1 : s0.marks_first = 0)
    (h2 : s0.marks_last = 0) (ws : List Nat) :
    ws.length < SIZE_MOD →
      (push_marks ws s0).marks_len = min ws.length 16 ∧
      (push_marks ws s0).marks_last = ws.length % 16 ∧
      (push_marks ws s0).marks_first = ws.length - min ws.length 16 ∧
      (0 < ws.length → (push_marks ws s0).marks_current = (ws.length - 1) % 16) ∧
      (∀ i w, i < ws.length → ws.length ≤ i + 16 → ws[i]? = some w →
        (push_marks ws s0).marks_m (i % 16) = w) := by
  induction ws using List.reverseRecOn with
  | nil =>
    intro _
    exact ⟨h0, h2, h1, fun h => absurd h (by simp), fun i w h => absurd h (by simp)⟩
  | append_singleton l a ih =>
    intro hn
    rw [List.length_append, List.length_singleton] at hn
    obtain ⟨i1, i2, i3, _, i5⟩ := ih (by omega)
    rw [push_marks_snoc]
    simp only [do_push_mark, MARK_RING_SIZE, List.length_append, List.length_singleton]
    rw [i1, i2, i3]
    have hs : ∀ x, x + 1 < SIZE_MOD → size_inc x = x + 1 := fun x hx => size_inc_lt x hx
    refine ⟨?_, ?_, ?_, ?_, ?_⟩
    · by_cases c : min l.length 16 = 16
      · rw [if_pos c]
        omega
      · rw [if_neg c, hs _ (by unfold SIZE_MOD at *; omega)]
        omega
    · omega
    · by_cases c : min l.length 16 = 16
      · rw [if_pos c, hs _ (by omega)]
        omega
      · rw [if_neg c]
        omega
    · intro _
      rw [Nat.add_sub_cancel]
    · intro i w hi1 hi2 hw
      by_cases c : i = l.length
      · rw [c, List.getElem?_append_right (le_refl _), Nat.sub_self] at hw
        simp only [List.getElem?_cons_zero, Option.some.injEq] at hw
        rw [c, Function.update_same, hw]
      · rw [List.getElem?_append_left (by omega)] at hw
        rw [Function.update_noteq (by omega)]
        exact i5 i w (by omega) (by omega) hw

/-- C22 fails on the code after 32 pushes: loading the file `a` and typing `C-SPC` 32
times leaves `len = 16`, `last = 0`, `current = 15` and `first = 16`, which is not below
the ring size 16. `do_push_mark` increments `first` without reduction modulo
`MARK_RING_SIZE` when the ring is full. -/
theorem mark_ring_first_not_reduced :
    ∃ s, Reachable s ∧
      run_keys 4 (List.replicate 32 (none, key_zero, .set_mark)) (loaded Config.default [0x61]) =
        .ok s ∧
      s.marks_len = 16 ∧ s.marks_last = 0 ∧ s.marks_current = 15 ∧ s.marks_first = 16 ∧
      ¬ s.marks_first < MARK_RING_SIZE := by
  have h : (run_keys 4 (List.replicate 32 (none, key_zero, .set_mark))
      (loaded Config.default [0x61])).map
      (fun s => (s.marks_len, s.marks_last, s.marks_current, s.marks_first)) =
      .ok (16, 0, 15, 16) := by decide
  obtain ⟨s, hs, ho⟩ := map_ok_exists _ _ _ h
  simp only [Prod.mk.injEq] at ho
  refine ⟨s, reachable_run_keys 4 _ _ s (reachable_loaded_default _ (by decide)) hs, hs,
    ho.1, ho.2.1, ho.2.2.1, ho.2.2.2, ?_⟩
  rw [ho.2.2.2]
  decide

/-- C23 fails on the code at the file `abcdef` after the keys
`C-SPC C-f C-f C-SPC C-b C-b`: the ring holds the marks 0 and 2, `current` is the slot of
the mark 2 and the point is 0. `C-u 4 C-SPC` then leaves the point at 5, not at the old
`m[current] = 2`: `set_mark` leaves the prefix argument pending, at the point 0
`beginning_of_buffer` does not consume it, and the first `forward_char` of `move_to(2)`
takes 4 as its repeat count. The mark is set to the old point 0 and `current` moves to
the slot 0; with the prefix argument 1 of a plain `C-u` the point does become 2. -/
theorem set_mark_prefix_moves_too_far :
    ∃ s0 s s1, Reachable s0 ∧ Reachable s ∧
      run_keys 20 [(none, key_zero, .set_mark), (none, key_zero, .forward_char),
        (none, key_zero, .forward_char), (none, key_zero, .set_mark),
        (none, key_zero, .backward_char), (none, key_zero, .backward_char)]
        (loaded Config.default [0x61, 0x62, 0x63, 0x64, 0x65, 0x66]) = .ok s0 ∧
      s0.marks_len = 2 ∧ s0.marks_current = 1 ∧ s0.marks_m s0.marks_current = 2 ∧
      where_ s0 = 0 ∧
      key_event 20 (some 4) key_zero .set_mark s0 = .ok s ∧
      where_ s = 5 ∧ s.marks_m 1 = 0 ∧ s.marks_current = 0 ∧
      key_event 20 (some 1) key_zero .set_mark s0 = .ok s1 ∧ where_ s1 = 2 := by
  have h : (run_keys 20 [(none, key_zero, .set_mark), (none, key_zero, .forward_char),
        (none, key_zero, .forward_char), (none, key_zero, .set_mark),
        (none, key_zero, .backward_char), (none, key_zero, .backward_char)]
        (loaded Config.default [0x61, 0x62, 0x63, 0x64, 0x65, 0x66])).map
      (fun s => (s.marks_len, s.marks_current, s.marks_m s.marks_current, where_ s)) =
      .ok (2, 1, 2, 0) := by decide
  have h2 : ((run_keys 20 [(none, key_zero, .set_mark), (none, key_zero, .forward_char),
        (none, key_zero, .forward_char), (none, key_zero, .set_mark),
        (none, key_zero, .backward_char), (none, key_zero, .backward_char)]
        (loaded Config.default [0x61, 0x62, 0x63, 0x64, 0x65, 0x66])).bind
        (key_event 20 (some 4) key_zero .set_mark)).map
      (fun s => (where_ s, s.marks_m 1, s.marks_current)) = .ok (5, 0, 0) := by decide
  have h3 : ((run_keys 20 [(none, key_zero, .set_mark), (none, key_zero, .forward_char),
        (none, key_zero, .forward_char), (none, key_zero, .set_mark),
        (none, key_zero, .backward_char), (none, key_zero, .backward_char)]
        (loaded Config.default [0x61, 0x62, 0x63, 0x64, 0x65, 0x66])).bind
        (key_event 20 (some 1) key_zero .set_mark)).map where_ = .ok 2 := by decide
  obtain ⟨s0, hs0, ho⟩ := map_ok_exists _ _ _ h
  simp only [Prod.mk.injEq] at ho
  rw [hs0] at h2 h3
  obtain ⟨s, hs, hc⟩ := map_ok_exists _ _ _ h2
  obtain ⟨s1, hs1, hc1⟩ := map_ok_exists _ _ _ h3
  simp only [Prod.mk.injEq] at hc
  have e : key_event 20 (some 4) key_zero .set_mark s0 = .ok s := hs
  have e1 : key_event 20 (some 1) key_zero .set_mark s0 = .ok s1 := hs1
  have hr0 := reachable_run_keys 20 _ _ s0 (reachable_loaded_default _ (by decide)) hs0
  exact ⟨s0, s, s1, hr0, Reachable.event 20 (some 4) key_zero .set_mark s0 s hr0 e, hs0, ho.1,
    ho.2.1, ho.2.2.1, ho.2.2.2, e, hc.1, hc.2.1, hc.2.2, e1, hc1⟩

/-! ## The dirty flag -/

theorem content_eq_of (s : Ed) : content s = content_of s.buffer s.gap_start s.gap_end := rfl

theorem keep_mk (m : Option Bool) (l : List tedchar) (nlines ncols : Nat) (ip : Bool)
    (pa : Int) (ts : Nat) (ft : Filetype) (etn : Bool)
    (buf : Nat → tedchar) (gs ge : Nat) (tl : Option Nat) (row col goal : Nat) (fg : Bool)
    (mm : Nat → Nat) (ml mf mla mc : Nat) (ma : Bool) (sr : Nat → Nat) (sl sc : Nat)
    (ro dirty : Bool) (lk : key) (kb : Nat → tedchar) (ks : Nat) :
    Keep m l ⟨nlines, ncols, ip, pa, ts, ft, etn, buf, gs, ge, tl, row, col, goal, fg, mm, ml, mf,
      mla, mc, ma, sr, sl, sc, ro, dirty, lk, kb, ks⟩ ↔ KeepC m l buf gs ge dirty := Iff.rfl

theorem keep_fold (m : Option Bool) (l : List tedchar) (s : Ed) :
    KeepC m l s.buffer s.gap_start s.gap_end s.is_dirty ↔ Keep m l s := Iff.rfl

theorem keep_of_dirty (l : List tedchar) (s : Ed) (h : s.is_dirty = true) : Keep none l s :=
  Or.inl h

theorem keep_same (m : Option Bool) (l : List tedchar) (s s1 : Ed)
    (hc : content s1 = content s) (hd : s1.is_dirty = s.is_dirty) (h : Keep m l s) :
    Keep m l s1 := by
  cases m with
  | none =>
    rcases h with h | h
    · exact Or.inl (hd.trans h)
    · exact Or.inr (hc.trans h)
  | some d => exact ⟨hc.trans h.1, hd.trans h.2⟩

theorem keep_dirty_of (s s1 : Ed) (h : ∀ m l, Keep m l s → Keep m l s1) :
    s1.is_dirty = s.is_dirty ∧ content s1 = content s := by
  have := h (some s.is_dirty) (content s) ⟨rfl, rfl⟩
  exact ⟨this.2, this.1⟩

theorem content_forward (s : Ed) (h1 : s.gap_start ≤ s.gap_end) (h2 : s.gap_end < BUFSIZE) :
    content_of (Function.update s.buffer s.gap_start (s.buffer s.gap_end)) (s.gap_start + 1)
      (s.gap_end + 1) = content s := by
  unfold content content_of buffer_size cell
  rw [show s.gap_start + 1 + (BUFSIZE - (s.gap_end + 1)) = s.gap_start + (BUFSIZE - s.gap_end)
    by omega]
  apply List.map_congr_left
  intro i _
  by_cases c1 : i < s.gap_start
  · rw [if_pos c1, if_pos (by omega), Function.update_noteq (by omega)]
  · rw [if_neg c1]
    by_cases c2 : i = s.gap_start
    · rw [if_pos (by omega), c2, Function.update_same, Nat.sub_self, Nat.add_zero]
    · rw [if_neg (by omega), Function.update_noteq (by omega)]
      congr 1
      omega

theorem content_backward_of (s : Ed) (h0 : 0 < s.gap_start) (h1 : s.gap_start ≤ s.gap_end)
    (h2 : s.gap_end ≤ BUFSIZE) :
    content_of (Function.update s.buffer (s.gap_end - 1) (s.buffer (s.gap_start - 1)))
      (s.gap_start - 1) (s.gap_end - 1) = content s := by
  unfold content content_of buffer_size cell
  rw [show s.gap_start - 1 + (BUFSIZE - (s.gap_end - 1)) = s.gap_start + (BUFSIZE - s.gap_end)
    by omega]
  apply List.map_congr_left
  intro i _
  by_cases c1 : i < s.gap_start - 1
  · rw [if_pos c1, if_pos (by omega), Function.update_noteq (by omega)]
  · rw [if_neg c1]
    by_cases c2 : i = s.gap_start - 1
    · have e1 : i < s.gap_start := by omega
      rw [if_pos e1, c2, Nat.sub_self, Nat.add_zero, Function.update_same]
    · have e1 : ¬ i < s.gap_start := by omega
      have e2 : s.gap_end - 1 + (i - (s.gap_start - 1)) = s.gap_end + (i - s.gap_start) := by
        omega
      rw [if_neg e1, e2, Function.update_noteq (by omega)]

theorem deref_val (s : Ed) (p : Nat) (t : tedchar) (h : deref s (some p) = .ok t) :
    t = s.buffer p ∧ p < BUFSIZE := by
  unfold deref at h
  simp only at h
  by_cases c : p < BUFSIZE
  · rw [if_pos c] at h
    cases h
    exact ⟨rfl, c⟩
  · rw [if_neg c] at h
    cases h

theorem keep_forward_char_move (m : Option Bool) (l : List tedchar) (s1 s2 : Ed)
    (h : forward_char_move s1 (char_at_point s1) = .ok s2) (hI : Inv s1)
    (hK : Keep m l s1) : Keep m l s2 := by
  unfold forward_char_move at h
  simp only [bind, Except.bind, pure, Except.pure] at h
  split at h
  · cases h
  rename_i t ht
  have hlt := deref_char_at_point s1 _ t ht
  have hcp : char_at_point s1 = some s1.gap_end := char_at_point_some s1 hI.1 hlt
  rw [hcp] at ht
  have ht2 : t = s1.buffer s1.gap_end := (deref_val _ _ _ ht).1
  split at h
  · cases h
  rename_i w hw
  obtain ⟨hw1, _⟩ := store_fields _ _ _ _ hw
  subst hw1
  have hc := content_forward s1 hI.1 hlt
  repeat' split at h
  all_goals first
    | (cases h; done)
    | (simp only [Except.ok.injEq] at h
       subst h
       subst ht2
       refine keep_same m l s1 _ ?_ rfl hK
       exact hc)

theorem keep_backward_char_move (m : Option Bool) (l : List tedchar) (s s1 : Ed)
    (h : backward_char_move s = .ok s1) (hI : Inv s) (hK : Keep m l s) : Keep m l s1 := by
  unfold backward_char_move at h
  split at h
  · rename_i h0
    simp only [bind, Except.bind, pure, Except.pure] at h
    split at h
    · cases h
    rename_i g hg
    have hg2 : g = s.buffer (s.gap_start - 1) := (deref_val _ _ _ hg).1
    split at h
    · cases h
    rename_i w hw
    obtain ⟨hw1, _⟩ := store_fields _ _ _ _ hw
    subst hw1
    have hc := content_backward_of s h0 hI.1 hI.2.1
    repeat' split at h
    all_goals first
      | (cases h; done)
      | (simp only [Except.ok.injEq] at h
         subst h
         subst hg2
         refine keep_same m l s _ ?_ rfl hK
         exact hc)
  · cases h
    exact hK

theorem keep_kill_copy_loop (m : Option Bool) (l : List tedchar) (last : Option Nat) :
    ∀ (f : Nat) (t : Option Nat) (s s1 : Ed), kill_copy_loop last f t s = .ok s1 →
      Keep m l s → Keep m l s1 := by
  intro f
  induction f with
  | zero =>
    intro t s s1 h hK
    cases t with
    | none => simp only [kill_copy_loop, Except.ok.injEq] at h; rw [← h]; exact hK
    | some p => simp only [kill_copy_loop] at h; cases h
  | succ f ih =>
    intro t s s1 h hK
    cases t with
    | none => simp only [kill_copy_loop, Except.ok.injEq] at h; rw [← h]; exact hK
    | some p =>
      simp only [kill_copy_loop] at h
      repeat' split at h
      all_goals first | (cases h; done) | (cases h; assumption) | exact ih _ _ _ h hK

theorem insert_store_dirty (t : tedchar) (s s1 : Ed) (h : insert_store t s = .ok s1) :
    s1.is_dirty = s.is_dirty := by
  unfold insert_store at h
  split at h
  · simp only [bind, Except.bind, pure, Except.pure] at h
    split at h
    · cases h
    rename_i w hw
    obtain ⟨hw1, _⟩ := store_fields _ _ _ _ hw
    subst hw1
    simp only [Except.ok.injEq] at h
    subst h
    rfl
  · cases h

theorem allowed_quiet (m : Option Bool) (q : Proc) (hq : q.quiet = true)
    (hn : q.nosave = true) : allowed m q = true := by
  cases m with
  | none => exact hn
  | some d => exact hq

theorem scroll_at_last_row_keep (call : Call)
    (hK : ∀ q s s1, call q s = .ok s1 → Kept q s s1) (s s1 : Ed) (b : Bool)
    (h : scroll_at_last_row call s = .ok (s1, b)) (hI : Inv s) (m : Option Bool)
    (l : List tedchar) (hK0 : Keep m l s) : Keep m l s1 := by
  unfold scroll_at_last_row at h
  split at h
  · split at h
    · cases h
    split at h
    · cases h
    split at h
    · split at h
      · cases h
      · rename_i s2 hs2
        simp only [Except.ok.injEq, Prod.mk.injEq] at h
        obtain ⟨h1, h2⟩ := h
        subst h1 h2
        exact hK _ _ _ hs2 hI True.intro m l (allowed_quiet m _ rfl rfl) hK0
    · simp only [Except.ok.injEq, Prod.mk.injEq] at h
      obtain ⟨h1, h2⟩ := h
      subst h1 h2
      exact hK0
  · simp only [Except.ok.injEq, Prod.mk.injEq] at h
    obtain ⟨h1, h2⟩ := h
    subst h1 h2
    exact hK0

theorem kept_forward_char_loop (call : Call)
    (hG : ∀ q s s1, call q s = .ok s1 → Good q s s1)
    (hK : ∀ q s s1, call q s = .ok s1 → Kept q s s1) (r : Nat) (s s1 : Ed)
    (h : forward_char_loop call r s = .ok s1) (hI : Inv s) (m : Option Bool)
    (l : List tedchar) (hK0 : Keep m l s) : Keep m l s1 := by
  unfold forward_char_loop at h
  split at h
  · cases h; exact hK0
  split at h
  · cases h; exact hK0
  split at h
  · cases h
  rename_i sa scrolled hsa
  obtain ⟨hIa, hb, _⟩ := scroll_at_last_row_spec call hG s sa scrolled hsa hI
  have hKa := scroll_at_last_row_keep call hK s sa scrolled hsa hI m l hK0
  have hcp : (if scrolled = true then char_at_point sa else char_at_point s) =
      char_at_point sa := by
    cases scrolled with
    | true => rfl
    | false => rw [hb rfl]; rfl
  rw [hcp] at h
  split at h
  · cases h
  rename_i s2 hs2
  exact hK _ _ _ h (forward_char_move_inv sa s2 hIa hs2) True.intro m l
    (allowed_quiet m _ rfl rfl) (keep_forward_char_move m l sa s2 hs2 hIa hKa)

theorem delete_char_drop_dirty (s : Ed) : (delete_char_drop s).is_dirty = s.is_dirty := rfl

theorem kept_delete_char_loop (call : Call)
    (hG : ∀ q s s1, call q s = .ok s1 → Good q s s1)
    (hK : ∀ q s s1, call q s = .ok s1 → Kept q s s1) (r : Nat) (s s1 : Ed)
    (h : delete_char_loop call r s = .ok s1) (hI : Inv s) (hp : Ed.is_prefix s = false)
    (l : List tedchar) (hK0 : Keep none l s) : Keep none l s1 := by
  unfold delete_char_loop at h
  split at h
  · cases h; exact hK0
  split at h
  · cases h; exact hK0
  rename_i hne
  split at h
  · cases h
  rename_i sa scrolled hsa
  obtain ⟨hIa, _, hsame⟩ :=
    scroll_at_last_row_spec call hG { s with is_dirty := true } sa scrolled hsa hI
  have hKa := scroll_at_last_row_keep call hK { s with is_dirty := true } sa scrolled hsa hI
    (some true) (content { s with is_dirty := true }) ⟨rfl, rfl⟩
  obtain ⟨g1, g2, g3⟩ := hsame hp
  simp only at g1 g2
  have hend : s.gap_end ≠ BUFSIZE := by
    intro he
    apply hne
    simp [is_point_at_end_of_buffer, he]
  refine hK _ _ _ h ?_ g3 none l rfl (keep_of_dirty l _ ?_)
  · unfold Inv at hI hIa
    exact ⟨by show sa.gap_start ≤ sa.gap_end + 1; omega,
      by show sa.gap_end + 1 ≤ BUFSIZE; omega, hIa.2.2⟩
  · rw [delete_char_drop_dirty]
    exact hKa.2

theorem kept_delete_char (call : Call)
    (hK : ∀ q s s1, call q s = .ok s1 → Kept q s s1) (s s1 : Ed)
    (h : delete_char call s = .ok s1) (hI : Inv s) (l : List tedchar)
    (hK0 : Keep none l s) : Keep none l s1 := by
  unfold delete_char at h
  split at h
  · cases h; exact hK0
  · exact hK _ _ _ h hI rfl none l rfl hK0

theorem kept_do_insert_char (call : Call)
    (hK : ∀ q s s1, call q s = .ok s1 → Kept q s s1) (t : tedchar) (s s1 : Ed)
    (h : do_insert_char call t s = .ok s1) (hI : Inv s) : s1.is_dirty = true := by
  unfold do_insert_char at h
  simp only [bind, Except.bind, pure, Except.pure] at h
  split at h
  · cases h
  rename_i s2 hs2
  have hd2 : s2.is_dirty = true := insert_store_dirty t _ s2 hs2
  have hI2 : Inv s2 := insert_store_inv t _ s2 hs2 hI
  split at h
  · cases h
  split at h
  · split at h
    · split at h
      · cases h
      · rename_i a ha
        have hKa := hK _ _ _ ha hI2 True.intro (some true) (content s2) rfl ⟨rfl, hd2⟩
        cases h
        exact hKa.2
    · cases h
      exact hd2
  · cases h
    exact hd2

theorem kept_save_buffer (call : Call)
    (hK : ∀ q s s1, call q s = .ok s1 → Kept q s s1) (s s1 : Ed)
    (h : save_buffer call false s = .ok s1) (hI : Inv s) (l : List tedchar)
    (hK0 : Keep none l s) : Keep none l s1 := by
  unfold save_buffer at h
  simp only [bind, Except.bind, pure, Except.pure] at h
  split at h
  · cases h
  · rename_i a ha
    cases h
    exact hK _ _ _ ha hI True.intro none l rfl hK0

theorem kept_quit (call : Call) (io_ok : Bool) (s s1 : Ed)
    (h : quit call io_ok s = .ok s1) (l : List tedchar) (hK0 : Keep none l s) :
    Keep none l s1 := by
  unfold quit at h
  simp only [bind, Except.bind, pure, Except.pure] at h
  split at h
  · split at h
    · split at h
      · cases h
      · rename_i a ha
        split at h
        · cases h
        · rename_i hd
          cases h
          apply keep_of_dirty
          simpa using hd
    · cases h
      exact hK0
  · cases h

set_option maxRecDepth 8000 in
set_option maxHeartbeats 8000000 in
/-- Every program point keeps its contract for the dirty flag when the calls it makes
keep theirs. -/
theorem step_kept (call : Call) (hG : ∀ q s s1, call q s = .ok s1 → Good q s s1)
    (hK : ∀ q s s1, call q s = .ok s1 → Kept q s s1)
    (p : Proc) (s s1 : Ed) (h : step call p s = .ok s1) : Kept p s s1 := by
  have hc := call_inv call hG
  intro hI hGd m l hal hK0
  cases p
  case forward_char_loop r => exact kept_forward_char_loop call hG hK r s s1 h hI m l hK0
  case delete_char_loop r =>
    cases m with
    | some d => cases hal
    | none => exact kept_delete_char_loop call hG hK r s s1 h hI hGd l hK0
  case delete_char =>
    cases m with
    | some d => cases hal
    | none => exact kept_delete_char call hK s s1 h hI l hK0
  case do_insert_char t =>
    cases m with
    | some d => cases hal
    | none => exact keep_of_dirty l s1 (kept_do_insert_char call hK t s s1 h hI)
  case save_buffer io_ok =>
    cases m with
    | some d => cases hal
    | none =>
      cases io_ok with
      | true => cases hal
      | false => exact kept_save_buffer call hK s s1 h hI l hK0
  case quit io_ok =>
    cases m with
    | some d => cases hal
    | none => exact kept_quit call io_ok s s1 h l hK0
  all_goals
    simp only [step, scroll_down, scroll_down_loop, scroll_up, scroll_up_loop, forward_char,
      backward_char,
      backward_char_loop, forward_word, forward_word_loop, forward_word_ws, forward_word_text,
      backward_word, backward_word_loop, backward_word_ws, backward_word_text,
      forward_paragraph, forward_paragraph_loop, forward_paragraph_ws, forward_paragraph_run,
      backward_paragraph, backward_paragraph_loop, backward_paragraph_ws,
      backward_paragraph_run, backward_paragraph_fwd, next_row, next_row_loop, next_row_goal,
      previous_row, previous_row_loop, previous_row_goal, beginning_of_row, end_of_row,
      beginning_of_line, beginning_of_line_loop, end_of_line, end_of_line_loop, goto_line,
      goto_line_loop, move_to, move_to_loop, goto_percent, beginning_of_buffer, end_of_buffer,
      page_down, page_down_loop, page_down_for, page_up, page_up_loop, page_up_for,
      insert_char, insert_char_loop, open_line, open_line_loop, open_next_line,
      open_next_line_loop, open_previous_line, open_previous_line_loop, delete_region,
      delete_region_loop, delete_backward_char, delete_backward_char_loop, delete_forward_char,
      maybe_insert_trailing_newline, exchange_point_and_mark, set_mark,
      set_mark_then, kill_region_save, kill_region, kill_region_loop, yank, yank_loop, yank_for,
      search_previous, search_next, search_buffer, unbound_text_key,
      bind, Except.bind, pure, Except.pure] at h
  all_goals repeat' split at h
  all_goals first | (cases h; done) | skip
  all_goals try cases h
  all_goals cases m
  all_goals first | (cases hal; done) | skip
  all_goals
    repeat' (first
      | (simp only [inv_mk, inv_fold, keep_mk, keep_fold, prefix_clear, update_goal,
          disable_mark, do_push_mark, set_goal_column, search_quit, cancel,
          toggle_read_only_mode])
      | exact hI
      | exact hK0
      | exact True.intro
      | rfl
      | (refine hK _ _ _ (by assumption) ?_ ?_ _ l ?_ ?_)
      | (refine hc _ _ _ (by assumption) True.intro ?_)
      | (refine keep_backward_char_move _ l _ _ (by assumption) ?_ ?_)
      | (refine backward_char_move_inv _ _ (by assumption) ?_)
      | (refine insert_store_inv _ _ _ (by assumption) ?_)
      | (refine keep_kill_copy_loop _ l _ _ _ _ _ (by assumption) ?_))

theorem exec_kept : ∀ (f : Nat) (p : Proc) (s s1 : Ed), exec f p s = .ok s1 → Kept p s s1 := by
  intro f
  induction f with
  | zero =>
    intro p s s1 h
    simp only [exec] at h
    cases h
  | succ n ih =>
    intro p s s1 h
    exact step_kept (exec n) (exec_good n) ih p s s1 h

theorem key_event_kept (fuel : Nat) (count : Option Nat) (k : key) (c : Cmd) (s s1 : Ed)
    (h : key_event fuel count k c s = .ok s1) (hI : Inv s) (m : Option Bool)
    (l : List tedchar) (hal : allowed m (c.proc k) = true) (hK : Keep m l s) :
    Keep m l s1 := by
  unfold key_event at h
  cases count <;> cases c
  case none.self_insert =>
    simp only at h
    split_ifs at h
    · exact exec_kept _ _ _ _ h hI (guard_proc k .self_insert _) m l hal hK
    · cases h
      exact hK
  case some.self_insert =>
    simp only at h
    split_ifs at h
    · exact exec_kept _ _ _ _ h hI (guard_proc k .self_insert _) m l hal hK
    · cases h
      exact hK
  all_goals exact exec_kept _ _ _ _ h hI True.intro m l hal hK

/-- For a command that returns from a state with the gap invariant: unless it is the
`save_buffer` that reaches `ed.is_dirty = false`, a character sequence that differs
from the one before comes with `is_dirty` true afterwards; and a motion, mark, scroll or
search command (a command whose program point is `quiet`) leaves `is_dirty` as it
was. -/
theorem dirty_flag (fuel : Nat) (count : Option Nat) (k : key) (c : Cmd) (s s1 : Ed)
    (hI : Inv s) (h : key_event fuel count k c s = .ok s1) :
    (c ≠ .save_buffer true → content s1 ≠ content s → s1.is_dirty = true) ∧
      ((c.proc k).quiet = true → s1.is_dirty = s.is_dirty) := by
  constructor
  · intro hc hne
    have hal : allowed none (c.proc k) = true := by
      cases c
      case save_buffer io_ok =>
        cases io_ok with
        | true => exact absurd rfl hc
        | false => rfl
      all_goals rfl
    rcases key_event_kept fuel count k c s s1 h hI none (content s) hal (Or.inr rfl) with hd | hd
    · exact hd
    · exact absurd hd hne
  · intro hq
    exact (key_event_kept fuel count k c s s1 h hI (some s.is_dirty) (content s) hq
      ⟨rfl, rfl⟩).2

theorem after_keys_single (f : Nat) (count : Option Nat) (k : key) (c : Cmd) (s : Ed)
    (h : (key_event f count k c s).map (fun _ => ()) = .ok ()) :
    key_event f count k c s = .ok (after_keys f [(count, k, c)] s) := by
  obtain ⟨a, ha, _⟩ := map_ok_exists _ _ _ h
  unfold after_keys
  simp only [run_keys, ha]

/-- Witness of `dirty_flag`: typing `x` after loading the file `a` changes the content
and sets `is_dirty`. -/
theorem dirty_flag_witness :
    (Cmd.self_insert ≠ .save_buffer true →
        content (after_keys 20 [(none, { key_zero with u := utf8_ascii 0x78 }, .self_insert)]
          (loaded Config.default [0x61])) ≠ content (loaded Config.default [0x61]) →
        (after_keys 20 [(none, { key_zero with u := utf8_ascii 0x78 }, .self_insert)]
          (loaded Config.default [0x61])).is_dirty = true) ∧
      ((Cmd.self_insert.proc { key_zero with u := utf8_ascii 0x78 }).quiet = true →
        (after_keys 20 [(none, { key_zero with u := utf8_ascii 0x78 }, .self_insert)]
          (loaded Config.default [0x61])).is_dirty = (loaded Config.default [0x61]).is_dirty) :=
  dirty_flag 20 none { key_zero with u := utf8_ascii 0x78 } .self_insert
    (loaded Config.default [0x61])
    (after_keys 20 [(none, { key_zero with u := utf8_ascii 0x78 }, .self_insert)]
      (loaded Config.default [0x61]))
    (reachable_inv _ (reachable_loaded_default _ (by decide)))
    (after_keys_single 20 none _ .self_insert _ (by decide))

/-- Witness of `special_bytes_decode`: the byte `0x41` is the key `A`. -/
theorem special_bytes_decode_witness :
    read_key [0x41] = .ok { n := 0, m := 0, u := { c0 := 0x41, c1 := 0, c2 := 0, c3 := 0 },
                            shift := 0, ctrl := 0, meta := 0, super := 0, special := 0 } :=
  special_bytes_decode.2.2.2.2.1 0x41 (by decide) (by decide)

/-! ## C21: a save whose write fails -/

/-- C21 (code bug): on the file `a`, which does not end in a newline, the keys `C-x C-s`
typed while the write fails (`write_all` returns an error, as on a full disk) and
`open_save_file`, `close` and `rename` succeed: the command is no successful save, the
character sequence changes from `a` to `a\n`, and `is_dirty` is false afterwards.
`write_buffer_to_file` is `void` and returns on the failed `write_all`; `save_buffer`
goes on to rename the file it could not write over the original and to
`ed.is_dirty = false`. -/
theorem failed_write_clears_dirty :
    ∃ s, Reachable s ∧
      SaveCalls.disk_full.successful = false ∧
      key_event 20 none key_zero
        (.save_buffer SaveCalls.disk_full.io_ok)
        (loaded Config.default [0x61]) = .ok s ∧
      encode_chars .UNIX (content (loaded Config.default [0x61])) = [0x61] ∧
      encode_chars .UNIX (content s) = [0x61, 10] ∧
      content s ≠ content (loaded Config.default [0x61]) ∧
      s.is_dirty = false := by
  have h : (key_event 20 none key_zero
      (.save_buffer SaveCalls.disk_full.io_ok)
      (loaded Config.default [0x61])).map
      (fun s => (encode_chars .UNIX (content s), s.is_dirty)) = .ok ([0x61, 10], false) := by
    decide
  obtain ⟨s, hs, ho⟩ := map_ok_exists _ _ _ h
  simp only [Prod.mk.injEq] at ho
  have h0 : encode_chars .UNIX (content (loaded Config.default [0x61])) = [0x61] := by decide
  refine ⟨s, Reachable.event 20 none key_zero _ _ s (reachable_loaded_default _ (by decide)) hs,
    by decide, hs, h0, ho.1, ?_, ho.2⟩
  intro he
  rw [he, h0] at ho
  exact absurd ho.1 (by decide)

/-! ## backward_word and beginning_of_line at the first character -/

/-- C31 fails on the code. The file is ` a` (a space, then `a`) and the point is moved
to the end, index 2. `backward_word` steps back to the `a` at index 1, the loop over the
word steps back once more to the space at index 0, finds the point at the beginning of
the buffer and returns there, before the `forward_char()` that ends a turn: the point is
0, where a whitespace character stands, and not the start 1 of the word. With two
spaces before the word the loop stops at index 1 and the result is the start 2. -/
theorem backward_word_returns_at_first_char :
    ∃ s0 s s2 s3, Reachable s0 ∧
      run_keys 20 [(none, key_zero, .end_of_buffer)] (loaded Config.default [0x20, 0x61]) =
        .ok s0 ∧
      where_ s0 = 2 ∧
      key_event 20 none key_zero .backward_word s0 = .ok s ∧
      where_ s = 0 ∧ where_ s ≠ 1 ∧
      encode_chars .UNIX (content s) = [0x20, 0x61] ∧
      is_whitespace (cell s 0) = true ∧ is_whitespace (cell s 1) = false ∧
      run_keys 20 [(none, key_zero, .end_of_buffer)]
        (loaded Config.default [0x20, 0x20, 0x61]) = .ok s2 ∧
      where_ s2 = 3 ∧
      key_event 20 none key_zero .backward_word s2 = .ok s3 ∧ where_ s3 = 2 := by
  have h : (run_keys 20 [(none, key_zero, .end_of_buffer)]
      (loaded Config.default [0x20, 0x61])).map where_ = .ok 2 := by decide
  have h2 : ((run_keys 20 [(none, key_zero, .end_of_buffer)]
      (loaded Config.default [0x20, 0x61])).bind
        (key_event 20 none key_zero .backward_word)).map
      (fun s => (where_ s, encode_chars .UNIX (content s), is_whitespace (cell s 0),
        is_whitespace (cell s 1))) = .ok (0, [0x20, 0x61], true, false) := by decide
  have h3 : (run_keys 20 [(none, key_zero, .end_of_buffer)]
      (loaded Config.default [0x20, 0x20, 0x61])).map where_ = .ok 3 := by decide
  have h4 : ((run_keys 20 [(none, key_zero, .end_of_buffer)]
      (loaded Config.default [0x20, 0x20, 0x61])).bind
        (key_event 20 none key_zero .backward_word)).map where_ = .ok 2 := by decide
  obtain ⟨s0, hs0, ho⟩ := map_ok_exists _ _ _ h
  rw [hs0] at h2
  obtain ⟨s, hs, hp⟩ := map_ok_exists _ _ _ h2
  simp only [Prod.mk.injEq] at hp
  obtain ⟨s2, hs2, ho2⟩ := map_ok_exists _ _ _ h3
  rw [hs2] at h4
  obtain ⟨s3, hs3, ho3⟩ := map_ok_exists _ _ _ h4
  have hr : Reachable s0 :=
    reachable_run_keys _ _ _ _ (reachable_loaded_default _ (by decide)) hs0
  exact ⟨s0, s, s2, s3, hr, hs0, ho, hs, hp.1, by rw [hp.1]; decide, hp.2.1, hp.2.2.1,
    hp.2.2.2, hs2, ho2, hs3, ho3⟩

/-- C38 fails on the code for `beginning_of_line`. The file is two newlines and the
point is moved to index 1, the start of the second line. `beginning_of_line` finds a
newline at the point and steps back to index 0; the loop then tests
`is_point_at_beginning_of_buffer()` before it looks for a newline and returns: the
point is 0, on the first line, and not 1. On `a`, newline, newline from index 2 the
loop sees the newline at index 1 first and the result is 2. -/
theorem beginning_of_line_leaves_the_line :
    ∃ s0 s s2 s3, Reachable s0 ∧
      run_keys 20 [(none, key_zero, .forward_char)] (loaded Config.default [10, 10]) =
        .ok s0 ∧
      where_ s0 = 1 ∧ is_newline (cell s0 0) = true ∧
      key_event 20 none key_zero .beginning_of_line s0 = .ok s ∧
      where_ s = 0 ∧ where_ s ≠ 1 ∧
      encode_chars .UNIX (content s) = [10, 10] ∧
      run_keys 20 [(none, key_zero, .forward_char), (none, key_zero, .forward_char)]
        (loaded Config.default [0x61, 10, 10]) = .ok s2 ∧
      where_ s2 = 2 ∧
      key_event 20 none key_zero .beginning_of_line s2 = .ok s3 ∧ where_ s3 = 2 := by
  have h : (run_keys 20 [(none, key_zero, .forward_char)]
      (loaded Config.default [10, 10])).map (fun s => (where_ s, is_newline (cell s 0))) =
      .ok (1, true) := by decide
  have h2 : ((run_keys 20 [(none, key_zero, .forward_char)]
      (loaded Config.default [10, 10])).bind
        (key_event 20 none key_zero .beginning_of_line)).map
      (fun s => (where_ s, encode_chars .UNIX (content s))) = .ok (0, [10, 10]) := by decide
  have h3 : (run_keys 20 [(none, key_zero, .forward_char), (none, key_zero, .forward_char)]
      (loaded Config.default [0x61, 10, 10])).map where_ = .ok 2 := by decide
  have h4 : ((run_keys 20 [(none, key_zero, .forward_char), (none, key_zero, .forward_char)]
      (loaded Config.default [0x61, 10, 10])).bind
        (key_event 20 none key_zero .beginning_of_line)).map where_ = .ok 2 := by decide
  obtain ⟨s0, hs0, ho⟩ := map_ok_exists _ _ _ h
  simp only [Prod.mk.injEq] at ho
  rw [hs0] at h2
  obtain ⟨s, hs, hp⟩ := map_ok_exists _ _ _ h2
  simp only [Prod.mk.injEq] at hp
  obtain ⟨s2, hs2, ho2⟩ := map_ok_exists _ _ _ h3
  rw [hs2] at h4
  obtain ⟨s3, hs3, ho3⟩ := map_ok_exists _ _ _ h4
  have hr : Reachable s0 :=
    reachable_run_keys _ _ _ _ (reachable_loaded_default _ (by decide)) hs0
  exact ⟨s0, s, s2, s3, hr, hs0, ho.1, ho.2, hs, hp.1, by rw [hp.1]; decide, hp.2, hs2, ho2,
    hs3, ho3⟩

/-! ## The test of the modification time -/

theorem timespec_lt_iff (a b : timespec) :
    timespec_lt a b = true ↔
      timespec_earlier a b ∨ (b.tv_sec < a.tv_sec ∧ a.tv_nsec < b.tv_nsec) := by
  unfold timespec_lt timespec_earlier
  simp only [Bool.or_eq_true, decide_eq_true_eq]
  omega

/-- C33 fails on the code. `timespec_lt` compares the seconds and the nanoseconds
separately: for the recorded time 5 s + 1 ns and the time 3 s + 2 ns of the file on
disk, which is earlier, it returns true because 1 < 2, so `save_buffer` reports the
file as modified. The function is not even asymmetric: it also returns true with the
two times exchanged, where the first is indeed the earlier one. -/
theorem timespec_lt_compares_fields_apart :
    timespec_lt ⟨5, 1⟩ ⟨3, 2⟩ = true ∧ ¬ timespec_earlier ⟨5, 1⟩ ⟨3, 2⟩ ∧
      save_conflict ⟨5, 1⟩ ⟨3, 2⟩ = true ∧
      timespec_earlier ⟨3, 2⟩ ⟨5, 1⟩ ∧ timespec_lt ⟨3, 2⟩ ⟨5, 1⟩ = true := by
  decide

/-! ## Traces of the renderer with a region -/

set_option maxRecDepth 100000 in
theorem tab_file_region :
    (run_keys 40 keys_mark_all (loaded { Config.default with ncols := 30 } tab_file)).map
      (fun s => (s.marks_is_active, point_mark_low_high s)) = .ok (true, (0, 27)) := by decide

set_option maxRecDepth 100000 in
theorem tab_file_screen :
    ((run_keys 40 keys_mark_all (loaded { Config.default with ncols := 30 } tab_file)).bind
        refresh).map (fun o => o.take 49) =
      .ok ([0x1b, 0x5b, 0x37, 0x6d] ++ List.replicate 25 0x61 ++ List.replicate 5 0x20 ++
          CONTINUATION_LINE_STR ++ [0x1b, 0x5b, 0x4b, 0x0d, 0x0a] ++ [0x62]) := by decide

set_option maxRecDepth 100000 in
theorem wrap_file_region :
    (run_keys 40 keys_mark_all (loaded { Config.default with ncols := 30 } wrap_file)).map
      (fun s => (s.marks_is_active, point_mark_low_high s)) = .ok (true, (0, 31)) := by decide

set_option maxRecDepth 100000 in
theorem wrap_file_screen :
    ((run_keys 40 keys_mark_all (loaded { Config.default with ncols := 30 } wrap_file)).bind
        refresh).map (fun o => o.take 56) =
      .ok ([0x1b, 0x5b, 0x37, 0x6d] ++ List.replicate 30 0x61 ++ [0x1b, 0x5b, 0x6d] ++
          CONTINUATION_LINE_STR ++ [0x1b, 0x5b, 0x4b, 0x0d, 0x0a] ++ [0x1b, 0x5b, 0x37, 0x6d] ++
          [0x62]) := by decide

theorem tab_file_reachable :
    Reachable (loaded { Config.default with ncols := 30 } tab_file) := by
  have hl : (loadf { Config.default with ncols := 30 } tab_file).map (fun _ => ()) = .ok () := by
    decide
  obtain ⟨l, hl1, _⟩ := map_ok_exists _ _ _ hl
  rw [loaded_eq _ _ l hl1]
  exact reachable_loaded _ _ l (by decide) rfl hl1


/-! ## The renderer at the end of the buffer and at a tab -/

/-- C36 fails on the code. With 10 rows and 30 columns the file of 30 letters `a`
without newline is loaded; the viewport invariant holds, the cursor is at the top left.
The thirtieth letter fills the last column: `refresh` prints it, advances `current` to
NULL, emits the continuation marker with erase-line, CR, LF and leaves the inner loop;
the test `!newline && !current` after the loop then holds as well and a second
erase-line, CR, LF is emitted in the same turn. The nine empty lines follow, so the
screen buffer holds 11 terminators for 10 rows. With 29 letters it holds 10. -/
theorem refresh_extra_line_break :
    ({ Config.default with ncols := 30 } : Config).valid ∧
      Reachable (loaded { Config.default with ncols := 30 } (List.replicate 30 0x61)) ∧
      viewport_ok (loaded { Config.default with ncols := 30 } (List.replicate 30 0x61)) = true ∧
      Tidy (loaded { Config.default with ncols := 30 } (List.replicate 30 0x61)) ∧
      (loaded { Config.default with ncols := 30 } (List.replicate 30 0x61)).nlines = 10 ∧
      (refresh (loaded { Config.default with ncols := 30 } (List.replicate 30 0x61))).map
          (fun o => (crlf_count o, o.take 49)) =
        .ok (11, List.replicate 30 0x61 ++ CONTINUATION_LINE_STR ++
          [0x1b, 0x5b, 0x4b, 0x0d, 0x0a] ++ [0x1b, 0x5b, 0x4b, 0x0d, 0x0a]) ∧
      (refresh (loaded { Config.default with ncols := 30 } (List.replicate 29 0x61))).map
          crlf_count = .ok 10 := by
  have h : (loadf { Config.default with ncols := 30 } (List.replicate 30 0x61)).map
      (fun _ => ()) = .ok () := by decide
  obtain ⟨s, hs, _⟩ := map_ok_exists _ _ _ h
  have hr : Reachable (loaded { Config.default with ncols := 30 } (List.replicate 30 0x61)) := by
    rw [loaded_eq _ _ s hs]
    exact reachable_loaded _ _ s (by decide) rfl hs
  refine ⟨by decide, hr, by decide, by decide, by decide, by decide, by decide⟩

/-- C37 fails on the code at a tab. With 30 columns and tab stops of 8 the file is 25
letters `a`, a tab and `b`; `C-SPC` at the start and a move to the end make the whole
text the region. `refresh` switches reverse video on before the first letter; the tab
at column 25 overflows the row, and the branch of the tab pads to the column bound and
emits the continuation marker and the line break with reverse video still on, and
does not switch it on again after the break, although the marker ends with the reset
`ESC [ m`: the `b` of the region follows the break at once. With 30 letters before the
`b` the row is broken after a character, and reverse video is switched off before the
marker and on again after the break. -/
theorem tab_break_keeps_highlight :
    ∃ s s2, Reachable s ∧
      run_keys 40 keys_mark_all (loaded { Config.default with ncols := 30 } tab_file) = .ok s ∧
      s.marks_is_active = true ∧ point_mark_low_high s = (0, 27) ∧
      (refresh s).map (fun o => o.take 49) =
        .ok ([0x1b, 0x5b, 0x37, 0x6d] ++ List.replicate 25 0x61 ++ List.replicate 5 0x20 ++
          CONTINUATION_LINE_STR ++ [0x1b, 0x5b, 0x4b, 0x0d, 0x0a] ++ [0x62]) ∧
      run_keys 40 keys_mark_all (loaded { Config.default with ncols := 30 } wrap_file) =
        .ok s2 ∧
      s2.marks_is_active = true ∧ point_mark_low_high s2 = (0, 31) ∧
      (refresh s2).map (fun o => o.take 56) =
        .ok ([0x1b, 0x5b, 0x37, 0x6d] ++ List.replicate 30 0x61 ++ [0x1b, 0x5b, 0x6d] ++
          CONTINUATION_LINE_STR ++ [0x1b, 0x5b, 0x4b, 0x0d, 0x0a] ++ [0x1b, 0x5b, 0x37, 0x6d] ++
          [0x62]) := by
  have h2 := tab_file_screen
  have h4 := wrap_file_screen
  obtain ⟨s, hs, ho⟩ := map_ok_exists _ _ _ tab_file_region
  simp only [Prod.mk.injEq] at ho
  rw [hs] at h2
  obtain ⟨s2, hs2, ho2⟩ := map_ok_exists _ _ _ wrap_file_region
  simp only [Prod.mk.injEq] at ho2
  rw [hs2] at h4
  exact ⟨s, s2, reachable_run_keys _ _ _ _ tab_file_reachable hs, hs, ho.1, ho.2, h2, hs2,
    ho2.1, ho2.2, h4⟩

/-! ## The literals of the keymap and the keys read from the terminal -/

set_option maxRecDepth 100000 in
theorem keymap_sequences_decode :
    ∀ e ∈ keymap_sequences, e.1 ∈ global_keymap_literals ∧ decodes_to e.1 e.2 = .ok true := by
  decide

set_option maxRecDepth 100000 in
theorem keymap_sequences_all :
    keymap_sequences.map Prod.fst = global_keymap_literals.filter is_navigation_literal := by
  decide

set_option maxRecDepth 100000 in
theorem keymap_literals_differ :
    ∀ a ∈ global_keymap_literals, ∀ b ∈ global_keymap_literals, a ≠ b →
      same_key a b = .ok false := by
  decide

theorem decodes_to_ok (lit : String) (seq : List Nat) (v : Bool)
    (h : decodes_to lit seq = .ok v) :
    ∃ k k1, read_key seq = .ok k ∧ kbd lit = .ok k1 ∧ key_eq k k1 = v := by
  unfold decodes_to at h
  cases h1 : read_key seq with
  | error e => rw [h1] at h; cases h
  | ok k =>
    cases h2 : kbd lit with
    | error e => rw [h1, h2] at h; cases h
    | ok k1 =>
      rw [h1, h2] at h
      exact ⟨k, k1, rfl, rfl, by injection h⟩

theorem same_key_ok (a b : String) (v : Bool) (h : same_key a b = .ok v) :
    ∃ ka kb, kbd a = .ok ka ∧ kbd b = .ok kb ∧ key_eq ka kb = v := by
  unfold same_key at h
  cases h1 : kbd a with
  | error e => rw [h1] at h; cases h
  | ok k =>
    cases h2 : kbd b with
    | error e => rw [h1, h2] at h; cases h
    | ok k1 =>
      rw [h1, h2] at h
      exact ⟨k, k1, rfl, rfl, by injection h⟩

/-- C39: for every arrow or navigation literal `lit` of the global keymap, with or
without the modifiers `C-`, `S-`, `C-S-` (the table `keymap_sequences` holds all of them:
every literal of `global_keymap[]` in angle brackets but `C-<space>` and `<backspace>`),
the key that `read_key` decodes through `scan_escape` and `scan_cs` from the bytes `seq`
the terminal sends for it (`ESC [ 1 ; m X` with `m - 1` the modifier mask, `ESC [ X`
without modifier, `ESC [ n ~` for delete, prior and next) is `key_eq` to `kbd(lit)`;
and for two distinct literals `a` and `b` of the global keymap `kbd(a)` and `kbd(b)` are
not `key_eq`. -/
theorem keymap_literals_decode (lit a b : String) (seq : List Nat)
    (h : (lit, seq) ∈ keymap_sequences) (ha : a ∈ global_keymap_literals)
    (hb : b ∈ global_keymap_literals) (hab : a ≠ b) :
    (lit ∈ global_keymap_literals ∧
        ∃ k k1, read_key seq = .ok k ∧ kbd lit = .ok k1 ∧ key_eq k k1 = true) ∧
      (∃ ka kb, kbd a = .ok ka ∧ kbd b = .ok kb ∧ key_eq ka kb = false) ∧
      keymap_sequences.map Prod.fst = global_keymap_literals.filter is_navigation_literal :=
  ⟨⟨(keymap_sequences_decode _ h).1, decodes_to_ok _ _ _ (keymap_sequences_decode _ h).2⟩,
    same_key_ok _ _ _ (keymap_literals_differ a ha b hb hab), keymap_sequences_all⟩

/-- Witness of `keymap_literals_decode`: `C-<right>` with the bytes `ESC [ 1 ; 5 C`, and
the literals `C-<left>` and `M-b`, both bound to `backward_word`. -/
theorem keymap_literals_decode_witness :
    (("C-<right>", [0x1b, 0x5b, 0x31, 0x3b, 0x35, 0x43]) ∈ keymap_sequences ∧
        "C-<left>" ∈ global_keymap_literals ∧ "M-b" ∈ global_keymap_literals ∧
        "C-<left>" ≠ "M-b") ∧
      ("C-<right>" ∈ global_keymap_literals ∧
        ∃ k k1, read_key [0x1b, 0x5b, 0x31, 0x3b, 0x35, 0x43] = .ok k ∧
          kbd "C-<right>" = .ok k1 ∧ key_eq k k1 = true) ∧
      (∃ ka kb, kbd "C-<left>" = .ok ka ∧ kbd "M-b" = .ok kb ∧ key_eq ka kb = false) :=
  ⟨⟨by decide, by decide, by decide, by decide⟩,
    (keymap_literals_decode "C-<right>" "C-<left>" "M-b" [0x1b, 0x5b, 0x31, 0x3b, 0x35, 0x43]
      (by decide) (by decide) (by decide) (by decide)).1,
    (keymap_literals_decode "C-<right>" "C-<left>" "M-b" [0x1b, 0x5b, 0x31, 0x3b, 0x35, 0x43]
      (by decide) (by decide) (by decide) (by decide)).2.1⟩

/-! ## The goal column along the vertical motions -/

theorem step_goal (call : Call) (hC : ∀ q s s1, call q s = .ok s1 → GoalKept q s s1)
    (p : Proc) (s s1 : Ed) (h : step call p s = .ok s1) : GoalKept p s s1 := by
  cases p
  case next_row =>
    simp only [step, next_row] at h
    have e := hC _ _ _ h
    exact e
  case previous_row =>
    simp only [step, previous_row] at h
    have e := hC _ _ _ h
    exact e
  case next_row_loop r =>
    simp only [step, next_row_loop, bind, Except.bind] at h
    repeat' split at h
    all_goals first | (cases h; done) | skip
    · cases h; rfl
    all_goals
      have e1 := hC _ _ _ h
      simp only [GoalKept] at e1
      first
        | exact e1
        | (have e2 := hC _ _ _ (by assumption : call Proc.scroll_up s = Except.ok _)
           exact e1.trans e2)
  case previous_row_loop r =>
    simp only [step, previous_row_loop, bind, Except.bind] at h
    repeat' split at h
    all_goals first | (cases h; done) | skip
    · cases h; rfl
    all_goals
      have e1 := hC _ _ _ h
      simp only [GoalKept] at e1
      first
        | exact e1
        | (have e2 := hC _ _ _ (by assumption : call Proc.scroll_down s = Except.ok _)
           exact e1.trans e2)
  case next_row_goal r g =>
    simp only [step, next_row_goal, bind, Except.bind, pure, Except.pure] at h
    repeat' split at h
    all_goals first | (cases h) | skip
    all_goals
      have e1 := hC _ _ _ h
      exact e1
  case previous_row_goal r g =>
    simp only [step, previous_row_goal, bind, Except.bind, pure, Except.pure] at h
    repeat' split at h
    all_goals first | (cases h) | skip
    all_goals
      have e1 := hC _ _ _ h
      exact e1
  case scroll_up =>
    simp only [step, scroll_up] at h
    split at h
    · cases h; rfl
    · have e := hC _ _ _ h
      exact e
  case scroll_down =>
    simp only [step, scroll_down] at h
    split at h
    · cases h; rfl
    · have e := hC _ _ _ h
      exact e
  case scroll_up_loop r =>
    simp only [step, scroll_up_loop, bind, Except.bind] at h
    repeat' split at h
    all_goals first | (cases h; done) | skip
    all_goals first
      | (cases h; rfl)
      | (cases h
         have e2 := hC _ _ _ (by assumption : call Proc.next_row s = Except.ok _)
         exact e2)
      | (have e1 := hC _ _ _ h
         simp only [GoalKept] at e1
         first
           | exact e1
           | (have e2 := hC _ _ _ (by assumption : call Proc.next_row s = Except.ok _)
              exact e1.trans e2))
  case scroll_down_loop r =>
    simp only [step, scroll_down_loop, bind, Except.bind] at h
    repeat' split at h
    all_goals first | (cases h; done) | skip
    all_goals first
      | (cases h; rfl)
      | (cases h
         have e2 := hC _ _ _ (by assumption : call Proc.previous_row s = Except.ok _)
         exact e2)
      | (have e1 := hC _ _ _ h
         simp only [GoalKept] at e1
         first
           | exact e1
           | (have e2 := hC _ _ _ (by assumption : call Proc.previous_row s = Except.ok _)
              exact e1.trans e2))
  all_goals exact True.intro

theorem exec_goal : ∀ (f : Nat) (p : Proc) (s s1 : Ed), exec f p s = .ok s1 →
    GoalKept p s s1 := by
  intro f
  induction f with
  | zero =>
    intro p s s1 h
    simp only [exec] at h
    cases h
  | succ n ih =>
    intro p s s1 h
    exact step_goal (exec n) ih p s s1 h

theorem motion_quiet (k : key) (c : Cmd) (hm : c.is_motion = true) :
    (c.proc k).quiet = true := by
  cases c <;> first | rfl | cases hm

theorem key_event_goal (fuel : Nat) (count : Option Nat) (k : key) (c : Cmd) (s s1 : Ed)
    (hc : c = .next_row ∨ c = .previous_row) (h : key_event fuel count k c s = .ok s1) :
    s1.goal_col = s.goal_col := by
  unfold key_event at h
  rcases hc with rfl | rfl <;> cases count
  all_goals
    simp only at h
    have e := exec_goal _ _ _ _ h
    exact e

/-- C40: a motion command (forward or backward by a character, a word or a paragraph,
`next_row`, `previous_row`, the beginning or the end of the row, the line or the buffer,
`goto_line`, `goto_percent`, `page_up`, `page_down`, `scroll_up`, `scroll_down`,
`exchange_point_and_mark`) that is run with any key and any prefix argument from a
state with the gap invariant and returns, leaves the character sequence and its length
as they were; and `next_row` and `previous_row`, from any state, leave `goal_col` equal
to its value before the call. -/
theorem motions_keep_content (fuel : Nat) (count : Option Nat) (k : key) (c : Cmd)
    (s s1 : Ed) (hm : c.is_motion = true) (h : key_event fuel count k c s = .ok s1) :
    (Inv s → content s1 = content s ∧ buffer_size s1 = buffer_size s) ∧
      (c = .next_row ∨ c = .previous_row → s1.goal_col = s.goal_col) := by
  constructor
  · intro hI
    have e : content s1 = content s :=
      (key_event_kept fuel count k c s s1 h hI (some s.is_dirty) (content s)
        (motion_quiet k c hm) ⟨rfl, rfl⟩).1
    refine ⟨e, ?_⟩
    have e2 := congrArg List.length e
    simpa only [content, List.length_map, List.length_range] using e2
  · intro hc
    exact key_event_goal fuel count k c s s1 hc h

/-- Witness of `motions_keep_content`: `C-u 2 C-n` after loading three lines. -/
theorem motions_keep_content_witness :
    Cmd.next_row.is_motion = true ∧ Inv (loaded Config.default [0x61, 10, 0x62, 10, 0x63]) ∧
      where_ (after_keys 20 [(some 2, key_zero, .next_row)]
        (loaded Config.default [0x61, 10, 0x62, 10, 0x63])) = 4 ∧
      content (after_keys 20 [(some 2, key_zero, .next_row)]
          (loaded Config.default [0x61, 10, 0x62, 10, 0x63])) =
        content (loaded Config.default [0x61, 10, 0x62, 10, 0x63]) ∧
      (after_keys 20 [(some 2, key_zero, .next_row)]
          (loaded Config.default [0x61, 10, 0x62, 10, 0x63])).goal_col =
        (loaded Config.default [0x61, 10, 0x62, 10, 0x63]).goal_col :=
  ⟨rfl, reachable_inv _ (reachable_loaded_default _ (by decide)), by decide,
    ((motions_keep_content 20 (some 2) key_zero .next_row
      (loaded Config.default [0x61, 10, 0x62, 10, 0x63]) _ rfl
      (after_keys_single 20 (some 2) _ .next_row _ (by decide))).1
      (reachable_inv _ (reachable_loaded_default _ (by decide)))).1,
    (motions_keep_content 20 (some 2) key_zero .next_row
      (loaded Config.default [0x61, 10, 0x62, 10, 0x63]) _ rfl
      (after_keys_single 20 (some 2) _ .next_row _ (by decide))).2 (Or.inl rfl)⟩

/-! ## Insertion of a text character -/

theorem insert_char_loop_total (t : tedchar) :
    ∀ (n f : Nat) (s : Ed), Fit s → Ed.is_prefix s = false →
      n ≤ s.gap_end - s.gap_start → n + 4 ≤ f →
      ∃ s1, exec f (.insert_char_loop t n) s = .ok s1 ∧ Ins (List.replicate n t) s s1 ∧
        (0 < n → s1.is_dirty = true) ∧ (n = 0 → s1 = s) := by
  intro n
  induction n with
  | zero =>
    intro f s hW hp _ hf
    obtain ⟨f1, rfl⟩ : ∃ f1, f = f1 + 1 := ⟨f - 1, by omega⟩
    simp only [exec_succ, step, insert_char_loop, if_true]
    exact ⟨s, rfl, ins_nil s hW hp, fun h => absurd h (by omega), fun _ => rfl⟩
  | succ n ih =>
    intro f s hW hp hroom hf
    obtain ⟨f1, rfl⟩ : ∃ f1, f = f1 + 1 := ⟨f - 1, by omega⟩
    simp only [exec_succ, step, insert_char_loop]
    rw [if_neg (by omega)]
    obtain ⟨s1, e1, hi1⟩ := do_insert_char_total f1 t s hW hp (by omega) (by omega)
    have hd1 : s1.is_dirty = true := by
      obtain ⟨f0, rfl⟩ : ∃ f0, f1 = f0 + 1 := ⟨f1 - 1, by omega⟩
      exact kept_do_insert_char (exec f0) (exec_kept f0) t s s1 e1 ⟨hW.1, hW.2.1, hW.2.2.1⟩
    simp only [bind, Except.bind, e1, Nat.add_sub_cancel]
    obtain ⟨s2, e2, hi2, hd2, hz2⟩ := ih f1 s1 hi1.1 hi1.2.2.1
      (by rw [hi1.2.2.2.1, hi1.2.2.2.2.1]; simp only [List.length_singleton]; omega) (by omega)
    refine ⟨s2, e2, ?_, fun _ => ?_, fun h => absurd h (by omega)⟩
    · have := ins_trans [t] _ s s1 s2 hi1 hi2
      simpa only [List.replicate_succ, List.singleton_append] using this
    · by_cases c : n = 0
      · rw [hz2 c]; exact hd1
      · exact hd2 (by omega)

theorem insert_char_total (f : Nat) (s : Ed) (hW : Fit s)
    (hk : is_textchar s.last_key = true) (hro : s.is_read_only = false)
    (hroom : repeat_count s ≤ s.gap_end - s.gap_start) (hf : repeat_count s + 5 ≤ f) :
    ∃ s1, exec f .insert_char s = .ok s1 ∧
      Ins (List.replicate (repeat_count s) (insert_char_arg s.last_key)) (prefix_clear s) s1 ∧
      (0 < repeat_count s → s1.is_dirty = true) ∧
      (repeat_count s = 0 → s1 = prefix_clear s) := by
  obtain ⟨f1, rfl⟩ : ∃ f1, f = f1 + 1 := ⟨f - 1, by omega⟩
  simp only [exec_succ, step, insert_char, hk, hro, Bool.not_true, Bool.false_eq_true, if_false]
  exact insert_char_loop_total (insert_char_arg s.last_key) (repeat_count s) f1 (prefix_clear s)
    hW rfl hroom (by omega)

/-- C32 (amended): a key `k` that is a text character and has no binding, typed with the
prefix argument `n` (1 without one) in a state fit to run that is not read-only, has no
active region and has room for `n` characters in the gap, runs `insert_char` to
completion: the content becomes the old content with `n` copies of the character of the
key (a newline for `<cr>`, a tab for `<tab>`) inserted at the point `i`, the point
becomes `i + n`, and `is_dirty` is true when `n > 0`; with `n = 0` nothing is inserted
and `is_dirty` keeps its value. -/
theorem insert_char_spec (f : Nat) (count : Option Nat) (k : key) (s : Ed) (hW : Fit s)
    (hk : is_textchar k = true) (hro : s.is_read_only = false)
    (hm : s.marks_is_active = false)
    (hroom : count.getD 1 ≤ s.gap_end - s.gap_start) (hf : count.getD 1 + 6 ≤ f) :
    ∃ s1, key_event f count k .self_insert s = .ok s1 ∧
      content s1 = (content s).take (where_ s) ++
        List.replicate (count.getD 1) (insert_char_arg k) ++ (content s).drop (where_ s) ∧
      where_ s1 = where_ s + count.getD 1 ∧
      (0 < count.getD 1 → s1.is_dirty = true) ∧
      (count.getD 1 = 0 → s1.is_dirty = s.is_dirty) ∧
      insert_char_arg kbd_cr = tedchar_newline ∧
      insert_char_arg kbd_tab = tedchar_utf8 (utf8_ascii 9) := by
  obtain ⟨f1, rfl⟩ : ∃ f1, f = f1 + 1 := ⟨f - 1, by omega⟩
  have hw := where_eq s hW.1
  have key : ∀ s0 : Ed, Fit s0 → s0.last_key = k → s0.is_read_only = false →
      repeat_count s0 = count.getD 1 → s0.gap_start = s.gap_start → s0.gap_end = s.gap_end →
      content s0 = content s → s0.is_dirty = s.is_dirty →
      ∃ s1, exec f1 .insert_char s0 = .ok s1 ∧
        content s1 = (content s).take (where_ s) ++
          List.replicate (count.getD 1) (insert_char_arg k) ++ (content s).drop (where_ s) ∧
        where_ s1 = where_ s + count.getD 1 ∧
        (0 < count.getD 1 → s1.is_dirty = true) ∧
        (count.getD 1 = 0 → s1.is_dirty = s.is_dirty) := by
    intro s0 hW0 hlk hro0 hrc hgs hge hc hd
    obtain ⟨s1, e, ⟨hW1, _, _, g1, _, hb, ha⟩, hd1, hz1⟩ := insert_char_total f1 s0 hW0
      (by rw [hlk]; exact hk) hro0 (by rw [hrc, hgs, hge]; exact hroom) (by rw [hrc]; omega)
    rw [hrc] at hb g1 hd1 hz1
    rw [hlk] at hb g1
    refine ⟨s1, e, ?_, ?_, hd1, fun h0 => ?_⟩
    · have b0 : text_before (prefix_clear s0) = (content s).take (where_ s) := by
        have := text_before_take s0
        rw [hc, hgs, ← hw] at this
        exact this
      have a0 : text_after (prefix_clear s0) = (content s).drop (where_ s) := by
        have := text_after_drop s0
        rw [hc, hgs, ← hw] at this
        exact this
      rw [content_split s1, hb, ha, b0, a0]
    · rw [where_eq s1 hW1.1, g1, hw, List.length_replicate]
      exact congrArg (· + count.getD 1) hgs
    · rw [hz1 h0]
      exact hd
  have hcr : insert_char_arg kbd_cr = tedchar_newline := by decide
  have htab : insert_char_arg kbd_tab = tedchar_utf8 (utf8_ascii 9) := by decide
  have hif : ∀ a b : Except Fault Ed, (if s.marks_is_active = true then a else b) = b := by
    intro a b
    rw [hm]
    rfl
  unfold key_event
  simp only [hk, if_true, Cmd.proc, exec_succ, step, unbound_text_key, bind, Except.bind]
  cases count with
  | none =>
    simp only [hif]
    obtain ⟨s1, e, h1, h2, h3, h4⟩ := key { s with is_prefix := false, last_key := k } hW rfl hro
      rfl rfl rfl rfl rfl
    exact ⟨s1, e, h1, h2, h3, h4, hcr, htab⟩
  | some n =>
    simp only [hif]
    have hn : n < 2 ^ 31 := by
      have h1 := hW.2.1
      have h2 : n ≤ s.gap_end - s.gap_start := hroom
      unfold BUFSIZE at h1
      omega
    obtain ⟨s1, e, h1, h2, h3, h4⟩ :=
      key { s with is_prefix := true, prefix_arg := prefix_read (n + 1) n, last_key := k } hW rfl
        hro (size_of_prefix_read n hn) rfl rfl rfl rfl
    exact ⟨s1, e, h1, h2, h3, h4, hcr, htab⟩

/-- Witness of `insert_char_spec`: on `abc\ndef\n`, `end_of_line` and then the key `X`
give `abcX\ndef\n` with the point at 4. -/
theorem insert_char_spec_witness :
    ∃ s1, key_event 7 none { key_zero with u := utf8_ascii 0x58 } .self_insert
        (after_keys 20 [(none, key_zero, .end_of_line)]
          (loaded Config.default [0x61, 0x62, 0x63, 10, 0x64, 0x65, 0x66, 10])) = .ok s1 ∧
      encode_chars .UNIX (content s1) = [0x61, 0x62, 0x63, 0x58, 10, 0x64, 0x65, 0x66, 10] ∧
      where_ s1 = 4 ∧ s1.is_dirty = true := by
  obtain ⟨s1, e, h1, h2, h3, _⟩ := insert_char_spec 7 none { key_zero with u := utf8_ascii 0x58 }
    (after_keys 20 [(none, key_zero, .end_of_line)]
      (loaded Config.default [0x61, 0x62, 0x63, 10, 0x64, 0x65, 0x66, 10]))
    (by decide) (by decide) (by decide) (by decide) (by decide) (by decide)
  exact ⟨s1, e, by rw [h1]; decide, by rw [h2]; decide, h3 (by decide)⟩

/-- C32 as stated fails on the code for the prefix argument 0: after loading `abc\n`,
which is not read-only and has no active region, `C-u 0 x` runs the loop of
`insert_char` zero times, and `is_dirty` is false afterwards as it was before. -/
theorem insert_char_zero_count_counterexample :
    ∃ s1, Reachable (loaded Config.default [0x61, 0x62, 0x63, 10]) ∧
      is_textchar { key_zero with u := utf8_ascii 0x78 } = true ∧
      (loaded Config.default [0x61, 0x62, 0x63, 10]).is_read_only = false ∧
      (loaded Config.default [0x61, 0x62, 0x63, 10]).marks_is_active = false ∧
      key_event 20 (some 0) { key_zero with u := utf8_ascii 0x78 } .self_insert
        (loaded Config.default [0x61, 0x62, 0x63, 10]) = .ok s1 ∧
      encode_chars .UNIX (content s1) = [0x61, 0x62, 0x63, 10] ∧ s1.is_dirty = false := by
  have h : (key_event 20 (some 0) { key_zero with u := utf8_ascii 0x78 } .self_insert
      (loaded Config.default [0x61, 0x62, 0x63, 10])).map
      (fun s => (encode_chars .UNIX (content s), s.is_dirty)) =
      .ok ([0x61, 0x62, 0x63, 10], false) := by decide
  obtain ⟨s1, hs, ho⟩ := map_ok_exists _ _ _ h
  simp only [Prod.mk.injEq] at ho
  exact ⟨s1, reachable_loaded_default _ (by decide), by decide, by decide, by decide, hs, ho.1,
    ho.2⟩

/-! ## The trailing newline of a save -/

theorem end_of_buffer_total :
    ∀ (n f : Nat) (s : Ed), BUFSIZE - s.gap_end = n → Fit s → Ed.is_prefix s = false →
      n + 7 ≤ f →
      ∃ s1, exec f .end_of_buffer s = .ok s1 ∧ Fwd s s1 ∧ s1.gap_end = BUFSIZE := by
  intro n
  induction n with
  | zero =>
    intro f s hn hW hp hf
    obtain ⟨f1, rfl⟩ : ∃ f1, f = f1 + 1 := ⟨f - 1, by omega⟩
    have hge : s.gap_end = BUFSIZE := by
      have := hW.2.1
      omega
    have hc : char_at_point s = none := by
      unfold char_at_point
      rw [(at_end_iff s).2 hge, Bool.or_true, if_pos rfl]
    rw [exec_succ]
    simp only [step, end_of_buffer, hc]
    exact ⟨s, rfl, fwd_refl s hW hp, hge⟩
  | succ n ih =>
    intro f s hn hW hp hf
    obtain ⟨f1, rfl⟩ : ∃ f1, f = f1 + 1 := ⟨f - 1, by omega⟩
    have hlt : s.gap_end < BUFSIZE := by omega
    rw [exec_succ]
    simp only [step, end_of_buffer, char_at_point_some s hW.1 hlt, bind, Except.bind]
    obtain ⟨s1, e1, hf1, hgs1⟩ := forward_char_total f1 s hW hp (by omega)
    rw [e1]
    simp only
    have hk : min 1 (BUFSIZE - s.gap_end) = 1 := by omega
    rw [hk] at hgs1
    have hge1 := motion_gap_end s s1 _ hW hf1.1 hgs1
    obtain ⟨s2, e2, hf2, hge2⟩ := ih f1 s1 (by rw [hge1]; omega) hf1.1.1 hf1.1.2.2.2.1
      (by omega)
    exact ⟨s2, e2, fwd_trans s s1 s2 hf1 hf2, hge2⟩

theorem anchor_of_cursor (s : Ed) (h : s.cursor_row ≠ 0 ∨ s.cursor_col ≠ 0) : AnchorOk s := by
  intro hr hc
  rcases h with h | h
  · exact absurd hr h
  · exact absurd hc h

theorem size_inc_ne_zero (x : Nat) (h : x + 1 < SIZE_MOD) : size_inc x ≠ 0 := by
  unfold size_inc SIZE_MOD at *
  omega

theorem do_insert_char_anchored (f : Nat) (t : tedchar) (s : Ed) (hW : Fit s)
    (hp : Ed.is_prefix s = false) (h1 : s.gap_start < s.gap_end) (hf : 4 ≤ f)
    (hrow : s.cursor_row + 1 < SIZE_MOD) :
    ∃ s1, exec f (.do_insert_char t) s = .ok s1 ∧ Ins [t] s s1 ∧ AnchorOk s1 := by
  obtain ⟨f1, rfl⟩ : ∃ f1, f = f1 + 1 := ⟨f - 1, by omega⟩
  have hW0 := hW
  obtain ⟨hg1, hg2, hl1, hl2, hn, ht, hc, htl⟩ := hW
  obtain ⟨n, hn1, hn2⟩ := next_col_ok s t s.cursor_col hn hc
  have hK : ∀ x : Ed, x.nlines = s.nlines → x.ncols = s.ncols → x.tabstop = s.tabstop →
      x.is_read_only = s.is_read_only → x.kill_buffer = s.kill_buffer →
      x.kill_size = s.kill_size → x.marks_m = s.marks_m →
      x.marks_current = s.marks_current → x.marks_is_active = s.marks_is_active → Keeps s x :=
    fun x a1 a2 a3 a4 a5 a6 a7 a8 a9 => ⟨a1, a2, a3, a4, a5, a6, a7, a8, a9⟩
  have htl2 : ∀ p, (if s.cursor_row = 0 ∧ s.cursor_col = 0 then some s.gap_start else s.tl) =
      some p → p < BUFSIZE :=
    ite_anchor_bound _ _ _ _ (fun p hp1 => by cases hp1; omega) htl
  unfold next_col at hn1
  simp only [exec_succ, step, do_insert_char, insert_store_eq t { s with is_dirty := true } h1 hg2,
    bind, Except.bind, pure, Except.pure, next_col, hn1]
  by_cases c1 : n = 0
  · rw [if_pos c1]
    by_cases c2 : s.cursor_row = s.nlines - 1
    · rw [if_pos c2]
      obtain ⟨tl1, row1, e1, h2, h3⟩ := scroll_up_total f1 { s with
          is_dirty := true,
          buffer := Function.update s.buffer s.gap_start t,
          tl := if s.cursor_row = 0 ∧ s.cursor_col = 0 then some s.gap_start else s.tl,
          gap_start := s.gap_start + 1 }
        ⟨by show s.gap_start + 1 ≤ s.gap_end; omega, hg2, hl1, hl2, hn, ht, hc, htl2⟩ hp
        (by show s.cursor_row ≠ 0; omega) (by omega)
      simp only at e1
      rw [e1]
      refine ⟨_, rfl, ins_of_fields t s _ hW0 h1 (hK _ rfl rfl rfl rfl rfl rfl rfl rfl rfl) rfl
        rfl rfl hp hn2 h2, anchor_of_cursor _ (Or.inl ?_)⟩
      show size_inc row1 ≠ 0
      apply size_inc_ne_zero
      have h4 : row1 = s.cursor_row ∨ row1 = size_dec s.cursor_row := h3
      rcases h4 with h4 | h4
      · rw [h4]; exact hrow
      · rw [h4, size_dec_pos s.cursor_row (by omega) (by omega)]
        omega
    · rw [if_neg c2]
      refine ⟨_, rfl, ins_of_fields t s _ hW0 h1 (hK _ rfl rfl rfl rfl rfl rfl rfl rfl rfl) rfl
        rfl rfl hp hn2 htl2, anchor_of_cursor _ (Or.inl ?_)⟩
      show size_inc s.cursor_row ≠ 0
      exact size_inc_ne_zero _ hrow
  · rw [if_neg c1]
    exact ⟨_, rfl, ins_of_fields t s _ hW0 h1 (hK _ rfl rfl rfl rfl rfl rfl rfl rfl rfl) rfl rfl
      rfl hp hn2 htl2, anchor_of_cursor _ (Or.inr c1)⟩

theorem trailing_step_skip (s : Ed) (call : Call) (hg : GapInv s)
    (h : lacks_trailing_newline s = false) :
    maybe_insert_trailing_newline call s = .ok s := by
  unfold maybe_insert_trailing_newline
  by_cases hen : s.ensure_trailing_newline = true
  · by_cases he : is_buffer_empty s = true
    · simp [he]
    · have hpos : 0 < buffer_size s := by
        rw [is_buffer_empty_iff s hg] at he; omega
      obtain ⟨p, hp, _, hd, _⟩ := char_at_index_some s (buffer_size s - 1) hg (by omega)
      have hl : is_newline (cell s (buffer_size s - 1)) = true := by
        unfold lacks_trailing_newline at h
        simp only [hen, Bool.true_and, Bool.and_eq_false_imp, Bool.not_eq_true', Bool.not_eq_false'] at h
        simp only [Bool.not_eq_true] at he
        exact h he
      simp only [hen, Bool.not_true, he, Bool.or_self, Bool.false_eq_true, if_false, hp, hd,
        bind, Except.bind, hl, if_true, pure, Except.pure]
  · simp [hen]

theorem last_is_newline (s : Ed) (l : List tedchar)
    (h : content s = l ++ [tedchar_newline]) :
    ∀ t, (content s).getLast? = some t → is_newline t = true := by
  intro t ht
  rw [h, List.getLast?_append_of_ne_nil _ (by simp)] at ht
  simp only [List.getLast?_singleton, Option.some.injEq] at ht
  rw [← ht]
  rfl

theorem trailing_step_total (f : Nat) (s : Ed) (hT : Tidy s) (hp : Ed.is_prefix s = false)
    (hl : lacks_trailing_newline s = true) (hroom : s.gap_start < s.gap_end)
    (hf : buffer_size s + 9 ≤ f) :
    ∃ s1, exec f .maybe_insert_trailing_newline s = .ok s1 ∧ Fit s1 ∧
      content s1 = content s ++ [tedchar_newline] ∧
      s1.gap_start = (if s.gap_end = BUFSIZE then s.gap_start + 1 else s.gap_start) := by
  obtain ⟨f1, rfl⟩ : ∃ f1, f = f1 + 1 := ⟨f - 1, by omega⟩
  obtain ⟨hW, hrow, hA⟩ := hT
  have hg1 := hW.1
  have hg2 := hW.2.1
  have hn30 := hW.2.2.2.1
  have hsz : buffer_size s = s.gap_start + (BUFSIZE - s.gap_end) := rfl
  unfold lacks_trailing_newline at hl
  simp only [Bool.and_eq_true, Bool.not_eq_true', Bool.not_eq_eq_eq_not, Bool.not_true] at hl
  obtain ⟨⟨hen, he⟩, hlast⟩ := hl
  have hpos : 0 < buffer_size s := by
    have : ¬ (is_buffer_empty s = true) := by rw [he]; decide
    rw [is_buffer_empty_iff s ⟨hg1, hg2⟩] at this
    omega
  obtain ⟨p, hp1, _, hd, _⟩ := char_at_index_some s (buffer_size s - 1) ⟨hg1, hg2⟩ (by omega)
  rw [exec_succ]
  simp only [step, maybe_insert_trailing_newline, hen, Bool.not_true, he, Bool.or_self,
    Bool.false_eq_true, if_false, hp1, hd, bind, Except.bind, hlast, pure, Except.pure]
  by_cases c : s.gap_end = BUFSIZE
  · rw [if_pos ((at_end_iff s).2 c), if_pos c]
    obtain ⟨s1, e1, hi⟩ := do_insert_char_total f1 tedchar_newline s hW hp hroom (by omega)
    refine ⟨s1, e1, hi.1, ?_, hi.2.2.2.1⟩
    rw [content_split s1, hi.2.2.2.2.2.1, hi.2.2.2.2.2.2, content_split s, text_after_nil s c,
      List.append_nil, List.append_nil]
  · have hlt : s.gap_end < BUFSIZE := by omega
    have hne : ¬ (is_point_at_end_of_buffer s = true) := by rw [at_end_iff]; exact c
    rw [if_neg hne, if_neg c, char_at_point_some s hg1 hlt]
    simp only
    have hsave : index_of s s.gap_end = s.gap_start := by
      unfold index_of
      rw [if_neg (by omega)]
      omega
    rw [hsave]
    obtain ⟨s1, e1, hf1, hge1⟩ := end_of_buffer_total _ f1 s rfl hW hp (by omega)
    rw [e1]
    simp only
    have hW1 := hf1.1.1
    have hp1' := hf1.1.2.2.2.1
    have hgap1 := hf1.1.2.2.2.2
    have hgs1 := hf1.2.1
    have hrow1 := hf1.2.2.1
    have hW1a := hW1.1
    obtain ⟨s2, e2, hi2, hA2⟩ := do_insert_char_anchored f1 tedchar_newline s1 hW1 hp1'
      (by omega) (by omega) (by unfold SIZE_MOD; unfold BUFSIZE at *; omega)
    rw [e2]
    simp only
    have hgs2 := hi2.2.2.2.1
    have hge2 := hi2.2.2.2.2.1
    simp only [List.length_singleton] at hgs2
    obtain ⟨s3, e3, hm3, hgs3⟩ := move_to_total s.gap_start f1 s2 hi2.1 hA2 hi2.2.2.1
      (by omega) (by omega)
    refine ⟨s3, e3, hm3.1, ?_, ?_⟩
    · rw [hm3.2.2.1, content_split s2, hi2.2.2.2.2.2.1, hi2.2.2.2.2.2.2, text_after_nil s1 hge1,
        List.append_nil, ← hf1.1.2.2.1, content_split s1, text_after_nil s1 hge1,
        List.append_nil]
    · rw [hgs3]
      unfold buffer_size
      omega

/-- The trailing-newline step in a tidy state without pending prefix argument, with room
for one character in the gap when a newline is due: `maybe_insert_trailing_newline` runs
to completion. If `ensure_trailing_newline` holds and the buffer is not empty and does
not end in a newline, the content becomes the old content followed by one newline, else
the content is unchanged. The point index is the same before and after, except when a
newline is inserted with the point at the end of the buffer: then the point is after
the new newline, at the old index plus 1. Applying the step again changes nothing. -/
theorem trailing_newline_spec (f : Nat) (s : Ed) (hT : Tidy s) (hp : Ed.is_prefix s = false)
    (hroom : lacks_trailing_newline s = true → s.gap_start < s.gap_end)
    (hf : buffer_size s + 9 ≤ f) :
    ∃ s1, exec f .maybe_insert_trailing_newline s = .ok s1 ∧
      content s1 =
        (if lacks_trailing_newline s = true then content s ++ [tedchar_newline]
         else content s) ∧
      where_ s1 =
        (if lacks_trailing_newline s = true ∧ is_point_at_end_of_buffer s = true then
           where_ s + 1
         else where_ s) ∧
      exec f .maybe_insert_trailing_newline s1 = .ok s1 := by
  have hW := hT.1
  by_cases hl : lacks_trailing_newline s = true
  · obtain ⟨s1, e, hW1, hc, hgs⟩ := trailing_step_total f s hT hp hl (hroom hl) hf
    obtain ⟨f1, rfl⟩ : ∃ f1, f = f1 + 1 := ⟨f - 1, by omega⟩
    refine ⟨s1, e, by rw [if_pos hl]; exact hc, ?_, ?_⟩
    · rw [where_eq s1 hW1.1, where_eq s hW.1, hgs]
      by_cases c : s.gap_end = BUFSIZE
      · rw [if_pos c, if_pos ⟨hl, (at_end_iff s).2 c⟩]
      · rw [if_neg c, if_neg (fun h => c ((at_end_iff s).1 h.2))]
    · rw [exec_succ]
      exact trailing_newline_noop s1 _ ⟨hW1.1, hW1.2.1⟩ (last_is_newline s1 _ hc)
  · obtain ⟨f1, rfl⟩ : ∃ f1, f = f1 + 1 := ⟨f - 1, by omega⟩
    have e : exec (f1 + 1) .maybe_insert_trailing_newline s = .ok s := by
      rw [exec_succ]
      exact trailing_step_skip s _ ⟨hW.1, hW.2.1⟩ (by simpa using hl)
    exact ⟨s, e, by rw [if_neg hl], by rw [if_neg (fun h => hl h.1)], e⟩

/-- Witness of `trailing_newline_spec`: the file `abc` without newline, the point moved to
index 1; the step gives `abc\n` and the point stays at 1. -/
theorem trailing_newline_spec_witness :
    ∃ s1, exec 20 .maybe_insert_trailing_newline
        (after_keys 20 [(none, key_zero, .forward_char)]
          (loaded Config.default [0x61, 0x62, 0x63])) = .ok s1 ∧
      encode_chars .UNIX (content s1) = [0x61, 0x62, 0x63, 10] ∧ where_ s1 = 1 ∧
      exec 20 .maybe_insert_trailing_newline s1 = .ok s1 := by
  obtain ⟨s1, e, h1, h2, h3⟩ := trailing_newline_spec 20
    (after_keys 20 [(none, key_zero, .forward_char)] (loaded Config.default [0x61, 0x62, 0x63]))
    (by decide) (by decide) (fun _ => by decide) (by decide)
  exact ⟨s1, e, by rw [h1]; decide, by rw [h2]; decide, h3⟩

/-- With the point at the end of the buffer the point moves with the newline: the file
is `a` without newline, `M->` moves the point to index 1, the end, and `C-x C-s` appends
the newline with `do_insert_char` at the point and does not move back: the content is
`a\n` and the point is 2, not 1. -/
theorem trailing_newline_at_end_counterexample :
    ∃ s0 s1, Reachable s0 ∧
      run_keys 20 [(none, key_zero, .end_of_buffer)] (loaded Config.default [0x61]) = .ok s0 ∧
      where_ s0 = 1 ∧ s0.ensure_trailing_newline = true ∧
      key_event 20 none key_zero (.save_buffer true) s0 = .ok s1 ∧
      encode_chars .UNIX (content s1) = [0x61, 10] ∧ where_ s1 = 2 ∧ where_ s1 ≠ where_ s0 := by
  have h : (run_keys 20 [(none, key_zero, .end_of_buffer)] (loaded Config.default [0x61])).map
      (fun s => (where_ s, s.ensure_trailing_newline)) = .ok (1, true) := by decide
  have h2 : ((run_keys 20 [(none, key_zero, .end_of_buffer)]
      (loaded Config.default [0x61])).bind (key_event 20 none key_zero (.save_buffer true))).map
      (fun s => (encode_chars .UNIX (content s), where_ s)) = .ok ([0x61, 10], 2) := by decide
  obtain ⟨s0, hs0, ho⟩ := map_ok_exists _ _ _ h
  simp only [Prod.mk.injEq] at ho
  rw [hs0] at h2
  obtain ⟨s1, hs1, ho1⟩ := map_ok_exists _ _ _ h2
  simp only [Prod.mk.injEq] at ho1
  exact ⟨s0, s1, reachable_run_keys _ _ _ _ (reachable_loaded_default _ (by decide)) hs0, hs0,
    ho.1, ho.2, hs1, ho1.1, ho1.2, by rw [ho1.2, ho.1]; decide⟩

/-! ## The search results along the motions -/

theorem search_of_mk (nlines ncols : Nat) (ip : Bool)
    (pa : Int) (ts : Nat) (ft : Filetype) (etn : Bool)
    (buf : Nat → tedchar) (gs ge : Nat) (tl : Option Nat) (row col goal : Nat) (fg : Bool)
    (mm : Nat → Nat) (ml mf mla mc : Nat) (ma : Bool) (sr : Nat → Nat) (sl sc : Nat)
    (ro dirty : Bool) (lk : key) (kb : Nat → tedchar) (ks : Nat) :
    search_of ⟨nlines, ncols, ip, pa, ts, ft, etn, buf, gs, ge, tl, row, col, goal, fg, mm, ml, mf,
      mla, mc, ma, sr, sl, sc, ro, dirty, lk, kb, ks⟩ = (sr, sl, sc) := rfl

theorem search_of_fold (s : Ed) :
    (s.search_results, s.search_last, s.search_current) = search_of s := rfl

theorem forward_char_move_search (s1 s2 : Ed) (c : Option Nat)
    (h : forward_char_move s1 c = .ok s2) : search_of s2 = search_of s1 := by
  unfold forward_char_move at h
  simp only [bind, Except.bind, pure, Except.pure] at h
  split at h
  · cases h
  split at h
  · cases h
  rename_i w hw
  obtain ⟨hw1, _⟩ := store_fields _ _ _ _ hw
  subst hw1
  repeat' split at h
  all_goals first
    | (cases h; done)
    | (simp only [Except.ok.injEq] at h
       subst h
       rfl)

theorem backward_char_move_search (s s1 : Ed) (h : backward_char_move s = .ok s1) :
    search_of s1 = search_of s := by
  unfold backward_char_move at h
  split at h
  · simp only [bind, Except.bind, pure, Except.pure] at h
    split at h
    · cases h
    split at h
    · cases h
    rename_i w hw
    obtain ⟨hw1, _⟩ := store_fields _ _ _ _ hw
    subst hw1
    repeat' split at h
    all_goals first
      | (cases h; done)
      | (simp only [Except.ok.injEq] at h
         subst h
         rfl)
  · cases h
    rfl

theorem scroll_at_last_row_search (call : Call)
    (hC : ∀ q s s1, call q s = .ok s1 → SearchKept q s s1) (s s1 : Ed) (b : Bool)
    (h : scroll_at_last_row call s = .ok (s1, b)) : search_of s1 = search_of s := by
  unfold scroll_at_last_row at h
  repeat' split at h
  all_goals first
    | (cases h; done)
    | (simp only [Except.ok.injEq, Prod.mk.injEq] at h
       obtain ⟨h1, h2⟩ := h
       subst h1 h2
       first
         | rfl
         | exact hC _ _ _ (by assumption) (by rfl))

theorem search_forward_char_loop (call : Call)
    (hC : ∀ q s s1, call q s = .ok s1 → SearchKept q s s1) (r : Nat) (s s1 : Ed)
    (h : forward_char_loop call r s = .ok s1) : search_of s1 = search_of s := by
  unfold forward_char_loop at h
  split at h
  · cases h; rfl
  split at h
  · cases h; rfl
  split at h
  · cases h
  rename_i sa scrolled hsa
  have e1 := scroll_at_last_row_search call hC s sa scrolled hsa
  split at h
  · cases h
  rename_i s2 hs2
  exact ((hC _ _ _ h rfl).trans (forward_char_move_search _ _ _ hs2)).trans e1

theorem search_backward_char_loop (call : Call)
    (hC : ∀ q s s1, call q s = .ok s1 → SearchKept q s s1) (r : Nat) (s s1 : Ed)
    (h : backward_char_loop call r s = .ok s1) : search_of s1 = search_of s := by
  unfold backward_char_loop at h
  split at h
  · cases h; rfl
  split at h
  · cases h; rfl
  simp only [bind, Except.bind] at h
  repeat' split at h
  all_goals first | (cases h) | skip
  all_goals
    have e3 := hC _ _ _ h rfl
    have e2 := backward_char_move_search _ _ (by assumption)
    first
      | exact e3.trans e2
      | exact (e3.trans e2).trans (hC _ _ _ (by assumption) (by rfl))

theorem step_search (call : Call) (hC : ∀ q s s1, call q s = .ok s1 → SearchKept q s s1)
    (p : Proc) (s s1 : Ed) (h : step call p s = .ok s1) : SearchKept p s s1 := by
  intro hm
  cases p
  case forward_char_loop r => exact search_forward_char_loop call hC r s s1 h
  case backward_char_loop r => exact search_backward_char_loop call hC r s s1 h
  all_goals first | (cases hm; done) | skip
  all_goals
    simp only [step, scroll_down, scroll_down_loop, scroll_up, scroll_up_loop, forward_char,
      backward_char, next_row, next_row_loop, next_row_goal, previous_row, previous_row_loop,
      previous_row_goal, beginning_of_row, end_of_row, move_to, move_to_loop,
      beginning_of_buffer, bind, Except.bind, pure, Except.pure] at h
  all_goals repeat' split at h
  all_goals first | (cases h; done) | skip
  all_goals try cases h
  all_goals
    repeat' (first
      | rfl
      | (simp only [search_of_mk, search_of_fold, prefix_clear])
      | (refine (hC _ _ _ (by assumption) ?_).trans ?_))

theorem exec_search : ∀ (f : Nat) (p : Proc) (s s1 : Ed), exec f p s = .ok s1 →
    SearchKept p s s1 := by
  intro f
  induction f with
  | zero =>
    intro p s s1 h
    simp only [exec] at h
    cases h
  | succ n ih =>
    intro p s s1 h
    exact step_search (exec n) ih p s s1 h

theorem search_move_total (f n c : Nat) (s : Ed) (hW : Fit s) (hA : AnchorOk s)
    (hp : Ed.is_prefix s = false) (hf1 : s.gap_start + 7 ≤ f) (hf2 : n + 7 ≤ f) :
    ∃ s1, exec f (.move_to n) { s with search_current := c } = .ok s1 ∧ Fit s1 ∧
      Ed.is_prefix s1 = false ∧ content s1 = content s ∧
      where_ s1 = min n (buffer_size s1) ∧ s1.search_current = c ∧
      s1.search_last = s.search_last ∧ s1.search_results = s.search_results := by
  obtain ⟨s1, e, hm, hgs⟩ := move_to_total n f { s with search_current := c } hW hA hp hf1 hf2
  have hs := exec_search f _ _ _ e rfl
  simp only [search_of, Prod.mk.injEq] at hs
  have hsz : buffer_size s1 = buffer_size { s with search_current := c } := by
    have h1 := hm.1.1
    have h2 := hm.1.2.1
    have h3 := hm.2.2.2.2
    have h4 : s.gap_start ≤ s.gap_end := hW.1
    have h5 : s.gap_end ≤ BUFSIZE := hW.2.1
    simp only at h3
    unfold buffer_size
    simp only
    omega
  refine ⟨s1, e, hm.1, hm.2.2.2.1, hm.2.2.1, ?_, hs.2.2, hs.2.1, hs.1⟩
  rw [where_eq s1 hm.1.1, hgs, hsz]

theorem search_next_total (f : Nat) (s : Ed) (hW : Fit s) (hA : AnchorOk s)
    (hp : Ed.is_prefix s = false) (h0 : 0 < s.search_last)
    (hc : s.search_current < s.search_last) (hl : s.search_last ≤ SEARCH_SIZE)
    (hf1 : s.gap_start + 8 ≤ f)
    (hf2 : s.search_results ((s.search_current + 1) % s.search_last) + 8 ≤ f) :
    ∃ s1, exec f .search_next s = .ok s1 ∧ Fit s1 ∧ Ed.is_prefix s1 = false ∧
      content s1 = content s ∧
      where_ s1 = min (s1.search_results s1.search_current) (buffer_size s1) ∧
      s1.search_current = (s.search_current + 1) % s.search_last ∧
      s1.search_last = s.search_last ∧ s1.search_results = s.search_results := by
  obtain ⟨f1, rfl⟩ : ∃ f1, f = f1 + 1 := ⟨f - 1, by omega⟩
  have hinc : size_inc s.search_current = s.search_current + 1 := by
    unfold size_inc SIZE_MOD
    unfold SEARCH_SIZE at hl
    omega
  have hnx : (if size_inc s.search_current = s.search_last then 0
      else size_inc s.search_current) = (s.search_current + 1) % s.search_last := by
    rw [hinc]
    by_cases c : s.search_current + 1 = s.search_last
    · rw [if_pos c, c, Nat.mod_self]
    · rw [if_neg c, Nat.mod_eq_of_lt (by omega)]
  rw [exec_succ]
  simp only [step, search_next]
  rw [if_neg (by omega), hnx]
  obtain ⟨s1, e, h1, h2, h3, h4, h5, h6, h7⟩ := search_move_total f1
    (s.search_results ((s.search_current + 1) % s.search_last))
    ((s.search_current + 1) % s.search_last) s hW hA hp (by omega) (by omega)
  exact ⟨s1, e, h1, h2, h3, by rw [h4, h7, h5], h5, h6, h7⟩

theorem search_previous_total (f : Nat) (s : Ed) (hW : Fit s) (hA : AnchorOk s)
    (hp : Ed.is_prefix s = false) (h0 : 0 < s.search_last)
    (hc : s.search_current < s.search_last) (hl : s.search_last ≤ SEARCH_SIZE)
    (hf1 : s.gap_start + 8 ≤ f)
    (hf2 : s.search_results ((s.search_current + s.search_last - 1) % s.search_last) + 8 ≤ f) :
    ∃ s1, exec f .search_previous s = .ok s1 ∧ Fit s1 ∧ Ed.is_prefix s1 = false ∧
      content s1 = content s ∧
      where_ s1 = min (s1.search_results s1.search_current) (buffer_size s1) ∧
      s1.search_current = (s.search_current + s.search_last - 1) % s.search_last ∧
      s1.search_last = s.search_last ∧ s1.search_results = s.search_results := by
  obtain ⟨f1, rfl⟩ : ∃ f1, f = f1 + 1 := ⟨f - 1, by omega⟩
  have hnx : (if s.search_current = 0 then s.search_last - 1
      else size_dec s.search_current) =
      (s.search_current + s.search_last - 1) % s.search_last := by
    by_cases c : s.search_current = 0
    · rw [if_pos c, c, Nat.zero_add, Nat.mod_eq_of_lt (by omega)]
    · rw [if_neg c, size_dec_pos _ (by omega) (by unfold SIZE_MOD; unfold SEARCH_SIZE at hl; omega)]
      have e : s.search_current + s.search_last - 1 = s.search_current - 1 + s.search_last := by
        omega
      rw [e, Nat.add_mod_right, Nat.mod_eq_of_lt (by omega)]
  rw [exec_succ]
  simp only [step, search_previous]
  rw [if_neg (by omega), hnx]
  obtain ⟨s1, e, h1, h2, h3, h4, h5, h6, h7⟩ := search_move_total f1
    (s.search_results ((s.search_current + s.search_last - 1) % s.search_last))
    ((s.search_current + s.search_last - 1) % s.search_last) s hW hA hp (by omega) (by omega)
  exact ⟨s1, e, h1, h2, h3, by rw [h4, h7, h5], h5, h6, h7⟩

/-- Search cycling without prefix argument: in a state fit to run with the anchor in order
and no pending prefix argument, with search results present (`0 < last ≤ SEARCH_SIZE`)
and `current < last`, `search_next` and `search_previous` run to completion;
`search_next` sets `current` to `(current + 1) mod last` and `search_previous` to
`(current - 1) mod last`, written `(current + last - 1) mod last`; both keep `last`, the
offsets and the content, so `current < last` holds again, and after either the point is
`min(results[current], buffer length)` for the new `current`. `search_previous` after
`search_next` (run from a state whose anchor is in order) restores `current`. -/
theorem search_cycling (f : Nat) (s : Ed) (hW : Fit s) (hA : AnchorOk s)
    (hp : Ed.is_prefix s = false) (h0 : 0 < s.search_last)
    (hc : s.search_current < s.search_last) (hl : s.search_last ≤ SEARCH_SIZE)
    (hf1 : s.gap_start + 8 ≤ f) (hf2 : ∀ i, i < s.search_last → s.search_results i + 8 ≤ f) :
    ∃ s1 s2, exec f .search_next s = .ok s1 ∧ exec f .search_previous s = .ok s2 ∧
      s1.search_current = (s.search_current + 1) % s.search_last ∧
      s2.search_current = (s.search_current + s.search_last - 1) % s.search_last ∧
      s1.search_last = s.search_last ∧ s2.search_last = s.search_last ∧
      s1.search_results = s.search_results ∧ s2.search_results = s.search_results ∧
      s1.search_current < s1.search_last ∧ s2.search_current < s2.search_last ∧
      content s1 = content s ∧ content s2 = content s ∧
      where_ s1 = min (s1.search_results s1.search_current) (buffer_size s1) ∧
      where_ s2 = min (s2.search_results s2.search_current) (buffer_size s2) ∧
      (AnchorOk s1 →
        ∃ s3, exec f .search_previous s1 = .ok s3 ∧ s3.search_current = s.search_current ∧
          where_ s3 = min (s3.search_results s3.search_current) (buffer_size s3)) := by
  obtain ⟨s1, e1, hW1, hp1, c1, w1, n1, l1, r1⟩ := search_next_total f s hW hA hp h0 hc hl hf1
    (hf2 _ (Nat.mod_lt _ h0))
  obtain ⟨s2, e2, _, _, c2, w2, n2, l2, r2⟩ := search_previous_total f s hW hA hp h0 hc hl hf1
    (hf2 _ (Nat.mod_lt _ h0))
  have b1 : s1.search_current < s1.search_last := by rw [n1, l1]; exact Nat.mod_lt _ h0
  have b2 : s2.search_current < s2.search_last := by rw [n2, l2]; exact Nat.mod_lt _ h0
  refine ⟨s1, s2, e1, e2, n1, n2, l1, l2, r1, r2, b1, b2, c1, c2, w1, w2, fun hA1 => ?_⟩
  have hg : s1.gap_start + 8 ≤ f := by
    have := where_eq s1 hW1.1
    have := hf2 _ (Nat.mod_lt (s.search_current + 1) h0)
    rw [r1, n1] at w1
    omega
  obtain ⟨s3, e3, _, _, _, w3, n3, _, _⟩ := search_previous_total f s1 hW1 hA1 hp1
    (by rw [l1]; exact h0) b1 (by rw [l1]; exact hl) hg
    (by rw [r1, l1]; exact hf2 _ (Nat.mod_lt _ h0))
  refine ⟨s3, e3, ?_, w3⟩
  rw [n3, n1, l1]
  by_cases c : s.search_current + 1 = s.search_last
  · rw [c, Nat.mod_self, Nat.zero_add, Nat.mod_eq_of_lt (by omega)]
    omega
  · rw [Nat.mod_eq_of_lt (by omega : s.search_current + 1 < s.search_last)]
    have e : s.search_current + 1 + s.search_last - 1 = s.search_current + s.search_last := by
      omega
    rw [e, Nat.add_mod_right, Nat.mod_eq_of_lt hc]

/-- An instance of `search_cycling`: the file `ababab` with the three results 0, 2, 4 of a
search and `current = 0`: `search_next` moves to the result 2 and `search_previous`
wraps to the result 4. -/
theorem search_cycling_example :
    ∃ s1 s2, exec 20 .search_next
        (after_keys 20 [(none, key_zero, .search_buffer true [0, 2, 4])]
          (loaded Config.default [0x61, 0x62, 0x61, 0x62, 0x61, 0x62])) = .ok s1 ∧
      exec 20 .search_previous
        (after_keys 20 [(none, key_zero, .search_buffer true [0, 2, 4])]
          (loaded Config.default [0x61, 0x62, 0x61, 0x62, 0x61, 0x62])) = .ok s2 ∧
      s1.search_current = 1 ∧ s2.search_current = 2 ∧ where_ s1 = 2 ∧ where_ s2 = 4 := by
  obtain ⟨s1, s2, e1, e2, n1, n2, _, _, r1, r2, _, _, c1, c2, w1, w2, _⟩ := search_cycling 20
    (after_keys 20 [(none, key_zero, .search_buffer true [0, 2, 4])]
      (loaded Config.default [0x61, 0x62, 0x61, 0x62, 0x61, 0x62]))
    (by decide) (by decide) (by decide) (by decide) (by decide) (by decide) (by decide)
    (by decide)
  have b1 := congrArg List.length c1
  have b2 := congrArg List.length c2
  rw [content_length, content_length] at b1 b2
  refine ⟨s1, s2, e1, e2, by rw [n1]; decide, by rw [n2]; decide, ?_, ?_⟩
  · rw [w1, r1, n1, b1]; decide
  · rw [w2, r2, n2, b2]; decide

/-- C35 fails on the code when a prefix argument is pending. The file is `ababab`; a
search with the results 0, 2, 4 leaves `current = 0` and the point at 0. `C-u 5 C-r`
then sets `current` to 2 as the claim says, but the point ends at 6, the end of the
buffer, and not at `results[2] = 4`: `search_previous` does not clear the prefix
argument, `beginning_of_buffer` at the point 0 does not consume it, and the first
`forward_char` of `move_to(4)` takes 5 as its repeat count. `C-u 5 C-s` ends at 6 as
well, not at `results[1] = 2`; without prefix argument `C-r` ends at 4. -/
theorem search_prefix_moves_too_far :
    ∃ s0 s s2 s3, Reachable s0 ∧
      run_keys 30 [(none, key_zero, .search_buffer true [0, 2, 4])]
        (loaded Config.default [0x61, 0x62, 0x61, 0x62, 0x61, 0x62]) = .ok s0 ∧
      where_ s0 = 0 ∧ s0.search_current = 0 ∧ s0.search_last = 3 ∧
      key_event 30 (some 5) key_zero .search_previous s0 = .ok s ∧
      s.search_current = 2 ∧ s.search_results s.search_current = 4 ∧ buffer_size s = 6 ∧
      where_ s = 6 ∧ where_ s ≠ min (s.search_results s.search_current) (buffer_size s) ∧
      key_event 30 (some 5) key_zero (.search_buffer true []) s0 = .ok s2 ∧
      s2.search_current = 1 ∧ s2.search_results s2.search_current = 2 ∧ where_ s2 = 6 ∧
      key_event 30 none key_zero .search_previous s0 = .ok s3 ∧ where_ s3 = 4 := by
  have h : (run_keys 30 [(none, key_zero, .search_buffer true [0, 2, 4])]
      (loaded Config.default [0x61, 0x62, 0x61, 0x62, 0x61, 0x62])).map
      (fun s => (where_ s, s.search_current, s.search_last)) = .ok (0, 0, 3) := by decide
  have h2 : ((run_keys 30 [(none, key_zero, .search_buffer true [0, 2, 4])]
      (loaded Config.default [0x61, 0x62, 0x61, 0x62, 0x61, 0x62])).bind
        (key_event 30 (some 5) key_zero .search_previous)).map
      (fun s => (s.search_current, s.search_results s.search_current, buffer_size s, where_ s)) =
      .ok (2, 4, 6, 6) := by decide
  have h3 : ((run_keys 30 [(none, key_zero, .search_buffer true [0, 2, 4])]
      (loaded Config.default [0x61, 0x62, 0x61, 0x62, 0x61, 0x62])).bind
        (key_event 30 (some 5) key_zero (.search_buffer true []))).map
      (fun s => (s.search_current, s.search_results s.search_current, where_ s)) =
      .ok (1, 2, 6) := by decide
  have h4 : ((run_keys 30 [(none, key_zero, .search_buffer true [0, 2, 4])]
      (loaded Config.default [0x61, 0x62, 0x61, 0x62, 0x61, 0x62])).bind
        (key_event 30 none key_zero .search_previous)).map where_ = .ok 4 := by decide
  obtain ⟨s0, hs0, ho⟩ := map_ok_exists _ _ _ h
  simp only [Prod.mk.injEq] at ho
  rw [hs0] at h2 h3 h4
  obtain ⟨s, hs, hp⟩ := map_ok_exists _ _ _ h2
  simp only [Prod.mk.injEq] at hp
  obtain ⟨s2, hs2, hp2⟩ := map_ok_exists _ _ _ h3
  simp only [Prod.mk.injEq] at hp2
  obtain ⟨s3, hs3, hp3⟩ := map_ok_exists _ _ _ h4
  exact ⟨s0, s, s2, s3,
    reachable_run_keys _ _ _ _ (reachable_loaded_default _ (by decide)) hs0, hs0, ho.1, ho.2.1,
    ho.2.2, hs, hp.1, hp.2.1, hp.2.2.1, hp.2.2.2,
    by rw [hp.2.2.2, hp.2.1, hp.2.2.1]; decide, hs2, hp2.1, hp2.2.1, hp2.2.2, hs3, hp3⟩
/-! ## Commands after a save with a pending prefix argument -/

theorem reachable_loaded_six : Reachable (loaded Config.five_rows six_lines) := by
  have h : (loadf Config.five_rows six_lines).map (fun _ => ()) = .ok () := by decide
  obtain ⟨s, hs, _⟩ := map_ok_exists _ _ _ h
  rw [loaded_eq _ _ s hs]
  exact reachable_loaded _ _ s (by decide) rfl hs

theorem fault_of_some {α : Type} (r : Except Fault α) (e : Fault)
    (h : fault_of r = some e) : r = .error e := by
  cases r with
  | error e1 =>
    simp only [fault_of, Option.some.injEq] at h
    rw [h]
  | ok a => cases h

set_option maxRecDepth 100000 in
theorem backward_char_null_deref_trace :
    (run_keys 40 keys_stale_anchor (loaded Config.five_rows six_lines)).map
      (fun s => (is_point_at_beginning_of_buffer s, Ed.is_prefix s,
        [where_ s, s.cursor_row, s.cursor_col, s.gap_start, s.gap_end], s.tl,
        fault_of (exec 40 .backward_char s))) =
      .ok (false, false, [12, 0, 0, 12, BUFSIZE], some (BUFSIZE - 4), some .null_deref) := by
  decide

/-- C12 (code bug): `backward_char` away from the beginning of the buffer does not
always retreat the point: it can dereference a null pointer. Options `-r 5`, file
`a\nb\nc\nd\ne\nf`, keys `keys_stale_anchor`: the state is reachable, the point is at
index 12, the end of the buffer, no prefix argument is pending, the cursor is at row
0, column 0, and `tl` points four slots below `gap_end`, inside the gap. There
`backward_char` calls `scroll_down`, whose `first_of_visual_line(retreat(ed.tl))`
walks from the start of the line to the end of the buffer without meeting its
argument and reads through `NULL`. -/
theorem backward_char_null_deref :
    ∃ s, Reachable s ∧
      run_keys 40 keys_stale_anchor (loaded Config.five_rows six_lines) = .ok s ∧
      is_point_at_beginning_of_buffer s = false ∧ where_ s = 12 ∧
      Ed.is_prefix s = false ∧ s.cursor_row = 0 ∧ s.cursor_col = 0 ∧
      s.gap_start = 12 ∧ s.gap_end = BUFSIZE ∧ s.tl = some (BUFSIZE - 4) ∧
      exec 40 .backward_char s = .error .null_deref := by
  have h := backward_char_null_deref_trace
  obtain ⟨s, hs, ho⟩ := map_ok_exists _ _ _ h
  simp only [Prod.mk.injEq, List.cons.injEq, and_true] at ho
  obtain ⟨h1, h2, ⟨h3, h4, h5, h6, h7⟩, h8, h9⟩ := ho
  exact ⟨s, reachable_run_keys 40 _ _ s reachable_loaded_six hs, hs, h1, h3, h2, h4, h5, h6, h7,
    h8, fault_of_some _ _ h9⟩

set_option maxRecDepth 100000 in
theorem forward_backward_shifts_cursor_trace :
    (run_keys 40 keys_count_save (loaded Config.five_rows six_lines)).map
      (fun s => ([is_point_at_end_of_buffer s, Ed.is_prefix s, s.force_goal_col],
        [where_ s, s.cursor_row, s.cursor_col, s.goal_col],
        ((exec 40 .forward_char s).bind (exec 40 .backward_char)).map
          (fun s2 => ([where_ s2, s2.cursor_row, s2.cursor_col, s2.goal_col],
            decide (content s2 = content s))))) =
      .ok ([false, false, false], [11, 0, 0, 0], .ok ([11, 0, 1, 1], true)) := by decide

/-- C11 (code bug): `forward_char` followed by `backward_char` does not restore the
cursor column in every reachable state. Options `-r 5`, file `a\nb\nc\nd\ne\nf`, keys
`M-> C-u 5 C-x C-s`: the save appends a newline with `do_insert_char`, which has
stepped over the new character when it calls `scroll_up`; `scroll_up` takes the
pending prefix argument 5 as its repeat count, reaches row 0 and calls `next_row`,
whose `beginning_of_row` steps back over the new newline. The state is reachable, the
point is at index 11 before the newline, not at the end, no prefix argument is
pending, `force_goal_col` is false and the cursor is at row 0, column 0. `forward_char`
then `backward_char` return to index 11 and row 0 with the same characters, and leave
the cursor column and the goal column at 1. -/
theorem forward_backward_shifts_cursor :
    ∃ s s1 s2, Reachable s ∧
      run_keys 40 keys_count_save (loaded Config.five_rows six_lines) = .ok s ∧
      is_point_at_end_of_buffer s = false ∧ Ed.is_prefix s = false ∧
      s.force_goal_col = false ∧ where_ s = 11 ∧ s.cursor_row = 0 ∧ s.cursor_col = 0 ∧
      s.goal_col = 0 ∧
      exec 40 .forward_char s = .ok s1 ∧ exec 40 .backward_char s1 = .ok s2 ∧
      where_ s2 = 11 ∧ content s2 = content s ∧ s2.cursor_row = 0 ∧ s2.cursor_col = 1 ∧
      s2.goal_col = 1 ∧ s2.cursor_col ≠ s.cursor_col ∧ s2.goal_col ≠ s.goal_col := by
  have h := forward_backward_shifts_cursor_trace
  obtain ⟨s, hs, ho⟩ := map_ok_exists _ _ _ h
  simp only [Prod.mk.injEq, List.cons.injEq, and_true] at ho
  obtain ⟨⟨h1, h2, h3⟩, ⟨h4, h5, h6, h7⟩, h8⟩ := ho
  obtain ⟨s2, hb, hg⟩ := map_ok_exists _ _ _ h8
  obtain ⟨s1, e1, e2⟩ := bind_ok_exists _ _ _ hb
  simp only [Prod.mk.injEq, List.cons.injEq, and_true, decide_eq_true_eq] at hg
  obtain ⟨⟨g1, g2, g3, g4⟩, g5⟩ := hg
  refine ⟨s, s1, s2, reachable_run_keys 40 _ _ s reachable_loaded_six hs, hs, h1, h2, h3, h4,
    h5, h6, h7, e1, e2, g1, g5, g2, g3, g4, ?_, ?_⟩
  · rw [g3, h6]
    decide
  · rw [g4, h7]
    decide

set_option maxRecDepth 100000 in
theorem mark_word_kill_yank_null_deref_trace :
    (run_keys 40 keys_before_word (loaded Config.five_rows six_lines)).map
      (fun s => ([s.is_read_only, Ed.is_prefix s], where_ s, encode_chars .UNIX (content s))) =
      .ok ([false, false], 11, six_lines ++ [10]) := by decide

set_option maxRecDepth 100000 in
theorem mark_word_kill_yank_null_deref_mark :
    (run_keys 40 keys_before_word (loaded Config.five_rows six_lines)).map
      (fun s => (run_keys 40 [(none, key_zero, .set_mark), (none, key_zero, .forward_word)]
        s).map (fun s1 => ([s1.marks_is_active, Ed.is_prefix s1,
          decide (s1.last_key = key_zero)], [s1.marks_m s1.marks_current, where_ s1],
          fault_of (exec 40 .kill_region s1)))) =
      .ok (.ok ([true, false, true], [11, 12], some .null_deref)) := by decide

theorem key_event_plain (f : Nat) (c : Cmd) (s : Ed) (hp : Ed.is_prefix s = false)
    (hk : s.last_key = key_zero) (hc : c ≠ .self_insert) :
    key_event f none key_zero c s = exec f (c.proc key_zero) s := by
  have e : ({ { s with is_prefix := false } with last_key := key_zero } : Ed) = s := by
    cases s
    simp only at hp hk
    subst hp
    subst hk
    rfl
  unfold key_event
  cases c <;> first | exact absurd rfl hc | (simp only; rw [e])

/-- C15 (code bug): the keys `set_mark`, `forward_word`, `kill_region`, `yank` do not
always give back the characters: the run can end in a null dereference. Options
`-r 5`, file `a\nb\nc\nd\ne\nf`, keys `keys_before_word`: the state is reachable, not
read-only, without pending prefix argument, its 12 characters are `a\nb\nc\nd\ne\nf\n`
and the point is at index 11. `set_mark` and `forward_word` return with the mark at 11
and the point at 12; the step over the last newline takes the cursor row from
`2^64 - 1` to 0 at column 0 while `tl` points into the gap, and the
`beginning_of_buffer` of `kill_region` reads through `NULL` in `scroll_down`. -/
theorem mark_word_kill_yank_null_deref :
    ∃ s s1, Reachable s ∧
      run_keys 40 keys_before_word (loaded Config.five_rows six_lines) = .ok s ∧
      s.is_read_only = false ∧ Ed.is_prefix s = false ∧ where_ s = 11 ∧
      encode_chars .UNIX (content s) = six_lines ++ [10] ∧
      run_keys 40 [(none, key_zero, .set_mark), (none, key_zero, .forward_word)] s = .ok s1 ∧
      s1.marks_is_active = true ∧ s1.marks_m s1.marks_current = 11 ∧ where_ s1 = 12 ∧
      exec 40 .kill_region s1 = .error .null_deref ∧
      run_keys 40 [(none, key_zero, .set_mark), (none, key_zero, .forward_word),
        (none, key_zero, .kill_region), (none, key_zero, .yank)] s = .error .null_deref := by
  have h := mark_word_kill_yank_null_deref_trace
  have h2 := mark_word_kill_yank_null_deref_mark
  obtain ⟨s, hs, ho⟩ := map_ok_exists _ _ _ h
  simp only [Prod.mk.injEq, List.cons.injEq, and_true] at ho
  obtain ⟨⟨h3, h4⟩, h5, h6⟩ := ho
  rw [hs] at h2
  simp only [Except.map, Except.ok.injEq] at h2
  obtain ⟨s1, hs1, ho1⟩ := map_ok_exists _ _ _ h2
  simp only [Prod.mk.injEq, List.cons.injEq, and_true, decide_eq_true_eq] at ho1
  obtain ⟨⟨g1, g2, g3⟩, ⟨g4, g5⟩, g6⟩ := ho1
  have e := fault_of_some _ _ g6
  refine ⟨s, s1, reachable_run_keys 40 _ _ s reachable_loaded_six hs, hs, h3, h4, h5, h6, hs1,
    g1, g4, g5, e, ?_⟩
  have hk : key_event 40 none key_zero .kill_region s1 = .error .null_deref := by
    rw [key_event_plain 40 .kill_region s1 g2 g3 (by intro hc; cases hc)]
    exact e
  simp only [run_keys] at hs1 ⊢
  cases h7 : key_event 40 none key_zero .set_mark s with
  | error e1 => rw [h7] at hs1; cases hs1
  | ok t1 =>
    rw [h7] at hs1
    simp only at hs1 ⊢
    cases h8 : key_event 40 none key_zero .forward_word t1 with
    | error e2 => rw [h8] at hs1; cases hs1
    | ok t2 =>
      rw [h8] at hs1
      simp only [Except.ok.injEq] at hs1
      subst hs1
      simp only [hk]

set_option maxRecDepth 100000 in
theorem kill_region_null_deref_trace :
    (run_keys 40 keys_region (loaded Config.five_rows six_lines)).map
      (fun s => ([s.is_read_only, Ed.is_prefix s, s.marks_is_active],
        [s.marks_m s.marks_current, where_ s], encode_chars .UNIX (content s),
        fault_of (exec 40 .kill_region s))) =
      .ok ([false, false, true], [8, 12], six_lines ++ [10], some .null_deref) := by decide

/-- C16 (code bug): `kill_region` with an active mark does not always return. Options
`-r 5`, file `a\nb\nc\nd\ne\nf`, keys `keys_region`: the state is reachable, not
read-only, without pending prefix argument, its characters are `a\nb\nc\nd\ne\nf\n`,
the mark is active at index 8 and the point is at index 12. The claim gives the kill
buffer `e\nf\n`, the buffer `a\nb\nc\nd\n` and the point 8; `kill_region` ends in a
null dereference: the cursor is at row 0, column 0 with `tl` inside the gap, and
`move_to` starts with `beginning_of_buffer`. -/
theorem kill_region_null_deref :
    ∃ s, Reachable s ∧
      run_keys 40 keys_region (loaded Config.five_rows six_lines) = .ok s ∧
      s.is_read_only = false ∧ Ed.is_prefix s = false ∧ s.marks_is_active = true ∧
      s.marks_m s.marks_current = 8 ∧ where_ s = 12 ∧
      encode_chars .UNIX (content s) = six_lines ++ [10] ∧
      exec 40 .kill_region s = .error .null_deref := by
  have h := kill_region_null_deref_trace
  obtain ⟨s, hs, ho⟩ := map_ok_exists _ _ _ h
  simp only [Prod.mk.injEq, List.cons.injEq, and_true] at ho
  obtain ⟨⟨h1, h2, h3⟩, ⟨h4, h5⟩, h6, h7⟩ := ho
  exact ⟨s, reachable_run_keys 40 _ _ s reachable_loaded_six hs, hs, h1, h2, h3, h4, h5, h6,
    fault_of_some _ _ h7⟩

set_option maxRecDepth 100000 in
theorem kill_region_at_mark_null_deref_trace :
    (run_keys 40 keys_mark_at_point (loaded Config.five_rows six_lines)).map
      (fun s => ([s.is_read_only, Ed.is_prefix s, s.marks_is_active],
        [s.marks_m s.marks_current, where_ s],
        [fault_of (exec 40 .kill_region_save s), fault_of (exec 40 .delete_backward_char s),
          fault_of (exec 40 .delete_forward_char s)], fault_of (exec 40 .kill_region s))) =
      .ok ([false, false, true], [12, 12], [none, none, none], some .null_deref) := by decide

/-- C19 (code bug): with the mark active and the point at the mark a region operation
does not always leave the buffer and the kill buffer as they are: `kill_region` can
end in a null dereference. Options `-r 5`, file `a\nb\nc\nd\ne\nf`, keys
`keys_mark_at_point`: the state is reachable, not read-only, without pending prefix
argument, the mark is active and the point and the mark are both at index 12, the end
of the buffer. `kill_region_save`, `delete_backward_char` and `delete_forward_char`
return; `kill_region` calls `move_to(12)` without a test for an empty region, and its
`beginning_of_buffer` reads through `NULL` in `scroll_down`. -/
theorem kill_region_at_mark_null_deref :
    ∃ s, Reachable s ∧
      run_keys 40 keys_mark_at_point (loaded Config.five_rows six_lines) = .ok s ∧
      s.is_read_only = false ∧ Ed.is_prefix s = false ∧ s.marks_is_active = true ∧
      s.marks_m s.marks_current = 12 ∧ where_ s = 12 ∧
      fault_of (exec 40 .kill_region_save s) = none ∧
      fault_of (exec 40 .delete_backward_char s) = none ∧
      fault_of (exec 40 .delete_forward_char s) = none ∧
      exec 40 .kill_region s = .error .null_deref := by
  have h := kill_region_at_mark_null_deref_trace
  obtain ⟨s, hs, ho⟩ := map_ok_exists _ _ _ h
  simp only [Prod.mk.injEq, List.cons.injEq, and_true] at ho
  obtain ⟨⟨h1, h2, h3⟩, ⟨h4, h5⟩, ⟨h6, h7, h8⟩, h9⟩ := ho
  exact ⟨s, reachable_run_keys 40 _ _ s reachable_loaded_six hs, hs, h1, h2, h3, h4, h5, h6,
    h7, h8, fault_of_some _ _ h9⟩

set_option maxRecDepth 100000 in
theorem trailing_newline_null_deref_trace :
    (run_keys 40 keys_before_save (loaded Config.five_rows six_lines)).map
      (fun s => ([s.ensure_trailing_newline, lacks_trailing_newline s, Ed.is_prefix s,
        is_point_at_end_of_buffer s], where_ s, encode_chars .UNIX (content s),
        [fault_of (exec 40 .maybe_insert_trailing_newline s),
          fault_of (key_event 40 none key_zero (.save_buffer true) s)])) =
      .ok ([true, true, false, false], 8, six_lines, [some .null_deref, some .null_deref]) := by
  decide

/-- C34 (code bug): the trailing-newline step of a save does not always append the
newline: it can end in a null dereference. Options `-r 5`, file `a\nb\nc\nd\ne\nf`,
keys `keys_before_save`: the state is reachable, `ensure_trailing_newline` holds, its 11
characters `a\nb\nc\nd\ne\nf` do not end in a newline, no prefix argument is pending and
the point is at index 8, not at the end. `maybe_insert_trailing_newline` goes to the
end of the buffer, inserts the newline, which takes the cursor row from `2^64 - 1` to
0 at column 0 while `tl` points into the gap, and the `beginning_of_buffer` of
`move_to(8)` reads through `NULL` in `scroll_down`; `C-x C-s` ends the same way. -/
theorem trailing_newline_null_deref :
    ∃ s, Reachable s ∧
      run_keys 40 keys_before_save (loaded Config.five_rows six_lines) = .ok s ∧
      s.ensure_trailing_newline = true ∧ lacks_trailing_newline s = true ∧
      Ed.is_prefix s = false ∧ is_point_at_end_of_buffer s = false ∧ where_ s = 8 ∧
      encode_chars .UNIX (content s) = six_lines ∧
      exec 40 .maybe_insert_trailing_newline s = .error .null_deref ∧
      key_event 40 none key_zero (.save_buffer true) s = .error .null_deref := by
  have h := trailing_newline_null_deref_trace
  obtain ⟨s, hs, ho⟩ := map_ok_exists _ _ _ h
  simp only [Prod.mk.injEq, List.cons.injEq, and_true] at ho
  obtain ⟨⟨h1, h2, h3, h4⟩, h5, h6, h7, h8⟩ := ho
  exact ⟨s, reachable_run_keys 40 _ _ s reachable_loaded_six hs, hs, h1, h2, h3, h4, h5, h6,
    fault_of_some _ _ h7, fault_of_some _ _ h8⟩

end Ted
